import Mathlib

/-!
# Form encoder: shallow embedding of `encoder.go` and `form_encoder.go`

The encoder walks a Go value through `reflect` and writes string keys and string values into a
`url.Values` multi-map. The embedding has three layers:

* the part of `reflect` the encoder touches (`GoType`, `Kind`, `Value`, `StructField`),
* Go maps as association lists read through `mapGet` and written through `mapSet`,
* the encoder itself, state passed explicitly, panics and fuel exhaustion as `Except Fault`.

The recursion of `setFieldByType` and `traverseStruct` is driven by a fuel argument. A visit
given at least `Value.cost` of its value does not run out of fuel, and from there on the result
does not depend on the fuel (`traversal_enough_fuel`, `setFieldByType_fuel_independent`).

Two runs are compared through relations on their states that every step preserves: runs of one
Encoder (`traversal_sim`), and runs whose struct caches differ, over values whose structs list
the fields their types declare (`traversal_csim`). What the error map holds at the end of a run
is stated on the traversal run with a log of its `setError` calls (`traversal_log`).
-/

namespace Form

/-! ## The reflect layer -/

/-- Identity of a Go type as `reflect.Type` shows it: `Name` is `Type.Name()`, empty for unnamed
types (struct literals, slices, maps, pointers); `Str` is `Type.String()`. Two types are the same
type exactly when both components agree. -/
structure GoType where
  Name : String
  Str : String
deriving DecidableEq, Repr

/-- The kinds of `reflect.Kind` the encoder distinguishes. `Int` stands for Int, Int8 .. Int64 and
`Uint` for Uint, Uint8 .. Uint64, which the source always lists together; `Other` collects the
kinds no `case` of the source names (Uintptr, Complex64, Complex128, Chan, Func,
UnsafePointer). -/
inductive Kind where
  | Invalid | String | Uint | Int | Float32 | Float64 | Bool
  | Slice | Array | Map | Struct | Ptr | Interface | Other
deriving DecidableEq, Repr

/-- A struct tag, already split into its `key:"value"` pairs. -/
abbrev StructTag := List (String × String)

/-- Go `StructTag.Get`: the value of the first pair with that key, the empty string if none. -/
def StructTag.Get : StructTag → String → String
  | [], _ => ""
  | (k, v) :: rest, key => if k = key then v else StructTag.Get rest key

/-- The part of `reflect.StructField` the encoder reads. `PkgPath` is empty exactly for exported
fields, `Anonymous` marks an embedded field. -/
structure StructField where
  Name : String
  PkgPath : String
  Anonymous : Bool
  Tag : StructTag
deriving DecidableEq, Repr

/-- A Go value as `reflect.Value` presents it, as a finite tree. Floats are carried by the text
`strconv.FormatFloat(x, 'f', -1, bits)` gives them (the shortest decimal that reads back to the
same float, which identifies it). `time` is a `time.Time`, carried by its RFC 3339 text. A map
lists its entries in the order `MapKeys` enumerates them. A struct pairs each declared field
with its value, in declaration order. `invalid` is the zero `reflect.Value`. -/
inductive Value where
  | invalid
  | str (typ : GoType) (s : String)
  | uint (typ : GoType) (n : Nat)
  | int (typ : GoType) (i : Int)
  | float32 (typ : GoType) (text : String)
  | float64 (typ : GoType) (text : String)
  | bool (typ : GoType) (b : Bool)
  | time (rfc3339 : String)
  | slice (typ : GoType) (elems : List Value)
  | array (typ : GoType) (elems : List Value)
  | map (typ : GoType) (entries : List (Value × Value))
  | struct (typ : GoType) (fields : List (StructField × Value))
  | ptr (typ : GoType) (elem : Option Value)
  | iface (typ : GoType) (elem : Option Value)
  | other (typ : GoType)

/-- The type `reflect.TypeOf(time.Time{})`. -/
def timeType : GoType := ⟨"Time", "time.Time"⟩

/-- Go `Value.Kind()`. -/
def Value.Kind : Value → Kind
  | .invalid => .Invalid
  | .str _ _ => .String
  | .uint _ _ => .Uint
  | .int _ _ => .Int
  | .float32 _ _ => .Float32
  | .float64 _ _ => .Float64
  | .bool _ _ => .Bool
  | .time _ => .Struct
  | .slice _ _ => .Slice
  | .array _ _ => .Array
  | .map _ _ => .Map
  | .struct _ _ => .Struct
  | .ptr _ _ => .Ptr
  | .iface _ _ => .Interface
  | .other _ => .Other

/-- Go `Value.Type()`; `none` is the panic on the zero Value. -/
def Value.Type : Value → Option GoType
  | .invalid => none
  | .str t _ => some t
  | .uint t _ => some t
  | .int t _ => some t
  | .float32 t _ => some t
  | .float64 t _ => some t
  | .bool t _ => some t
  | .time _ => some timeType
  | .slice t _ => some t
  | .array t _ => some t
  | .map t _ => some t
  | .struct t _ => some t
  | .ptr t _ => some t
  | .iface t _ => some t
  | .other t => some t

/-- Go `Value.String()`: the string itself for a string, a `<T Value>` tag for anything else. -/
def Value.asString : Value → String
  | .str _ s => s
  | .invalid => "<invalid Value>"
  | .uint t _ => "<" ++ t.Str ++ " Value>"
  | .int t _ => "<" ++ t.Str ++ " Value>"
  | .float32 t _ => "<" ++ t.Str ++ " Value>"
  | .float64 t _ => "<" ++ t.Str ++ " Value>"
  | .bool t _ => "<" ++ t.Str ++ " Value>"
  | .time _ => "<" ++ timeType.Str ++ " Value>"
  | .slice t _ => "<" ++ t.Str ++ " Value>"
  | .array t _ => "<" ++ t.Str ++ " Value>"
  | .map t _ => "<" ++ t.Str ++ " Value>"
  | .struct t _ => "<" ++ t.Str ++ " Value>"
  | .ptr t _ => "<" ++ t.Str ++ " Value>"
  | .iface t _ => "<" ++ t.Str ++ " Value>"
  | .other t => "<" ++ t.Str ++ " Value>"

/-- Go `Value.Uint()`. -/
def Value.asUint : Value → Nat
  | .uint _ n => n
  | _ => 0

/-- Go `Value.Int()`. -/
def Value.asInt : Value → Int
  | .int _ i => i
  | _ => 0

/-- Go `Value.Bool()`. -/
def Value.asBool : Value → Bool
  | .bool _ b => b
  | _ => false

/-- The text `strconv.FormatFloat(v.Float(), 'f', -1, bits)` returns for a float value. -/
def Value.FloatText : Value → String
  | .float32 _ s => s
  | .float64 _ s => s
  | _ => ""

/-- The text `v.Interface().(time.Time).Format(time.RFC3339)` returns. `time.Time` has one
shape, the constructor `time`. -/
def Value.FormatRFC3339 : Value → String
  | .time s => s
  | _ => ""

/-- The elements `v.Index(0)`, ..., `v.Index(v.Len()-1)` of a slice or an array. -/
def Value.elems : Value → List Value
  | .slice _ xs => xs
  | .array _ xs => xs
  | _ => []

/-- The entries of a map, in the order of `v.MapKeys()`. -/
def Value.entries : Value → List (Value × Value)
  | .map _ es => es
  | _ => []

/-- The declared fields of a struct with their values: position `i` holds `typ.Field(i)` and
`v.Field(i)`, and the length is `v.NumField()`. The fields of `time.Time` are all unexported and
not embedded, hence never encoded; they are left out. -/
def Value.fields : Value → List (StructField × Value)
  | .struct _ fs => fs
  | _ => []

/-- Go `v.Field(i)`; `none` is the panic on an index out of range. -/
def Value.Field (v : Value) (i : Nat) : Option Value :=
  (v.fields.get? i).map (fun fv => fv.2)

/-- Go `current.MapIndex(key)` for a key taken from `MapKeys`. The entry stands for its key: keys
of a Go map are unique, so looking the key up again yields the value of its own entry. The call
panics (`none`) when the receiver is not of kind Map. -/
def Value.MapIndex (current : Value) (entry : Value × Value) : Option Value :=
  if current.Kind = .Map then some entry.2 else none

/-- Modelled from the spec: `ExtractType` is not among the source files. Section 4.1: it
repeatedly unwraps pointer and interface indirection until it reaches a concrete value or a nil
terminus, and returns the value reached with its kind; a nil pointer, a nil interface and an
invalid value keep their own kind (Ptr, Interface, Invalid), the absent kinds. -/
def ExtractType : Value → Value × Kind
  | .ptr t none => (.ptr t none, .Ptr)
  | .ptr _ (some v) => ExtractType v
  | .iface t none => (.iface t none, .Interface)
  | .iface _ (some v) => ExtractType v
  | v => (v, v.Kind)

/-- The read-only bits of the flag a `reflect.Value` carries: `flagStickyRO`, set on a value
obtained through an unexported field that is not embedded, and `flagEmbedRO`, set on one obtained
through an unexported embedded field. -/
structure Flag where
  StickyRO : Bool
  EmbedRO : Bool
deriving DecidableEq, Repr

/-- The flag of a value `reflect.ValueOf` returns: no read-only bit. -/
def Flag.ValueOf : Flag := ⟨false, false⟩

/-- Go `f&flagRO != 0`, the test `Interface` makes before it panics. -/
def Flag.isRO (f : Flag) : Bool := f.StickyRO || f.EmbedRO

/-- Go `flag.ro()`: `flagStickyRO` when a read-only bit is set, no bit otherwise. `Index`,
`MapKeys`, `MapIndex` and `Elem` of an interface give their result these bits. -/
def Flag.ro (f : Flag) : Flag := if f.isRO then ⟨true, false⟩ else ⟨false, false⟩

/-- Go `f | g` on the read-only bits. -/
def Flag.or (f g : Flag) : Flag := ⟨f.StickyRO || g.StickyRO, f.EmbedRO || g.EmbedRO⟩

/-- The read-only bits of `v.Field(i)` for a struct with bits `f` and the field `fld`: the
sticky bit is inherited and the embedded bit cleared, then an unexported field sets the embedded
bit when it is embedded and the sticky bit when it is not. -/
def Flag.Field (f : Flag) (fld : StructField) : Flag :=
  if fld.PkgPath ≠ "" then
    if fld.Anonymous then ⟨f.StickyRO, true⟩ else ⟨true, false⟩
  else ⟨f.StickyRO, false⟩

/-- The read-only bits of `v.Field(i)`, by position. -/
def Value.FieldFlag (v : Value) (f : Flag) (i : Nat) : Flag :=
  match v.fields.get? i with
  | some fv => f.Field fv.1
  | none => f

/-- Modelled from the spec: the read-only bits of the value `ExtractType` returns for an
argument with bits `f`. Each unwrapping step is `Elem`, which keeps the bits of a pointer and
applies `ro()` to those of an interface. -/
def ExtractFlag (f : Flag) : Value → Flag
  | .ptr _ (some v) => ExtractFlag f v
  | .iface _ (some v) => ExtractFlag f.ro v
  | _ => f

/-- The message of the panic of `v.Interface()` on a read-only value. -/
def interfaceMsg : String :=
  "reflect.Value.Interface: cannot return value obtained from unexported field or method"

/-! ## strconv -/

/-- Go `strconv.FormatUint(n, 10)`. -/
def FormatUint (n : Nat) : String := Nat.repr n

/-- Go `strconv.FormatInt(i, 10)`. -/
def FormatInt (i : Int) : String :=
  if i < 0 then "-" ++ Nat.repr i.natAbs else Nat.repr i.natAbs

/-- Go `strconv.Itoa`. -/
def Itoa (i : Int) : String := FormatInt i

/-- Go `strconv.FormatBool`. -/
def FormatBool (b : Bool) : String := if b then "true" else "false"

/-! ## Go maps -/

/-- Go `m[k]` with the comma-ok result, on a map kept as an association list without repeated
keys. -/
def mapGet {κ ν : Type} [DecidableEq κ] : List (κ × ν) → κ → Option ν
  | [], _ => none
  | (k, v) :: m, q => if k = q then some v else mapGet m q

/-- Go `m[k] = v`: replaces the value of an existing key, adds the key otherwise. -/
def mapSet {κ ν : Type} [DecidableEq κ] : List (κ × ν) → κ → ν → List (κ × ν)
  | [], q, w => [(q, w)]
  | (k, v) :: m, q, w => if k = q then (q, w) :: m else (k, v) :: mapSet m q w

/-! ## Constants and types of the package -/

/-- Modelled from the spec: the constant `blank` is declared outside the source files; it is the
empty string. -/
def blank : String := ""

/-- Modelled from the spec: the constant `ignore` is declared outside the source files; it is
the reserved tag value that excludes a field, "-". -/
def ignore : String := "-"

/-- Modelled from the spec: the constant `namespaceSeparator` is declared outside the source
files; struct field names are joined by a dot, as in Parent.Child. -/
def namespaceSeparator : String := "."

/-- A Go `error`, carried by its message. -/
abbrev GoError := String

/-- The type `EncodeCustomTypeFunc`: `func(x interface{}) ([]string, error)`. -/
abbrev EncodeCustomTypeFunc := Value → Except GoError (List String)

/-- The type `EncodeErrors`: `map[string]error`. -/
abbrev EncodeErrors := List (String × GoError)

/-- The type `url.Values`: `map[string][]string`. -/
abbrev Values := List (String × List String)

/-- One entry of a cached struct descriptor. -/
structure cachedField where
  idx : Nat
  name : String
deriving DecidableEq, Repr

/-- The descriptor of a struct type. -/
structure cachedStruct where
  fields : List cachedField
deriving DecidableEq, Repr

/-- The struct cache, `map[reflect.Type]cachedStruct` inside `structCacheMap`. -/
abbrev structCacheMap := List (GoType × cachedStruct)

/-- Modelled from the spec: `structCacheMap.Get` is not among the source files. Section 4.2:
`get(type) -> (descriptor, found)`. -/
def structCacheMap.Get (c : structCacheMap) (typ : GoType) : Option cachedStruct :=
  mapGet c typ

/-- Modelled from the spec: `structCacheMap.Set` is not among the source files. Section 4.2:
`set(type, descriptor)`, last writer wins. -/
def structCacheMap.Set (c : structCacheMap) (typ : GoType) (s : cachedStruct) : structCacheMap :=
  mapSet c typ s

/-- The type `Encoder`. A nil `customTypeFuncs` is `none`. -/
structure Encoder where
  tagName : String
  structCache : structCacheMap
  customTypeFuncs : Option (List (GoType × EncodeCustomTypeFunc))

/-- The type `encoder`, the state of one Encode call. The `Encoder` behind the pointer `e` is
carried by value and passed on, since parsing a struct writes its cache. A nil `errs` is
`none`. -/
structure encoder where
  e : Encoder
  errs : Option EncodeErrors
  values : Values

/-- How a call can fail to return: the model ran out of fuel, or the Go code panics. -/
inductive Fault where
  | outOfFuel
  | panic (msg : String)
deriving DecidableEq, Repr

/-- Result of a call that may panic. -/
abbrev Res (α : Type) := Except Fault α

/-! ## form_encoder.go -/

/-- Go `NewEncoder`. -/
def NewEncoder : Encoder :=
  { tagName := "form", structCache := [], customTypeFuncs := none }

/-- Go `Encoder.SetTagName`. -/
def Encoder.SetTagName (e : Encoder) (tagName : String) : Encoder :=
  { e with tagName := tagName }

/-- Go `Encoder.RegisterCustomTypeFunc`; `types` lists `reflect.TypeOf(t)` for each argument. -/
def Encoder.RegisterCustomTypeFunc (e : Encoder) (fn : EncodeCustomTypeFunc)
    (types : List GoType) : Encoder :=
  let m := match e.customTypeFuncs with
    | none => []
    | some m => m
  { e with customTypeFuncs := some (types.foldl (fun acc t => mapSet acc t fn) m) }

/-- The loop of `parseStruct` from field `i` on: `rest` holds the fields `i`, `i+1`, ... and `acc`
the descriptor entries appended so far. -/
def parseStructLoop (tagName : String) :
    List (StructField × Value) → Nat → List cachedField → List cachedField
  | [], _, acc => acc
  | (fld, _) :: rest, i, acc =>
    if fld.PkgPath ≠ blank ∧ fld.Anonymous = false then
      parseStructLoop tagName rest (i + 1) acc
    else
      let name := fld.Tag.Get tagName
      if name = ignore then
        parseStructLoop tagName rest (i + 1) acc
      else
        let name := if name.length = 0 then fld.Name else name
        parseStructLoop tagName rest (i + 1) (acc ++ [{ idx := i, name := name }])

/-- Go `Encoder.parseStruct`: returns the descriptor and the encoder with the descriptor stored
in its cache. -/
def Encoder.parseStruct (e : Encoder) (current : Value) : Res (cachedStruct × Encoder) :=
  match current.Type with
  | none => .error (.panic "reflect: call of reflect.Value.Type on zero Value")
  | some typ =>
    let s : cachedStruct := { fields := parseStructLoop e.tagName current.fields 0 [] }
    .ok (s, { e with structCache := e.structCache.Set typ s })

/-! ## encoder.go -/

/-- Go `encoder.setError`. -/
def encoder.setError (e : encoder) (ns : String) (err : GoError) : encoder :=
  let errs := match e.errs with
    | none => []
    | some m => m
  { e with errs := some (mapSet errs ns err) }

/-- Go `encoder.setVal`. -/
def encoder.setVal (e : encoder) (ns : String) (_idx : Int) (vals : List String) :
    encoder :=
  let arr := match mapGet e.values ns with
    | some arr => arr ++ vals
    | none => vals
  { e with values := mapSet e.values ns arr }

/-- The lookup `e.e.customTypeFuncs[v.Type()]` behind the guard `e.e.customTypeFuncs != nil`,
as both `setFieldByType` and `getMapKey` perform it. `v.Type()` is only called when the registry
is not nil. -/
def encoder.lookupCustom (e : encoder) (v : Value) : Res (Option EncodeCustomTypeFunc) :=
  match e.e.customTypeFuncs with
  | none => .ok none
  | some m =>
    match v.Type with
    | none => .error (.panic "reflect: call of reflect.Value.Type on zero Value")
    | some t => .ok (mapGet m t)

/-- Go `encoder.getMapKey`: the key string, the ok flag and the state after. `ro` holds the
read-only bits of `key`; `v.Interface()` panics when `v` is read-only. -/
def encoder.getMapKey (e : encoder) (ro : Flag) (key : Value) (ns : String) :
    Res (String × Bool × encoder) :=
  let (v, kind) := ExtractType key
  match e.lookupCustom v with
  | .error f => .error f
  | .ok (some cf) =>
    if (ExtractFlag ro key).isRO then .error (.panic interfaceMsg)
    else
      match cf v with
      | .error err => .ok ("", false, e.setError ns err)
      | .ok [] => .error (.panic "runtime error: index out of range [0] with length 0")
      | .ok (s :: _) => .ok (s, true, e)
  | .ok none =>
    match kind with
    | .Interface | .Ptr => .ok ("", false, e)
    | .String => .ok (v.asString, true, e)
    | .Uint => .ok (FormatUint v.asUint, true, e)
    | .Int => .ok (FormatInt v.asInt, true, e)
    | .Float32 => .ok (v.FloatText, true, e)
    | .Float64 => .ok (v.FloatText, true, e)
    | .Bool => .ok (FormatBool v.asBool, true, e)
    | _ =>
      .ok ("", false, e.setError ns
        ("Unsupported Map Key '" ++ v.asString ++ "' Namespace '" ++ ns ++ "'"))

/-- A Go `for` loop over a list whose body may panic: the state is passed from one iteration to
the next and a panic ends the loop. -/
def forEach {α : Type} (body : α → encoder → Res encoder) : List α → encoder → Res encoder
  | [], e => .ok e
  | x :: xs, e =>
    match body x e with
    | .ok e1 => forEach body xs e1
    | .error f => .error f

/-- The loop `for i := 0; i < v.Len(); i++` over the elements from index `i` on. -/
def forIndex (body : Nat → Value → encoder → Res encoder) :
    List Value → Nat → encoder → Res encoder
  | [], _, e => .ok e
  | x :: xs, i, e =>
    match body i x e with
    | .ok e1 => forIndex body xs (i + 1) e1
    | .error f => .error f

mutual
/-- Go `encoder.traverseStruct`. The loop of the anonymous branch runs over the declared fields
in order (`typ.Field(i)` with `v.Field(i)`); the named branch runs over the descriptor. The
flag holds the read-only bits of `v`. -/
def encoder.traverseStruct : Nat → encoder → Flag → Value → String → Int → Res encoder
  | 0, _, _, _, _, _ => .error .outOfFuel
  | fuel + 1, e, ro, v, ns, idx =>
    match v.Type with
    | none => .error (.panic "reflect: call of reflect.Value.Type on zero Value")
    | some typ =>
      let first := ns.length = 0
      if typ.Name.length = 0 then
        forEach (fun (fv : StructField × Value) (e : encoder) =>
          let fld := fv.1
          if fld.PkgPath ≠ blank ∧ fld.Anonymous = false then .ok e
          else
            let key := fld.Tag.Get e.e.tagName
            if key = ignore then .ok e
            else
              let key := if key.length = 0 then fld.Name else key
              let nn := if first then key else ns ++ namespaceSeparator ++ key
              encoder.setFieldByType fuel e (ro.Field fld) fv.2 nn idx) v.fields e
      else
        match (match e.e.structCache.Get typ with
            | some s => Except.ok (s, e)
            | none =>
              match e.e.parseStruct v with
              | .ok (s, enc) => Except.ok (s, { e with e := enc })
              | .error f => Except.error f) with
        | .error f => .error f
        | .ok (s, e) =>
          forEach (fun (f : cachedField) (e : encoder) =>
            let nn := if first then f.name else ns ++ namespaceSeparator ++ f.name
            match v.Field f.idx with
            | none => .error (.panic "reflect: Field index out of range")
            | some x => encoder.setFieldByType fuel e (v.FieldFlag ro f.idx) x nn idx) s.fields e
/-- Go `encoder.setFieldByType`. The flag holds the read-only bits of `current`; the two calls
of `v.Interface()` panic when `v` is read-only. -/
def encoder.setFieldByType : Nat → encoder → Flag → Value → String → Int → Res encoder
  | 0, _, _, _, _, _ => .error .outOfFuel
  | fuel + 1, e, ro, current, ns, idx =>
    let ni : String × Int :=
      if idx > -1 ∧ current.Kind = .Ptr then (ns ++ "[" ++ Itoa idx ++ "]", -2)
      else (ns, idx)
    let ns := ni.1
    let idx := ni.2
    let (v, kind) := ExtractType current
    let fl := ExtractFlag ro current
    match e.lookupCustom v with
    | .error f => .error f
    | .ok (some cf) =>
      if fl.isRO then .error (.panic interfaceMsg)
      else
        match cf v with
        | .error err => .ok (e.setError ns err)
        | .ok arr =>
          let ns := if idx > -1 then ns ++ "[" ++ Itoa idx ++ "]" else ns
          .ok (e.setVal ns idx arr)
    | .ok none =>
      match kind with
      | .Ptr | .Interface | .Invalid => .ok e
      | .String => .ok (e.setVal ns idx [v.asString])
      | .Uint => .ok (e.setVal ns idx [FormatUint v.asUint])
      | .Int => .ok (e.setVal ns idx [FormatInt v.asInt])
      | .Float32 => .ok (e.setVal ns idx [v.FloatText])
      | .Float64 => .ok (e.setVal ns idx [v.FloatText])
      | .Bool => .ok (e.setVal ns idx [FormatBool v.asBool])
      | .Slice | .Array =>
        if idx = -1 then
          forIndex (fun i x e => encoder.setFieldByType fuel e fl.ro x ns (i : Int)) v.elems 0 e
        else
          let ns := if idx > -1 then ns ++ "[" ++ Itoa idx ++ "]" else ns
          forIndex (fun i x e =>
            encoder.setFieldByType fuel e fl.ro x (ns ++ "[" ++ Itoa (i : Int) ++ "]") (-2))
            v.elems 0 e
      | .Map =>
        let ns := if idx > -1 then ns ++ "[" ++ Itoa idx ++ "]" else ns
        forEach (fun (entry : Value × Value) (e : encoder) =>
          match e.getMapKey fl.ro entry.1 ns with
          | .error f => .error f
          | .ok (s, valid, e) =>
            if valid = false then .ok e
            else
              match current.MapIndex entry with
              | none => .error (.panic "reflect: call of reflect.Value.MapIndex on non-map Value")
              | some x =>
                encoder.setFieldByType fuel e (ro.or fl.ro).ro x (ns ++ "[" ++ s ++ "]") (-2))
          v.entries e
      | .Struct =>
        if v.Type = some timeType then
          if fl.isRO then .error (.panic interfaceMsg)
          else
            let ns := if idx > -1 then ns ++ "[" ++ Itoa idx ++ "]" else ns
            .ok (e.setVal ns idx [v.FormatRFC3339])
        else if idx = -1 then
          encoder.traverseStruct fuel e fl v ns idx
        else
          let ns := if idx > -1 then ns ++ "[" ++ Itoa idx ++ "]" else ns
          encoder.traverseStruct fuel e fl v ns (-2)
      | .Other => .ok e
end

/-- What `Encode` returns: the output, the error (nil as `none`), and the encoder after the
call, whose struct cache the call may have filled. -/
structure EncodeResult where
  values : Values
  err : Option EncodeErrors
  e : Encoder

/-- Go `len(errs)` on a possibly nil map. -/
def errsLen : Option EncodeErrors → Nat
  | none => 0
  | some m => m.length

/-- The message of the panic `Encode` raises on a top-level value that is not a struct. -/
def notStructMsg : String :=
  "interface must be a struct, pointer to a struct or interface containing one of the aforementioned"

/-- Modelled from the spec: the call `enc.traverseStruct(val, "")` in `Encode` leaves out the
index marker that `traverseStruct` takes as its third argument. Section 4.7: the traversal is
called initially with the empty namespace and the unindexed marker, which is -1. -/
def topLevelMarker : Int := -1

/-- Go `Encoder.Encode`; `v` is `reflect.ValueOf` of the argument, which carries no read-only
bit. -/
def Encoder.Encode (fuel : Nat) (e : Encoder) (v : Value) : Res EncodeResult :=
  let enc : encoder := { e := e, errs := none, values := [] }
  let (val, kind) := ExtractType v
  if kind ≠ .Struct then .error (.panic notStructMsg)
  else
    match enc.traverseStruct fuel (ExtractFlag Flag.ValueOf v) val "" topLevelMarker with
    | .error f => .error f
    | .ok enc =>
      if errsLen enc.errs = 0 then .ok { values := enc.values, err := none, e := enc.e }
      else .ok { values := enc.values, err := enc.errs, e := enc.e }

/-! ## Definitions used to state and prove the properties -/

/-- Whether `parseStruct` and `traverseStruct` skip a field under a tag name: unexported and not
embedded, or tagged with the skip marker. -/
def excluded (tagName : String) (fld : StructField) : Bool :=
  (decide (fld.PkgPath ≠ blank) && !fld.Anonymous) || decide (fld.Tag.Get tagName = ignore)

/-- The key name of an included field: its tag value if not empty, else its declared name. -/
def keyName (tagName : String) (fld : StructField) : String :=
  if fld.Tag.Get tagName = "" then fld.Name else fld.Tag.Get tagName

/-- The descriptor as section 4.6 words it: walk the fields in declaration order from position
`i`, drop the excluded ones, map each remaining field to its position and key name. -/
def descriptorFrom (tagName : String) : List (StructField × Value) → Nat → List cachedField
  | [], _ => []
  | (fld, _) :: rest, i =>
    if excluded tagName fld then descriptorFrom tagName rest (i + 1)
    else { idx := i, name := keyName tagName fld } :: descriptorFrom tagName rest (i + 1)

/-- The first statement of `setFieldByType`: an element that is itself a pointer takes its
pending index at once. -/
def ptrAdjust (current : Value) (ns : String) (idx : Int) : String × Int :=
  if idx > -1 ∧ current.Kind = .Ptr then (ns ++ "[" ++ Itoa idx ++ "]", -2) else (ns, idx)

/-- The statement `if idx > -1 { namespace += "[" + strconv.Itoa(idx) + "]" }`. -/
def withIndex (ns : String) (idx : Int) : String :=
  if idx > -1 then ns ++ "[" ++ Itoa idx ++ "]" else ns

/-- The body of the loop over the entries of a map in `setFieldByType`, at the namespace the
map has after its pending index was applied. -/
def mapEntryBody (S : encoder → Flag → Value → String → Int → Res encoder) (ro : Flag)
    (current : Value) (ns : String) (entry : Value × Value) (e : encoder) : Res encoder :=
  match e.getMapKey (ExtractFlag ro current).ro entry.1 ns with
  | .error f => .error f
  | .ok (s, valid, e) =>
    if valid = false then .ok e
    else
      match current.MapIndex entry with
      | none => .error (.panic "reflect: call of reflect.Value.MapIndex on non-map Value")
      | some x => S e (ro.or (ExtractFlag ro current).ro).ro x (ns ++ "[" ++ s ++ "]") (-2)

/-- The `switch kind` of `setFieldByType`, with the two recursive calls as parameters. -/
def visitKind (S T : encoder → Flag → Value → String → Int → Res encoder) (e : encoder)
    (ro : Flag) (current v : Value) (ns : String) (idx : Int) : Kind → Res encoder
  | .Ptr => .ok e
  | .Interface => .ok e
  | .Invalid => .ok e
  | .String => .ok (e.setVal ns idx [v.asString])
  | .Uint => .ok (e.setVal ns idx [FormatUint v.asUint])
  | .Int => .ok (e.setVal ns idx [FormatInt v.asInt])
  | .Float32 => .ok (e.setVal ns idx [v.FloatText])
  | .Float64 => .ok (e.setVal ns idx [v.FloatText])
  | .Bool => .ok (e.setVal ns idx [FormatBool v.asBool])
  | .Slice =>
    if idx = -1 then
      forIndex (fun i x e => S e (ExtractFlag ro current).ro x ns (i : Int)) v.elems 0 e
    else
      forIndex (fun i x e => S e (ExtractFlag ro current).ro x
        (withIndex ns idx ++ "[" ++ Itoa (i : Int) ++ "]") (-2)) v.elems 0 e
  | .Array =>
    if idx = -1 then
      forIndex (fun i x e => S e (ExtractFlag ro current).ro x ns (i : Int)) v.elems 0 e
    else
      forIndex (fun i x e => S e (ExtractFlag ro current).ro x
        (withIndex ns idx ++ "[" ++ Itoa (i : Int) ++ "]") (-2)) v.elems 0 e
  | .Map => forEach (mapEntryBody S ro current (withIndex ns idx)) v.entries e
  | .Struct =>
    if v.Type = some timeType then
      if (ExtractFlag ro current).isRO then .error (.panic interfaceMsg)
      else .ok (e.setVal (withIndex ns idx) idx [v.FormatRFC3339])
    else if idx = -1 then T e (ExtractFlag ro current) v ns idx
    else T e (ExtractFlag ro current) v (withIndex ns idx) (-2)
  | .Other => .ok e

/-- The body of `setFieldByType` after its first statement. -/
def visit (S T : encoder → Flag → Value → String → Int → Res encoder) (e : encoder)
    (ro : Flag) (current : Value) (ns : String) (idx : Int) : Res encoder :=
  match e.lookupCustom (ExtractType current).1 with
  | .error f => .error f
  | .ok (some cf) =>
    if (ExtractFlag ro current).isRO then .error (.panic interfaceMsg)
    else
      match cf (ExtractType current).1 with
      | .error err => .ok (e.setError ns err)
      | .ok arr => .ok (e.setVal (withIndex ns idx) idx arr)
  | .ok none =>
    visitKind S T e ro current (ExtractType current).1 ns idx (ExtractType current).2

/-- The namespace of a field: its key at the top level, the parent namespace, the separator
and the key below. -/
def fieldNs (ns key : String) : String :=
  if ns.length = 0 then key else ns ++ namespaceSeparator ++ key

/-- The body of the loop of `traverseStruct` over the fields of an anonymous struct. -/
def anonFieldBody (S : encoder → Flag → Value → String → Int → Res encoder) (ro : Flag)
    (ns : String) (idx : Int) (fv : StructField × Value) (e : encoder) : Res encoder :=
  if fv.1.PkgPath ≠ blank ∧ fv.1.Anonymous = false then .ok e
  else if fv.1.Tag.Get e.e.tagName = ignore then .ok e
  else
    S e (ro.Field fv.1) fv.2 (fieldNs ns (if (fv.1.Tag.Get e.e.tagName).length = 0 then fv.1.Name
      else fv.1.Tag.Get e.e.tagName)) idx

/-- The body of the loop of `traverseStruct` over the descriptor of a named struct. -/
def cachedFieldBody (S : encoder → Flag → Value → String → Int → Res encoder) (ro : Flag)
    (v : Value) (ns : String) (idx : Int) (f : cachedField) (e : encoder) : Res encoder :=
  match v.Field f.idx with
  | none => .error (.panic "reflect: Field index out of range")
  | some x => S e (v.FieldFlag ro f.idx) x (fieldNs ns f.name) idx

/-- The descriptor lookup of `traverseStruct`: the cached descriptor, or the one `parseStruct`
computes and stores. -/
def descriptorOf (e : encoder) (v : Value) (typ : GoType) : Res (cachedStruct × encoder) :=
  match e.e.structCache.Get typ with
  | some s => .ok (s, e)
  | none =>
    match e.e.parseStruct v with
    | .ok (s, enc) => .ok (s, { e with e := enc })
    | .error f => .error f

/-- The body of `traverseStruct`, with the recursive call as a parameter. -/
def traverseBody (S : encoder → Flag → Value → String → Int → Res encoder) (e : encoder)
    (ro : Flag) (v : Value) (ns : String) (idx : Int) (typ : GoType) : Res encoder :=
  if typ.Name.length = 0 then forEach (anonFieldBody S ro ns idx) v.fields e
  else
    match descriptorOf e v typ with
    | .error f => .error f
    | .ok (s, e) => forEach (cachedFieldBody S ro v ns idx) s.fields e

/-- The effect of `setVal` on the output: append to the values of an existing key, or add the
key. -/
def putVals (m : Values) (ns : String) (vals : List String) : Values :=
  mapSet m ns (match mapGet m ns with
    | some arr => arr ++ vals
    | none => vals)

/-- A sequence of `setVal` calls, in order. -/
def putAll (es : List (String × List String)) (m : Values) : Values :=
  es.foldl (fun m kv => putVals m kv.1 kv.2) m

/-- The text the default dispatch writes for a string, unsigned, signed or boolean value. -/
def scalarText : Value → Option String
  | .str _ s => some s
  | .uint _ n => some (FormatUint n)
  | .int _ i => some (FormatInt i)
  | .bool _ b => some (FormatBool b)
  | _ => none

/-- An exported field without tags. -/
def plainField (name : String) : StructField :=
  { Name := name, PkgPath := "", Anonymous := false, Tag := [] }

/-- A value of the struct type with fields Name string, Tags []string, Meta map[string]int, no
tags; the type identities are free. -/
def nameTagsMeta (typ tn tt te tm tk tv : GoType) (n : String) (ts : List String)
    (m : List (String × Int)) : Value :=
  .struct typ
    [(plainField "Name", .str tn n),
     (plainField "Tags", .slice tt (ts.map (fun s => Value.str te s))),
     (plainField "Meta", .map tm (m.map (fun kv => (Value.str tk kv.1, Value.int tv kv.2))))]

/-- What the traversal of a `nameTagsMeta` value writes, call by call. -/
def nameTagsMetaEmits (n : String) (ts : List String) (m : List (String × Int)) :
    List (String × List String) :=
  ("Name", [n]) :: (ts.map (fun t => ("Tags", [t]))
    ++ m.map (fun kv => ("Meta" ++ "[" ++ kv.1 ++ "]", [FormatInt kv.2])))

/-- The number a list of decimal digit characters denotes, most significant digit first. -/
def digitsValue : List Char → Nat
  | [] => 0
  | c :: cs => (c.toNat - 48) * 10 ^ cs.length + digitsValue cs

/-- A struct with the single field Nums, a slice of ints. -/
def numsStruct (ti tnums tint : GoType) (nums : List Int) : Value :=
  .struct ti [(plainField "Nums", .slice tnums (nums.map (fun x => Value.int tint x)))]

/-- A struct with the single field Outer, a slice of structs that each hold a slice Nums. -/
def outerValue (T ts ti tnums tint : GoType) (outer : List (List Int)) : Value :=
  .struct T [(plainField "Outer", .slice ts (outer.map (numsStruct ti tnums tint)))]

/-- The writes of a slice of ints visited in an indexed context, from index `j` on. -/
def indexedEmits (ns : String) : List Int → Nat → List (String × List String)
  | [], _ => []
  | x :: xs, j => (ns ++ "[" ++ Itoa (j : Int) ++ "]", [FormatInt x]) :: indexedEmits ns xs (j + 1)

/-- The writes of a slice of `numsStruct` visited unindexed at namespace `F`, from element `i`
on. -/
def outerEmits (F : String) : List (List Int) → Nat → List (String × List String)
  | [], _ => []
  | nums :: rest, i =>
    indexedEmits (F ++ "[" ++ Itoa (i : Int) ++ "]" ++ namespaceSeparator ++ "Nums") nums 0
      ++ outerEmits F rest (i + 1)

/-- The struct cache holds nothing stale for the element type: the type is anonymous, or not
cached, or cached with the descriptor of its single field. -/
def numsCacheOk (e : encoder) (ti : GoType) : Prop :=
  ti.Name = "" ∨ e.e.structCache.Get ti = none
    ∨ e.e.structCache.Get ti = some ⟨[⟨0, "Nums"⟩]⟩

/-- The key of element `j` of the Nums field of element `i` of the Outer field. -/
def outerKey (i j : Nat) : String :=
  "Outer[" ++ Itoa (i : Int) ++ "].Nums[" ++ Itoa (j : Int) ++ "]"

/-- Two results agree up to a relation on states: both panic with the same fault, or both
return and the states are related. -/
def RelRes (R : encoder → encoder → Prop) : Res encoder → Res encoder → Prop
  | .ok a, .ok b => R a b
  | .error f, .error g => f = g
  | _, _ => False

/-- A relation on encoder states that every step of the traversal preserves: related states
carry the same `Encoder`, and stay related under `setVal`, `setError` and a write of the struct
cache. -/
structure Sim (R : encoder → encoder → Prop) : Prop where
  enc : ∀ a b, R a b → a.e = b.e
  setVal : ∀ a b ns idx vals, R a b → R (a.setVal ns idx vals) (b.setVal ns idx vals)
  setError : ∀ a b ns err, R a b → R (a.setError ns err) (b.setError ns err)
  setEnc : ∀ a b x, R a b →
    R { e := x, errs := a.errs, values := a.values } { e := x, errs := b.errs, values := b.values }

/-- Reading the error map, a nil map reading as empty. -/
def errGet (errs : Option EncodeErrors) (q : String) : Option GoError :=
  match errs with
  | none => none
  | some m => mapGet m q

/-- The key `q` lies at or below the namespace `ns`: it is `ns` itself, or `ns` followed by a
separator and a field path, or `ns` followed by a bracketed index or key. -/
def Ext (ns q : String) : Prop :=
  ∃ r : List Char, q.data = ns.data ++ r ∧ (r = [] ∨ r.head? = some '.' ∨ r.head? = some '[')

/-- What a visit at namespace `ns` may change: it keeps the registry and the tag name, and,
when `ns` is not empty, it leaves every output key and error key outside `ns` as it was. -/
def Frame (ns : String) (a b : encoder) : Prop :=
  b.e.customTypeFuncs = a.e.customTypeFuncs ∧ b.e.tagName = a.e.tagName ∧
    (ns ≠ "" → ∀ q, ¬ Ext ns q →
      mapGet b.values q = mapGet a.values q ∧ errGet b.errs q = errGet a.errs q)

/-- The state `a` of a run over a map with one more, unsupported, entry against the state `b`
of the run without it: same encoder, same output, an error present under the namespace `N` of
the map, and the same errors everywhere else. -/
def SkipRel (N : String) (a b : encoder) : Prop :=
  a.e = b.e ∧ a.values = b.values ∧ (∃ err, errGet a.errs N = some err)
    ∧ ∀ q, q ≠ N → errGet a.errs q = errGet b.errs q

mutual
/-- The fuel a visit of a value needs: one unit for the visit itself, one more for
`traverseStruct` on a struct, on top of what the deepest element, map value or field needs.
Pointers and interfaces are stripped without fuel. -/
def Value.cost : Value → Nat
  | .ptr _ (some v) => v.cost
  | .iface _ (some v) => v.cost
  | .slice _ xs => costList xs + 1
  | .array _ xs => costList xs + 1
  | .map _ es => costEntries es + 1
  | .struct _ fs => costFields fs + 2
  | _ => 1
/-- The largest cost among the elements of a slice or array. -/
def costList : List Value → Nat
  | [] => 0
  | x :: xs => max x.cost (costList xs)
/-- The largest cost among the values of a map. -/
def costEntries : List (Value × Value) → Nat
  | [] => 0
  | (_, v) :: es => max v.cost (costEntries es)
/-- The largest cost among the fields of a struct. -/
def costFields : List (StructField × Value) → Nat
  | [] => 0
  | (_, v) :: fs => max v.cost (costFields fs)
end

/-- The text the `switch kind` of `setFieldByType` writes for a value of a scalar kind. -/
def leafText (v : Value) : Kind → Option String
  | .String => some v.asString
  | .Uint => some (FormatUint v.asUint)
  | .Int => some (FormatInt v.asInt)
  | .Float32 => some v.FloatText
  | .Float64 => some v.FloatText
  | .Bool => some (FormatBool v.asBool)
  | _ => none

/-- A non-empty run of decimal digits. -/
def digitsOk (ds : List Char) : Bool := !ds.isEmpty && ds.all Char.isDigit

/-- Modelled from the spec: the inverse parse of an unsigned scalar (section 8, round-trip) is
not among the source files. It is `strconv.ParseUint(s, 10, 64)`: a non-empty run of decimal
digits whose value fits in 64 bits. -/
def ParseUint (s : String) : Option Nat :=
  if digitsOk s.data ∧ digitsValue s.data < 2 ^ 64 then some (digitsValue s.data) else none

/-- Modelled from the spec: the inverse parse of a signed scalar (section 8, round-trip) is not
among the source files. It is `strconv.ParseInt(s, 10, 64)`: an optional sign, then a non-empty
run of decimal digits, the value within the 64-bit signed range. -/
def ParseInt (s : String) : Option Int :=
  match s.data with
  | [] => none
  | c :: ds =>
    if c = '-' then
      if digitsOk ds ∧ digitsValue ds ≤ 2 ^ 63 then some (-(digitsValue ds : Int)) else none
    else if c = '+' then
      if digitsOk ds ∧ digitsValue ds < 2 ^ 63 then some (digitsValue ds : Int) else none
    else if digitsOk (c :: ds) ∧ digitsValue (c :: ds) < 2 ^ 63 then
      some (digitsValue (c :: ds) : Int)
    else none

/-- Modelled from the spec: the inverse parse of a boolean scalar (section 8, round-trip) is not
among the source files. It is `strconv.ParseBool`. -/
def ParseBool (s : String) : Option Bool :=
  if s = "1" ∨ s = "t" ∨ s = "T" ∨ s = "TRUE" ∨ s = "true" ∨ s = "True" then some true
  else if s = "0" ∨ s = "f" ∨ s = "F" ∨ s = "FALSE" ∨ s = "false" ∨ s = "False" then some false
  else none

/-- Two descriptor lookups agree up to a relation on states: both panic with the same fault, or
both return the same descriptor and related states. -/
def RelDesc (R : encoder → encoder → Prop) :
    Res (cachedStruct × encoder) → Res (cachedStruct × encoder) → Prop
  | .ok a, .ok b => a.1 = b.1 ∧ R a.2 b.2
  | .error f, .error g => f = g
  | _, _ => False

/-- A relation between the states of two runs whose struct caches may differ. Related states
carry the same tag name and registry and stay related under `setVal` and `setError`; on the
structs `Good` holds of, the descriptor lookups of the two runs return the same descriptor and
related states. `Good` passes from a value to what the traversal reaches from it. -/
structure CacheSim (Good : Value → Prop) (R : encoder → encoder → Prop) : Prop where
  tag : ∀ a b, R a b → a.e.tagName = b.e.tagName
  reg : ∀ a b, R a b → a.e.customTypeFuncs = b.e.customTypeFuncs
  setVal : ∀ a b ns idx vals, R a b → R (a.setVal ns idx vals) (b.setVal ns idx vals)
  setError : ∀ a b ns err, R a b → R (a.setError ns err) (b.setError ns err)
  desc : ∀ a b v typ, R a b → Good v → v.Kind = .Struct → v.Type = some typ →
    ¬ typ.Name.length = 0 → RelDesc R (descriptorOf a v typ) (descriptorOf b v typ)
  ext : ∀ v, Good v → Good (ExtractType v).1
  elems : ∀ v x, Good v → x ∈ v.elems → Good x
  entries : ∀ v (p : Value × Value), Good v → p ∈ v.entries → Good p.2
  fields : ∀ v (p : StructField × Value), Good v → p ∈ v.fields → Good p.2

/-- The declared fields of the struct types. In Go the type of a struct value fixes its fields;
a `Value` lists its fields itself, and the environment says what each type declares. -/
abbrev TypeEnv := GoType → List StructField

mutual
/-- Whether every struct of a named type, in the value and in all the traversal reaches from it,
declares the fields the environment gives its type. The fields of `time.Time` are left out of
the model, so its declaration is empty. -/
def Value.wellTyped (Γ : TypeEnv) : Value → Bool
  | .time _ => decide (Γ timeType = [])
  | .slice _ xs => wellTypedList Γ xs
  | .array _ xs => wellTypedList Γ xs
  | .map _ es => wellTypedEntries Γ es
  | .struct t fs =>
    (decide (t.Name.length = 0) || decide (fs.map Prod.fst = Γ t)) && wellTypedFields Γ fs
  | .ptr _ (some v) => v.wellTyped Γ
  | .iface _ (some v) => v.wellTyped Γ
  | _ => true
/-- Whether the elements of a slice or array are well typed. -/
def wellTypedList (Γ : TypeEnv) : List Value → Bool
  | [] => true
  | x :: xs => x.wellTyped Γ && wellTypedList Γ xs
/-- Whether the values of a map are well typed. -/
def wellTypedEntries (Γ : TypeEnv) : List (Value × Value) → Bool
  | [] => true
  | (_, v) :: es => v.wellTyped Γ && wellTypedEntries Γ es
/-- Whether the field values of a struct are well typed. -/
def wellTypedFields (Γ : TypeEnv) : List (StructField × Value) → Bool
  | [] => true
  | (_, v) :: fs => v.wellTyped Γ && wellTypedFields Γ fs
end

/-- The descriptor of a type under a tag name: what `parseStruct` computes from the fields the
type declares. -/
def typeDescriptor (Γ : TypeEnv) (tagName : String) (t : GoType) : List cachedField :=
  descriptorFrom tagName ((Γ t).map (fun f => (f, Value.invalid))) 0

/-- The struct cache is coherent: every descriptor it holds is the one `parseStruct` computes
for the type under the current tag name. -/
def cacheCoherent (Γ : TypeEnv) (e : Encoder) : Prop :=
  ∀ t s, e.structCache.Get t = some s → s.fields = typeDescriptor Γ e.tagName t

/-- Two states that a relation `Q` on outputs and error maps relates and whose Encoders have
the same tag name, the same registry and coherent struct caches. -/
def CacheRel (Γ : TypeEnv) (Q : encoder → encoder → Prop) (a b : encoder) : Prop :=
  Q a b ∧ a.e.tagName = b.e.tagName ∧ a.e.customTypeFuncs = b.e.customTypeFuncs
    ∧ cacheCoherent Γ a.e ∧ cacheCoherent Γ b.e

/-- A relation on states that looks at the output and the error map only and that `setVal`
and `setError` preserve. -/
structure OutRel (Q : encoder → encoder → Prop) : Prop where
  setVal : ∀ a b ns idx vals, Q a b → Q (a.setVal ns idx vals) (b.setVal ns idx vals)
  setError : ∀ a b ns err, Q a b → Q (a.setError ns err) (b.setError ns err)
  setEnc : ∀ a b x y, Q a b →
    Q { e := x, errs := a.errs, values := a.values } { e := y, errs := b.errs, values := b.values }

/-- Equal outputs and equal error maps. -/
def SameOut (a b : encoder) : Prop := a.values = b.values ∧ a.errs = b.errs

/-- The state `Encode` starts the traversal from. -/
def freshState (e : Encoder) : encoder := { e := e, errs := none, values := [] }

/-- What `Encode` returns from the state the traversal ends in. -/
def resultOf (r : encoder) : EncodeResult :=
  { values := r.values, err := if errsLen r.errs = 0 then none else r.errs, e := r.e }

/-- The declarations of two named struct types: T with the fields A and In, Inner with the
field B. -/
def pairEnv : TypeEnv := fun t =>
  if t = ⟨"T", "main.T"⟩ then [plainField "A", plainField "In"]
  else if t = ⟨"Inner", "main.Inner"⟩ then [plainField "B"]
  else []

/-- A value of the type T of `pairEnv`: A is 1 and In holds an Inner whose B is x. -/
def pairValue : Value :=
  .struct ⟨"T", "main.T"⟩
    [(plainField "A", .int ⟨"int", "int"⟩ 1),
     (plainField "In", .struct ⟨"Inner", "main.Inner"⟩
        [(plainField "B", .str ⟨"string", "string"⟩ "x")])]

/-- The encoder states reached from `NewEncoder` by calls of `SetTagName`, of
`RegisterCustomTypeFunc` and of `Encode` on well-typed inputs, where `SetTagName` is only called
while the struct cache is still empty. A call of `Encode` that panics returns no encoder in
this model and is not a step. -/
inductive Configured (Γ : TypeEnv) : Encoder → Prop where
  | new : Configured Γ NewEncoder
  | setTagName (e : Encoder) (tagName : String) :
      Configured Γ e → e.structCache = [] → Configured Γ (e.SetTagName tagName)
  | register (e : Encoder) (fn : EncodeCustomTypeFunc) (types : List GoType) :
      Configured Γ e → Configured Γ (e.RegisterCustomTypeFunc fn types)
  | encode (e : Encoder) (fuel : Nat) (v : Value) (r : EncodeResult) :
      Configured Γ e → v.wellTyped Γ = true → e.Encode fuel v = .ok r → Configured Γ r.e

/-- Two states read alike, in the output and in the error map, at every key `K` holds of. -/
def AgreeOn (K : String → Prop) (a b : encoder) : Prop :=
  ∀ q, K q → mapGet a.values q = mapGet b.values q ∧ errGet a.errs q = errGet b.errs q

/-- Two results agree up to a relation on states, whatever the panic: both panic, or both
return and the states are related. -/
def RelResW (R : encoder → encoder → Prop) : Res encoder → Res encoder → Prop
  | .ok a, .ok b => R a b
  | .error _, .error _ => True
  | _, _ => False

/-- The text `getMapKey` returns for a key of a supported kind, the empty text otherwise. -/
def keyText (k : Value) : String :=
  (leafText (ExtractType k).1 (ExtractType k).2).getD ""

/-- A key is supported in a state: no custom function for its type and a scalar kind. -/
def keySupported (e : encoder) (k : Value) : Prop :=
  e.lookupCustom (ExtractType k).1 = .ok none
    ∧ (leafText (ExtractType k).1 (ExtractType k).2).isSome = true

/-- The calls of `setError` of a run, oldest first: the namespace and the error of each. -/
abbrev ErrorLog := List (String × GoError)

/-- The state of a run together with the calls of `setError` made so far. The log is not part
of the Go state; it is kept to say what the error map holds at the end of a run. -/
structure logged where
  st : encoder
  log : ErrorLog

/-- The call `setError` on a logged state: the call is made and written down. -/
def logged.setError (l : logged) (ns : String) (err : GoError) : logged :=
  { st := l.st.setError ns err, log := l.log ++ [(ns, err)] }

/-- The call `setVal` on a logged state. -/
def logged.setVal (l : logged) (ns : String) (idx : Int) (vals : List String) : logged :=
  { st := l.st.setVal ns idx vals, log := l.log }

/-- Go `encoder.getMapKey` on a logged state. -/
def logged.getMapKey (l : logged) (ro : Flag) (key : Value) (ns : String) :
    Res (String × Bool × logged) :=
  match l.st.lookupCustom (ExtractType key).1 with
  | .error f => .error f
  | .ok (some cf) =>
    if (ExtractFlag ro key).isRO then .error (.panic interfaceMsg)
    else
      match cf (ExtractType key).1 with
      | .error err => .ok ("", false, l.setError ns err)
      | .ok [] => .error (.panic "runtime error: index out of range [0] with length 0")
      | .ok (s :: _) => .ok (s, true, l)
  | .ok none =>
    match (ExtractType key).2 with
    | .Interface | .Ptr => .ok ("", false, l)
    | .String => .ok ((ExtractType key).1.asString, true, l)
    | .Uint => .ok (FormatUint (ExtractType key).1.asUint, true, l)
    | .Int => .ok (FormatInt (ExtractType key).1.asInt, true, l)
    | .Float32 => .ok ((ExtractType key).1.FloatText, true, l)
    | .Float64 => .ok ((ExtractType key).1.FloatText, true, l)
    | .Bool => .ok (FormatBool (ExtractType key).1.asBool, true, l)
    | _ =>
      .ok ("", false, l.setError ns
        ("Unsupported Map Key '" ++ (ExtractType key).1.asString ++ "' Namespace '" ++ ns ++ "'"))

/-- The loop `forEach` over logged states. -/
def eachLogged {α : Type} (body : α → logged → Res logged) : List α → logged → Res logged
  | [], l => .ok l
  | x :: xs, l =>
    match body x l with
    | .ok l1 => eachLogged body xs l1
    | .error f => .error f

/-- The loop `forIndex` over logged states. -/
def indexLogged (body : Nat → Value → logged → Res logged) :
    List Value → Nat → logged → Res logged
  | [], _, l => .ok l
  | x :: xs, i, l =>
    match body i x l with
    | .ok l1 => indexLogged body xs (i + 1) l1
    | .error f => .error f

mutual
/-- Go `encoder.traverseStruct` on a logged state. -/
def logged.traverseStruct : Nat → logged → Flag → Value → String → Int → Res logged
  | 0, _, _, _, _, _ => .error .outOfFuel
  | fuel + 1, l, ro, v, ns, idx =>
    match v.Type with
    | none => .error (.panic "reflect: call of reflect.Value.Type on zero Value")
    | some typ =>
      if typ.Name.length = 0 then
        eachLogged (fun (fv : StructField × Value) (l : logged) =>
          if fv.1.PkgPath ≠ blank ∧ fv.1.Anonymous = false then .ok l
          else if fv.1.Tag.Get l.st.e.tagName = ignore then .ok l
          else
            logged.setFieldByType fuel l (ro.Field fv.1) fv.2
              (fieldNs ns (if (fv.1.Tag.Get l.st.e.tagName).length = 0 then fv.1.Name
                else fv.1.Tag.Get l.st.e.tagName)) idx) v.fields l
      else
        match descriptorOf l.st v typ with
        | .error f => .error f
        | .ok (s, e1) =>
          eachLogged (fun (f : cachedField) (l : logged) =>
            match v.Field f.idx with
            | none => .error (.panic "reflect: Field index out of range")
            | some x =>
              logged.setFieldByType fuel l (v.FieldFlag ro f.idx) x (fieldNs ns f.name) idx)
            s.fields { st := e1, log := l.log }
/-- Go `encoder.setFieldByType` on a logged state. -/
def logged.setFieldByType : Nat → logged → Flag → Value → String → Int → Res logged
  | 0, _, _, _, _, _ => .error .outOfFuel
  | fuel + 1, l, ro, current, ns0, idx0 =>
    let ns := (ptrAdjust current ns0 idx0).1
    let idx := (ptrAdjust current ns0 idx0).2
    let v := (ExtractType current).1
    let fl := ExtractFlag ro current
    match l.st.lookupCustom v with
    | .error f => .error f
    | .ok (some cf) =>
      if fl.isRO then .error (.panic interfaceMsg)
      else
        match cf v with
        | .error err => .ok (l.setError ns err)
        | .ok arr => .ok (l.setVal (withIndex ns idx) idx arr)
    | .ok none =>
      match (ExtractType current).2 with
      | .Ptr | .Interface | .Invalid | .Other => .ok l
      | .String => .ok (l.setVal ns idx [v.asString])
      | .Uint => .ok (l.setVal ns idx [FormatUint v.asUint])
      | .Int => .ok (l.setVal ns idx [FormatInt v.asInt])
      | .Float32 => .ok (l.setVal ns idx [v.FloatText])
      | .Float64 => .ok (l.setVal ns idx [v.FloatText])
      | .Bool => .ok (l.setVal ns idx [FormatBool v.asBool])
      | .Slice | .Array =>
        if idx = -1 then
          indexLogged (fun i x l => logged.setFieldByType fuel l fl.ro x ns (i : Int)) v.elems 0 l
        else
          indexLogged (fun i x l =>
            logged.setFieldByType fuel l fl.ro x
              (withIndex ns idx ++ "[" ++ Itoa (i : Int) ++ "]") (-2)) v.elems 0 l
      | .Map =>
        eachLogged (fun (entry : Value × Value) (l : logged) =>
          match l.getMapKey fl.ro entry.1 (withIndex ns idx) with
          | .error f => .error f
          | .ok (s, valid, l) =>
            if valid = false then .ok l
            else
              match current.MapIndex entry with
              | none => .error (.panic "reflect: call of reflect.Value.MapIndex on non-map Value")
              | some x =>
                logged.setFieldByType fuel l (ro.or fl.ro).ro x
                  (withIndex ns idx ++ "[" ++ s ++ "]") (-2))
          v.entries l
      | .Struct =>
        if v.Type = some timeType then
          if fl.isRO then .error (.panic interfaceMsg)
          else .ok (l.setVal (withIndex ns idx) idx [v.FormatRFC3339])
        else if idx = -1 then logged.traverseStruct fuel l fl v ns idx
        else logged.traverseStruct fuel l fl v (withIndex ns idx) (-2)
end

/-- What `setError` does to the error map. -/
def recordError (errs : Option EncodeErrors) (ns : String) (err : GoError) :
    Option EncodeErrors :=
  some (mapSet (match errs with
    | none => []
    | some m => m) ns err)

/-- The error map after a sequence of calls of `setError`. -/
def replayErrors (log : ErrorLog) (errs : Option EncodeErrors) : Option EncodeErrors :=
  log.foldl (fun m c => recordError m c.1 c.2) errs

/-- The last error a log holds for a namespace. -/
def lastError : ErrorLog → String → Option GoError
  | [], _ => none
  | c :: rest, q =>
    match lastError rest q with
    | some err => some err
    | none => if c.1 = q then some c.2 else none

/-- From one logged state to a later one: the log has grown by the calls made in between, and
the error map is the earlier one after those calls. -/
def LogStep (l0 l1 : logged) : Prop :=
  ∃ added, l1.log = l0.log ++ added ∧ l1.st.errs = replayErrors added l0.st.errs

/-- A logged run against the run itself, from the logged state `l0`: both panic alike, or both
return, the logged run in the state the run returns. -/
def LogRes (l0 : logged) : Res logged → Res encoder → Prop
  | .ok l1, .ok e1 => l1.st = e1 ∧ LogStep l0 l1
  | .error f, .error g => f = g
  | _, _ => False

/-! ## Definitions for the nested-slice property -/

/-- An element of the slice Outer: a struct of type `typ` whose fields are `pre`, then the field
`fld` that holds a slice of ints (of slice type `tn` and element type `tint`), then `post`. -/
structure NumsElem where
  typ : GoType
  pre : List (StructField × Value)
  fld : StructField
  tn : GoType
  tint : GoType
  nums : List Int
  post : List (StructField × Value)

/-- The slice of ints an element holds in its field Nums. -/
def NumsElem.slice (r : NumsElem) : Value :=
  .slice r.tn (r.nums.map (fun x => Value.int r.tint x))

/-- The struct an element is. -/
def NumsElem.value (r : NumsElem) : Value :=
  .struct r.typ (r.pre ++ (r.fld, r.slice) :: r.post)

/-- No custom type function is registered for the type `t`. -/
def Encoder.unregistered (e : Encoder) (t : GoType) : Prop :=
  ∀ m, e.customTypeFuncs = some m → mapGet m t = none

/-- A state of a run of the encoder `enc`: the tag name and the registry are those of `enc` and
the struct cache is coherent. -/
def SameConfig (Γ : TypeEnv) (enc : Encoder) (a : encoder) : Prop :=
  a.e.tagName = enc.tagName ∧ a.e.customTypeFuncs = enc.customTypeFuncs ∧ cacheCoherent Γ a.e

/-- The visit of `x`, read with the flag `ro`, at the namespace `ns` with the marker `idx`, from
every state of a run of `enc`: it returns, and it leaves every key in `Q` as it was. -/
def Quiet (Γ : TypeEnv) (enc : Encoder) (ro : Flag) (x : Value) (ns : String) (idx : Int)
    (Q : String → Prop) : Prop :=
  ∀ a : encoder, SameConfig Γ enc a →
    ∃ b, encoder.setFieldByType x.cost a ro x ns idx = .ok b
      ∧ ∀ q, Q q → mapGet b.values q = mapGet a.values q

/-- The keys the nested-slice property names: `Outer[i].Nums[j]`, `Outer[i].Nums`, and the keys
with a doubled index, `Outer[i][k].Nums[j]` and `Outer[i].Nums[j][k]`. -/
def nestedKey (q : String) : Prop :=
  (∃ i j : Nat, q = outerKey i j)
    ∨ (∃ i : Nat, q = "Outer[" ++ Itoa (i : Int) ++ "].Nums")
    ∨ (∃ i k j : Nat, q = "Outer[" ++ Itoa (i : Int) ++ "][" ++ Itoa (k : Int) ++ "].Nums["
        ++ Itoa (j : Int) ++ "]")
    ∨ (∃ i j k : Nat, q = "Outer[" ++ Itoa (i : Int) ++ "].Nums[" ++ Itoa (j : Int) ++ "]["
        ++ Itoa (k : Int) ++ "]")

/-- What the nested-slice property asks of an element of Outer in a run of `enc`: the element is
well typed, it is not a time.Time, its field Nums is included under the key Nums, and no custom
type function is registered for its type, for the type of the slice Nums or for the type of the
ints. -/
structure ElemOk (Γ : TypeEnv) (enc : Encoder) (r : NumsElem) : Prop where
  wt : r.value.wellTyped Γ = true
  incl : excluded enc.tagName r.fld = false
  key : keyName enc.tagName r.fld = "Nums"
  typ : enc.unregistered r.typ
  time : r.typ ≠ timeType
  tn : enc.unregistered r.tn
  tint : enc.unregistered r.tint

/-- The declarations of two named struct types: T with the fields Name and Outer, Inner with the
fields Nums and Tag. -/
def nestedEnv : TypeEnv := fun t =>
  if t = ⟨"T", "main.T"⟩ then [plainField "Name", plainField "Outer"]
  else if t = ⟨"Inner", "main.Inner"⟩ then [plainField "Nums", plainField "Tag"]
  else []

/-! ## Go maps and strings -/

theorem mapGet_mapSet {κ ν : Type} [DecidableEq κ] (m : List (κ × ν)) (k q : κ) (w : ν) :
    mapGet (mapSet m k w) q = if k = q then some w else mapGet m q := by
  induction m with
  | nil => simp [mapSet, mapGet]
  | cons kv m ih =>
    obtain ⟨a, b⟩ := kv
    by_cases h : a = k
    · subst h
      by_cases h2 : a = q <;> simp [mapSet, mapGet, h2]
    · by_cases h2 : a = q
      · subst h2
        simp [mapSet, mapGet, h, Ne.symm h]
      · simp [mapSet, mapGet, h, h2, ih]

theorem length_eq_zero_iff (s : String) : s.length = 0 ↔ s = "" := by
  constructor
  · intro h
    exact String.ext (List.length_eq_zero.mp h)
  · rintro rfl; rfl

/-! ## Unfolding one level of the recursion -/

theorem setFieldByType_succ {ro : Flag} (fuel : Nat) (e : encoder) (current : Value) (ns : String)
    (idx : Int) :
    encoder.setFieldByType (fuel + 1) e ro current ns idx =
      visit (encoder.setFieldByType fuel) (encoder.traverseStruct fuel) e ro current
        (ptrAdjust current ns idx).1 (ptrAdjust current ns idx).2 := by
  rw [encoder.setFieldByType]
  simp only [visit, ptrAdjust, withIndex]
  generalize e.lookupCustom (ExtractType current).1 = r
  rcases r with f | (_ | cf)
  · rfl
  · generalize (ExtractType current).2 = k
    cases k <;> rfl
  · rfl

theorem traverseStruct_succ {ro : Flag}
    (fuel : Nat) (e : encoder) (v : Value) (ns : String) (idx : Int) :
    encoder.traverseStruct (fuel + 1) e ro v ns idx =
      match v.Type with
      | none => .error (.panic "reflect: call of reflect.Value.Type on zero Value")
      | some typ => traverseBody (encoder.setFieldByType fuel) e ro v ns idx typ := by
  rw [encoder.traverseStruct]
  rfl

@[simp] theorem Flag.ro_ValueOf : Flag.ValueOf.ro = Flag.ValueOf := rfl

@[simp] theorem Flag.isRO_ValueOf : Flag.ValueOf.isRO = false := rfl

@[simp] theorem Flag.or_ValueOf : Flag.ValueOf.or Flag.ValueOf = Flag.ValueOf := rfl

theorem Flag.ro_isRO (f : Flag) : f.ro.isRO = f.isRO := by
  unfold Flag.ro
  by_cases h : f.isRO = true
  · rw [if_pos h, h]; rfl
  · rw [if_neg h]
    simp only [Bool.not_eq_true] at h
    rw [h]; rfl

/-- Unwrapping pointers and interfaces leaves a value from `reflect.ValueOf` without read-only
bits. -/
theorem ExtractFlag_isRO (f : Flag) (v : Value) : (ExtractFlag f v).isRO = f.isRO := by
  induction f, v using ExtractFlag.induct with
  | case1 f t v ih => rw [ExtractFlag]; exact ih
  | case2 f t v ih => rw [ExtractFlag, ih, Flag.ro_isRO]
  | case3 f v h1 h2 => rw [ExtractFlag]; exact h1; exact h2

@[simp] theorem ExtractFlag_ValueOf (v : Value) : ExtractFlag Flag.ValueOf v = Flag.ValueOf := by
  have h : ∀ f v, f = Flag.ValueOf → ExtractFlag f v = Flag.ValueOf := by
    intro f v
    induction f, v using ExtractFlag.induct with
    | case1 f t v ih => intro h; rw [ExtractFlag]; exact ih h
    | case2 f t v ih => intro h; subst h; rw [ExtractFlag]; exact ih rfl
    | case3 f v h1 h2 => intro h; rw [ExtractFlag]; exact h; exact h1; exact h2
  exact h _ v rfl

/-- An exported field inherits the sticky bit only. -/
@[simp] theorem Flag.Field_exported (f : Flag) (n : String) (a : Bool) (t : StructTag) :
    f.Field ⟨n, "", a, t⟩ = ⟨f.StickyRO, false⟩ := by
  simp [Flag.Field]

@[simp] theorem Flag.Field_plainField (f : Flag) (n : String) :
    f.Field (plainField n) = ⟨f.StickyRO, false⟩ := by
  simp [Flag.Field, plainField]

@[simp] theorem ExtractType_invalid : ExtractType .invalid = (.invalid, .Invalid) := rfl
@[simp] theorem ExtractType_str (t : GoType) (s : String) :
    ExtractType (.str t s) = (.str t s, .String) := rfl
@[simp] theorem ExtractType_uint (t : GoType) (n : Nat) :
    ExtractType (.uint t n) = (.uint t n, .Uint) := rfl
@[simp] theorem ExtractType_int (t : GoType) (i : Int) :
    ExtractType (.int t i) = (.int t i, .Int) := rfl
@[simp] theorem ExtractType_float32 (t : GoType) (s : String) :
    ExtractType (.float32 t s) = (.float32 t s, .Float32) := rfl
@[simp] theorem ExtractType_float64 (t : GoType) (s : String) :
    ExtractType (.float64 t s) = (.float64 t s, .Float64) := rfl
@[simp] theorem ExtractType_bool (t : GoType) (b : Bool) :
    ExtractType (.bool t b) = (.bool t b, .Bool) := rfl
@[simp] theorem ExtractType_time (s : String) : ExtractType (.time s) = (.time s, .Struct) := rfl
@[simp] theorem ExtractType_slice (t : GoType) (xs : List Value) :
    ExtractType (.slice t xs) = (.slice t xs, .Slice) := rfl
@[simp] theorem ExtractType_array (t : GoType) (xs : List Value) :
    ExtractType (.array t xs) = (.array t xs, .Array) := rfl
@[simp] theorem ExtractType_map (t : GoType) (es : List (Value × Value)) :
    ExtractType (.map t es) = (.map t es, .Map) := rfl
@[simp] theorem ExtractType_struct (t : GoType) (fs : List (StructField × Value)) :
    ExtractType (.struct t fs) = (.struct t fs, .Struct) := rfl
@[simp] theorem ExtractType_other (t : GoType) : ExtractType (.other t) = (.other t, .Other) := rfl
@[simp] theorem ExtractType_ptr_nil (t : GoType) :
    ExtractType (.ptr t none) = (.ptr t none, .Ptr) := rfl
@[simp] theorem ExtractType_ptr_some (t : GoType) (v : Value) :
    ExtractType (.ptr t (some v)) = ExtractType v := rfl
@[simp] theorem ExtractType_iface_nil (t : GoType) :
    ExtractType (.iface t none) = (.iface t none, .Interface) := rfl
@[simp] theorem ExtractType_iface_some (t : GoType) (v : Value) :
    ExtractType (.iface t (some v)) = ExtractType v := rfl

/-! ## parseStruct -/

theorem parseStructLoop_eq (tagName : String) (fs : List (StructField × Value)) (i : Nat)
    (acc : List cachedField) :
    parseStructLoop tagName fs i acc = acc ++ descriptorFrom tagName fs i := by
  induction fs generalizing i acc with
  | nil => simp [parseStructLoop, descriptorFrom]
  | cons fv rest ih =>
    obtain ⟨fld, v⟩ := fv
    by_cases h1 : fld.PkgPath ≠ blank ∧ fld.Anonymous = false
    · have hx : excluded tagName fld = true := by
        simp [excluded, h1.1, h1.2]
      rw [parseStructLoop, if_pos h1, descriptorFrom, if_pos hx, ih]
    · by_cases h2 : fld.Tag.Get tagName = ignore
      · have hx : excluded tagName fld = true := by
          simp [excluded, h2]
        rw [parseStructLoop, if_neg h1]
        simp only [h2, if_true]
        rw [descriptorFrom, if_pos hx, ih]
      · have hx : ¬ (excluded tagName fld = true) := by
          simp only [excluded, Bool.or_eq_true, Bool.and_eq_true, decide_eq_true_eq,
            Bool.not_eq_true', not_or]
          exact ⟨h1, h2⟩
        rw [parseStructLoop, if_neg h1]
        simp only [h2, if_false]
        rw [descriptorFrom, if_neg hx, ih]
        simp [keyName, length_eq_zero_iff]

theorem descriptorFrom_idx_ge (tagName : String) (fs : List (StructField × Value)) (i : Nat) :
    ∀ f ∈ descriptorFrom tagName fs i, i ≤ f.idx := by
  induction fs generalizing i with
  | nil => simp [descriptorFrom]
  | cons fv rest ih =>
    obtain ⟨fld, v⟩ := fv
    intro f hf
    rw [descriptorFrom] at hf
    split at hf
    · exact Nat.le_of_succ_le (ih (i + 1) f hf)
    · rcases List.mem_cons.mp hf with h | h
      · subst h; exact Nat.le_refl _
      · exact Nat.le_of_succ_le (ih (i + 1) f h)

theorem descriptorFrom_increasing (tagName : String) (fs : List (StructField × Value)) (i : Nat) :
    (descriptorFrom tagName fs i).Pairwise (fun a b => a.idx < b.idx) := by
  induction fs generalizing i with
  | nil => simp [descriptorFrom]
  | cons fv rest ih =>
    obtain ⟨fld, v⟩ := fv
    rw [descriptorFrom]
    split
    · exact ih (i + 1)
    · refine List.pairwise_cons.mpr ⟨?_, ih (i + 1)⟩
      intro b hb
      exact descriptorFrom_idx_ge tagName rest (i + 1) b hb

/-- The descriptor holds exactly the included fields, each under its own position. -/
theorem mem_descriptorFrom_iff (tagName : String) (fs : List (StructField × Value)) (i : Nat)
    (cf : cachedField) :
    cf ∈ descriptorFrom tagName fs i ↔
      ∃ (j : Nat) (fv : StructField × Value), fs[j]? = some fv ∧ cf.idx = i + j
        ∧ excluded tagName fv.1 = false ∧ cf.name = keyName tagName fv.1 := by
  induction fs generalizing i with
  | nil => simp [descriptorFrom]
  | cons a rest ih =>
    obtain ⟨fld, v⟩ := a
    rw [descriptorFrom]
    constructor
    · intro h
      split at h
      · obtain ⟨j, fv, h1, h2, h3, h4⟩ := (ih (i + 1)).mp h
        exact ⟨j + 1, fv, by simpa using h1, by omega, h3, h4⟩
      · next hex =>
        rcases List.mem_cons.mp h with h0 | h0
        · exact ⟨0, (fld, v), by simp, by rw [h0]; rfl, by simpa using hex, by rw [h0]⟩
        · obtain ⟨j, fv, h1, h2, h3, h4⟩ := (ih (i + 1)).mp h0
          exact ⟨j + 1, fv, by simpa using h1, by omega, h3, h4⟩
    · rintro ⟨j, fv, h1, h2, h3, h4⟩
      cases j with
      | zero =>
        simp only [List.getElem?_cons_zero, Option.some.injEq] at h1
        subst h1
        rw [if_neg (by simp [h3])]
        apply List.mem_cons.mpr
        left
        cases cf
        simp only [Nat.add_zero] at h2
        simp only at h4
        simp [h2, h4]
      | succ j =>
        have hm : cf ∈ descriptorFrom tagName rest (i + 1) :=
          (ih (i + 1)).mpr ⟨j, fv, by simpa using h1, by omega, h3, h4⟩
        split
        · exact hm
        · exact List.mem_cons_of_mem _ hm

/-- C9: parseStruct returns the descriptor of section 4.6 (fields in declaration order, excluded
fields dropped, each remaining field at position i mapped to idx i and to its tag value if not
empty, else its declared name), its idx values are strictly increasing, its entries are exactly
the included fields at their own positions, and the encoder it leaves holds that same descriptor
in the struct cache under the struct's type. -/
theorem C9_parseStruct_descriptor (e : Encoder) (typ : GoType)
    (fields : List (StructField × Value)) :
    ∃ s e1, e.parseStruct (.struct typ fields) = .ok (s, e1)
      ∧ s.fields = descriptorFrom e.tagName fields 0
      ∧ s.fields.Pairwise (fun a b => a.idx < b.idx)
      ∧ (∀ cf, cf ∈ s.fields ↔ ∃ fv, fields[cf.idx]? = some fv
          ∧ excluded e.tagName fv.1 = false ∧ cf.name = keyName e.tagName fv.1)
      ∧ e1.structCache.Get typ = some s
      ∧ e1.tagName = e.tagName ∧ e1.customTypeFuncs = e.customTypeFuncs := by
  refine ⟨_, _, rfl, ?_, ?_, ?_, ?_, rfl, rfl⟩
  · simp [Value.fields, parseStructLoop_eq]
  · simp only [Value.fields, parseStructLoop_eq, List.nil_append]
    exact descriptorFrom_increasing _ _ _
  · intro cf
    simp only [Value.fields, parseStructLoop_eq, List.nil_append]
    rw [mem_descriptorFrom_iff]
    constructor
    · rintro ⟨j, fv, h1, h2, h3, h4⟩
      have hj : cf.idx = j := by omega
      exact ⟨fv, by rw [hj]; exact h1, h3, h4⟩
    · rintro ⟨fv, h1, h3, h4⟩
      exact ⟨cf.idx, fv, h1, by omega, h3, h4⟩
  · simp [structCacheMap.Get, structCacheMap.Set, mapGet_mapSet]

/-! ## Panics of the traversal -/

theorem forEach_error {α : Type} (body : α → encoder → Res encoder) (xs : List α) (e : encoder)
    (f : Fault) (h : forEach body xs e = .error f) : ∃ x e0, body x e0 = .error f := by
  induction xs generalizing e with
  | nil => simp [forEach] at h
  | cons x xs ih =>
    rw [forEach] at h
    split at h
    · exact ih _ h
    · next g hg =>
      injection h with h
      subst h
      exact ⟨x, e, hg⟩

theorem forIndex_error (body : Nat → Value → encoder → Res encoder) (xs : List Value) (i : Nat)
    (e : encoder) (f : Fault) (h : forIndex body xs i e = .error f) :
    ∃ j x e0, body j x e0 = .error f := by
  induction xs generalizing e i with
  | nil => simp [forIndex] at h
  | cons x xs ih =>
    rw [forIndex] at h
    split at h
    · exact ih _ _ h
    · next g hg =>
      injection h with h
      subst h
      exact ⟨i, x, e, hg⟩

theorem lookupCustom_error (e : encoder) (v : Value) (f : Fault)
    (h : e.lookupCustom v = .error f) :
    f = .panic "reflect: call of reflect.Value.Type on zero Value" := by
  unfold encoder.lookupCustom at h
  split at h
  · simp at h
  · split at h
    · injection h with h; exact h.symm
    · simp at h

theorem getMapKey_error {ro : Flag} (e : encoder) (key : Value) (ns : String) (f : Fault)
    (h : e.getMapKey ro key ns = .error f) : f ≠ .panic notStructMsg := by
  unfold encoder.getMapKey at h
  simp only at h
  split at h
  · next g hg =>
    injection h with h
    subst h
    rw [lookupCustom_error _ _ _ hg]
    decide
  · split at h
    · injection h with h
      subst h
      decide
    · split at h
      · simp at h
      · injection h with h
        subst h
        decide
      · simp at h
  · split at h <;> simp at h

theorem parseStruct_error (e : Encoder) (v : Value) (f : Fault)
    (h : e.parseStruct v = .error f) : f ≠ .panic notStructMsg := by
  unfold Encoder.parseStruct at h
  split at h
  · injection h with h
    subst h
    decide
  · simp at h

theorem visit_not_precondition {ro : Flag}
    (S T : encoder → Flag → Value → String → Int → Res encoder)
    (hS : ∀ ro e v ns idx, S e ro v ns idx ≠ .error (.panic notStructMsg))
    (hT : ∀ ro e v ns idx, T e ro v ns idx ≠ .error (.panic notStructMsg))
    (e : encoder) (current : Value) (ns : String) (idx : Int) :
    visit S T e ro current ns idx ≠ .error (.panic notStructMsg) := by
  intro h
  unfold visit at h
  split at h
  · next g hg =>
    injection h with h
    subst h
    have := lookupCustom_error _ _ _ hg
    revert this
    decide
  · split at h
    · injection h with h
      revert h
      decide
    · split at h <;> simp at h
  · generalize (ExtractType current).2 = k at h
    cases k <;> simp only [visitKind] at h
    all_goals try (simp at h)
    · split at h
      all_goals
        obtain ⟨j, x, e0, hx⟩ := forIndex_error _ _ _ _ _ h
        exact hS _ _ _ _ _ hx
    · split at h
      all_goals
        obtain ⟨j, x, e0, hx⟩ := forIndex_error _ _ _ _ _ h
        exact hS _ _ _ _ _ hx
    · obtain ⟨x, e0, hx⟩ := forEach_error _ _ _ _ h
      unfold mapEntryBody at hx
      split at hx
      · next g hg =>
        injection hx with hx
        subst hx
        exact getMapKey_error _ _ _ _ hg rfl
      · split at hx
        · simp at hx
        · split at hx
          · injection hx with hx
            revert hx
            decide
          · exact hS _ _ _ _ _ hx
    · split at h
      · split at h
        · injection h with h
          revert h
          decide
        · simp at h
      · split at h
        · exact hT _ _ _ _ _ h
        · exact hT _ _ _ _ _ h

theorem traverseBody_not_precondition {ro : Flag}
    (S : encoder → Flag → Value → String → Int → Res encoder)
    (hS : ∀ ro e v ns idx, S e ro v ns idx ≠ .error (.panic notStructMsg))
    (e : encoder) (v : Value) (ns : String) (idx : Int) (typ : GoType) :
    traverseBody S e ro v ns idx typ ≠ .error (.panic notStructMsg) := by
  intro h
  unfold traverseBody at h
  split at h
  · obtain ⟨x, e0, hx⟩ := forEach_error _ _ _ _ h
    unfold anonFieldBody at hx
    split at hx
    · simp at hx
    · split at hx
      · simp at hx
      · exact hS _ _ _ _ _ hx
  · split at h
    · next g hg =>
      injection h with h
      subst h
      unfold descriptorOf at hg
      split at hg
      · simp at hg
      · split at hg
        · simp at hg
        · next g2 hg2 =>
          injection hg with hg
          subst hg
          exact parseStruct_error _ _ _ hg2 rfl
    · obtain ⟨x, e0, hx⟩ := forEach_error _ _ _ _ h
      unfold cachedFieldBody at hx
      split at hx
      · injection hx with hx
        revert hx
        decide
      · exact hS _ _ _ _ _ hx

theorem traversal_not_precondition (fuel : Nat) :
    (∀ ro e v ns idx, encoder.traverseStruct fuel e ro v ns idx ≠ .error (.panic notStructMsg)) ∧
    (∀ ro e v ns idx, encoder.setFieldByType fuel e ro v ns idx ≠ .error (.panic notStructMsg)) := by
  induction fuel with
  | zero =>
    constructor <;> intro ro e v ns idx h <;>
      simp [encoder.traverseStruct, encoder.setFieldByType] at h
  | succ fuel ih =>
    obtain ⟨ihT, ihS⟩ := ih
    constructor
    · intro ro e v ns idx h
      rw [traverseStruct_succ] at h
      split at h
      · injection h with h
        revert h
        decide
      · exact traverseBody_not_precondition _ ihS _ _ _ _ _ h
    · intro ro e v ns idx
      rw [setFieldByType_succ]
      exact visit_not_precondition _ _ ihS ihT _ _ _ _

/-! ## Nil values, map keys and custom functions: C5, C7, C4 -/

/-- C5, the claim as stated fails: with a custom function registered for the pointer type
`*int`, visiting a nil `*int` at namespace P calls the function and writes its strings under
P. -/
theorem C5_nil_pointer_registered_type_writes :
    (encoder.setFieldByType 1
        { e := NewEncoder.RegisterCustomTypeFunc (fun _ => .ok ["nil"]) [⟨"", "*int"⟩],
          errs := none, values := [] } Flag.ValueOf
        (.ptr ⟨"", "*int"⟩ none) "P" (-1)).toOption.map (fun r => r.values)
      = some [("P", ["nil"])] := by
  decide

/-- C5 as amended: a value that ExtractType resolves to a nil pointer or a nil interface, and
whose own (pointer or interface) type has no custom function, leaves the whole encoder state
unchanged (output, error map and struct cache), at every namespace and every index marker. -/
theorem C5_nil_leaves_state_unchanged (fuel : Nat) (e : encoder) (ro : Flag) (current : Value)
    (ns : String) (idx : Int)
    (hnil : (ExtractType current).2 = .Ptr ∨ (ExtractType current).2 = .Interface)
    (hreg : e.lookupCustom (ExtractType current).1 = .ok none) :
    encoder.setFieldByType (fuel + 1) e ro current ns idx = .ok e := by
  rw [setFieldByType_succ, visit, hreg]
  rcases hnil with h | h <;> simp [h, visitKind]

theorem C5_nil_leaves_state_unchanged_witness :
    encoder.setFieldByType 1 { e := NewEncoder, errs := none, values := [("A", ["1"])] } Flag.ValueOf
        (.ptr ⟨"", "*int"⟩ none) "P" 3
      = .ok { e := NewEncoder, errs := none, values := [("A", ["1"])] } :=
  C5_nil_leaves_state_unchanged 0 _ Flag.ValueOf _ "P" 3 (Or.inl rfl) rfl

/-- C7, the claim as stated fails: for a nil pointer key getMapKey returns not-ok and records
no error (the error map stays nil). -/
theorem C7_nil_pointer_key_records_no_error :
    (encoder.getMapKey { e := NewEncoder, errs := none, values := [] } Flag.ValueOf
        (.ptr ⟨"", "*int"⟩ none) "M").toOption.map (fun r => (r.1, r.2.1, r.2.2.errs))
      = some ("", false, none) := by
  decide

/-- C7 as amended: without a custom function for the key's type, (1) a key whose kind after
ExtractType is struct, slice, array, map or one of the remaining kinds is unsupported: getMapKey
returns not-ok and records the error naming the key and the namespace under that namespace;
(2) a key that resolves to a nil pointer or a nil interface returns not-ok and the state is
unchanged, no error recorded; (3) a non-nil pointer or interface key is dereferenced and handled
as the value it holds. -/
theorem C7_getMapKey_unsupported_kinds (e : encoder) (ro : Flag) (key : Value) (ns : String)
    (hreg : e.lookupCustom (ExtractType key).1 = .ok none) :
    ((ExtractType key).2 ∈ [Kind.Struct, Kind.Slice, Kind.Array, Kind.Map, Kind.Other] →
        e.getMapKey ro key ns = .ok ("", false, e.setError ns
          ("Unsupported Map Key '" ++ (ExtractType key).1.asString ++ "' Namespace '" ++ ns ++ "'"))
        ∧ mapGet ((e.setError ns
          ("Unsupported Map Key '" ++ (ExtractType key).1.asString ++ "' Namespace '" ++ ns
            ++ "'")).errs.getD []) ns
          = some ("Unsupported Map Key '" ++ (ExtractType key).1.asString ++ "' Namespace '" ++ ns
            ++ "'"))
    ∧ ((ExtractType key).2 ∈ [Kind.Ptr, Kind.Interface] → e.getMapKey ro key ns = .ok ("", false, e))
    ∧ (∀ t, e.getMapKey ro (.ptr t (some key)) ns = e.getMapKey ro key ns)
    ∧ (∀ t, e.getMapKey ro (.iface t (some key)) ns = e.getMapKey ro key ns) := by
  refine ⟨?_, ?_, fun t => rfl, fun t => ?_⟩
  rotate_left 2
  · have hreg2 : e.lookupCustom (ExtractType (.iface t (some key))).1 = .ok none := hreg
    unfold encoder.getMapKey
    simp only [hreg2, hreg]
    rfl
  · intro hk
    constructor
    · unfold encoder.getMapKey
      simp only [hreg]
      simp only [List.mem_cons, List.mem_singleton, List.not_mem_nil, or_false] at hk
      rcases hk with h | h | h | h | h <;> rw [h]
    · simp [encoder.setError, mapGet_mapSet]
  · intro hk
    unfold encoder.getMapKey
    simp only [hreg]
    simp only [List.mem_cons, List.mem_singleton, List.not_mem_nil, or_false] at hk
    rcases hk with h | h <;> rw [h]

theorem C7_getMapKey_unsupported_kinds_witness :
    encoder.getMapKey { e := NewEncoder, errs := none, values := [] } Flag.ValueOf
        (.struct ⟨"K", "main.K"⟩ []) "M"
      = .ok ("", false, encoder.setError { e := NewEncoder, errs := none, values := [] } "M"
          "Unsupported Map Key '<main.K Value>' Namespace 'M'") :=
  ((C7_getMapKey_unsupported_kinds { e := NewEncoder, errs := none, values := [] } Flag.ValueOf
      (.struct ⟨"K", "main.K"⟩ []) "M" rfl).1 (by decide)).1

/-- C4, the claim as stated fails: with a custom function registered for the struct type T,
Encode of a value of type T does not call it; the fields of T are traversed by default. -/
theorem C4_top_level_struct_ignores_registry :
    (Encoder.Encode 2
        (NewEncoder.RegisterCustomTypeFunc (fun _ => .ok ["custom"]) [⟨"T", "main.T"⟩])
        (.struct ⟨"T", "main.T"⟩ [(⟨"A", "", false, []⟩, .int ⟨"int", "int"⟩ 1)])).toOption.map
      (fun r => (r.values, r.err))
      = some ([("A", ["1"])], none) := by
  decide

/-- A value with a registered custom function that is read-only (reached through an unexported
embedded field) is not handed to the function: `v.Interface()` panics. -/
theorem setFieldByType_readOnly_panics (fuel : Nat) (e : encoder) (ro : Flag) (current : Value)
    (ns : String) (idx : Int) (cf : EncodeCustomTypeFunc)
    (hreg : e.lookupCustom (ExtractType current).1 = .ok (some cf)) (hro : ro.isRO = true) :
    encoder.setFieldByType (fuel + 1) e ro current ns idx = .error (.panic interfaceMsg) := by
  rw [setFieldByType_succ]
  simp only [visit, hreg, ExtractFlag_isRO, hro, if_true]

/-- A struct with an embedded field of the unexported type `inner`, for which a custom function
is registered: the field is visited and the run panics in `v.Interface()`. -/
theorem Encode_embedded_unexported_panics :
    Encoder.Encode 3
        (NewEncoder.RegisterCustomTypeFunc (fun _ => .ok ["custom"]) [⟨"inner", "main.inner"⟩])
        (.struct ⟨"T", "main.T"⟩
          [(⟨"inner", "main", true, []⟩,
            .struct ⟨"inner", "main.inner"⟩ [(⟨"A", "", false, []⟩, .int ⟨"int", "int"⟩ 1)])])
      = .error (.panic interfaceMsg) := by
  rfl

/-- C4 as amended: a registered custom type function for type T is used for every value of
exactly type T that setFieldByType visits and that is not read-only, that is, not reached
through an unexported field (struct fields, slice and array elements, map values, through any
pointers): its strings are appended under the visit's key, or its error is recorded under the
visit's namespace, and nothing else of the state changes, so the value is not traversed. The
top-level value is handed to traverseStruct without a registry lookup. A field is read-only
exactly when it is unexported or its struct carries the sticky read-only bit, as the elements,
map values and interface contents of a read-only value do; the top-level value is not
read-only. -/
theorem C4_custom_function_precedence (fuel : Nat) (e : encoder) (ro : Flag) (current : Value)
    (ns : String) (idx : Int) (cf : EncodeCustomTypeFunc)
    (hreg : e.lookupCustom (ExtractType current).1 = .ok (some cf))
    (hro : ro.isRO = false) :
    encoder.setFieldByType (fuel + 1) e ro current ns idx =
        (match cf (ExtractType current).1 with
        | .error err => .ok (e.setError (ptrAdjust current ns idx).1 err)
        | .ok arr =>
          .ok (e.setVal (withIndex (ptrAdjust current ns idx).1 (ptrAdjust current ns idx).2)
            (ptrAdjust current ns idx).2 arr))
    ∧ (∀ (enc : Encoder) (v : Value), (ExtractType v).2 = .Struct →
        Encoder.Encode fuel enc v =
          match encoder.traverseStruct fuel { e := enc, errs := none, values := [] }
              Flag.ValueOf (ExtractType v).1 "" topLevelMarker with
          | .error f => .error f
          | .ok r =>
            .ok { values := r.values, err := if errsLen r.errs = 0 then none else r.errs,
                  e := r.e })
    ∧ (∀ (f : Flag) (fld : StructField),
        (f.Field fld).isRO = (f.StickyRO || decide (fld.PkgPath ≠ "")))
    ∧ Flag.ValueOf.isRO = false := by
  refine ⟨?_, ?_, ?_, rfl⟩
  · rw [setFieldByType_succ]
    simp only [visit, hreg, ExtractFlag_isRO, hro, Bool.false_eq_true, if_false]
  · intro enc v hk
    unfold Encoder.Encode
    simp only [hk, ne_eq, not_true_eq_false, if_false, ExtractFlag_ValueOf]
    generalize encoder.traverseStruct fuel _ _ _ _ _ = r
    rcases r with f | r
    · rfl
    · by_cases hz : errsLen r.errs = 0 <;> simp [hz]
  · intro f fld
    unfold Flag.Field Flag.isRO
    by_cases h1 : fld.PkgPath ≠ ""
    · by_cases h2 : fld.Anonymous = true <;> simp [h1, h2]
    · simp [h1]

theorem C4_custom_function_precedence_witness :
    encoder.setFieldByType 1
        { e := NewEncoder.RegisterCustomTypeFunc (fun _ => .ok ["custom"]) [⟨"T", "main.T"⟩],
          errs := none, values := [] } Flag.ValueOf
        (.struct ⟨"T", "main.T"⟩ [(⟨"A", "", false, []⟩, .int ⟨"int", "int"⟩ 1)]) "F" (-1)
      = .ok (encoder.setVal
          { e := NewEncoder.RegisterCustomTypeFunc (fun _ => .ok ["custom"]) [⟨"T", "main.T"⟩],
            errs := none, values := [] } "F" (-1) ["custom"]) :=
  (C4_custom_function_precedence 0
    { e := NewEncoder.RegisterCustomTypeFunc (fun _ => .ok ["custom"]) [⟨"T", "main.T"⟩],
      errs := none, values := [] } Flag.ValueOf
    (.struct ⟨"T", "main.T"⟩ [(⟨"A", "", false, []⟩, .int ⟨"int", "int"⟩ 1)]) "F" (-1)
    (fun _ => .ok ["custom"]) rfl rfl).1

/-! ## Scalars in an unindexed slice: C2 -/

theorem setVal_eq (e : encoder) (ns : String) (idx : Int) (vals : List String) :
    e.setVal ns idx vals = { e with values := putVals e.values ns vals } := rfl

theorem mapGet_putVals (m : Values) (ns q : String) (vals : List String) :
    mapGet (putVals m ns vals) q
      = if ns = q then some ((mapGet m ns).getD [] ++ vals) else mapGet m q := by
  unfold putVals
  rw [mapGet_mapSet]
  by_cases h : ns = q
  · simp only [h, if_true]
    cases mapGet m q <;> simp
  · simp [h]

theorem putAll_nil (m : Values) : putAll [] m = m := rfl

theorem putAll_cons (kv : String × List String) (es : List (String × List String))
    (m : Values) : putAll (kv :: es) m = putAll es (putVals m kv.1 kv.2) := rfl

theorem putAll_append (es fs : List (String × List String)) (m : Values) :
    putAll (es ++ fs) m = putAll fs (putAll es m) := by
  simp [putAll, List.foldl_append]

/-- Reading a key after a sequence of `setVal` calls: untouched if no call named the key,
otherwise the old values followed by the values of the calls that named it, in order. -/
theorem mapGet_putAll (es : List (String × List String)) (m : Values) (q : String) :
    mapGet (putAll es m) q
      = if es.filter (fun kv => kv.1 = q) = [] then mapGet m q
        else some ((mapGet m q).getD []
          ++ ((es.filter (fun kv => kv.1 = q)).map (fun kv => kv.2)).flatten) := by
  induction es generalizing m with
  | nil => simp [putAll_nil]
  | cons kv es ih =>
    rw [putAll_cons, ih, mapGet_putVals]
    by_cases h : kv.1 = q
    · simp only [h, if_true, List.filter_cons, decide_True, List.map_cons, List.flatten_cons,
        Option.getD_some]
      by_cases h2 : es.filter (fun kv => decide (kv.1 = q)) = []
      · simp [h2]
      · simp [h2, List.append_assoc]
    · rw [if_neg h, List.filter_cons_of_neg (by simpa using h)]

theorem lookupCustom_congr (e1 e2 : encoder) (v : Value)
    (h : e1.e.customTypeFuncs = e2.e.customTypeFuncs) : e1.lookupCustom v = e2.lookupCustom v := by
  unfold encoder.lookupCustom
  rw [h]

/-- The default dispatch on a scalar appends its text under the namespace as it stands: the
marker is not consulted. -/
theorem setFieldByType_scalar {ro : Flag}
    (fuel : Nat) (e : encoder) (x : Value) (t : String) (ns : String)
    (idx : Int) (hx : scalarText x = some t) (hreg : e.lookupCustom x = .ok none) :
    encoder.setFieldByType (fuel + 1) e ro x ns idx = .ok (e.setVal ns idx [t]) := by
  rw [setFieldByType_succ]
  cases x <;> simp only [scalarText] at hx <;> try contradiction
  all_goals
    injection hx with hx
    subst hx
    simp [ptrAdjust, visit, hreg, visitKind, Value.Kind, Value.asString,
      Value.asUint, Value.asInt, Value.asBool]

theorem forIndex_scalars {ro : Flag}
    (fuel : Nat) (F : String) (xs : List Value) (k : Nat) (e : encoder)
    (hsc : ∀ x ∈ xs, (scalarText x).isSome) (hreg : ∀ x ∈ xs, e.lookupCustom x = .ok none) :
    forIndex (fun i x e => encoder.setFieldByType (fuel + 1) e ro x F (i : Int)) xs k e
      = .ok { e with
          values := putAll ((xs.filterMap scalarText).map (fun t => (F, [t]))) e.values } := by
  induction xs generalizing k e with
  | nil => simp [forIndex, putAll_nil]
  | cons x xs ih =>
    obtain ⟨t, ht⟩ := Option.isSome_iff_exists.mp (hsc x (List.mem_cons_self _ _))
    rw [forIndex, setFieldByType_scalar fuel e x t F k ht (hreg x (List.mem_cons_self _ _))]
    simp only
    rw [ih]
    · simp [setVal_eq, ht, putAll_cons, List.filterMap_cons]
    · intro y hy; exact hsc y (List.mem_cons_of_mem _ hy)
    · intro y hy
      rw [lookupCustom_congr (e.setVal F k [t]) e y rfl]
      exact hreg y (List.mem_cons_of_mem _ hy)

theorem mapGet_putAll_same_key (F : String) (ts : List String) (m : Values) (q : String) :
    mapGet (putAll (ts.map (fun t => (F, [t]))) m) q
      = if q = F ∧ ts ≠ [] then some ((mapGet m F).getD [] ++ ts) else mapGet m q := by
  rw [mapGet_putAll]
  by_cases h : q = F
  · subst h
    have : (ts.map (fun t => (q, [t]))).filter (fun kv => decide (kv.1 = q))
        = ts.map (fun t => (q, [t])) := by
      apply List.filter_eq_self.mpr
      simp
    rw [this]
    cases ts with
    | nil => simp
    | cons a ts =>
      simp only [List.map_cons, reduceCtorEq, if_false, ne_eq, not_false_eq_true, and_self,
        if_true, List.map_map]
      congr 2
      have : ∀ l : List String, (l.map ((fun kv : String × List String => kv.2) ∘ fun t => (q, [t]))).flatten = l := by
        intro l
        induction l with
        | nil => rfl
        | cons b l ih => simp [ih]
      simpa using this ts
  · have : (ts.map (fun t => (F, [t]))).filter (fun kv => decide (kv.1 = q)) = [] := by
      apply List.filter_eq_nil_iff.mpr
      intro kv hkv
      obtain ⟨t, -, rfl⟩ := List.mem_map.mp hkv
      simpa using Ne.symm h
    simp [this, h]

/-- C2, the claim as stated fails: with no custom function for the element type int but one
registered for the slice type `[]int`, the slice is handed to that function and its strings,
not the elements, are written under Nums. -/
theorem C2_slice_type_function_takes_over :
    (encoder.setFieldByType 2
        { e := NewEncoder.RegisterCustomTypeFunc (fun _ => .ok ["z"]) [⟨"", "[]int"⟩],
          errs := none, values := [] } Flag.ValueOf
        (.slice ⟨"", "[]int"⟩
          [.int ⟨"int", "int"⟩ 1, .int ⟨"int", "int"⟩ 2, .int ⟨"int", "int"⟩ 3])
        "Nums" (-1)).toOption.map (fun r => r.values)
      = some [("Nums", ["z"])] := by
  decide

/-- C2 as amended: for every slice or array of scalars (string, int, uint, bool) visited at
namespace F with the unindexed marker -1, with no custom type function for the type of the
slice or array itself nor for its elements, the visit returns, changes neither the error map
nor the encoder, leaves every key other than F as it was, and (when there is at least one
element) leaves under F the values F already held followed by the texts of the elements in
index order. -/
theorem C2_unindexed_slice_of_scalars (fuel : Nat) (e : encoder) (ro : Flag) (current : Value)
    (t : GoType) (xs : List Value) (F : String)
    (hcur : current = .slice t xs ∨ current = .array t xs)
    (hsc : ∀ x ∈ xs, (scalarText x).isSome)
    (hreg : e.lookupCustom current = .ok none)
    (hregx : ∀ x ∈ xs, e.lookupCustom x = .ok none) :
    ∃ r, encoder.setFieldByType (fuel + 2) e ro current F (-1) = .ok r
      ∧ r.e = e.e ∧ r.errs = e.errs
      ∧ (∀ q, q ≠ F → mapGet r.values q = mapGet e.values q)
      ∧ (xs = [] → mapGet r.values F = mapGet e.values F)
      ∧ (xs ≠ [] →
          mapGet r.values F = some ((mapGet e.values F).getD [] ++ xs.filterMap scalarText)) := by
  refine ⟨{ e with
      values := putAll ((xs.filterMap scalarText).map (fun t => (F, [t]))) e.values },
    ?_, rfl, rfl, ?_, ?_, ?_⟩
  · rw [setFieldByType_succ]
    rcases hcur with h | h <;> subst h
    all_goals
      simp only [ptrAdjust, visit, ExtractType_slice, ExtractType_array, hreg, visitKind,
        Value.elems]
      simp only [gt_iff_lt, lt_self_iff_false, false_and, if_false, if_true]
      exact forIndex_scalars fuel F xs 0 e hsc hregx
  · intro q hq
    simp [mapGet_putAll_same_key, hq]
  · intro hx
    simp [hx, putAll_nil]
  · intro hx
    have hne : xs.filterMap scalarText ≠ [] := by
      cases xs with
      | nil => exact absurd rfl hx
      | cons x xs =>
        obtain ⟨t, ht⟩ := Option.isSome_iff_exists.mp (hsc x (List.mem_cons_self _ _))
        simp [List.filterMap_cons, ht]
    simp [mapGet_putAll_same_key, hne]

theorem C2_unindexed_slice_of_scalars_witness :
    ∃ r, encoder.setFieldByType 2 { e := NewEncoder, errs := none, values := [] } Flag.ValueOf
        (.slice ⟨"", "[]int"⟩
          [.int ⟨"int", "int"⟩ 1, .int ⟨"int", "int"⟩ 2, .int ⟨"int", "int"⟩ 3]) "Nums" (-1) = .ok r
      ∧ r.e = NewEncoder ∧ r.errs = none
      ∧ (∀ q, q ≠ "Nums" → mapGet r.values q = none)
      ∧ mapGet r.values "Nums" = some ["1", "2", "3"] := by
  have h := C2_unindexed_slice_of_scalars 0 { e := NewEncoder, errs := none, values := [] }
    Flag.ValueOf (.slice ⟨"", "[]int"⟩
      [.int ⟨"int", "int"⟩ 1, .int ⟨"int", "int"⟩ 2, .int ⟨"int", "int"⟩ 3])
    ⟨"", "[]int"⟩ [.int ⟨"int", "int"⟩ 1, .int ⟨"int", "int"⟩ 2, .int ⟨"int", "int"⟩ 3] "Nums"
    (Or.inl rfl) (by decide) rfl (by intro x _; rfl)
  obtain ⟨r, h1, h2, h3, h4, -, h5⟩ := h
  exact ⟨r, h1, h2, h3, h4, by rw [h5 (by simp)]; decide⟩

/-! ## The end-to-end example: C1 -/

theorem lookupCustom_none (e : encoder) (v : Value) (h : e.e.customTypeFuncs = none) :
    e.lookupCustom v = .ok none := by
  simp [encoder.lookupCustom, h]

theorem getMapKey_str {ro : Flag} (e : encoder) (t : GoType) (k ns : String)
    (h : e.e.customTypeFuncs = none) :
    e.getMapKey ro (.str t k) ns = .ok (k, true, e) := by
  simp [encoder.getMapKey, encoder.lookupCustom, h, Value.asString]

/-- An unindexed slice of scalars appends the texts of its elements under its own namespace. -/
theorem setFieldByType_unindexed_slice {ro : Flag} (fuel : Nat) (e : encoder) (t : GoType)
    (xs : List Value) (F : String)
    (hsc : ∀ x ∈ xs, (scalarText x).isSome)
    (hreg : e.e.customTypeFuncs = none) :
    encoder.setFieldByType (fuel + 2) e ro (.slice t xs) F (-1)
      = .ok { e with
          values := putAll ((xs.filterMap scalarText).map (fun t => (F, [t]))) e.values } := by
  rw [setFieldByType_succ]
  simp only [ptrAdjust, visit, ExtractType_slice, lookupCustom_none e _ hreg, visitKind,
    Value.elems]
  simp only [gt_iff_lt, lt_self_iff_false, false_and, if_false, if_true]
  exact forIndex_scalars fuel F xs 0 e hsc (fun x _ => lookupCustom_none e x hreg)

theorem MapIndex_of_map (cur : Value) (entry : Value × Value) (h : cur.Kind = .Map) :
    cur.MapIndex entry = some entry.2 := by
  simp [Value.MapIndex, h]

/-- The loop over the entries of a map with string keys and int values: each entry appends the
decimal text of its value under namespace[key]. -/
theorem forEach_string_int_entries {ro : Flag}
    (fuel : Nat) (cur : Value) (ns : String) (tk tv : GoType)
    (m : List (String × Int)) (e : encoder)
    (hcur : cur.Kind = .Map) (hreg : e.e.customTypeFuncs = none) :
    forEach (mapEntryBody (encoder.setFieldByType (fuel + 1)) ro cur ns)
        (m.map (fun kv => (Value.str tk kv.1, Value.int tv kv.2))) e
      = .ok { e with
          values := putAll (m.map (fun kv => (ns ++ "[" ++ kv.1 ++ "]", [FormatInt kv.2])))
            e.values } := by
  induction m generalizing e with
  | nil => simp [forEach, putAll_nil]
  | cons kv m ih =>
    rw [List.map_cons, forEach, mapEntryBody, getMapKey_str e tk kv.1 ns hreg]
    simp only [Bool.true_eq_false, if_false, MapIndex_of_map cur _ hcur]
    rw [setFieldByType_scalar fuel e (.int tv kv.2) (FormatInt kv.2) _ (-2) rfl
      (lookupCustom_none e _ hreg)]
    simp only
    rw [ih (e.setVal (ns ++ "[" ++ kv.1 ++ "]") (-2) [FormatInt kv.2]) hreg]
    simp [setVal_eq, putAll_cons]

theorem setFieldByType_string_int_map {ro : Flag} (fuel : Nat) (e : encoder) (tm tk tv : GoType)
    (m : List (String × Int)) (F : String) (hreg : e.e.customTypeFuncs = none) :
    encoder.setFieldByType (fuel + 2) e ro
        (.map tm (m.map (fun kv => (Value.str tk kv.1, Value.int tv kv.2)))) F (-1)
      = .ok { e with
          values := putAll (m.map (fun kv => (F ++ "[" ++ kv.1 ++ "]", [FormatInt kv.2])))
            e.values } := by
  rw [setFieldByType_succ]
  simp only [ptrAdjust, visit, ExtractType_map, lookupCustom_none e _ hreg, visitKind,
    Value.entries, withIndex]
  simp only [gt_iff_lt, lt_self_iff_false, false_and, if_false]
  exact forEach_string_int_entries fuel (.map tm _) F tk tv m e rfl hreg

theorem filterMap_scalarText_str (te : GoType) (ts : List String) :
    (ts.map (fun s => Value.str te s)).filterMap scalarText = ts := by
  induction ts with
  | nil => rfl
  | cons a ts ih => simp [List.filterMap_cons, scalarText, ih]

theorem visit_name_tags_meta {ro : Flag} (fuel : Nat) (e : encoder) (tn tt te tm tk tv : GoType)
    (n : String) (ts : List String) (m : List (String × Int))
    (hreg : e.e.customTypeFuncs = none) :
    ∃ e1 e2,
      encoder.setFieldByType (fuel + 2) e ro (.str tn n) "Name" (-1) = .ok e1
      ∧ encoder.setFieldByType (fuel + 2) e1 ro
          (.slice tt (ts.map (fun s => Value.str te s))) "Tags" (-1) = .ok e2
      ∧ encoder.setFieldByType (fuel + 2) e2 ro
          (.map tm (m.map (fun (kv : String × Int) => (Value.str tk kv.1, Value.int tv kv.2))))
          "Meta" (-1)
        = .ok { e with values := putAll (nameTagsMetaEmits n ts m) e.values } := by
  have hsc : ∀ x ∈ ts.map (fun s => Value.str te s), (scalarText x).isSome := by
    intro x hx
    obtain ⟨s, -, rfl⟩ := List.mem_map.mp hx
    rfl
  refine ⟨_, _, setFieldByType_scalar (fuel + 1) e (.str tn n) n "Name" (-1) rfl
    (lookupCustom_none e _ hreg),
    setFieldByType_unindexed_slice fuel (e.setVal "Name" (-1) [n]) tt _ "Tags" hsc hreg, ?_⟩
  rw [setFieldByType_string_int_map fuel _ tm tk tv m "Meta" (by exact hreg),
    filterMap_scalarText_str]
  simp [setVal_eq, nameTagsMetaEmits, putAll_cons, putAll_append]

theorem traverseStruct_nameTagsMeta {ro : Flag}
    (fuel : Nat) (e : encoder) (typ tn tt te tm tk tv : GoType)
    (n : String) (ts : List String) (m : List (String × Int))
    (hreg : e.e.customTypeFuncs = none)
    (hcache : typ.Name = "" ∨ e.e.structCache.Get typ = none
      ∨ e.e.structCache.Get typ = some ⟨[⟨0, "Name"⟩, ⟨1, "Tags"⟩, ⟨2, "Meta"⟩]⟩) :
    ∃ r, encoder.traverseStruct (fuel + 3) e ro (nameTagsMeta typ tn tt te tm tk tv n ts m) "" (-1)
        = .ok r
      ∧ r.values = putAll (nameTagsMetaEmits n ts m) e.values ∧ r.errs = e.errs := by
  rw [traverseStruct_succ]
  simp only [nameTagsMeta, Value.Type, traverseBody]
  have hfn : ∀ key : String, fieldNs "" key = key := fun key => rfl
  have hget : ∀ t : String, StructTag.Get [] t = "" := fun t => rfl
  by_cases hname : typ.Name.length = 0
  · simp only [hname, if_true, Value.fields, forEach, anonFieldBody, plainField, blank, hget,
      ne_eq, not_true_eq_false, false_and, if_false, hfn]
    simp only [show ("" = ignore) = False by decide, if_false,
      show ("".length = 0) = True by decide, if_true, Flag.Field_exported]
    obtain ⟨e1, e2, h1, h2, h3⟩ :=
      @visit_name_tags_meta ⟨ro.StickyRO, false⟩ fuel e tn tt te tm tk tv n ts m hreg
    simp only [h1, h2, h3]
    exact ⟨_, rfl, rfl, rfl⟩
  · have hnn : typ.Name ≠ "" := fun h => hname ((length_eq_zero_iff _).mpr h)
    have hd : descriptorFrom e.e.tagName
        [(plainField "Name", Value.str tn n),
          (plainField "Tags", Value.slice tt (ts.map (fun s => Value.str te s))),
          (plainField "Meta",
            Value.map tm (m.map (fun kv => (Value.str tk kv.1, Value.int tv kv.2))))] 0
        = [⟨0, "Name"⟩, ⟨1, "Tags"⟩, ⟨2, "Meta"⟩] := by
      have hx : ∀ nm : String, excluded e.e.tagName (plainField nm) = false := by
        intro nm
        simp [excluded, plainField, hget, blank, ignore]
      have hk : ∀ nm : String, keyName e.e.tagName (plainField nm) = nm := by
        intro nm
        simp [keyName, plainField, hget]
      simp [descriptorFrom, hx, hk]
    rcases hcache with hc | hc | hc
    · exact absurd hc hnn
    · simp only [hname, if_false, descriptorOf, hc, Encoder.parseStruct, Value.Type,
        Value.fields, parseStructLoop_eq, List.nil_append, hd, forEach, cachedFieldBody,
        Value.Field, List.get?, Option.map, hfn, Value.FieldFlag, Flag.Field_plainField]
      obtain ⟨e1, e2, h1, h2, h3⟩ := @visit_name_tags_meta ⟨ro.StickyRO, false⟩ fuel
        { e := { tagName := e.e.tagName,
                 structCache := structCacheMap.Set e.e.structCache typ
                   ⟨[⟨0, "Name"⟩, ⟨1, "Tags"⟩, ⟨2, "Meta"⟩]⟩,
                 customTypeFuncs := e.e.customTypeFuncs },
          errs := e.errs, values := e.values }
        tn tt te tm tk tv n ts m hreg
      simp only [h1, h2, h3]
      exact ⟨_, rfl, rfl, rfl⟩
    · simp only [hname, if_false, descriptorOf, hc, forEach, cachedFieldBody, Value.Field,
        Value.fields, List.get?, Option.map, hfn, Value.FieldFlag, Flag.Field_plainField]
      obtain ⟨e1, e2, h1, h2, h3⟩ :=
        @visit_name_tags_meta ⟨ro.StickyRO, false⟩ fuel e tn tt te tm tk tv n ts m hreg
      simp only [h1, h2, h3]
      exact ⟨_, rfl, rfl, rfl⟩

theorem filter_key_eq_nil (es : List (String × List String)) (q : String)
    (h : ∀ kv ∈ es, kv.1 ≠ q) : es.filter (fun kv => kv.1 = q) = [] := by
  apply List.filter_eq_nil_iff.mpr
  intro kv hkv
  simpa using h kv hkv

theorem mapGet_putAll_fresh (es : List (String × List String)) (q : String)
    (h : mapGet (putAll es []) q ≠ none) : ∃ kv ∈ es, kv.1 = q := by
  rw [mapGet_putAll] at h
  by_cases hf : es.filter (fun kv => kv.1 = q) = []
  · rw [if_pos hf] at h
    exact absurd rfl h
  · obtain ⟨kv, hkv⟩ := List.exists_mem_of_ne_nil _ hf
    rw [List.mem_filter] at hkv
    exact ⟨kv, hkv.1, by simpa using hkv.2⟩

theorem bracket_key_inj (F k1 k2 : String) (h : F ++ "[" ++ k1 ++ "]" = F ++ "[" ++ k2 ++ "]") :
    k1 = k2 := by
  have := congrArg String.data h
  simp only [String.data_append, List.append_assoc, List.append_cancel_left_eq,
    List.append_cancel_right_eq] at this
  exact String.ext this

/-- Among the writes of a map with distinct string keys, exactly one names the key of a given
entry. -/
theorem filter_bracket_keys (F : String) (m : List (String × Int))
    (hnd : (m.map Prod.fst).Nodup) (kv : String × Int) (hmem : kv ∈ m) :
    (m.map (fun kv => (F ++ "[" ++ kv.1 ++ "]", [FormatInt kv.2]))).filter
        (fun p => p.1 = F ++ "[" ++ kv.1 ++ "]")
      = [(F ++ "[" ++ kv.1 ++ "]", [FormatInt kv.2])] := by
  induction m with
  | nil => simp at hmem
  | cons a m ih =>
    rw [List.map_cons, List.nodup_cons] at hnd
    by_cases ha : a = kv
    · subst ha
      rw [List.map_cons, List.filter_cons_of_pos (by simp)]
      congr 1
      apply filter_key_eq_nil
      intro p hp
      obtain ⟨b, hb, rfl⟩ := List.mem_map.mp hp
      intro hEq
      have := bracket_key_inj F _ _ hEq
      exact hnd.1 (this ▸ List.mem_map_of_mem Prod.fst hb)
    · have hin : kv ∈ m := by
        rcases List.mem_cons.mp hmem with h | h
        · exact absurd h.symm ha
        · exact h
      have hne : a.1 ≠ kv.1 := by
        intro hEq
        exact hnd.1 (hEq ▸ List.mem_map_of_mem Prod.fst hin)
      rw [List.map_cons, List.filter_cons_of_neg, ih hnd.2 hin]
      simp only [decide_eq_true_eq]
      intro hEq
      exact hne (bracket_key_inj F _ _ hEq)

theorem meta_key_ne_name (k : String) : "Meta[" ++ k ++ "]" ≠ "Name" := by
  intro h
  have := congrArg String.data h
  simp [String.data_append] at this

theorem meta_key_ne_tags (k : String) : "Meta[" ++ k ++ "]" ≠ "Tags" := by
  intro h
  have := congrArg String.data h
  simp [String.data_append] at this

/-- C1: for every string n, list of strings ts and map m from distinct string keys to ints,
Encode of the struct with fields Name = n, Tags = ts, Meta = m (no tags, no custom type
functions, struct cache without a descriptor for the type or with its descriptor, any fuel from
3 on) returns a nil error
and an output whose entries are exactly Name -> [n], Tags -> ts when ts is not empty, and
Meta[k] -> [decimal text of v] for each entry (k, v) of m. -/
theorem C1_encode_name_tags_meta (fuel : Nat) (enc : Encoder)
    (typ tn tt te tm tk tv : GoType) (n : String) (ts : List String) (m : List (String × Int))
    (hreg : enc.customTypeFuncs = none)
    (hcache : typ.Name = "" ∨ enc.structCache.Get typ = none
      ∨ enc.structCache.Get typ = some ⟨[⟨0, "Name"⟩, ⟨1, "Tags"⟩, ⟨2, "Meta"⟩]⟩)
    (hkeys : (m.map Prod.fst).Nodup) :
    ∃ r, enc.Encode (fuel + 3) (nameTagsMeta typ tn tt te tm tk tv n ts m) = .ok r
      ∧ r.err = none
      ∧ mapGet r.values "Name" = some [n]
      ∧ (ts ≠ [] → mapGet r.values "Tags" = some ts)
      ∧ (ts = [] → mapGet r.values "Tags" = none)
      ∧ (∀ kv ∈ m, mapGet r.values ("Meta[" ++ kv.1 ++ "]") = some [FormatInt kv.2])
      ∧ (∀ q, mapGet r.values q ≠ none →
          q = "Name" ∨ q = "Tags" ∨ ∃ kv ∈ m, q = "Meta[" ++ kv.1 ++ "]") := by
  obtain ⟨r, hr, hv, he⟩ := traverseStruct_nameTagsMeta fuel
    { e := enc, errs := none, values := [] } typ tn tt te tm tk tv n ts m hreg hcache
  have htags : ∀ q : String, q ≠ "Tags" →
      (ts.map (fun t => ("Tags", [t]))).filter (fun p => p.1 = q) = [] := by
    intro q hq
    apply filter_key_eq_nil
    intro p hp
    obtain ⟨t, -, rfl⟩ := List.mem_map.mp hp
    exact Ne.symm hq
  have hmeta : ∀ q : String, (∀ k : String, q ≠ "Meta[" ++ k ++ "]") →
      (m.map (fun kv => ("Meta" ++ "[" ++ kv.1 ++ "]", [FormatInt kv.2]))).filter
        (fun p => p.1 = q) = [] := by
    intro q hq
    apply filter_key_eq_nil
    intro p hp
    obtain ⟨kv, -, rfl⟩ := List.mem_map.mp hp
    exact Ne.symm (hq kv.1)
  refine ⟨{ values := r.values, err := none, e := r.e }, ?_, rfl, ?_, ?_, ?_, ?_, ?_⟩
  · unfold Encoder.Encode topLevelMarker
    simp only [nameTagsMeta, ExtractType_struct, ne_eq, not_true_eq_false, if_false]
    simp only [nameTagsMeta] at hr
    rw [hr]
    simp [he, errsLen]
  all_goals simp only [hv]
  · rw [mapGet_putAll, nameTagsMetaEmits, List.filter_cons_of_pos (by simp), List.filter_append,
      htags "Name" (by decide), hmeta "Name" (fun k => Ne.symm (meta_key_ne_name k))]
    simp [mapGet]
  · intro hts
    rw [mapGet_putAll, nameTagsMetaEmits, List.filter_cons_of_neg (by simp), List.filter_append,
      hmeta "Tags" (fun k => Ne.symm (meta_key_ne_tags k)), List.append_nil,
      List.filter_eq_self.mpr (by simp)]
    have : ∀ l : List String,
        ((l.map (fun t => (("Tags", [t]) : String × List String))).map (fun kv => kv.2)).flatten
          = l := by
      intro l
      induction l with
      | nil => rfl
      | cons b l ih => simpa using ih
    have h2 := this ts
    simp only [List.map_map] at h2
    simp [hts, h2, mapGet]
  · intro hts
    subst hts
    rw [mapGet_putAll, nameTagsMetaEmits, List.filter_cons_of_neg (by simp), List.filter_append,
      hmeta "Tags" (fun k => Ne.symm (meta_key_ne_tags k))]
    simp [mapGet]
  · intro kv hkv
    rw [mapGet_putAll, nameTagsMetaEmits,
      List.filter_cons_of_neg (by simpa using Ne.symm (meta_key_ne_name kv.1)),
      List.filter_append, htags _ (meta_key_ne_tags kv.1), List.nil_append]
    have := filter_bracket_keys "Meta" m hkeys kv hkv
    simp only [show "Meta" ++ "[" = "Meta[" by decide] at this ⊢
    rw [this]
    simp [mapGet]
  · intro q hq
    obtain ⟨p, hp, rfl⟩ := mapGet_putAll_fresh _ _ hq
    rw [nameTagsMetaEmits, List.mem_cons, List.mem_append] at hp
    rcases hp with h | h | h
    · left; rw [h]
    · right; left
      obtain ⟨t, -, rfl⟩ := List.mem_map.mp h
      rfl
    · right; right
      obtain ⟨kv, hkv, rfl⟩ := List.mem_map.mp h
      exact ⟨kv, hkv, rfl⟩

theorem C1_encode_name_tags_meta_witness :
    ∃ r, NewEncoder.Encode 3
        (nameTagsMeta ⟨"T", "main.T"⟩ ⟨"string", "string"⟩ ⟨"", "[]string"⟩ ⟨"string", "string"⟩
          ⟨"", "map[string]int"⟩ ⟨"string", "string"⟩ ⟨"int", "int"⟩
          "x" ["a", "b"] [("k", 1)]) = .ok r
      ∧ r.err = none
      ∧ mapGet r.values "Name" = some ["x"]
      ∧ mapGet r.values "Tags" = some ["a", "b"]
      ∧ mapGet r.values "Meta[k]" = some ["1"]
      ∧ (∀ q, mapGet r.values q ≠ none → q = "Name" ∨ q = "Tags" ∨ q = "Meta[k]") := by
  obtain ⟨r, h1, h2, h3, h4, -, h5, h6⟩ := C1_encode_name_tags_meta 0 NewEncoder
    ⟨"T", "main.T"⟩ ⟨"string", "string"⟩ ⟨"", "[]string"⟩ ⟨"string", "string"⟩
    ⟨"", "map[string]int"⟩ ⟨"string", "string"⟩ ⟨"int", "int"⟩
    "x" ["a", "b"] [("k", 1)] rfl (Or.inr (Or.inl rfl)) (by decide)
  refine ⟨r, h1, h2, h3, h4 (by decide), h5 ("k", 1) (by simp), ?_⟩
  intro q hq
  rcases h6 q hq with h | h | ⟨kv, hkv, h⟩
  · exact Or.inl h
  · exact Or.inr (Or.inl h)
  · simp only [List.mem_singleton] at hkv
    subst hkv
    exact Or.inr (Or.inr h)

/-! ## Decimal texts -/

theorem digitChar_isDigit : ∀ m, m < 10 → (Nat.digitChar m).isDigit = true := by decide

theorem digitChar_value : ∀ m, m < 10 → (Nat.digitChar m).toNat - 48 = m := by decide

theorem toDigitsCore_isDigit (fuel : Nat) : ∀ (n : Nat) (ds : List Char),
    (∀ c ∈ ds, c.isDigit = true) → ∀ c ∈ Nat.toDigitsCore 10 fuel n ds, c.isDigit = true := by
  induction fuel with
  | zero => intro n ds h c hc; exact h c hc
  | succ fuel ih =>
    intro n ds h c hc
    rw [Nat.toDigitsCore] at hc
    have hd : ∀ c ∈ Nat.digitChar (n % 10) :: ds, c.isDigit = true := by
      intro c hc
      rcases List.mem_cons.mp hc with h1 | h1
      · rw [h1]; exact digitChar_isDigit _ (Nat.mod_lt _ (by decide))
      · exact h c h1
    split at hc
    · exact hd c hc
    · exact ih _ _ hd c hc

theorem toDigitsCore_value (fuel : Nat) : ∀ (n : Nat) (ds : List Char), n < fuel →
    digitsValue (Nat.toDigitsCore 10 fuel n ds) = n * 10 ^ ds.length + digitsValue ds := by
  induction fuel with
  | zero => intro n ds h; exact absurd h (Nat.not_lt_zero _)
  | succ fuel ih =>
    intro n ds h
    rw [Nat.toDigitsCore]
    have hv : digitsValue (Nat.digitChar (n % 10) :: ds)
        = (n % 10) * 10 ^ ds.length + digitsValue ds := by
      rw [digitsValue, digitChar_value _ (Nat.mod_lt _ (by decide))]
    split
    · next h0 =>
      rw [hv]
      have : n % 10 = n := by
        have := Nat.div_add_mod n 10
        omega
      rw [this]
    · next h0 =>
      have hlt : n / 10 < fuel := by omega
      rw [ih _ _ hlt, hv, List.length_cons, pow_succ]
      have hn : n * 10 ^ ds.length = (10 * (n / 10) + n % 10) * 10 ^ ds.length := by
        rw [Nat.div_add_mod]
      rw [hn]
      ring

theorem repr_isDigit (n : Nat) : ∀ c ∈ (Nat.repr n).data, c.isDigit = true := by
  intro c hc
  exact toDigitsCore_isDigit _ _ _ (by simp) c hc

theorem repr_value (n : Nat) : digitsValue (Nat.repr n).data = n := by
  have := toDigitsCore_value (n + 1) n [] (Nat.lt_succ_self n)
  simpa [digitsValue] using this

theorem repr_injective (a b : Nat) (h : Nat.repr a = Nat.repr b) : a = b := by
  rw [← repr_value a, ← repr_value b, h]

theorem Itoa_nat (n : Nat) : Itoa (n : Int) = Nat.repr n := by
  simp [Itoa, FormatInt]

/-- Two texts that each start with digits and continue with a character that is not a digit
agree only if the digits and the rests agree. -/
theorem digits_split (d1 d2 r1 r2 : List Char) (c1 c2 : Char)
    (h1 : ∀ c ∈ d1, c.isDigit = true) (h2 : ∀ c ∈ d2, c.isDigit = true)
    (hc1 : c1.isDigit = false) (hc2 : c2.isDigit = false)
    (h : d1 ++ c1 :: r1 = d2 ++ c2 :: r2) : d1 = d2 ∧ c1 = c2 ∧ r1 = r2 := by
  induction d1 generalizing d2 with
  | nil =>
    cases d2 with
    | nil =>
      simp only [List.nil_append, List.cons.injEq] at h
      exact ⟨rfl, h.1, h.2⟩
    | cons b d2 =>
      simp only [List.nil_append, List.cons_append, List.cons.injEq] at h
      have := h2 b (List.mem_cons_self _ _)
      rw [← h.1, hc1] at this
      exact absurd this (by decide)
  | cons a d1 ih =>
    cases d2 with
    | nil =>
      simp only [List.nil_append, List.cons_append, List.cons.injEq] at h
      have := h1 a (List.mem_cons_self _ _)
      rw [h.1, hc2] at this
      exact absurd this (by decide)
    | cons b d2 =>
      simp only [List.cons_append, List.cons.injEq] at h
      obtain ⟨e1, e2, e3⟩ := ih d2 (fun c hc => h1 c (List.mem_cons_of_mem _ hc))
        (fun c hc => h2 c (List.mem_cons_of_mem _ hc)) h.2
      exact ⟨by rw [h.1, e1], e2, e3⟩

/-! ## Slices inside an indexed context: C3 -/

theorem forIndex_indexed_ints {ro : Flag}
    (fuel : Nat) (ns : String) (tint : GoType) (nums : List Int)
    (k : Nat) (e : encoder) (hreg : e.e.customTypeFuncs = none) :
    forIndex (fun i x e =>
        encoder.setFieldByType (fuel + 1) e ro x (ns ++ "[" ++ Itoa (i : Int) ++ "]") (-2))
        (nums.map (fun x => Value.int tint x)) k e
      = .ok { e with values := putAll (indexedEmits ns nums k) e.values } := by
  induction nums generalizing k e with
  | nil => simp [forIndex, indexedEmits, putAll_nil]
  | cons x xs ih =>
    rw [List.map_cons, forIndex,
      setFieldByType_scalar fuel e (.int tint x) (FormatInt x) _ (-2) rfl
        (lookupCustom_none e _ hreg)]
    simp only
    rw [ih (k + 1) (e.setVal (ns ++ "[" ++ Itoa (k : Int) ++ "]") (-2) [FormatInt x]) hreg]
    simp [setVal_eq, indexedEmits, putAll_cons]

theorem setFieldByType_indexed_ints {ro : Flag} (fuel : Nat) (e : encoder) (tnums tint : GoType)
    (nums : List Int) (ns : String) (hreg : e.e.customTypeFuncs = none) :
    encoder.setFieldByType (fuel + 2) e ro (.slice tnums (nums.map (fun x => Value.int tint x)))
        ns (-2)
      = .ok { e with values := putAll (indexedEmits ns nums 0) e.values } := by
  rw [setFieldByType_succ]
  simp only [ptrAdjust, visit, ExtractType_slice, lookupCustom_none e _ hreg, visitKind,
    Value.elems, withIndex]
  simp only [gt_iff_lt, show ¬ ((-1 : Int) < -2) by decide, false_and, if_false,
    show ((-2 : Int) = -1) = False by decide]
  exact forIndex_indexed_ints fuel ns tint nums 0 e hreg

theorem append_bracket_length (F s : String) : ¬ (F ++ "[" ++ s ++ "]").length = 0 := by
  rw [length_eq_zero_iff]
  intro h
  have := congrArg String.data h
  simp [String.data_append] at this

/-- One element of the outer slice, visited with its index pending: the index is applied to the
namespace once and the writes of its Nums field carry their own index. -/
theorem setFieldByType_numsStruct {ro : Flag} (fuel : Nat) (e : encoder) (ti tnums tint : GoType)
    (nums : List Int) (F : String) (i : Nat)
    (hreg : e.e.customTypeFuncs = none) (hti : ti ≠ timeType) (hc : numsCacheOk e ti) :
    ∃ r, encoder.setFieldByType (fuel + 4) e ro (numsStruct ti tnums tint nums) F (i : Int) = .ok r
      ∧ r.values = putAll (indexedEmits
          (F ++ "[" ++ Itoa (i : Int) ++ "]" ++ namespaceSeparator ++ "Nums") nums 0) e.values
      ∧ r.errs = e.errs ∧ r.e.customTypeFuncs = none ∧ numsCacheOk r ti
      ∧ ∀ t, t ≠ ti → r.e.structCache.Get t = e.e.structCache.Get t := by
  have hi : (i : Int) > -1 := by omega
  have hi2 : ¬ ((i : Int) = -1) := by omega
  have hget : ∀ t : String, StructTag.Get [] t = "" := fun t => rfl
  rw [setFieldByType_succ]
  simp only [numsStruct, ptrAdjust, Value.Kind, visit, ExtractType_struct,
    lookupCustom_none e _ hreg, visitKind, Value.Type, withIndex, hi, hi2, if_true, if_false,
    reduceCtorEq, and_false, Option.some.injEq, hti]
  rw [traverseStruct_succ]
  simp only [Value.Type, traverseBody, fieldNs, append_bracket_length, if_false]
  by_cases hname : ti.Name.length = 0
  · simp only [hname, if_true, Value.fields, forEach, anonFieldBody, plainField, blank, hget,
      ne_eq, not_true_eq_false, false_and, if_false, fieldNs, append_bracket_length]
    simp only [show ("" = ignore) = False by decide, if_false,
      show ("".length = 0) = True by decide, if_true]
    rw [setFieldByType_indexed_ints fuel e tnums tint nums _ hreg]
    exact ⟨_, rfl, rfl, rfl, hreg, hc, fun t _ => rfl⟩
  · have hd : descriptorFrom e.e.tagName
        [(plainField "Nums", Value.slice tnums (nums.map (fun x => Value.int tint x)))] 0
        = [⟨0, "Nums"⟩] := by
      have hx : ∀ nm : String, excluded e.e.tagName (plainField nm) = false := by
        intro nm
        simp [excluded, plainField, hget, blank, ignore]
      have hk : ∀ nm : String, keyName e.e.tagName (plainField nm) = nm := by
        intro nm
        simp [keyName, plainField, hget]
      simp [descriptorFrom, hx, hk]
    have hnn : ti.Name ≠ "" := fun h => hname ((length_eq_zero_iff _).mpr h)
    rcases hc with h | h | h
    · exact absurd h hnn
    · simp only [hname, if_false, descriptorOf, h, Encoder.parseStruct, Value.Type,
        Value.fields, parseStructLoop_eq, List.nil_append, hd, forEach, cachedFieldBody,
        Value.Field, List.get?, Option.map, fieldNs, append_bracket_length]
      rw [setFieldByType_indexed_ints fuel _ tnums tint nums _ (by exact hreg)]
      refine ⟨_, rfl, rfl, rfl, hreg, Or.inr (Or.inr ?_), ?_⟩
      · simp [structCacheMap.Get, structCacheMap.Set, mapGet_mapSet]
      · intro t ht
        simp [structCacheMap.Get, structCacheMap.Set, mapGet_mapSet, Ne.symm ht]
    · simp only [hname, if_false, descriptorOf, h, forEach, cachedFieldBody,
        Value.Field, Value.fields, List.get?, Option.map, fieldNs, append_bracket_length]
      rw [setFieldByType_indexed_ints fuel _ tnums tint nums _ hreg]
      exact ⟨_, rfl, rfl, rfl, hreg, Or.inr (Or.inr h), fun t _ => rfl⟩

theorem forIndex_numsStructs {ro : Flag} (fuel : Nat) (ti tnums tint : GoType) (F : String)
    (outer : List (List Int)) (k : Nat) (e : encoder)
    (hreg : e.e.customTypeFuncs = none) (hti : ti ≠ timeType) (hc : numsCacheOk e ti) :
    ∃ r, forIndex (fun i x e => encoder.setFieldByType (fuel + 4) e ro x F (i : Int))
        (outer.map (numsStruct ti tnums tint)) k e = .ok r
      ∧ r.values = putAll (outerEmits F outer k) e.values ∧ r.errs = e.errs := by
  induction outer generalizing k e with
  | nil => exact ⟨e, rfl, rfl, rfl⟩
  | cons nums rest ih =>
    obtain ⟨r1, h1, hv1, he1, hr1, hc1, -⟩ :=
      setFieldByType_numsStruct fuel e ti tnums tint nums F k hreg hti hc
    obtain ⟨r2, h2, hv2, he2⟩ := ih (k + 1) r1 hr1 hc1
    refine ⟨r2, ?_, ?_, ?_⟩
    · rw [List.map_cons, forIndex, h1]
      exact h2
    · rw [hv2, hv1, outerEmits, putAll_append]
    · rw [he2, he1]

theorem Itoa_nat_isDigit (n : Nat) : ∀ c ∈ (Itoa (n : Int)).data, c.isDigit = true := by
  rw [Itoa_nat]
  exact repr_isDigit n

theorem Itoa_nat_injective (a b : Nat) (h : Itoa (a : Int) = Itoa (b : Int)) : a = b := by
  rw [Itoa_nat, Itoa_nat] at h
  exact repr_injective a b h

theorem nums_key_inj (F : String) (i j i2 j2 : Nat)
    (h : F ++ "[" ++ Itoa (i : Int) ++ "]" ++ namespaceSeparator ++ "Nums" ++ "[" ++ Itoa (j : Int)
        ++ "]"
      = F ++ "[" ++ Itoa (i2 : Int) ++ "]" ++ namespaceSeparator ++ "Nums" ++ "[" ++ Itoa (j2 : Int)
        ++ "]") :
    i = i2 ∧ j = j2 := by
  have h1 := congrArg String.data h
  simp only [String.data_append, List.append_assoc, List.append_cancel_left_eq,
    namespaceSeparator] at h1
  simp only [List.singleton_append, List.cons_append, List.nil_append] at h1
  obtain ⟨e1, -, e3⟩ := digits_split _ _ _ _ ']' ']' (Itoa_nat_isDigit i) (Itoa_nat_isDigit i2)
    (by decide) (by decide) h1
  simp only [List.cons.injEq, true_and] at e3
  obtain ⟨e4, -, -⟩ := digits_split _ _ [] [] ']' ']' (Itoa_nat_isDigit j) (Itoa_nat_isDigit j2)
    (by decide) (by decide) e3
  exact ⟨Itoa_nat_injective _ _ (String.ext e1), Itoa_nat_injective _ _ (String.ext e4)⟩

theorem mem_indexedEmits (ns : String) (nums : List Int) (k : Nat) (p : String × List String) :
    p ∈ indexedEmits ns nums k ↔
      ∃ j x, nums[j]? = some x ∧ p = (ns ++ "[" ++ Itoa ((k + j : Nat) : Int) ++ "]", [FormatInt x]) := by
  induction nums generalizing k with
  | nil => simp [indexedEmits]
  | cons a xs ih =>
    rw [indexedEmits, List.mem_cons, ih]
    constructor
    · rintro (h | ⟨j, x, hx, hp⟩)
      · exact ⟨0, a, by simp, by simpa using h⟩
      · refine ⟨j + 1, x, by simpa using hx, ?_⟩
        rw [hp]
        congr 4
        omega
    · rintro ⟨j, x, hx, hp⟩
      cases j with
      | zero =>
        left
        simp only [List.getElem?_cons_zero, Option.some.injEq] at hx
        subst hx
        simpa using hp
      | succ j =>
        right
        refine ⟨j, x, by simpa using hx, ?_⟩
        rw [hp]
        congr 4
        omega

theorem mem_outerEmits (F : String) (outer : List (List Int)) (k : Nat)
    (p : String × List String) :
    p ∈ outerEmits F outer k ↔
      ∃ (i j : Nat) (nums : List Int) (x : Int), outer[i]? = some nums ∧ nums[j]? = some x ∧
        p = (F ++ "[" ++ Itoa ((k + i : Nat) : Int) ++ "]" ++ namespaceSeparator ++ "Nums" ++ "["
          ++ Itoa (j : Int) ++ "]", [FormatInt x]) := by
  induction outer generalizing k with
  | nil => simp [outerEmits]
  | cons a rest ih =>
    rw [outerEmits, List.mem_append, ih, mem_indexedEmits]
    constructor
    · rintro (⟨j, x, hx, hp⟩ | ⟨i, j, nums, x, hn, hx, hp⟩)
      · refine ⟨0, j, a, x, by simp, hx, ?_⟩
        rw [hp]
        simp
      · refine ⟨i + 1, j, nums, x, by simpa using hn, hx, ?_⟩
        rw [hp]
        congr 9
        omega
    · rintro ⟨i, j, nums, x, hn, hx, hp⟩
      cases i with
      | zero =>
        left
        simp only [List.getElem?_cons_zero, Option.some.injEq] at hn
        subst hn
        refine ⟨j, x, hx, ?_⟩
        rw [hp]
        simp
      | succ i =>
        right
        refine ⟨i, j, nums, x, by simpa using hn, hx, ?_⟩
        rw [hp]
        congr 9
        omega

theorem outerEmits_keys_nodup (F : String) (outer : List (List Int)) (k : Nat) :
    ((outerEmits F outer k).map Prod.fst).Nodup := by
  induction outer generalizing k with
  | nil => simp [outerEmits]
  | cons a rest ih =>
    rw [outerEmits, List.map_append, List.nodup_append]
    refine ⟨?_, ih (k + 1), ?_⟩
    · generalize F ++ "[" ++ Itoa (k : Int) ++ "]" ++ namespaceSeparator ++ "Nums" = ns
      generalize (0 : Nat) = s
      induction a generalizing s with
      | nil => simp [indexedEmits]
      | cons x xs ih2 =>
        rw [indexedEmits, List.map_cons, List.nodup_cons]
        refine ⟨?_, ih2 (s + 1)⟩
        intro hmem
        obtain ⟨p, hp, hpe⟩ := List.mem_map.mp hmem
        obtain ⟨j, y, -, rfl⟩ := (mem_indexedEmits _ _ _ _).mp hp
        have := Itoa_nat_injective _ _ (bracket_key_inj ns _ _ hpe)
        omega
    · intro q hq1 hq2
      obtain ⟨p1, hp1, rfl⟩ := List.mem_map.mp hq1
      obtain ⟨p2, hp2, hpe⟩ := List.mem_map.mp hq2
      obtain ⟨j1, x1, -, rfl⟩ := (mem_indexedEmits _ _ _ _).mp hp1
      obtain ⟨i2, j2, nums2, x2, -, -, rfl⟩ := (mem_outerEmits _ _ _ _).mp hp2
      have := (nums_key_inj F _ _ _ _ hpe).1
      omega

/-- After writes with pairwise distinct keys into an empty output, each key holds the values of
its own write. -/
theorem mapGet_putAll_nodup (es : List (String × List String))
    (hnd : (es.map Prod.fst).Nodup) (p : String × List String) (hp : p ∈ es) :
    mapGet (putAll es []) p.1 = some p.2 := by
  have hf : es.filter (fun kv => kv.1 = p.1) = [p] := by
    induction es with
    | nil => simp at hp
    | cons a es ih =>
      rw [List.map_cons, List.nodup_cons] at hnd
      by_cases ha : a = p
      · subst ha
        rw [List.filter_cons_of_pos (by simp)]
        congr 1
        apply filter_key_eq_nil
        intro kv hkv hEq
        exact hnd.1 (hEq ▸ List.mem_map_of_mem Prod.fst hkv)
      · have hin : p ∈ es := by
          rcases List.mem_cons.mp hp with h | h
          · exact absurd h.symm ha
          · exact h
        have hne : a.1 ≠ p.1 := by
          intro hEq
          exact hnd.1 (hEq ▸ List.mem_map_of_mem Prod.fst hin)
        rw [List.filter_cons_of_neg (by simpa using hne), ih hnd.2 hin]
  rw [mapGet_putAll, hf]
  simp [mapGet]

theorem outerKey_eq (i j : Nat) :
    "Outer" ++ "[" ++ Itoa (i : Int) ++ "]" ++ namespaceSeparator ++ "Nums" ++ "[" ++ Itoa (j : Int)
      ++ "]" = outerKey i j := by
  apply String.ext
  simp [outerKey, String.data_append, namespaceSeparator]

theorem setFieldByType_outer_slice {ro : Flag}
    (fuel : Nat) (e : encoder) (ts ti tnums tint : GoType)
    (outer : List (List Int)) (F : String)
    (hreg : e.e.customTypeFuncs = none) (hti : ti ≠ timeType) (hc : numsCacheOk e ti) :
    ∃ r, encoder.setFieldByType (fuel + 5) e ro (.slice ts (outer.map (numsStruct ti tnums tint)))
        F (-1) = .ok r
      ∧ r.values = putAll (outerEmits F outer 0) e.values ∧ r.errs = e.errs := by
  rw [setFieldByType_succ]
  simp only [ptrAdjust, visit, ExtractType_slice, lookupCustom_none e _ hreg, visitKind,
    Value.elems]
  simp only [gt_iff_lt, lt_self_iff_false, false_and, if_false, if_true]
  exact forIndex_numsStructs fuel ti tnums tint F outer 0 e hreg hti hc

theorem traverseStruct_outerValue {ro : Flag}
    (fuel : Nat) (e : encoder) (T ts ti tnums tint : GoType)
    (outer : List (List Int))
    (hreg : e.e.customTypeFuncs = none)
    (hT : T.Name = "" ∨ e.e.structCache.Get T = none
      ∨ e.e.structCache.Get T = some ⟨[⟨0, "Outer"⟩]⟩)
    (hti : numsCacheOk e ti)
    (htime : ti ≠ timeType) (hne : T.Name = "" ∨ T ≠ ti) :
    ∃ r, encoder.traverseStruct (fuel + 6) e ro (outerValue T ts ti tnums tint outer) "" (-1)
        = .ok r
      ∧ r.values = putAll (outerEmits "Outer" outer 0) e.values ∧ r.errs = e.errs := by
  have hfn : ∀ key : String, fieldNs "" key = key := fun key => rfl
  have hget : ∀ t : String, StructTag.Get [] t = "" := fun t => rfl
  have hc0 : numsCacheOk e ti := hti
  rw [traverseStruct_succ]
  simp only [outerValue, Value.Type, traverseBody]
  by_cases hname : T.Name.length = 0
  · simp only [hname, if_true, Value.fields, forEach, anonFieldBody, plainField, blank, hget,
      ne_eq, not_true_eq_false, false_and, if_false, hfn]
    simp only [show ("" = ignore) = False by decide, if_false,
      show ("".length = 0) = True by decide, if_true, Flag.Field_exported]
    obtain ⟨r, h1, h2, h3⟩ :=
      @setFieldByType_outer_slice ⟨ro.StickyRO, false⟩ fuel e ts ti tnums tint outer "Outer" hreg htime hc0
    simp only [h1]
    exact ⟨r, rfl, h2, h3⟩
  · have hnn : T.Name ≠ "" := fun h => hname ((length_eq_zero_iff _).mpr h)
    have hTne : T ≠ ti := by
      rcases hne with h | h
      · exact absurd h hnn
      · exact h
    have hd : descriptorFrom e.e.tagName
        [(plainField "Outer", Value.slice ts (outer.map (numsStruct ti tnums tint)))] 0
        = [⟨0, "Outer"⟩] := by
      have hx : ∀ nm : String, excluded e.e.tagName (plainField nm) = false := by
        intro nm
        simp [excluded, plainField, hget, blank, ignore]
      have hk : ∀ nm : String, keyName e.e.tagName (plainField nm) = nm := by
        intro nm
        simp [keyName, plainField, hget]
      simp [descriptorFrom, hx, hk]
    rcases hT with hcT | hcT | hcT
    · exact absurd hcT hnn
    · simp only [hname, if_false, descriptorOf, hcT, Encoder.parseStruct, Value.Type,
        Value.fields, parseStructLoop_eq, List.nil_append, hd, forEach, cachedFieldBody,
        Value.Field, List.get?, Option.map, hfn, Value.FieldFlag, Flag.Field_plainField]
      have hc1 : numsCacheOk
          { e := { tagName := e.e.tagName,
                   structCache := structCacheMap.Set e.e.structCache T ⟨[⟨0, "Outer"⟩]⟩,
                   customTypeFuncs := e.e.customTypeFuncs },
            errs := e.errs, values := e.values } ti := by
        rcases hti with h | h | h
        · exact Or.inl h
        · right; left
          simp only [structCacheMap.Get, structCacheMap.Set, mapGet_mapSet, hTne, if_false]
          exact h
        · right; right
          simp only [structCacheMap.Get, structCacheMap.Set, mapGet_mapSet, hTne, if_false]
          exact h
      obtain ⟨r, h1, h2, h3⟩ := @setFieldByType_outer_slice ⟨ro.StickyRO, false⟩ fuel _ ts ti tnums tint outer "Outer"
        (by exact hreg) htime hc1
      simp only [h1]
      exact ⟨r, rfl, h2, h3⟩
    · simp only [hname, if_false, descriptorOf, hcT, forEach, cachedFieldBody, Value.Field,
        Value.fields, List.get?, Option.map, hfn, Value.FieldFlag, Flag.Field_plainField]
      obtain ⟨r, h1, h2, h3⟩ :=
        @setFieldByType_outer_slice ⟨ro.StickyRO, false⟩ fuel e ts ti tnums tint outer "Outer" hreg htime hc0
      simp only [h1]
      exact ⟨r, rfl, h2, h3⟩

theorem outerKey_data (i j : Nat) :
    (outerKey i j).data
      = 'O' :: 'u' :: 't' :: 'e' :: 'r' :: '[' :: ((Itoa (i : Int)).data
        ++ ']' :: '.' :: 'N' :: 'u' :: 'm' :: 's' :: '[' :: ((Itoa (j : Int)).data ++ [']'])) := by
  simp [outerKey, String.data_append]

theorem unindexed_ne_outerKey (i i2 j2 : Nat) :
    "Outer[" ++ Itoa (i : Int) ++ "].Nums" ≠ outerKey i2 j2 := by
  intro h
  have h1 := congrArg String.data h
  rw [outerKey_data] at h1
  simp only [String.data_append, List.append_assoc, List.cons_append, List.nil_append,
    List.cons.injEq, true_and] at h1
  obtain ⟨-, -, e3⟩ := digits_split _ _ _ _ ']' ']' (Itoa_nat_isDigit i) (Itoa_nat_isDigit i2)
    (by decide) (by decide) h1
  simp at e3

theorem doubled_outer_ne_outerKey (i k j i2 j2 : Nat) :
    "Outer[" ++ Itoa (i : Int) ++ "][" ++ Itoa (k : Int) ++ "].Nums[" ++ Itoa (j : Int) ++ "]"
      ≠ outerKey i2 j2 := by
  intro h
  have h1 := congrArg String.data h
  rw [outerKey_data] at h1
  simp only [String.data_append, List.append_assoc, List.cons_append, List.nil_append,
    List.cons.injEq, true_and] at h1
  obtain ⟨-, -, e3⟩ := digits_split _ _ _ _ ']' ']' (Itoa_nat_isDigit i) (Itoa_nat_isDigit i2)
    (by decide) (by decide) h1
  simp at e3

theorem doubled_inner_ne_outerKey (i j k i2 j2 : Nat) :
    "Outer[" ++ Itoa (i : Int) ++ "].Nums[" ++ Itoa (j : Int) ++ "][" ++ Itoa (k : Int) ++ "]"
      ≠ outerKey i2 j2 := by
  intro h
  have h1 := congrArg String.data h
  rw [outerKey_data] at h1
  simp only [String.data_append, List.append_assoc, List.cons_append, List.nil_append,
    List.cons.injEq, true_and] at h1
  obtain ⟨-, -, e3⟩ := digits_split _ _ _ _ ']' ']' (Itoa_nat_isDigit i) (Itoa_nat_isDigit i2)
    (by decide) (by decide) h1
  simp only [List.cons.injEq, true_and] at e3
  obtain ⟨-, -, e4⟩ := digits_split _ _ _ _ ']' ']' (Itoa_nat_isDigit j) (Itoa_nat_isDigit j2)
    (by decide) (by decide) e3
  simp at e4

/-- The struct with the single field Outer, a slice of structs with the single field Nums:
Encode (default dispatch: no custom type functions, a struct cache that holds for the two
struct types no descriptor or their own, fuel from 6 on) returns a nil error and an output in
which, for every element index i and inner index j, the key Outer[i].Nums[j] holds exactly the
decimal text of Outer[i].Nums[j]; every key of the output is such a key; in particular there is
no key Outer[i].Nums and no key with a doubled index. -/
theorem nested_slice_keys_single_field (fuel : Nat) (enc : Encoder) (T ts ti tnums tint : GoType)
    (outer : List (List Int))
    (hreg : enc.customTypeFuncs = none)
    (hT : T.Name = "" ∨ enc.structCache.Get T = none
      ∨ enc.structCache.Get T = some ⟨[⟨0, "Outer"⟩]⟩)
    (hti : ti.Name = "" ∨ enc.structCache.Get ti = none
      ∨ enc.structCache.Get ti = some ⟨[⟨0, "Nums"⟩]⟩)
    (htime : ti ≠ timeType) (hne : T.Name = "" ∨ T ≠ ti) :
    ∃ r, enc.Encode (fuel + 6) (outerValue T ts ti tnums tint outer) = .ok r
      ∧ r.err = none
      ∧ (∀ (i j : Nat) (nums : List Int) (x : Int), outer[i]? = some nums → nums[j]? = some x →
          mapGet r.values (outerKey i j) = some [FormatInt x])
      ∧ (∀ q, mapGet r.values q ≠ none →
          ∃ (i j : Nat) (nums : List Int) (x : Int),
            outer[i]? = some nums ∧ nums[j]? = some x ∧ q = outerKey i j)
      ∧ (∀ i : Nat, mapGet r.values ("Outer[" ++ Itoa (i : Int) ++ "].Nums") = none)
      ∧ (∀ i k j : Nat, mapGet r.values
          ("Outer[" ++ Itoa (i : Int) ++ "][" ++ Itoa (k : Int) ++ "].Nums[" ++ Itoa (j : Int) ++ "]")
            = none)
      ∧ (∀ i j k : Nat, mapGet r.values
          ("Outer[" ++ Itoa (i : Int) ++ "].Nums[" ++ Itoa (j : Int) ++ "][" ++ Itoa (k : Int) ++ "]")
            = none) := by
  obtain ⟨r, hr, hv, he⟩ := traverseStruct_outerValue fuel
    { e := enc, errs := none, values := [] } T ts ti tnums tint outer hreg hT hti htime hne
  have hkeys : ∀ q, mapGet r.values q ≠ none →
      ∃ (i j : Nat) (nums : List Int) (x : Int),
        outer[i]? = some nums ∧ nums[j]? = some x ∧ q = outerKey i j := by
    intro q hq
    rw [hv] at hq
    obtain ⟨p, hp, rfl⟩ := mapGet_putAll_fresh _ _ hq
    obtain ⟨i, j, nums, x, h1, h2, rfl⟩ := (mem_outerEmits _ _ _ _).mp hp
    refine ⟨i, j, nums, x, h1, h2, ?_⟩
    simp only [Nat.zero_add]
    exact outerKey_eq i j
  refine ⟨{ values := r.values, err := none, e := r.e }, ?_, rfl, ?_, hkeys, ?_, ?_, ?_⟩
  · unfold Encoder.Encode topLevelMarker
    simp only [outerValue, ExtractType_struct, ne_eq, not_true_eq_false, if_false]
    simp only [outerValue] at hr
    rw [hr]
    simp [he, errsLen]
  · intro i j nums x h1 h2
    have hp : (outerKey i j, [FormatInt x]) ∈ outerEmits "Outer" outer 0 := by
      rw [mem_outerEmits]
      refine ⟨i, j, nums, x, h1, h2, ?_⟩
      simp only [Nat.zero_add]
      rw [outerKey_eq]
    have := mapGet_putAll_nodup _ (outerEmits_keys_nodup "Outer" outer 0) _ hp
    simp only [hv]
    exact this
  · intro i
    by_contra hq
    obtain ⟨i2, j2, -, -, -, -, h⟩ := hkeys _ hq
    exact unindexed_ne_outerKey i i2 j2 h
  · intro i k j
    by_contra hq
    obtain ⟨i2, j2, -, -, -, -, h⟩ := hkeys _ hq
    exact doubled_outer_ne_outerKey i k j i2 j2 h
  · intro i j k
    by_contra hq
    obtain ⟨i2, j2, -, -, -, -, h⟩ := hkeys _ hq
    exact doubled_inner_ne_outerKey i j k i2 j2 h

/-! ## Runs from related states -/

theorem forEach_sim {α : Type} (R : encoder → encoder → Prop)
    (body1 body2 : α → encoder → Res encoder) (xs : List α)
    (hbody : ∀ x ∈ xs, ∀ a b, R a b → RelRes R (body1 x a) (body2 x b)) (a b : encoder)
    (h : R a b) : RelRes R (forEach body1 xs a) (forEach body2 xs b) := by
  induction xs generalizing a b with
  | nil => exact h
  | cons x xs ih =>
    have hx := hbody x (List.mem_cons_self _ _) a b h
    rw [forEach, forEach]
    rcases h1 : body1 x a with f1 | a1 <;> rcases h2 : body2 x b with f2 | b1 <;>
      rw [h1, h2] at hx
    · exact hx
    · exact hx.elim
    · exact hx.elim
    · exact ih (fun y hy => hbody y (List.mem_cons_of_mem _ hy)) a1 b1 hx

theorem forIndex_sim (R : encoder → encoder → Prop)
    (body1 body2 : Nat → Value → encoder → Res encoder) (xs : List Value)
    (hbody : ∀ i x a b, R a b → RelRes R (body1 i x a) (body2 i x b)) (k : Nat)
    (a b : encoder) (h : R a b) : RelRes R (forIndex body1 xs k a) (forIndex body2 xs k b) := by
  induction xs generalizing a b k with
  | nil => exact h
  | cons x xs ih =>
    have hx := hbody k x a b h
    rw [forIndex, forIndex]
    rcases h1 : body1 k x a with f1 | a1 <;> rcases h2 : body2 k x b with f2 | b1 <;>
      rw [h1, h2] at hx
    · exact hx
    · exact hx.elim
    · exact hx.elim
    · exact ih (k + 1) a1 b1 hx

theorem lookupCustom_enc (a b : encoder) (v : Value) (h : a.e = b.e) :
    a.lookupCustom v = b.lookupCustom v := by
  unfold encoder.lookupCustom
  rw [h]

/-- Related states give the same key string and flag, and related states after. -/
theorem getMapKey_sim {ro : Flag} (R : encoder → encoder → Prop) (hR : Sim R) (a b : encoder)
    (key : Value) (ns : String) (h : R a b) :
    (∃ f, a.getMapKey ro key ns = .error f ∧ b.getMapKey ro key ns = .error f)
    ∨ ∃ s valid a1 b1, a.getMapKey ro key ns = .ok (s, valid, a1)
        ∧ b.getMapKey ro key ns = .ok (s, valid, b1) ∧ R a1 b1 := by
  unfold encoder.getMapKey
  simp only
  rw [lookupCustom_enc a b _ (hR.enc a b h)]
  rcases b.lookupCustom (ExtractType key).1 with f | (_ | cf)
  · exact Or.inl ⟨f, rfl, rfl⟩
  · right
    simp only
    cases (ExtractType key).2
    all_goals first
      | exact ⟨_, _, _, _, rfl, rfl, h⟩
      | exact ⟨_, _, _, _, rfl, rfl, hR.setError _ _ _ _ h⟩
  · simp only
    by_cases hro : (ExtractFlag ro key).isRO = true
    · rw [if_pos hro, if_pos hro]
      exact Or.inl ⟨_, rfl, rfl⟩
    · rw [if_neg hro, if_neg hro]
      rcases cf (ExtractType key).1 with err | arr
      · exact Or.inr ⟨_, _, _, _, rfl, rfl, hR.setError _ _ _ _ h⟩
      · cases arr with
        | nil => exact Or.inl ⟨_, rfl, rfl⟩
        | cons s rest => exact Or.inr ⟨_, _, _, _, rfl, rfl, h⟩

theorem mapEntryBody_sim {ro : Flag} (R : encoder → encoder → Prop) (hR : Sim R)
    (S : encoder → Flag → Value → String → Int → Res encoder)
    (hS : ∀ ro a b v ns idx, R a b → RelRes R (S a ro v ns idx) (S b ro v ns idx))
    (cur1 cur2 : Value) (hcur : cur1.Kind = cur2.Kind)
    (hfl : ExtractFlag ro cur1 = ExtractFlag ro cur2) (ns : String) (entry : Value × Value)
    (a b : encoder) (h : R a b) :
    RelRes R (mapEntryBody S ro cur1 ns entry a) (mapEntryBody S ro cur2 ns entry b) := by
  unfold mapEntryBody
  have hm : cur1.MapIndex entry = cur2.MapIndex entry := by
    simp [Value.MapIndex, hcur]
  rw [hfl]
  rcases getMapKey_sim R hR a b entry.1 ns h with ⟨f, h1, h2⟩ | ⟨s, valid, a1, b1, h1, h2, h3⟩
  · rw [h1, h2]
    exact rfl
  · rw [h1, h2, hm]
    simp only
    cases valid
    · exact h3
    · simp only [Bool.true_eq_false, if_false]
      cases cur2.MapIndex entry with
      | none => exact rfl
      | some x => exact hS _ _ _ _ _ _ h3

theorem visit_sim {ro : Flag} (R : encoder → encoder → Prop) (hR : Sim R)
    (S T : encoder → Flag → Value → String → Int → Res encoder)
    (hS : ∀ ro a b v ns idx, R a b → RelRes R (S a ro v ns idx) (S b ro v ns idx))
    (hT : ∀ ro a b v ns idx, R a b → RelRes R (T a ro v ns idx) (T b ro v ns idx))
    (a b : encoder) (current : Value) (ns : String) (idx : Int) (h : R a b) :
    RelRes R (visit S T a ro current ns idx) (visit S T b ro current ns idx) := by
  unfold visit
  rw [lookupCustom_enc a b _ (hR.enc a b h)]
  rcases b.lookupCustom (ExtractType current).1 with f | (_ | cf)
  · exact rfl
  · simp only
    cases (ExtractType current).2 <;> simp only [visitKind]
    all_goals first
      | exact h
      | exact hR.setVal _ _ _ _ _ h
      | skip
    · split
      all_goals
        apply forIndex_sim R _ _ _ ?_ 0 a b h
        intro i x a b hab
        exact hS _ _ _ _ _ _ hab
    · split
      all_goals
        apply forIndex_sim R _ _ _ ?_ 0 a b h
        intro i x a b hab
        exact hS _ _ _ _ _ _ hab
    · exact forEach_sim R _ _ _
        (fun x _ a b hab => mapEntryBody_sim R hR S hS _ _ rfl rfl _ x a b hab) a b h
    · split
      · split
        · exact rfl
        · exact hR.setVal _ _ _ _ _ h
      · split
        · exact hT _ _ _ _ _ _ h
        · exact hT _ _ _ _ _ _ h
  · simp only
    split
    · exact rfl
    · rcases cf (ExtractType current).1 with err | arr
      · exact hR.setError _ _ _ _ h
      · exact hR.setVal _ _ _ _ _ h

theorem traverseBody_sim {ro : Flag} (R : encoder → encoder → Prop) (hR : Sim R)
    (S : encoder → Flag → Value → String → Int → Res encoder)
    (hS : ∀ ro a b v ns idx, R a b → RelRes R (S a ro v ns idx) (S b ro v ns idx))
    (a b : encoder) (v : Value) (ns : String) (idx : Int) (typ : GoType) (h : R a b) :
    RelRes R (traverseBody S a ro v ns idx typ) (traverseBody S b ro v ns idx typ) := by
  unfold traverseBody
  split
  · apply forEach_sim R _ _ _ _ a b h
    intro fv _ a b hab
    unfold anonFieldBody
    rw [hR.enc a b hab]
    split
    · exact hab
    · split
      · exact hab
      · exact hS _ _ _ _ _ _ hab
  · unfold descriptorOf
    rw [hR.enc a b h]
    cases b.e.structCache.Get typ with
    | some s =>
      simp only
      apply forEach_sim R _ _ _ _ a b h
      intro f _ a b hab
      unfold cachedFieldBody
      cases v.Field f.idx with
      | none => exact rfl
      | some x => exact hS _ _ _ _ _ _ hab
    | none =>
      simp only
      rcases b.e.parseStruct v with f | ⟨s, enc⟩
      · exact rfl
      · simp only
        apply forEach_sim R _ _ _ _ _ _ (hR.setEnc a b enc h)
        intro f _ a b hab
        unfold cachedFieldBody
        cases v.Field f.idx with
        | none => exact rfl
        | some x => exact hS _ _ _ _ _ _ hab

/-- The traversal preserves every relation the primitive steps preserve: from related states
both runs panic alike or both return related states. -/
theorem traversal_sim (R : encoder → encoder → Prop) (hR : Sim R) (fuel : Nat) :
    (∀ ro a b v ns idx, R a b →
      RelRes R (encoder.traverseStruct fuel a ro v ns idx) (encoder.traverseStruct fuel b ro v ns idx))
    ∧ (∀ ro a b v ns idx, R a b →
      RelRes R (encoder.setFieldByType fuel a ro v ns idx) (encoder.setFieldByType fuel b ro v ns idx)) := by
  induction fuel with
  | zero =>
    constructor <;> intro ro a b v ns idx _ <;>
      simp [encoder.traverseStruct, encoder.setFieldByType, RelRes]
  | succ fuel ih =>
    obtain ⟨ihT, ihS⟩ := ih
    constructor
    · intro ro a b v ns idx h
      rw [traverseStruct_succ, traverseStruct_succ]
      cases v.Type with
      | none => exact rfl
      | some typ => exact traverseBody_sim R hR _ ihS a b v ns idx typ h
    · intro ro a b v ns idx h
      rw [setFieldByType_succ, setFieldByType_succ]
      exact visit_sim R hR _ _ ihS ihT a b v _ _ h

/-! ## What a visit may change -/

theorem errGet_setError (e : encoder) (ns q : String) (err : GoError) :
    errGet (e.setError ns err).errs q = if ns = q then some err else errGet e.errs q := by
  unfold encoder.setError errGet
  cases e.errs <;> simp [mapGet_mapSet, mapGet]

theorem Ext_self (ns : String) : Ext ns ns := ⟨[], by simp, Or.inl rfl⟩

theorem Ext_bracket (ns s q : String) (h : Ext (ns ++ "[" ++ s ++ "]") q) : Ext ns q := by
  obtain ⟨r, hr, -⟩ := h
  refine ⟨'[' :: (s.data ++ ']' :: r), ?_, Or.inr (Or.inr rfl)⟩
  rw [hr]
  simp [String.data_append]

theorem Ext_sep (ns key q : String) (h : Ext (ns ++ namespaceSeparator ++ key) q) :
    Ext ns q := by
  obtain ⟨r, hr, -⟩ := h
  refine ⟨'.' :: (key.data ++ r), ?_, Or.inr (Or.inl rfl)⟩
  rw [hr]
  simp [String.data_append, namespaceSeparator]

theorem Ext_withIndex (ns q : String) (idx : Int) (h : Ext (withIndex ns idx) q) : Ext ns q := by
  unfold withIndex at h
  split at h
  · exact Ext_bracket _ _ _ h
  · exact h

theorem Ext_ptrAdjust (current : Value) (ns q : String) (idx : Int)
    (h : Ext (ptrAdjust current ns idx).1 q) : Ext ns q := by
  unfold ptrAdjust at h
  split at h
  · exact Ext_bracket _ _ _ h
  · exact h

theorem append_ne_empty (a b : String) (h : a ≠ "") : a ++ b ≠ "" := by
  intro hab
  apply h
  have := congrArg String.data hab
  simp only [String.data_append, List.append_eq_nil] at this
  exact String.ext this.1

theorem withIndex_ne_empty (ns : String) (idx : Int) (h : ns ≠ "") : withIndex ns idx ≠ "" := by
  unfold withIndex
  split
  · exact append_ne_empty _ _ (append_ne_empty _ _ (append_ne_empty _ _ h))
  · exact h

theorem ptrAdjust_ne_empty (current : Value) (ns : String) (idx : Int) (h : ns ≠ "") :
    (ptrAdjust current ns idx).1 ≠ "" := by
  unfold ptrAdjust
  split
  · exact append_ne_empty _ _ (append_ne_empty _ _ (append_ne_empty _ _ h))
  · exact h

theorem Frame_refl (ns : String) (a : encoder) : Frame ns a a :=
  ⟨rfl, rfl, fun _ _ _ => ⟨rfl, rfl⟩⟩

theorem Frame_trans (ns : String) (a b c : encoder) (h1 : Frame ns a b) (h2 : Frame ns b c) :
    Frame ns a c := by
  refine ⟨h2.1.trans h1.1, h2.2.1.trans h1.2.1, ?_⟩
  intro hne q hq
  exact ⟨((h2.2.2 hne q hq).1).trans ((h1.2.2 hne q hq).1),
    ((h2.2.2 hne q hq).2).trans ((h1.2.2 hne q hq).2)⟩

/-- A frame for a namespace below `ns` is a frame for `ns`. -/
theorem Frame_mono (ns ns2 : String) (a b : encoder)
    (hsub : ns ≠ "" → ∀ q, Ext ns2 q → Ext ns q)
    (hne : ns ≠ "" → ns2 ≠ "") (h : Frame ns2 a b) : Frame ns a b := by
  refine ⟨h.1, h.2.1, ?_⟩
  intro hn q hq
  exact h.2.2 (hne hn) q (fun hx => hq (hsub hn q hx))

theorem Frame_setVal (ns k : String) (a : encoder) (idx : Int) (vals : List String)
    (hk : Ext ns k) : Frame ns a (a.setVal k idx vals) := by
  refine ⟨rfl, rfl, ?_⟩
  intro _ q hq
  have hne : k ≠ q := fun h => hq (h ▸ hk)
  exact ⟨by simp [setVal_eq, mapGet_putVals, hne], rfl⟩

theorem Frame_setError (ns k : String) (a : encoder) (err : GoError) (hk : Ext ns k) :
    Frame ns a (a.setError k err) := by
  refine ⟨rfl, rfl, ?_⟩
  intro _ q hq
  have hne : k ≠ q := fun h => hq (h ▸ hk)
  exact ⟨rfl, by simp [errGet_setError, hne]⟩

theorem forEach_frame {α : Type} (Q : encoder → encoder → Prop)
    (hrefl : ∀ a, Q a a) (htrans : ∀ a b c, Q a b → Q b c → Q a c)
    (body : α → encoder → Res encoder) (xs : List α)
    (hbody : ∀ x ∈ xs, ∀ a b, body x a = .ok b → Q a b) (a b : encoder)
    (h : forEach body xs a = .ok b) : Q a b := by
  induction xs generalizing a with
  | nil =>
    simp only [forEach, Except.ok.injEq] at h
    exact h ▸ hrefl a
  | cons x xs ih =>
    rw [forEach] at h
    split at h
    · next a1 h1 =>
      exact htrans _ _ _ (hbody x (List.mem_cons_self _ _) a a1 h1)
        (ih (fun y hy => hbody y (List.mem_cons_of_mem _ hy)) a1 h)
    · simp at h

theorem forIndex_frame (Q : encoder → encoder → Prop)
    (hrefl : ∀ a, Q a a) (htrans : ∀ a b c, Q a b → Q b c → Q a c)
    (body : Nat → Value → encoder → Res encoder) (xs : List Value)
    (hbody : ∀ i x a b, body i x a = .ok b → Q a b) (k : Nat) (a b : encoder)
    (h : forIndex body xs k a = .ok b) : Q a b := by
  induction xs generalizing a k with
  | nil =>
    simp only [forIndex, Except.ok.injEq] at h
    exact h ▸ hrefl a
  | cons x xs ih =>
    rw [forIndex] at h
    split at h
    · next a1 h1 => exact htrans _ _ _ (hbody k x a a1 h1) (ih (k + 1) a1 h)
    · simp at h

theorem getMapKey_frame {ro : Flag}
    (a : encoder) (key : Value) (ns : String) (s : String) (valid : Bool)
    (a1 : encoder) (h : a.getMapKey ro key ns = .ok (s, valid, a1)) : Frame ns a a1 := by
  unfold encoder.getMapKey at h
  simp only at h
  split at h
  · simp at h
  · split at h
    · simp at h
    · split at h
      · simp only [Except.ok.injEq, Prod.mk.injEq] at h
        rw [← h.2.2]
        exact Frame_setError ns ns a _ (Ext_self ns)
      · simp at h
      · simp only [Except.ok.injEq, Prod.mk.injEq] at h
        rw [← h.2.2]
        exact Frame_refl ns a
  · split at h
    all_goals
      simp only [Except.ok.injEq, Prod.mk.injEq] at h
      rw [← h.2.2]
    all_goals first
      | exact Frame_refl ns a
      | exact Frame_setError ns ns a _ (Ext_self ns)

theorem parseStruct_ok (e : Encoder) (v : Value) (s : cachedStruct) (enc : Encoder)
    (h : e.parseStruct v = .ok (s, enc)) :
    enc.tagName = e.tagName ∧ enc.customTypeFuncs = e.customTypeFuncs
      ∧ s.fields = descriptorFrom e.tagName v.fields 0
      ∧ ∃ typ, v.Type = some typ ∧ enc.structCache = e.structCache.Set typ s := by
  unfold Encoder.parseStruct at h
  split at h
  · simp at h
  · next typ htyp =>
    simp only [Except.ok.injEq, Prod.mk.injEq] at h
    obtain ⟨h1, h2⟩ := h
    subst h1 h2
    exact ⟨rfl, rfl, by simp [parseStructLoop_eq], typ, htyp, rfl⟩

theorem descriptorOf_frame (a : encoder) (v : Value) (typ : GoType) (s : cachedStruct)
    (a1 : encoder) (ns : String) (h : descriptorOf a v typ = .ok (s, a1)) : Frame ns a a1 := by
  unfold descriptorOf at h
  split at h
  · simp only [Except.ok.injEq, Prod.mk.injEq] at h
    rw [← h.2]
    exact Frame_refl ns a
  · split at h
    · next s1 enc hp =>
      simp only [Except.ok.injEq, Prod.mk.injEq] at h
      rw [← h.2]
      obtain ⟨h1, h2, -⟩ := parseStruct_ok _ _ _ _ hp
      exact ⟨h2, h1, fun _ _ _ => ⟨rfl, rfl⟩⟩
    · simp at h

theorem visit_frame {ro : Flag} (S T : encoder → Flag → Value → String → Int → Res encoder)
    (hS : ∀ ro a b v ns idx, S a ro v ns idx = .ok b → Frame ns a b)
    (hT : ∀ ro a b v ns idx, T a ro v ns idx = .ok b → Frame ns a b)
    (a b : encoder) (current : Value) (ns : String) (idx : Int)
    (h : visit S T a ro current ns idx = .ok b) : Frame ns a b := by
  unfold visit at h
  split at h
  · simp at h
  · split at h
    · simp at h
    · split at h
      · simp only [Except.ok.injEq] at h
        exact h ▸ Frame_setError ns ns a _ (Ext_self ns)
      · simp only [Except.ok.injEq] at h
        refine h ▸ Frame_mono ns (withIndex ns idx) _ _ (fun _ q => Ext_withIndex ns q idx)
          (withIndex_ne_empty ns idx) (Frame_setVal _ _ a _ _ (Ext_self _))
  · generalize (ExtractType current).2 = k at h
    cases k <;> simp only [visitKind] at h
    case Slice | Array =>
      split at h
      · refine forIndex_frame (Frame ns) (Frame_refl ns) (Frame_trans ns) _ _ ?_ 0 a b h
        intro i x a b hx
        exact hS _ _ _ _ _ _ hx
      · refine forIndex_frame (Frame ns) (Frame_refl ns) (Frame_trans ns) _ _ ?_ 0 a b h
        intro i x a b hx
        refine Frame_mono ns _ _ _ ?_ ?_ (hS _ _ _ _ _ _ hx)
        · intro _ q hq
          exact Ext_withIndex ns q idx (Ext_bracket _ _ _ hq)
        · intro hne
          exact append_ne_empty _ _ (append_ne_empty _ _ (append_ne_empty _ _
            (withIndex_ne_empty ns idx hne)))
    case Map =>
      refine forEach_frame (Frame ns) (Frame_refl ns) (Frame_trans ns) _ _ ?_ a b h
      intro entry _ a b hx
      unfold mapEntryBody at hx
      split at hx
      · simp at hx
      · next s valid a1 hk =>
        have hf1 : Frame ns a a1 := Frame_mono ns (withIndex ns idx) _ _
          (fun _ q => Ext_withIndex ns q idx) (withIndex_ne_empty ns idx)
          (getMapKey_frame a _ _ _ _ _ hk)
        split at hx
        · simp only [Except.ok.injEq] at hx
          exact hx ▸ hf1
        · split at hx
          · simp at hx
          · refine Frame_trans ns _ _ _ hf1 (Frame_mono ns _ _ _ ?_ ?_ (hS _ _ _ _ _ _ hx))
            · intro _ q hq
              exact Ext_withIndex ns q idx (Ext_bracket _ _ _ hq)
            · intro hne
              exact append_ne_empty _ _ (append_ne_empty _ _ (append_ne_empty _ _
                (withIndex_ne_empty ns idx hne)))
    case Struct =>
      split at h
      · split at h
        · simp at h
        · simp only [Except.ok.injEq] at h
          refine h ▸ Frame_mono ns (withIndex ns idx) _ _ (fun _ q => Ext_withIndex ns q idx)
            (withIndex_ne_empty ns idx) (Frame_setVal _ _ a _ _ (Ext_self _))
      · split at h
        · exact hT _ _ _ _ _ _ h
        · exact Frame_mono ns (withIndex ns idx) _ _ (fun _ q => Ext_withIndex ns q idx)
            (withIndex_ne_empty ns idx) (hT _ _ _ _ _ _ h)
    all_goals
      simp only [Except.ok.injEq] at h
      first
        | exact h ▸ Frame_refl ns a
        | exact h ▸ Frame_setVal ns ns a _ _ (Ext_self ns)

theorem fieldNs_of_ne (ns key : String) (h : ns ≠ "") :
    fieldNs ns key = ns ++ namespaceSeparator ++ key := by
  unfold fieldNs
  rw [if_neg]
  rw [length_eq_zero_iff]
  exact h

theorem Frame_field (ns key : String) (a b : encoder) (h : Frame (fieldNs ns key) a b) :
    Frame ns a b := by
  refine Frame_mono ns _ a b ?_ ?_ h
  · intro hne q hq
    rw [fieldNs_of_ne ns key hne] at hq
    exact Ext_sep _ _ _ hq
  · intro hne
    rw [fieldNs_of_ne ns key hne]
    exact append_ne_empty _ _ (append_ne_empty _ _ hne)

theorem traverseBody_frame {ro : Flag} (S : encoder → Flag → Value → String → Int → Res encoder)
    (hS : ∀ ro a b v ns idx, S a ro v ns idx = .ok b → Frame ns a b)
    (a b : encoder) (v : Value) (ns : String) (idx : Int) (typ : GoType)
    (h : traverseBody S a ro v ns idx typ = .ok b) : Frame ns a b := by
  unfold traverseBody at h
  split at h
  · refine forEach_frame (Frame ns) (Frame_refl ns) (Frame_trans ns) _ _ ?_ a b h
    intro fv _ a b hx
    unfold anonFieldBody at hx
    split at hx
    · simp only [Except.ok.injEq] at hx
      exact hx ▸ Frame_refl ns a
    · split at hx
      · simp only [Except.ok.injEq] at hx
        exact hx ▸ Frame_refl ns a
      · exact Frame_field ns _ a b (hS _ _ _ _ _ _ hx)
  · split at h
    · simp at h
    · next s a1 hd =>
      refine Frame_trans ns _ _ _ (descriptorOf_frame a v typ s a1 ns hd) ?_
      refine forEach_frame (Frame ns) (Frame_refl ns) (Frame_trans ns) _ _ ?_ a1 b h
      intro f _ a b hx
      unfold cachedFieldBody at hx
      split at hx
      · simp at hx
      · exact Frame_field ns _ a b (hS _ _ _ _ _ _ hx)

/-- Every visit keeps the registry and the tag name, and writes output keys and error keys only
at or below its namespace. -/
theorem traversal_frame (fuel : Nat) :
    (∀ ro a b v ns idx, encoder.traverseStruct fuel a ro v ns idx = .ok b → Frame ns a b)
    ∧ (∀ ro a b v ns idx, encoder.setFieldByType fuel a ro v ns idx = .ok b → Frame ns a b) := by
  induction fuel with
  | zero =>
    constructor <;> intro ro a b v ns idx h <;>
      simp [encoder.traverseStruct, encoder.setFieldByType] at h
  | succ fuel ih =>
    obtain ⟨ihT, ihS⟩ := ih
    constructor
    · intro ro a b v ns idx h
      rw [traverseStruct_succ] at h
      split at h
      · simp at h
      · exact traverseBody_frame _ ihS a b v ns idx _ h
    · intro ro a b v ns idx h
      rw [setFieldByType_succ] at h
      exact Frame_mono ns _ a b (fun _ q => Ext_ptrAdjust v ns q idx)
        (ptrAdjust_ne_empty v ns idx) (visit_frame _ _ ihS ihT a b v _ _ h)

/-! ## A map entry with an unsupported key: C6 -/

theorem SkipRel_sim (N : String) : Sim (SkipRel N) where
  enc := fun _ _ h => h.1
  setVal := by
    intro a b ns idx vals h
    refine ⟨h.1, ?_, h.2.2.1, h.2.2.2⟩
    simp only [setVal_eq, h.2.1]
  setError := by
    intro a b ns err h
    refine ⟨h.1, h.2.1, ?_, ?_⟩
    · rw [errGet_setError]
      by_cases hn : ns = N
      · exact ⟨err, by simp [hn]⟩
      · simpa [hn] using h.2.2.1
    · intro q hq
      rw [errGet_setError, errGet_setError, h.2.2.2 q hq]
  setEnc := fun _ _ _ h => ⟨rfl, h.2.1, h.2.2.1, h.2.2.2⟩

theorem forEach_append {α : Type} (body : α → encoder → Res encoder) (xs ys : List α)
    (e : encoder) :
    forEach body (xs ++ ys) e
      = match forEach body xs e with
        | .ok e1 => forEach body ys e1
        | .error f => .error f := by
  induction xs generalizing e with
  | nil => rfl
  | cons x xs ih =>
    rw [List.cons_append, forEach, forEach]
    cases body x e with
    | error f => rfl
    | ok e1 => exact ih e1

theorem lookupCustom_type (e : encoder) (v1 v2 : Value) (h : v1.Type = v2.Type) :
    e.lookupCustom v1 = e.lookupCustom v2 := by
  unfold encoder.lookupCustom
  rw [h]

theorem mapEntryBody_kind {ro : Flag} (S : encoder → Flag → Value → String → Int → Res encoder)
    (cur1 cur2 : Value) (h : cur1.Kind = cur2.Kind)
    (hfl : ExtractFlag ro cur1 = ExtractFlag ro cur2) (ns : String) :
    mapEntryBody S ro cur1 ns = mapEntryBody S ro cur2 ns := by
  funext entry e
  unfold mapEntryBody
  simp [Value.MapIndex, h, hfl]

/-- A map without a custom function for its own type is visited entry by entry. -/
theorem setFieldByType_map {ro : Flag} (fuel : Nat) (e : encoder) (t : GoType)
    (es : List (Value × Value)) (ns : String) (idx : Int)
    (hmap : e.lookupCustom (.map t es) = .ok none) :
    encoder.setFieldByType (fuel + 1) e ro (.map t es) ns idx
      = forEach (mapEntryBody (encoder.setFieldByType fuel) ro (.map t []) (withIndex ns idx)) es
          e := by
  rw [setFieldByType_succ]
  simp only [ptrAdjust, Value.Kind, reduceCtorEq, and_false, if_false, visit, ExtractType_map,
    hmap, visitKind, Value.entries]
  rw [mapEntryBody_kind _ (.map t es) (.map t []) rfl rfl]

theorem getMapKey_unsupported {ro : Flag} (e : encoder) (key : Value) (ns : String)
    (hkind : (ExtractType key).2 ∈ [Kind.Struct, Kind.Slice, Kind.Array, Kind.Map, Kind.Other])
    (hreg : e.lookupCustom (ExtractType key).1 = .ok none) :
    e.getMapKey ro key ns = .ok ("", false, e.setError ns
      ("Unsupported Map Key '" ++ (ExtractType key).1.asString ++ "' Namespace '" ++ ns ++ "'")) := by
  unfold encoder.getMapKey
  simp only [hreg]
  simp only [List.mem_cons, List.mem_singleton, List.not_mem_nil, or_false] at hkind
  rcases hkind with h | h | h | h | h <;> rw [h]

/-- The visit of a map that holds an entry with an unsupported key agrees with the visit of the
same map without that entry: both panic alike, or both return, with the same output and the
same encoder, an error under the namespace of the map with its pending index applied, and the
same error map at every other namespace. -/
theorem map_skip_rel (fuel : Nat) (e : encoder) (ro : Flag) (t : GoType)
    (pre post : List (Value × Value)) (bad : Value × Value) (ns : String) (idx : Int)
    (hkind : (ExtractType bad.1).2 ∈ [Kind.Struct, Kind.Slice, Kind.Array, Kind.Map, Kind.Other])
    (hkey : e.lookupCustom (ExtractType bad.1).1 = .ok none)
    (hmap : e.lookupCustom (.map t (pre ++ post)) = .ok none) :
    RelRes (SkipRel (withIndex ns idx))
      (encoder.setFieldByType fuel e ro (.map t (pre ++ bad :: post)) ns idx)
      (encoder.setFieldByType fuel e ro (.map t (pre ++ post)) ns idx) := by
  cases fuel with
  | zero => simp [encoder.setFieldByType, RelRes]
  | succ fuel =>
    have hpre : encoder.setFieldByType (fuel + 1) e ro (.map t pre) ns idx
        = forEach (mapEntryBody (encoder.setFieldByType fuel) ro (.map t []) (withIndex ns idx)) pre
            e :=
      setFieldByType_map fuel e t pre ns idx
        ((lookupCustom_type e (.map t pre) (.map t (pre ++ post)) rfl).trans hmap)
    rw [setFieldByType_map fuel e t _ ns idx
        ((lookupCustom_type e (.map t (pre ++ bad :: post)) (.map t (pre ++ post)) rfl).trans
          hmap),
      setFieldByType_map fuel e t _ ns idx hmap, forEach_append, forEach_append]
    rcases h1 : forEach (mapEntryBody (encoder.setFieldByType fuel) ro (.map t [])
        (withIndex ns idx)) pre e with f | e1
    · exact rfl
    · simp only
      rw [← hpre] at h1
      have hfr := (traversal_frame (fuel + 1)).2 _ _ _ _ _ _ h1
      have hk1 : e1.lookupCustom (ExtractType bad.1).1 = .ok none := by
        rw [lookupCustom_congr e1 e _ hfr.1]
        exact hkey
      rw [forEach, mapEntryBody, getMapKey_unsupported e1 bad.1 _ hkind hk1]
      simp only [if_true]
      apply forEach_sim (SkipRel (withIndex ns idx))
      · intro entry _ a b hab
        exact mapEntryBody_sim _ (SkipRel_sim _) _
          (fun ro a b v ns idx h => (traversal_sim _ (SkipRel_sim _) fuel).2 ro a b v ns idx h)
          _ _ rfl rfl _ entry a b hab
      · refine ⟨rfl, rfl, ⟨"Unsupported Map Key '" ++ (ExtractType bad.1).1.asString
            ++ "' Namespace '" ++ withIndex ns idx ++ "'", by rw [errGet_setError]; simp⟩, ?_⟩
        intro q hq
        rw [errGet_setError, if_neg (Ne.symm hq)]

/-! ## Excluded fields: C8 -/

theorem mem_descriptorFrom (tagName : String) (fs : List (StructField × Value)) (i : Nat)
    (cf : cachedField) (h : cf ∈ descriptorFrom tagName fs i) :
    ∃ g ∈ fs.map Prod.fst, excluded tagName g = false ∧ cf.name = keyName tagName g := by
  induction fs generalizing i with
  | nil => simp [descriptorFrom] at h
  | cons fv rest ih =>
    obtain ⟨fld, v⟩ := fv
    rw [descriptorFrom] at h
    split at h
    · obtain ⟨g, hg, hx⟩ := ih (i + 1) h
      exact ⟨g, List.mem_cons_of_mem _ hg, hx⟩
    · next hex =>
      rcases List.mem_cons.mp h with h1 | h1
      · exact ⟨fld, List.mem_cons_self _ _, by simpa using hex, by rw [h1]⟩
      · obtain ⟨g, hg, hx⟩ := ih (i + 1) h1
        exact ⟨g, List.mem_cons_of_mem _ hg, hx⟩

theorem keyName_ne_empty (tagName : String) (g : StructField) (h : g.Name ≠ "") :
    keyName tagName g ≠ "" := by
  unfold keyName
  split
  · exact h
  · assumption

/-- A name without a dot and without an opening bracket lies at or below a namespace only if
it is that namespace. -/
theorem not_Ext_of_identifier (key name : String) (hne : key ≠ name)
    (hdot : '.' ∉ name.data) (hbr : '[' ∉ name.data) : ¬ Ext key name := by
  rintro ⟨r, hr, h⟩
  rcases h with h | h | h
  · subst h
    rw [List.append_nil] at hr
    exact hne (String.ext hr.symm)
  · cases r with
    | nil => simp at h
    | cons c r =>
      simp only [List.head?_cons, Option.some.injEq] at h
      subst h
      exact hdot (by rw [hr]; simp)
  · cases r with
    | nil => simp at h
    | cons c r =>
      simp only [List.head?_cons, Option.some.injEq] at h
      subst h
      exact hbr (by rw [hr]; simp)

/-- The visit of an included field at the top level leaves alone every name that is a plain
identifier other than the field's key. -/
theorem top_field_keeps_name {ro : Flag}
    (fuel : Nat) (a b : encoder) (x : Value) (key name : String)
    (idx : Int) (hkey : key ≠ "") (hne : key ≠ name)
    (hdot : '.' ∉ name.data) (hbr : '[' ∉ name.data)
    (h : encoder.setFieldByType fuel a ro x (fieldNs "" key) idx = .ok b) :
    b.e.tagName = a.e.tagName ∧ mapGet b.values name = mapGet a.values name := by
  have hfn : fieldNs "" key = key := rfl
  rw [hfn] at h
  have hfr := (traversal_frame fuel).2 _ _ _ _ _ _ h
  exact ⟨hfr.2.1, (hfr.2.2 hkey name (not_Ext_of_identifier key name hne hdot hbr)).1⟩

/-- C8, the claim as stated fails, in two ways. In a struct with a field X tagged with the skip
marker and a field Y tagged X, the declared name of the excluded field X is a key of the output
(it holds the value of Y). And a field X tagged with the skip marker under json only is included
under form: Encode under form stores the descriptor with X, and after SetTagName json the stored
descriptor is still used, so Encode writes the key X although X is excluded under the encoder's
tag name. -/
theorem C8_excluded_name_taken_by_tag :
    (NewEncoder.Encode 2
        (.struct ⟨"S", "main.S"⟩
          [(⟨"X", "", false, [("form", "-")]⟩, .int ⟨"int", "int"⟩ 1),
           (⟨"Y", "", false, [("form", "X")]⟩, .int ⟨"int", "int"⟩ 2)])).toOption.map
      (fun r => r.values)
      = some [("X", ["2"])]
    ∧ excluded "json" ⟨"X", "", false, [("json", "-")]⟩ = true
    ∧ (NewEncoder.Encode 2
        (.struct ⟨"S", "main.S"⟩
          [(⟨"X", "", false, [("json", "-")]⟩, .int ⟨"int", "int"⟩ 1)])).toOption.map
      (fun r => ((r.e.SetTagName "json").tagName,
        ((r.e.SetTagName "json").Encode 2
          (.struct ⟨"S", "main.S"⟩
            [(⟨"X", "", false, [("json", "-")]⟩, .int ⟨"int", "int"⟩ 1)])).toOption.map
          (fun r2 => r2.values)))
      = some ("json", some [("X", ["1"])]) := by
  refine ⟨?_, ?_, ?_⟩ <;> decide

/-- C8 as amended: for every struct type S (field names non-empty) and every field f of S that
is excluded under the encoder's tag name (tagged with the skip marker, or unexported and not
embedded), whose declared name is a plain identifier, when the struct cache holds no descriptor
for S or the one parseStruct computes under the current tag name, the name of f is not a key of
the output of Encode of a value of type S, unless an included field of S resolves, by its tag
value or its own name, to that same key name. -/
theorem C8_excluded_field_name_absent (fuel : Nat) (enc : Encoder) (v : Value) (typ : GoType)
    (fields : List (StructField × Value)) (f : StructField) (r : EncodeResult)
    (hv : ExtractType v = (.struct typ fields, .Struct))
    (_hf : f ∈ fields.map Prod.fst) (_hex : excluded enc.tagName f = true)
    (hcache : typ.Name = "" ∨ enc.structCache.Get typ = none
      ∨ enc.structCache.Get typ = some ⟨descriptorFrom enc.tagName fields 0⟩)
    (hnames : ∀ g ∈ fields.map Prod.fst, g.Name ≠ "")
    (hdot : '.' ∉ f.Name.data) (hbr : '[' ∉ f.Name.data)
    (hcoll : ∀ g ∈ fields.map Prod.fst, excluded enc.tagName g = false →
      keyName enc.tagName g ≠ f.Name)
    (hr : enc.Encode fuel v = .ok r) :
    mapGet r.values f.Name = none := by
  -- the invariant of both loops: the tag name stays, the name stays absent
  let Q : encoder → encoder → Prop := fun a b =>
    a.e.tagName = enc.tagName →
      b.e.tagName = enc.tagName ∧ mapGet b.values f.Name = mapGet a.values f.Name
  have hQrefl : ∀ a, Q a a := fun a h => ⟨h, rfl⟩
  have hQtrans : ∀ a b c, Q a b → Q b c → Q a c := by
    intro a b c h1 h2 ha
    obtain ⟨hb, hb2⟩ := h1 ha
    obtain ⟨hc, hc2⟩ := h2 hb
    exact ⟨hc, hc2.trans hb2⟩
  have hmain : ∀ e1, encoder.traverseStruct fuel { e := enc, errs := none, values := [] }
      Flag.ValueOf (.struct typ fields) "" (-1) = .ok e1 → mapGet e1.values f.Name = none := by
    intro e1 h1
    cases fuel with
    | zero => simp [encoder.traverseStruct] at h1
    | succ fuel =>
      rw [traverseStruct_succ] at h1
      simp only [Value.Type, traverseBody] at h1
      split at h1
      · have := forEach_frame Q hQrefl hQtrans _ _ ?_ _ _ h1 rfl
        · rw [this.2]; rfl
        · intro fv hfv a b hx ha
          unfold anonFieldBody at hx
          split at hx
          · simp only [Except.ok.injEq] at hx
            exact hx ▸ ⟨ha, rfl⟩
          · next hpk =>
            split at hx
            · simp only [Except.ok.injEq] at hx
              exact hx ▸ ⟨ha, rfl⟩
            · next htag =>
              have hg : fv.1 ∈ fields.map Prod.fst := List.mem_map_of_mem Prod.fst hfv
              rw [ha] at htag hx
              have hincl : excluded enc.tagName fv.1 = false := by
                simp only [excluded, Bool.or_eq_false_iff, Bool.and_eq_false_iff,
                  decide_eq_false_iff_not, Bool.not_eq_false']
                refine ⟨?_, htag⟩
                by_cases hp : fv.1.PkgPath ≠ blank
                · right
                  cases hA : fv.1.Anonymous
                  · exact absurd ⟨hp, hA⟩ hpk
                  · rfl
                · left; exact hp
              have hkn : (if (fv.1.Tag.Get enc.tagName).length = 0 then fv.1.Name
                  else fv.1.Tag.Get enc.tagName) = keyName enc.tagName fv.1 := by
                simp only [keyName, length_eq_zero_iff]
              rw [hkn] at hx
              have := top_field_keeps_name fuel a b fv.2 _ f.Name (-1)
                (keyName_ne_empty _ _ (hnames _ hg)) (hcoll _ hg hincl) hdot hbr hx
              exact ⟨this.1.trans ha, this.2⟩
      · next hname =>
        have hnn : typ.Name ≠ "" := fun h => hname ((length_eq_zero_iff _).mpr h)
        split at h1
        · simp at h1
        · next s a1 hd =>
          have hs : s.fields = descriptorFrom enc.tagName fields 0
              ∧ a1.e.tagName = enc.tagName ∧ a1.values = [] := by
            unfold descriptorOf at hd
            rcases hcache with h | h | h
            · exact absurd h hnn
            · simp only [h] at hd
              split at hd
              · next s1 enc1 hp =>
                simp only [Except.ok.injEq, Prod.mk.injEq] at hd
                obtain ⟨h1, h2, h3, -⟩ := parseStruct_ok _ _ _ _ hp
                rw [← hd.1, ← hd.2]
                exact ⟨h3, h1, rfl⟩
              · simp at hd
            · simp only [h, Except.ok.injEq, Prod.mk.injEq] at hd
              rw [← hd.1, ← hd.2]
              exact ⟨rfl, rfl, rfl⟩
          have := forEach_frame Q hQrefl hQtrans _ _ ?_ _ _ h1 hs.2.1
          · rw [this.2, hs.2.2]; rfl
          · intro cf hcf a b hx ha
            unfold cachedFieldBody at hx
            split at hx
            · simp at hx
            · next x hfx =>
              rw [hs.1] at hcf
              obtain ⟨g, hg, hincl, hname⟩ := mem_descriptorFrom _ _ _ _ hcf
              rw [hname] at hx
              have := top_field_keeps_name fuel a b x _ f.Name (-1)
                (keyName_ne_empty _ _ (hnames _ hg)) (hcoll _ hg hincl) hdot hbr hx
              exact ⟨this.1.trans ha, this.2⟩
  unfold Encoder.Encode topLevelMarker at hr
  simp only [hv, ne_eq, not_true_eq_false, if_false, ExtractFlag_ValueOf] at hr
  split at hr
  · simp at hr
  · next e1 h1 =>
    have := hmain e1 h1
    split at hr <;> simp only [Except.ok.injEq] at hr <;> rw [← hr] <;> exact this

theorem C8_excluded_field_name_absent_witness :
    ∃ r, NewEncoder.Encode 2
        (.struct ⟨"S", "main.S"⟩
          [(⟨"X", "", false, [("form", "-")]⟩, .int ⟨"int", "int"⟩ 1),
           (⟨"Y", "", false, []⟩, .int ⟨"int", "int"⟩ 2)]) = .ok r
      ∧ mapGet r.values "Y" = some ["2"] ∧ mapGet r.values "X" = none :=
  ⟨{ values := [("Y", ["2"])], err := none,
     e := { tagName := "form",
            structCache := [(⟨"S", "main.S"⟩, ⟨[⟨1, "Y"⟩]⟩)],
            customTypeFuncs := none } },
   rfl, rfl,
   C8_excluded_field_name_absent 2 NewEncoder
    (.struct ⟨"S", "main.S"⟩
      [(⟨"X", "", false, [("form", "-")]⟩, .int ⟨"int", "int"⟩ 1),
       (⟨"Y", "", false, []⟩, .int ⟨"int", "int"⟩ 2)])
    ⟨"S", "main.S"⟩
    [(⟨"X", "", false, [("form", "-")]⟩, .int ⟨"int", "int"⟩ 1),
     (⟨"Y", "", false, []⟩, .int ⟨"int", "int"⟩ 2)]
    ⟨"X", "", false, [("form", "-")]⟩
    { values := [("Y", ["2"])], err := none,
      e := { tagName := "form",
             structCache := [(⟨"S", "main.S"⟩, ⟨[⟨1, "Y"⟩]⟩)],
             customTypeFuncs := none } }
    rfl (by decide) (by decide) (Or.inr (Or.inl rfl)) (by decide) (by decide) (by decide)
    (by decide) rfl⟩

/-! ## Fuel -/

theorem cost_le_costList (xs : List Value) (x : Value) (h : x ∈ xs) : x.cost ≤ costList xs := by
  induction xs with
  | nil => simp at h
  | cons a xs ih =>
    rw [costList]
    rcases List.mem_cons.mp h with h1 | h1
    · subst h1; exact le_max_left _ _
    · exact le_trans (ih h1) (le_max_right _ _)

theorem cost_le_costEntries (es : List (Value × Value)) (p : Value × Value) (h : p ∈ es) :
    p.2.cost ≤ costEntries es := by
  induction es with
  | nil => simp at h
  | cons a es ih =>
    obtain ⟨k, v⟩ := a
    rw [costEntries]
    rcases List.mem_cons.mp h with h1 | h1
    · subst h1; exact le_max_left _ _
    · exact le_trans (ih h1) (le_max_right _ _)

theorem cost_le_costFields (fs : List (StructField × Value)) (p : StructField × Value)
    (h : p ∈ fs) : p.2.cost ≤ costFields fs := by
  induction fs with
  | nil => simp at h
  | cons a fs ih =>
    obtain ⟨k, v⟩ := a
    rw [costFields]
    rcases List.mem_cons.mp h with h1 | h1
    · subst h1; exact le_max_left _ _
    · exact le_trans (ih h1) (le_max_right _ _)

/-- A property that holds of every value that is not a non-nil pointer or interface, and of a
non-nil pointer or interface whenever it holds of the value inside, holds of every value. -/
theorem Value.unwrap_induction (P : Value → Prop)
    (hbase : ∀ v, (∀ t w, v ≠ .ptr t (some w)) → (∀ t w, v ≠ .iface t (some w)) → P v)
    (hptr : ∀ t w, P w → P (.ptr t (some w)))
    (hiface : ∀ t w, P w → P (.iface t (some w))) (v : Value) : P v := by
  suffices h : ∀ n (v : Value), sizeOf v = n → P v from h _ v rfl
  intro n
  induction n using Nat.strong_induction_on with
  | _ n ih =>
    intro v hn
    cases v with
    | ptr t o =>
      cases o with
      | none => exact hbase _ (by intro t w h; cases h) (by intro t w h; cases h)
      | some w =>
        apply hptr
        apply ih (sizeOf w) _ w rfl
        rw [← hn]
        simp
        omega
    | iface t o =>
      cases o with
      | none => exact hbase _ (by intro t w h; cases h) (by intro t w h; cases h)
      | some w =>
        apply hiface
        apply ih (sizeOf w) _ w rfl
        rw [← hn]
        simp
        omega
    | _ => exact hbase _ (by intro t w h; cases h) (by intro t w h; cases h)

theorem ExtractType_cost (v : Value) : (ExtractType v).1.cost = v.cost := by
  induction v using Value.unwrap_induction with
  | hbase v h1 h2 =>
    cases v with
    | ptr t o =>
      cases o with
      | none => rfl
      | some w => exact absurd rfl (h1 t w)
    | iface t o =>
      cases o with
      | none => rfl
      | some w => exact absurd rfl (h2 t w)
    | _ => rfl
  | hptr t w ih => simpa [Value.cost] using ih
  | hiface t w ih => simpa [Value.cost] using ih

theorem ExtractType_kind (v : Value) : (ExtractType v).1.Kind = (ExtractType v).2 := by
  induction v using Value.unwrap_induction with
  | hbase v h1 h2 =>
    cases v with
    | ptr t o =>
      cases o with
      | none => rfl
      | some w => exact absurd rfl (h1 t w)
    | iface t o =>
      cases o with
      | none => rfl
      | some w => exact absurd rfl (h2 t w)
    | _ => rfl
  | hptr t w ih => simpa using ih
  | hiface t w ih => simpa using ih

theorem cost_pos (v : Value) : 1 ≤ v.cost := by
  induction v using Value.unwrap_induction with
  | hbase v h1 h2 =>
    cases v with
    | ptr t o =>
      cases o with
      | none => simp [Value.cost]
      | some w => exact absurd rfl (h1 t w)
    | iface t o =>
      cases o with
      | none => simp [Value.cost]
      | some w => exact absurd rfl (h2 t w)
    | _ => simp [Value.cost]
  | hptr t w ih => simpa [Value.cost] using ih
  | hiface t w ih => simpa [Value.cost] using ih

theorem forEach_ne_outOfFuel {α : Type} (body : α → encoder → Res encoder) (xs : List α)
    (h : ∀ x ∈ xs, ∀ e, body x e ≠ .error .outOfFuel) (e : encoder) :
    forEach body xs e ≠ .error .outOfFuel := by
  intro hf
  obtain ⟨x, e0, hx, hmem⟩ : ∃ x e0, body x e0 = .error .outOfFuel ∧ x ∈ xs := by
    induction xs generalizing e with
    | nil => simp [forEach] at hf
    | cons a xs ih =>
      rw [forEach] at hf
      split at hf
      · obtain ⟨x, e0, hx, hm⟩ := ih (fun y hy => h y (List.mem_cons_of_mem _ hy)) _ hf
        exact ⟨x, e0, hx, List.mem_cons_of_mem _ hm⟩
      · next g hg =>
        injection hf with hf
        subst hf
        exact ⟨a, e, hg, List.mem_cons_self _ _⟩
  exact h x hmem e0 hx

theorem forIndex_ne_outOfFuel (body : Nat → Value → encoder → Res encoder) (xs : List Value)
    (h : ∀ x ∈ xs, ∀ i e, body i x e ≠ .error .outOfFuel) (k : Nat) (e : encoder) :
    forIndex body xs k e ≠ .error .outOfFuel := by
  induction xs generalizing e k with
  | nil => simp [forIndex]
  | cons a xs ih =>
    rw [forIndex]
    split
    · exact ih (fun y hy => h y (List.mem_cons_of_mem _ hy)) _ _
    · next g hg =>
      intro hf
      injection hf with hf
      subst hf
      exact h a (List.mem_cons_self _ _) k e hg

theorem getMapKey_ne_outOfFuel {ro : Flag} (e : encoder) (key : Value) (ns : String) :
    e.getMapKey ro key ns ≠ .error .outOfFuel := by
  intro h
  unfold encoder.getMapKey at h
  simp only at h
  split at h
  · next g hg =>
    injection h with h
    subst h
    have := lookupCustom_error _ _ _ hg
    cases this
  · split at h
    · injection h with h
      cases h
    · split at h
      · simp at h
      · injection h with h
        cases h
      · simp at h
  · split at h <;> simp at h

theorem visit_ne_outOfFuel {ro : Flag} (S T : encoder → Flag → Value → String → Int → Res encoder)
    (e : encoder) (current : Value) (ns : String) (idx : Int)
    (hS : ∀ x, (x ∈ (ExtractType current).1.elems
        ∨ x ∈ (ExtractType current).1.entries.map Prod.snd) →
      ∀ ro e ns idx, S e ro x ns idx ≠ .error .outOfFuel)
    (hT : (ExtractType current).2 = .Struct → (ExtractType current).1.Type ≠ some timeType →
      ∀ ro e ns idx, T e ro (ExtractType current).1 ns idx ≠ .error .outOfFuel) :
    visit S T e ro current ns idx ≠ .error .outOfFuel := by
  intro h
  unfold visit at h
  split at h
  · next g hg =>
    injection h with h
    subst h
    have := lookupCustom_error _ _ _ hg
    cases this
  · split at h
    · injection h with h
      cases h
    · split at h <;> simp at h
  · cases hk : (ExtractType current).2 <;> rw [hk] at h <;> simp only [visitKind] at h
    case Slice | Array =>
      split at h
      all_goals
        refine forIndex_ne_outOfFuel _ _ ?_ 0 e h
        intro x hx i e
        exact hS x (Or.inl hx) _ _ _ _
    case Map =>
      refine forEach_ne_outOfFuel _ _ ?_ e h
      intro entry hentry e hx
      unfold mapEntryBody at hx
      split at hx
      · next g hg =>
        injection hx with hx
        subst hx
        exact getMapKey_ne_outOfFuel _ _ _ hg
      · split at hx
        · simp at hx
        · split at hx
          · injection hx with hx
            cases hx
          · next x hmi =>
            unfold Value.MapIndex at hmi
            split at hmi
            · injection hmi with hmi
              subst hmi
              exact hS entry.2 (Or.inr (List.mem_map_of_mem Prod.snd hentry)) _ _ _ _ hx
            · cases hmi
    case Struct =>
      split at h
      · split at h
        · injection h with h
          cases h
        · simp at h
      · next hty =>
        split at h
        · exact hT hk hty _ _ _ _ h
        · exact hT hk hty _ _ _ _ h
    all_goals simp at h

theorem traverseBody_ne_outOfFuel {ro : Flag}
    (S : encoder → Flag → Value → String → Int → Res encoder)
    (e : encoder) (v : Value) (ns : String) (idx : Int) (typ : GoType)
    (hS : ∀ x ∈ v.fields.map Prod.snd, ∀ ro e ns idx, S e ro x ns idx ≠ .error .outOfFuel) :
    traverseBody S e ro v ns idx typ ≠ .error .outOfFuel := by
  intro h
  unfold traverseBody at h
  split at h
  · refine forEach_ne_outOfFuel _ _ ?_ e h
    intro fv hfv e hx
    unfold anonFieldBody at hx
    split at hx
    · simp at hx
    · split at hx
      · simp at hx
      · exact hS fv.2 (List.mem_map_of_mem Prod.snd hfv) _ _ _ _ hx
  · split at h
    · next g hg =>
      injection h with h
      subst h
      unfold descriptorOf at hg
      split at hg
      · simp at hg
      · split at hg
        · simp at hg
        · next g2 hg2 =>
          injection hg with hg
          subst hg
          unfold Encoder.parseStruct at hg2
          split at hg2
          · injection hg2 with hg2
            cases hg2
          · simp at hg2
    · refine forEach_ne_outOfFuel _ _ ?_ _ h
      intro f _ e hx
      unfold cachedFieldBody at hx
      split at hx
      · injection hx with hx
        cases hx
      · next x hfx =>
        refine hS x ?_ _ _ _ _ hx
        unfold Value.Field at hfx
        cases hget : v.fields.get? f.idx with
        | none =>
          rw [hget] at hfx
          cases hfx
        | some fv =>
          rw [hget] at hfx
          simp only [Option.map_some', Option.some.injEq] at hfx
          rw [← hfx]
          exact List.mem_map_of_mem Prod.snd (List.get?_mem hget)

/-- Enough fuel: a visit given at least the cost of its value does not run out of fuel. -/
theorem traversal_enough_fuel (fuel : Nat) :
    (∀ ro e v ns idx, costFields v.fields + 1 ≤ fuel →
      encoder.traverseStruct fuel e ro v ns idx ≠ .error .outOfFuel)
    ∧ (∀ ro e v ns idx, v.cost ≤ fuel →
      encoder.setFieldByType fuel e ro v ns idx ≠ .error .outOfFuel) := by
  induction fuel with
  | zero =>
    constructor
    · intro ro e v ns idx h
      omega
    · intro ro e v ns idx h
      have := cost_pos v
      omega
  | succ fuel ih =>
    obtain ⟨ihT, ihS⟩ := ih
    constructor
    · intro ro e v ns idx h
      rw [traverseStruct_succ]
      split
      · intro hf
        injection hf with hf
        cases hf
      · refine traverseBody_ne_outOfFuel _ e v ns idx _ ?_
        intro x hx ro e ns idx
        obtain ⟨p, hp, rfl⟩ := List.mem_map.mp hx
        have := cost_le_costFields _ p hp
        exact ihS _ _ _ _ _ (by omega)
    · intro ro e v ns idx h
      rw [setFieldByType_succ]
      have hc := ExtractType_cost v
      have hkind := ExtractType_kind v
      refine visit_ne_outOfFuel _ _ e v _ _ ?_ ?_
      · intro x hx ro e ns idx
        apply ihS
        rcases hx with hx | hx
        · cases hw : (ExtractType v).1 <;> rw [hw] at hx hc <;>
            simp only [Value.elems, List.not_mem_nil] at hx
          all_goals
            have := cost_le_costList _ x hx
            simp only [Value.cost] at hc
            omega
        · obtain ⟨p, hp, rfl⟩ := List.mem_map.mp hx
          cases hw : (ExtractType v).1 <;> rw [hw] at hp hc <;>
            simp only [Value.entries, List.not_mem_nil] at hp
          have := cost_le_costEntries _ p hp
          simp only [Value.cost] at hc
          omega
      · intro hk hty ro e ns idx
        apply ihT
        rw [← hkind] at hk
        cases hw : (ExtractType v).1 <;> rw [hw] at hk hc hty <;>
          simp only [Value.Kind, reduceCtorEq] at hk
        · exact absurd rfl hty
        · simp only [Value.cost] at hc
          simp only [Value.fields]
          omega

theorem forEach_agree {α : Type} (body body2 : α → encoder → Res encoder) (xs : List α)
    (h : ∀ x e, body x e ≠ .error .outOfFuel → body2 x e = body x e) (e : encoder)
    (hne : forEach body xs e ≠ .error .outOfFuel) : forEach body2 xs e = forEach body xs e := by
  induction xs generalizing e with
  | nil => rfl
  | cons x xs ih =>
    rw [forEach] at hne ⊢
    rw [forEach]
    have hx : body x e ≠ .error .outOfFuel := by
      intro hx
      rw [hx] at hne
      exact hne rfl
    rw [h x e hx]
    cases hb : body x e with
    | error f => rfl
    | ok e1 =>
      rw [hb] at hne
      exact ih e1 hne

theorem forIndex_agree (body body2 : Nat → Value → encoder → Res encoder) (xs : List Value)
    (h : ∀ i x e, body i x e ≠ .error .outOfFuel → body2 i x e = body i x e) (k : Nat)
    (e : encoder) (hne : forIndex body xs k e ≠ .error .outOfFuel) :
    forIndex body2 xs k e = forIndex body xs k e := by
  induction xs generalizing e k with
  | nil => rfl
  | cons x xs ih =>
    rw [forIndex] at hne ⊢
    rw [forIndex]
    have hx : body k x e ≠ .error .outOfFuel := by
      intro hx
      rw [hx] at hne
      exact hne rfl
    rw [h k x e hx]
    cases hb : body k x e with
    | error f => rfl
    | ok e1 =>
      rw [hb] at hne
      exact ih (k + 1) e1 hne

theorem visit_agree {ro : Flag} (S T S2 T2 : encoder → Flag → Value → String → Int → Res encoder)
    (hS : ∀ ro e v ns idx, S e ro v ns idx ≠ .error .outOfFuel → S2 e ro v ns idx = S e ro v ns idx)
    (hT : ∀ ro e v ns idx, T e ro v ns idx ≠ .error .outOfFuel → T2 e ro v ns idx = T e ro v ns idx)
    (e : encoder) (current : Value) (ns : String) (idx : Int)
    (hne : visit S T e ro current ns idx ≠ .error .outOfFuel) :
    visit S2 T2 e ro current ns idx = visit S T e ro current ns idx := by
  unfold visit at hne ⊢
  generalize e.lookupCustom (ExtractType current).1 = r at hne ⊢
  rcases r with f | (_ | cf)
  · rfl
  · simp only at hne ⊢
    generalize (ExtractType current).2 = k at hne ⊢
    cases k <;> simp only [visitKind] at hne ⊢
    case Slice | Array =>
      by_cases hi : idx = -1
      · simp only [hi, if_true] at hne ⊢
        exact forIndex_agree _ _ _ (fun i x e hx => hS _ _ _ _ _ hx) 0 e hne
      · simp only [hi, if_false] at hne ⊢
        exact forIndex_agree _ _ _ (fun i x e hx => hS _ _ _ _ _ hx) 0 e hne
    case Map =>
      refine forEach_agree _ _ _ ?_ e hne
      intro entry e hx
      unfold mapEntryBody at hx ⊢
      generalize e.getMapKey _ entry.1 (withIndex ns idx) = g at hx ⊢
      rcases g with f | ⟨s, valid, e1⟩
      · rfl
      · simp only at hx ⊢
        cases valid
        · rfl
        · simp only [Bool.true_eq_false, if_false] at hx ⊢
          generalize current.MapIndex entry = o at hx ⊢
          cases o with
          | none => rfl
          | some x => exact hS _ _ _ _ _ hx
    case Struct =>
      by_cases hty : (ExtractType current).1.Type = some timeType
      · simp only [hty, if_true]
      · simp only [hty, if_false] at hne ⊢
        by_cases hi : idx = -1
        · simp only [hi, if_true] at hne ⊢
          exact hT _ _ _ _ _ hne
        · simp only [hi, if_false] at hne ⊢
          exact hT _ _ _ _ _ hne
  · rfl

theorem traverseBody_agree {ro : Flag} (S S2 : encoder → Flag → Value → String → Int → Res encoder)
    (hS : ∀ ro e v ns idx, S e ro v ns idx ≠ .error .outOfFuel → S2 e ro v ns idx = S e ro v ns idx)
    (e : encoder) (v : Value) (ns : String) (idx : Int) (typ : GoType)
    (hne : traverseBody S e ro v ns idx typ ≠ .error .outOfFuel) :
    traverseBody S2 e ro v ns idx typ = traverseBody S e ro v ns idx typ := by
  unfold traverseBody at hne ⊢
  by_cases hn : typ.Name.length = 0
  · simp only [hn, if_true] at hne ⊢
    refine forEach_agree _ _ _ ?_ e hne
    intro fv e hx
    unfold anonFieldBody at hx ⊢
    by_cases h1 : fv.1.PkgPath ≠ blank ∧ fv.1.Anonymous = false
    · rw [if_pos h1, if_pos h1]
    · rw [if_neg h1] at hx ⊢
      rw [if_neg h1]
      by_cases h2 : fv.1.Tag.Get e.e.tagName = ignore
      · rw [if_pos h2, if_pos h2]
      · rw [if_neg h2] at hx ⊢
        rw [if_neg h2]
        exact hS _ _ _ _ _ hx
  · simp only [hn, if_false] at hne ⊢
    generalize descriptorOf e v typ = d at hne ⊢
    rcases d with f | ⟨s, e1⟩
    · rfl
    · simp only at hne ⊢
      refine forEach_agree _ _ _ ?_ e1 hne
      intro f e hx
      unfold cachedFieldBody at hx ⊢
      generalize v.Field f.idx = o at hx ⊢
      cases o with
      | none => rfl
      | some x => exact hS _ _ _ _ _ hx

/-- More fuel changes nothing: a visit that did not run out of fuel gives the same result with
one unit more. -/
theorem traversal_fuel_succ (fuel : Nat) :
    (∀ ro e v ns idx, encoder.traverseStruct fuel e ro v ns idx ≠ .error .outOfFuel →
      encoder.traverseStruct (fuel + 1) e ro v ns idx = encoder.traverseStruct fuel e ro v ns idx)
    ∧ (∀ ro e v ns idx, encoder.setFieldByType fuel e ro v ns idx ≠ .error .outOfFuel →
      encoder.setFieldByType (fuel + 1) e ro v ns idx = encoder.setFieldByType fuel e ro v ns idx) := by
  induction fuel with
  | zero =>
    constructor <;> intro ro e v ns idx h <;>
      simp [encoder.traverseStruct, encoder.setFieldByType] at h
  | succ fuel ih =>
    obtain ⟨ihT, ihS⟩ := ih
    constructor
    · intro ro e v ns idx h
      rw [traverseStruct_succ] at h
      rw [traverseStruct_succ, traverseStruct_succ]
      generalize v.Type = o at h ⊢
      cases o with
      | none => rfl
      | some typ => exact traverseBody_agree _ _ ihS e v ns idx typ h
    · intro ro e v ns idx h
      rw [setFieldByType_succ] at h
      rw [setFieldByType_succ, setFieldByType_succ]
      exact visit_agree _ _ _ _ ihS ihT e v _ _ h

/-- The result of a visit does not depend on the fuel once the fuel reaches the cost of the
value. -/
theorem setFieldByType_fuel_independent {ro : Flag}
    (e : encoder) (v : Value) (ns : String) (idx : Int)
    (fuel : Nat) (h : v.cost ≤ fuel) :
    encoder.setFieldByType fuel e ro v ns idx = encoder.setFieldByType v.cost e ro v ns idx
      ∧ encoder.setFieldByType fuel e ro v ns idx ≠ .error .outOfFuel := by
  induction fuel with
  | zero =>
    have := cost_pos v
    omega
  | succ fuel ih =>
    by_cases hc : v.cost ≤ fuel
    · obtain ⟨h1, h2⟩ := ih hc
      rw [(traversal_fuel_succ fuel).2 _ e v ns idx h2]
      exact ⟨h1, h2⟩
    · have : v.cost = fuel + 1 := by omega
      rw [this]
      exact ⟨rfl, (traversal_enough_fuel (fuel + 1)).2 _ e v ns idx (by omega)⟩

/-- Encode with fuel at least the cost of its argument never runs out of fuel. -/
theorem Encode_enough_fuel (enc : Encoder) (v : Value) (fuel : Nat) (h : v.cost ≤ fuel) :
    enc.Encode fuel v ≠ .error .outOfFuel := by
  unfold Encoder.Encode topLevelMarker
  simp only
  split
  · intro hf
    injection hf with hf
    cases hf
  · next hk =>
    have hk2 : (ExtractType v).2 = .Struct := by
      by_contra hne
      exact hk hne
    have hc := ExtractType_cost v
    have hkind := ExtractType_kind v
    rw [hk2] at hkind
    have hcost : costFields (ExtractType v).1.fields + 1 ≤ fuel := by
      cases hw : (ExtractType v).1 <;> rw [hw] at hkind hc <;>
        simp only [Value.Kind, reduceCtorEq] at hkind
      · simp only [Value.fields, costFields]
        have := cost_pos v
        omega
      · simp only [Value.cost] at hc
        simp only [Value.fields]
        omega
    have := (traversal_enough_fuel fuel).1 (ExtractFlag Flag.ValueOf v)
      { e := enc, errs := none, values := [] }
      (ExtractType v).1 "" (-1) hcost
    split
    · next f hf =>
      intro h2
      injection h2 with h2
      subst h2
      exact this hf
    · split <;> simp

/-! ## The precondition of Encode: C10 -/

/-- C10, the code departs from the claim: a struct whose field M is a non-nil pointer to the map
k -> 1. The top-level value is a struct, so the precondition of Encode holds, and Encode panics
all the same: the map branch of setFieldByType looks the entry up with MapIndex on the pointer
instead of the map. The same struct with the map itself in M is encoded under M[k]. A second
struct-shaped input that panics: a map with a string key under a custom function for string
that returns no strings, of which getMapKey takes the first. -/
theorem C10_struct_input_panics :
    (ExtractType (.struct ⟨"T", "main.T"⟩
        [(plainField "M", .ptr ⟨"", "*map[string]int"⟩
          (some (.map ⟨"", "map[string]int"⟩
            [(.str ⟨"string", "string"⟩ "k", .int ⟨"int", "int"⟩ 1)])))])).2 = .Struct
    ∧ NewEncoder.Encode 4
        (.struct ⟨"T", "main.T"⟩
          [(plainField "M", .ptr ⟨"", "*map[string]int"⟩
            (some (.map ⟨"", "map[string]int"⟩
              [(.str ⟨"string", "string"⟩ "k", .int ⟨"int", "int"⟩ 1)])))])
      = .error (.panic "reflect: call of reflect.Value.MapIndex on non-map Value")
    ∧ (NewEncoder.Encode 4
        (.struct ⟨"T", "main.T"⟩
          [(plainField "M", .map ⟨"", "map[string]int"⟩
            [(.str ⟨"string", "string"⟩ "k", .int ⟨"int", "int"⟩ 1)])])).toOption.map
        (fun r => (r.values, r.err))
      = some ([("M[k]", ["1"])], none)
    ∧ Encoder.Encode 4
        (NewEncoder.RegisterCustomTypeFunc (fun _ => .ok []) [⟨"string", "string"⟩])
        (.struct ⟨"T", "main.T"⟩
          [(plainField "M", .map ⟨"", "map[string]int"⟩
            [(.str ⟨"string", "string"⟩ "k", .int ⟨"int", "int"⟩ 1)])])
      = .error (.panic "runtime error: index out of range [0] with length 0") := by
  refine ⟨rfl, rfl, ?_, rfl⟩
  decide

/-- The precondition of Encode and what follows it: Encode raises its precondition panic
exactly when the top-level value, after ExtractType has stripped pointers and interfaces, is
not of kind struct (a nil pointer, a
nil interface and the invalid value included), at every fuel; and when it is a struct Encode
does not raise that panic and its outcome is that of traverseStruct on the stripped value,
started on a fresh state with the empty namespace and the unindexed marker -1: Encode returns
exactly when the traversal returns, with a nil error exactly when no error was recorded, and
panics with the panic of the traversal when the traversal panics. With fuel for the input the
model does not run out of fuel. -/
theorem Encode_precondition (fuel : Nat) (e : Encoder) (v : Value) :
    (Encoder.Encode fuel e v = .error (.panic notStructMsg) ↔ (ExtractType v).2 ≠ .Struct)
    ∧ ((ExtractType v).2 = .Struct →
        Encoder.Encode fuel e v =
          match encoder.traverseStruct fuel { e := e, errs := none, values := [] }
              Flag.ValueOf (ExtractType v).1 "" (-1) with
          | .error f => .error f
          | .ok enc =>
            .ok { values := enc.values,
                  err := if errsLen enc.errs = 0 then none else enc.errs,
                  e := enc.e })
    ∧ (ExtractType (.ptr ⟨"", "*T"⟩ none)).2 ≠ .Struct
    ∧ (ExtractType (.iface ⟨"", "interface {}"⟩ none)).2 ≠ .Struct
    ∧ (ExtractType .invalid).2 ≠ .Struct
    ∧ topLevelMarker = -1
    ∧ ((ExtractType v).2 = .Struct →
        ((∃ r, Encoder.Encode fuel e v = .ok r) ↔
          ∃ enc, encoder.traverseStruct fuel { e := e, errs := none, values := [] }
            Flag.ValueOf (ExtractType v).1 "" (-1) = .ok enc)
        ∧ ∀ f, Encoder.Encode fuel e v = .error f ↔
          encoder.traverseStruct fuel { e := e, errs := none, values := [] }
            Flag.ValueOf (ExtractType v).1 "" (-1) = .error f)
    ∧ (v.cost ≤ fuel → Encoder.Encode fuel e v ≠ .error .outOfFuel) := by
  have hmatch : (ExtractType v).2 = .Struct →
      Encoder.Encode fuel e v =
        match encoder.traverseStruct fuel { e := e, errs := none, values := [] }
            Flag.ValueOf (ExtractType v).1 "" (-1) with
        | .error f => .error f
        | .ok enc =>
          .ok { values := enc.values,
                err := if errsLen enc.errs = 0 then none else enc.errs,
                e := enc.e } := by
    intro hk
    unfold Encoder.Encode topLevelMarker
    simp only [hk, ne_eq, not_true_eq_false, if_false, ExtractFlag_ValueOf]
    generalize encoder.traverseStruct fuel _ _ _ _ _ = r
    rcases r with f | enc
    · rfl
    · by_cases hz : errsLen enc.errs = 0 <;> simp [hz]
  refine ⟨⟨?_, ?_⟩, hmatch, by simp [ExtractType], by simp [ExtractType],
    by simp [ExtractType, Value.Kind], rfl, ?_, fun h => Encode_enough_fuel e v fuel h⟩
  · intro h hk
    rw [hmatch hk] at h
    split at h
    · next g hg =>
      injection h with h
      subst h
      exact (traversal_not_precondition fuel).1 _ _ _ _ _ hg
    · simp at h
  · intro hk
    unfold Encoder.Encode
    simp [hk]
  · intro hk
    rw [hmatch hk]
    rcases encoder.traverseStruct fuel { e := e, errs := none, values := [] }
      Flag.ValueOf (ExtractType v).1 "" (-1) with f | enc
    · simp
    · simp

/-! ## The keys of a custom function: C12 -/

theorem bracket_append_ne (K s : String) : K ++ "[" ++ s ++ "]" ≠ K := by
  intro h
  have := congrArg String.length h
  simp only [String.length_append] at this
  have h1 : "[".length = 1 := rfl
  have h2 : "]".length = 1 := rfl
  omega

theorem withIndex_of_gt (ns : String) (idx : Int) (h : idx > -1) :
    withIndex ns idx = ns ++ "[" ++ Itoa idx ++ "]" := by
  simp [withIndex, h]

theorem withIndex_of_le (ns : String) (idx : Int) (h : ¬ idx > -1) : withIndex ns idx = ns := by
  simp [withIndex, h]

/-- With a custom function registered for the type of a value that is not read-only, a failure
is recorded under the namespace of the visit (for a pointer element of a slice that namespace
has already taken the index), and the strings of a success are appended under the key that
`withIndex` gives: the same key unless the marker is still a pending index, when the success key
is N[idx] and the failure key N. -/
theorem custom_function_keys (fuel : Nat) (e : encoder) (ro : Flag) (current : Value)
    (ns : String) (idx : Int) (cf : EncodeCustomTypeFunc)
    (hreg : e.lookupCustom (ExtractType current).1 = .ok (some cf))
    (hro : ro.isRO = false) :
    (∀ err, cf (ExtractType current).1 = .error err →
      encoder.setFieldByType (fuel + 1) e ro current ns idx
        = .ok (e.setError (ptrAdjust current ns idx).1 err))
    ∧ (∀ arr, cf (ExtractType current).1 = .ok arr →
      encoder.setFieldByType (fuel + 1) e ro current ns idx
        = .ok (e.setVal (withIndex (ptrAdjust current ns idx).1 (ptrAdjust current ns idx).2)
            (ptrAdjust current ns idx).2 arr))
    ∧ ((¬ idx > -1 ∨ current.Kind = .Ptr) →
      withIndex (ptrAdjust current ns idx).1 (ptrAdjust current ns idx).2
        = (ptrAdjust current ns idx).1)
    ∧ (idx > -1 → current.Kind ≠ .Ptr →
      (ptrAdjust current ns idx).1 = ns
      ∧ withIndex (ptrAdjust current ns idx).1 (ptrAdjust current ns idx).2
          = ns ++ "[" ++ Itoa idx ++ "]"
      ∧ withIndex (ptrAdjust current ns idx).1 (ptrAdjust current ns idx).2
          ≠ (ptrAdjust current ns idx).1) := by
  refine ⟨?_, ?_, ?_, ?_⟩
  · intro err herr
    rw [setFieldByType_succ]
    simp only [visit, hreg, herr, ExtractFlag_isRO, hro, Bool.false_eq_true, if_false]
  · intro arr harr
    rw [setFieldByType_succ]
    simp only [visit, hreg, harr, ExtractFlag_isRO, hro, Bool.false_eq_true, if_false]
  · intro h
    by_cases hp : idx > -1 ∧ current.Kind = .Ptr
    · simp [ptrAdjust, hp, withIndex]
    · have hi : ¬ idx > -1 := by
        rcases h with h | h
        · exact h
        · intro hgt; exact hp ⟨hgt, h⟩
      simp [ptrAdjust, hp, withIndex, hi]
  · intro hgt hk
    have hpa : ptrAdjust current ns idx = (ns, idx) := by simp [ptrAdjust, hk]
    rw [hpa, withIndex_of_gt ns idx hgt]
    exact ⟨rfl, rfl, bracket_append_ne _ _⟩

/-- C12, the code departs from the claim: element 0 of an unindexed slice under F, of type int
with a custom function registered for int. When the function succeeds its strings are appended
under F[0]; when it fails the error is recorded under F, the key without the pending index. The
same element behind a pointer records the failure under F[0], the key of its success, and so
does the error of a map key, recorded under the namespace of the map with its pending index
applied. -/
theorem C12_failure_key_differs_from_success_key :
    (encoder.setFieldByType 1
        { e := NewEncoder.RegisterCustomTypeFunc (fun _ => .error "bad") [⟨"int", "int"⟩],
          errs := none, values := [] } Flag.ValueOf
        (.int ⟨"int", "int"⟩ 7) "F" 0).toOption.map (fun r => (r.values, r.errs))
      = some ([], some [("F", "bad")])
    ∧ (encoder.setFieldByType 1
        { e := NewEncoder.RegisterCustomTypeFunc (fun _ => .ok ["seven"]) [⟨"int", "int"⟩],
          errs := none, values := [] } Flag.ValueOf
        (.int ⟨"int", "int"⟩ 7) "F" 0).toOption.map (fun r => (r.values, r.errs))
      = some ([("F[0]", ["seven"])], none)
    ∧ (encoder.setFieldByType 1
        { e := NewEncoder.RegisterCustomTypeFunc (fun _ => .error "bad") [⟨"int", "int"⟩],
          errs := none, values := [] } Flag.ValueOf
        (.ptr ⟨"", "*int"⟩ (some (.int ⟨"int", "int"⟩ 7))) "F" 0).toOption.map
          (fun r => (r.values, r.errs))
      = some ([], some [("F[0]", "bad")])
    ∧ (encoder.setFieldByType 1
        { e := NewEncoder.RegisterCustomTypeFunc (fun _ => .ok ["seven"]) [⟨"int", "int"⟩],
          errs := none, values := [] } Flag.ValueOf
        (.ptr ⟨"", "*int"⟩ (some (.int ⟨"int", "int"⟩ 7))) "F" 0).toOption.map
          (fun r => (r.values, r.errs))
      = some ([("F[0]", ["seven"])], none)
    ∧ (encoder.setFieldByType 2
        { e := NewEncoder.RegisterCustomTypeFunc (fun _ => .error "bad") [⟨"K", "main.K"⟩],
          errs := none, values := [] } Flag.ValueOf
        (.map ⟨"", "map[main.K]int"⟩ [(.struct ⟨"K", "main.K"⟩ [], .int ⟨"int", "int"⟩ 1)])
        "F" 0).toOption.map (fun r => (r.values, r.errs))
      = some ([], some [("F[0]", "bad")]) := by
  refine ⟨?_, ?_, ?_, ?_, ?_⟩ <;> decide

/-! ## Scalars under a pending index: C15 -/

/-- C15, the claim as stated fails: an int visited at namespace N with the index marker 0 is
appended under N; the key N[0] is not written. -/
theorem C15_scalar_ignores_pending_index :
    (encoder.setFieldByType 1 { e := NewEncoder, errs := none, values := [] } Flag.ValueOf
        (.int ⟨"int", "int"⟩ 7) "N" 0).toOption.map (fun r => r.values)
      = some [("N", ["7"])] := by
  decide

/-- C15 as amended: a value of a scalar kind (string, int, uint, float, bool, reached through
any pointers and interfaces) without a custom function is appended under the namespace N of the
visit whatever the index marker, because setVal does not use the marker; only an element that
is itself of kind pointer takes its pending index first, and is then appended under N[idx]. -/
theorem C15_scalar_key (fuel : Nat) (e : encoder) (ro : Flag) (current : Value) (ns : String)
    (idx : Int) (t : String)
    (hleaf : leafText (ExtractType current).1 (ExtractType current).2 = some t)
    (hreg : e.lookupCustom (ExtractType current).1 = .ok none) :
    (current.Kind ≠ .Ptr →
      encoder.setFieldByType (fuel + 1) e ro current ns idx = .ok (e.setVal ns idx [t]))
    ∧ (current.Kind = .Ptr → idx > -1 →
      encoder.setFieldByType (fuel + 1) e ro current ns idx
        = .ok (e.setVal (ns ++ "[" ++ Itoa idx ++ "]") (-2) [t]))
    ∧ (current.Kind = .Ptr → ¬ idx > -1 →
      encoder.setFieldByType (fuel + 1) e ro current ns idx = .ok (e.setVal ns idx [t]))
    ∧ ∀ k i vals q, q ≠ k → mapGet (e.setVal k i vals).values q = mapGet e.values q := by
  have hv : ∀ K i, visit (encoder.setFieldByType fuel) (encoder.traverseStruct fuel) e ro current
      K i = .ok (e.setVal K i [t]) := by
    intro K i
    simp only [visit, hreg]
    generalize (ExtractType current).2 = k at hleaf
    cases k <;> simp only [leafText, Option.some.injEq, reduceCtorEq] at hleaf <;>
      simp only [visitKind, hleaf]
  refine ⟨?_, ?_, ?_, ?_⟩
  · intro hk
    rw [setFieldByType_succ, hv]
    simp [ptrAdjust, hk]
  · intro hk hi
    rw [setFieldByType_succ, hv]
    simp [ptrAdjust, hk, hi]
  · intro hk hi
    rw [setFieldByType_succ, hv]
    simp [ptrAdjust, hi]
  · intro k i vals q hq
    rw [setVal_eq]
    simp only [mapGet_putVals]
    rw [if_neg (fun h => hq h.symm)]

theorem C15_scalar_key_witness :
    encoder.setFieldByType 1 { e := NewEncoder, errs := none, values := [] } Flag.ValueOf
        (.ptr ⟨"", "*int"⟩ (some (.int ⟨"int", "int"⟩ 7))) "N" 0
      = .ok (encoder.setVal { e := NewEncoder, errs := none, values := [] } "N[0]" (-2) ["7"]) :=
  (C15_scalar_key 0 { e := NewEncoder, errs := none, values := [] } Flag.ValueOf
    (.ptr ⟨"", "*int"⟩ (some (.int ⟨"int", "int"⟩ 7))) "N" 0 "7" rfl rfl).2.1 rfl (by decide)

/-! ## The marker a struct passes to its fields: C16 -/

theorem forEach_congr {α : Type} (body1 body2 : α → encoder → Res encoder) (xs : List α)
    (h : ∀ x ∈ xs, ∀ e, body1 x e = body2 x e) (e : encoder) :
    forEach body1 xs e = forEach body2 xs e := by
  induction xs generalizing e with
  | nil => rfl
  | cons x xs ih =>
    rw [forEach, forEach, h x (List.mem_cons_self _ _) e]
    rcases body2 x e with f | e1
    · rfl
    · exact ih (fun y hy => h y (List.mem_cons_of_mem _ hy)) e1

/-- The visits of the fields of a struct all carry the marker `traverseStruct` was given. -/
theorem traverseBody_marker {ro : Flag}
    (S S2 : encoder → Flag → Value → String → Int → Res encoder) (m : Int)
    (h : ∀ ro e x n, S e ro x n m = S2 e ro x n m) (e : encoder) (v : Value) (ns : String)
    (typ : GoType) : traverseBody S e ro v ns m typ = traverseBody S2 e ro v ns m typ := by
  unfold traverseBody
  split
  · apply forEach_congr
    intro fv _ e
    simp only [anonFieldBody, h]
  · rcases descriptorOf e v typ with f | ⟨s, e1⟩
    · rfl
    · apply forEach_congr
      intro f _ e
      simp only [cachedFieldBody, h]

/-- C16, the claim as stated fails: a struct with the int slice Nums reached as a map value
(marker -2) is traversed with the marker -2, so Nums is written under the indexed keys
M[k].Nums[0] and M[k].Nums[1]; the key M[k].Nums is not written. -/
theorem C16_struct_in_map_keeps_resolved_marker :
    (NewEncoder.Encode 6
        (.struct ⟨"T", "main.T"⟩
          [(plainField "M", .map ⟨"", "map[string]main.Inner"⟩
            [(.str ⟨"string", "string"⟩ "k",
              numsStruct ⟨"Inner", "main.Inner"⟩ ⟨"", "[]int"⟩ ⟨"int", "int"⟩ [1, 2])])])).toOption.map
      (fun r => r.values)
      = some [("M[k].Nums[0]", ["1"]), ("M[k].Nums[1]", ["2"])] := by
  decide

/-- C16 as amended: for a struct that is not a time.Time and has no custom function, visited by
setFieldByType at namespace N with marker idx, the fields are visited from the namespace N with
any pending index idx > -1 appended, and every field visit carries the marker -1 when idx is -1
and the marker -2 in every other case: a pending index and the marker -2 itself both give
-2. -/
theorem C16_struct_field_marker (fuel : Nat) (e : encoder) (ro : Flag) (current : Value)
    (ns : String) (idx : Int) (typ : GoType) (fields : List (StructField × Value))
    (hv : ExtractType current = (.struct typ fields, .Struct))
    (htime : typ ≠ timeType)
    (hreg : e.lookupCustom (.struct typ fields) = .ok none) :
    encoder.setFieldByType (fuel + 2) e ro current ns idx
        = traverseBody (encoder.setFieldByType fuel) e (ExtractFlag ro current)
            (.struct typ fields) (withIndex ns idx) (if idx = -1 then -1 else -2) typ
    ∧ ∀ (S S2 : encoder → Flag → Value → String → Int → Res encoder) (m : Int),
        (∀ ro e x n, S e ro x n m = S2 e ro x n m) →
        ∀ ro e v n typ, traverseBody S e ro v n m typ = traverseBody S2 e ro v n m typ := by
  refine ⟨?_, fun S S2 m h ro e v n typ => traverseBody_marker S S2 m h e v n typ⟩
  have ht : ¬ (Value.struct typ fields).Type = some timeType := by
    simp [Value.Type, htime]
  rw [setFieldByType_succ]
  simp only [visit, hv, hreg, visitKind, ht, if_false]
  by_cases h1 : idx = -1
  · subst h1
    simp [ptrAdjust, withIndex, traverseStruct_succ, Value.Type]
  · by_cases hp : idx > -1 ∧ current.Kind = .Ptr
    · simp [ptrAdjust, hp, withIndex, h1, traverseStruct_succ, Value.Type]
    · simp [ptrAdjust, hp, h1, traverseStruct_succ, Value.Type]

theorem C16_struct_field_marker_witness :
    encoder.setFieldByType 4 { e := NewEncoder, errs := none, values := [] } Flag.ValueOf
        (numsStruct ⟨"Inner", "main.Inner"⟩ ⟨"", "[]int"⟩ ⟨"int", "int"⟩ [1, 2]) "M[k]" (-2)
      = traverseBody (encoder.setFieldByType 2) { e := NewEncoder, errs := none, values := [] }
          Flag.ValueOf (numsStruct ⟨"Inner", "main.Inner"⟩ ⟨"", "[]int"⟩ ⟨"int", "int"⟩ [1, 2]) "M[k]" (-2)
          ⟨"Inner", "main.Inner"⟩ :=
  (C16_struct_field_marker 2 { e := NewEncoder, errs := none, values := [] } Flag.ValueOf
    (numsStruct ⟨"Inner", "main.Inner"⟩ ⟨"", "[]int"⟩ ⟨"int", "int"⟩ [1, 2]) "M[k]" (-2)
    ⟨"Inner", "main.Inner"⟩ _ rfl (by decide) rfl).1

/-! ## A pointer in front of a map: C20 -/

/-- C20, the code at the failing input: a non-nil pointer to the map with the single entry
k -> 1, visited at namespace M. The keys are read from the dereferenced map, the entry is then
looked up on the pointer itself, and that call of MapIndex panics; the map visited directly is
encoded under M[k]. Encode of a struct whose field M is such a pointer panics the same way. -/
theorem C20_pointer_to_map_panics :
    encoder.setFieldByType 2 { e := NewEncoder, errs := none, values := [] } Flag.ValueOf
        (.ptr ⟨"", "*map[string]int"⟩
          (some (.map ⟨"", "map[string]int"⟩
            [(.str ⟨"string", "string"⟩ "k", .int ⟨"int", "int"⟩ 1)]))) "M" (-1)
      = .error (.panic "reflect: call of reflect.Value.MapIndex on non-map Value")
    ∧ (encoder.setFieldByType 2 { e := NewEncoder, errs := none, values := [] } Flag.ValueOf
        (.map ⟨"", "map[string]int"⟩
          [(.str ⟨"string", "string"⟩ "k", .int ⟨"int", "int"⟩ 1)]) "M" (-1)).toOption.map
        (fun r => (r.values, r.errs))
      = some ([("M[k]", ["1"])], none)
    ∧ NewEncoder.Encode 4
        (.struct ⟨"T", "main.T"⟩
          [(plainField "M", .ptr ⟨"", "*map[string]int"⟩
            (some (.map ⟨"", "map[string]int"⟩
              [(.str ⟨"string", "string"⟩ "k", .int ⟨"int", "int"⟩ 1)])))])
      = .error (.panic "reflect: call of reflect.Value.MapIndex on non-map Value") := by
  refine ⟨rfl, ?_, rfl⟩
  decide

/-- Every visit of a pointer or an interface in front of a map whose first entry has a
supported key panics in MapIndex, at every namespace and marker and whatever the fuel. -/
theorem pointer_to_map_panics {ro : Flag}
    (fuel : Nat) (e e1 : encoder) (current : Value) (tm : GoType)
    (entry : Value × Value) (rest : List (Value × Value)) (ns s : String) (idx : Int)
    (hcur : current.Kind = .Ptr ∨ current.Kind = .Interface)
    (hv : ExtractType current = (.map tm (entry :: rest), .Map))
    (hreg : e.lookupCustom (.map tm (entry :: rest)) = .ok none)
    (hkey : e.getMapKey (ExtractFlag ro current).ro entry.1
      (withIndex (ptrAdjust current ns idx).1 (ptrAdjust current ns idx).2) = .ok (s, true, e1)) :
    encoder.setFieldByType (fuel + 1) e ro current ns idx
      = .error (.panic "reflect: call of reflect.Value.MapIndex on non-map Value") := by
  have hmi : current.MapIndex entry = none := by
    rcases hcur with h | h <;> simp [Value.MapIndex, h]
  rw [setFieldByType_succ]
  simp only [visit, hv, hreg, visitKind, Value.entries, forEach, mapEntryBody, hkey, hmi]
  simp

theorem pointer_to_map_panics_witness :
    encoder.setFieldByType 1 { e := NewEncoder, errs := none, values := [] } Flag.ValueOf
        (.iface ⟨"", "any"⟩
          (some (.map ⟨"", "map[string]int"⟩
            [(.str ⟨"string", "string"⟩ "k", .int ⟨"int", "int"⟩ 1)]))) "M" (-2)
      = .error (.panic "reflect: call of reflect.Value.MapIndex on non-map Value") :=
  pointer_to_map_panics 0 { e := NewEncoder, errs := none, values := [] }
    { e := NewEncoder, errs := none, values := [] } _ ⟨"", "map[string]int"⟩
    (.str ⟨"string", "string"⟩ "k", .int ⟨"int", "int"⟩ 1) [] "M" "k" (-2) (Or.inr rfl) rfl rfl
    rfl

/-! ## Scalar texts read back: C14 -/

theorem digitChar_ne_zero : ∀ m, m < 10 → 0 < m → Nat.digitChar m ≠ '0' := by decide

theorem toDigitsCore_head (fuel : Nat) : ∀ (n : Nat) (ds : List Char), n < fuel →
    ∃ c cs, Nat.toDigitsCore 10 fuel n ds = c :: cs ∧ (0 < n → c ≠ '0') := by
  induction fuel with
  | zero => intro n ds h; exact absurd h (Nat.not_lt_zero _)
  | succ fuel ih =>
    intro n ds h
    rw [Nat.toDigitsCore]
    split
    · next h0 =>
      refine ⟨_, _, rfl, fun hpos => ?_⟩
      have hlt : n < 10 := by
        have := Nat.div_add_mod n 10
        have := Nat.mod_lt n (show 0 < 10 by decide)
        omega
      rw [Nat.mod_eq_of_lt hlt]
      exact digitChar_ne_zero n hlt hpos
    · next h0 =>
      have hlt : n / 10 < fuel := by omega
      obtain ⟨c, cs, h1, h2⟩ := ih (n / 10) (Nat.digitChar (n % 10) :: ds) hlt
      exact ⟨c, cs, h1, fun _ => h2 (Nat.pos_of_ne_zero h0)⟩

theorem repr_head (n : Nat) :
    ∃ c cs, (Nat.repr n).data = c :: cs ∧ (0 < n → c ≠ '0') :=
  toDigitsCore_head (n + 1) n [] (Nat.lt_succ_self n)

theorem repr_digitsOk (n : Nat) : digitsOk (Nat.repr n).data = true := by
  obtain ⟨c, cs, h, _⟩ := repr_head n
  have hd := repr_isDigit n
  rw [h] at hd
  simp only [digitsOk, h, List.isEmpty_cons, Bool.not_false, Bool.true_and, List.all_eq_true]
  exact hd

theorem ParseUint_FormatUint (u : Nat) (h : u < 2 ^ 64) : ParseUint (FormatUint u) = some u := by
  simp only [ParseUint, FormatUint, repr_digitsOk, repr_value, h, and_self, if_true]

theorem dash_data (s : String) : ("-" ++ s).data = '-' :: s.data := by
  simp [String.data_append]

theorem ParseInt_FormatInt (i : Int) (hlo : -(2 ^ 63) ≤ i) (hhi : i < 2 ^ 63) :
    ParseInt (FormatInt i) = some i := by
  unfold FormatInt
  by_cases hneg : i < 0
  · have hle : i.natAbs ≤ 2 ^ 63 := by omega
    have hval : (-(i.natAbs : Int)) = i := by omega
    simp only [hneg, if_true, ParseInt, dash_data, repr_digitsOk, repr_value, hle, and_self,
      hval]
  · obtain ⟨c, cs, hc, _⟩ := repr_head i.natAbs
    have hdig : c.isDigit = true := by
      have := repr_isDigit i.natAbs c
      rw [hc] at this
      exact this (List.mem_cons_self _ _)
    have h1 : c ≠ '-' := by
      intro h; rw [h] at hdig; exact absurd hdig (by decide)
    have h2 : c ≠ '+' := by
      intro h; rw [h] at hdig; exact absurd hdig (by decide)
    have hok := repr_digitsOk i.natAbs
    have hv := repr_value i.natAbs
    rw [hc] at hok hv
    have hlt : i.natAbs < 2 ^ 63 := by omega
    have hval : ((i.natAbs : Nat) : Int) = i := by omega
    simp only [hneg, if_false, ParseInt, hc, h1, h2, hok, hv, hlt, and_self, if_true, hval]

theorem FormatUint_no_leading_zero (u : Nat) (cs : List Char)
    (h : (FormatUint u).data = '0' :: cs) : cs = [] := by
  rcases Nat.eq_zero_or_pos u with h0 | hpos
  · subst h0
    have : (FormatUint 0).data = ['0'] := by decide
    rw [this] at h
    simpa using h.symm
  · obtain ⟨c, cs2, hc, hne⟩ := repr_head u
    rw [FormatUint, hc] at h
    injection h with h1 _
    exact absurd h1 (hne hpos)

/-- C14: the texts of the scalar kinds read back to the value. For an unsigned u below 2^64 the
text is a non-empty run of decimal digits without a leading zero (other than the text 0 itself)
and ParseUint reads u back; for a signed i in the 64-bit range the text is the numeral of its
absolute value, with a leading minus sign exactly when i is negative, and ParseInt reads i back;
for a boolean the text is true or false and ParseBool reads it back. These are the texts
setFieldByType writes for values of those kinds. -/
theorem C14_scalar_round_trip :
    (∀ u : Nat, u < 2 ^ 64 →
      digitsOk (FormatUint u).data = true
      ∧ (∀ cs, (FormatUint u).data = '0' :: cs → cs = [])
      ∧ ParseUint (FormatUint u) = some u)
    ∧ (∀ i : Int, -(2 ^ 63) ≤ i → i < 2 ^ 63 →
      FormatInt i = (if i < 0 then "-" else "") ++ FormatUint i.natAbs
      ∧ ((FormatInt i).data.head? = some '-' ↔ i < 0)
      ∧ ParseInt (FormatInt i) = some i)
    ∧ (∀ b : Bool, (FormatBool b = "true" ∨ FormatBool b = "false")
      ∧ ParseBool (FormatBool b) = some b)
    ∧ (∀ t u, leafText (.uint t u) .Uint = some (FormatUint u))
    ∧ (∀ t i, leafText (.int t i) .Int = some (FormatInt i))
    ∧ (∀ t b, leafText (.bool t b) .Bool = some (FormatBool b)) := by
  refine ⟨?_, ?_, ?_, fun _ _ => rfl, fun _ _ => rfl, fun _ _ => rfl⟩
  · intro u hu
    exact ⟨repr_digitsOk u, FormatUint_no_leading_zero u, ParseUint_FormatUint u hu⟩
  · intro i hlo hhi
    refine ⟨?_, ?_, ParseInt_FormatInt i hlo hhi⟩
    · unfold FormatInt FormatUint
      by_cases hneg : i < 0
      · simp only [hneg, if_true]
      · simp only [hneg, if_false]
        exact (String.empty_append _).symm
    · unfold FormatInt
      by_cases hneg : i < 0
      · simp only [hneg, if_true, dash_data, List.head?_cons]
      · obtain ⟨c, cs, hc, _⟩ := repr_head i.natAbs
        have hdig : c.isDigit = true := by
          have := repr_isDigit i.natAbs c
          rw [hc] at this
          exact this (List.mem_cons_self _ _)
        have h1 : c ≠ '-' := by
          intro h; rw [h] at hdig; exact absurd hdig (by decide)
        simp only [hneg, if_false, hc, List.head?_cons, Option.some.injEq, h1]
  · intro b
    cases b
    · exact ⟨Or.inr rfl, by decide⟩
    · exact ⟨Or.inl rfl, by decide⟩

theorem C14_scalar_round_trip_witness :
    ParseUint (FormatUint 42) = some 42 ∧ FormatUint 42 = "42"
    ∧ ParseInt (FormatInt (-7)) = some (-7) ∧ FormatInt (-7) = "-7"
    ∧ ParseBool (FormatBool true) = some true ∧ FormatBool true = "true" :=
  ⟨(C14_scalar_round_trip.1 42 (by decide)).2.2, by decide,
   (C14_scalar_round_trip.2.1 (-7) (by decide) (by decide)).2.2, by decide,
   (C14_scalar_round_trip.2.2.1 true).2, by decide⟩

/-! ## Runs whose struct caches differ -/

theorem forIndex_sim_mem (R : encoder → encoder → Prop)
    (body1 body2 : Nat → Value → encoder → Res encoder) (xs : List Value)
    (hbody : ∀ i, ∀ x ∈ xs, ∀ a b, R a b → RelRes R (body1 i x a) (body2 i x b)) (k : Nat)
    (a b : encoder) (h : R a b) : RelRes R (forIndex body1 xs k a) (forIndex body2 xs k b) := by
  induction xs generalizing a b k with
  | nil => exact h
  | cons x xs ih =>
    have hx := hbody k x (List.mem_cons_self _ _) a b h
    rw [forIndex, forIndex]
    rcases h1 : body1 k x a with f1 | a1 <;> rcases h2 : body2 k x b with f2 | b1 <;>
      rw [h1, h2] at hx
    · exact hx
    · exact hx.elim
    · exact hx.elim
    · exact ih (fun i y hy => hbody i y (List.mem_cons_of_mem _ hy)) (k + 1) a1 b1 hx

theorem Field_mem (v x : Value) (i : Nat) (h : v.Field i = some x) :
    ∃ p ∈ v.fields, p.2 = x := by
  unfold Value.Field at h
  cases hg : v.fields.get? i with
  | none => rw [hg] at h; simp at h
  | some p =>
    rw [hg] at h
    simp only [Option.map_some', Option.some.injEq] at h
    exact ⟨p, List.get?_mem hg, h⟩

theorem getMapKey_csim {ro : Flag} (Good : Value → Prop) (R : encoder → encoder → Prop)
    (hR : CacheSim Good R) (a b : encoder) (key : Value) (ns : String) (h : R a b) :
    (∃ f, a.getMapKey ro key ns = .error f ∧ b.getMapKey ro key ns = .error f)
    ∨ ∃ s valid a1 b1, a.getMapKey ro key ns = .ok (s, valid, a1)
        ∧ b.getMapKey ro key ns = .ok (s, valid, b1) ∧ R a1 b1 := by
  unfold encoder.getMapKey
  simp only
  rw [lookupCustom_congr a b _ (hR.reg a b h)]
  rcases b.lookupCustom (ExtractType key).1 with f | (_ | cf)
  · exact Or.inl ⟨f, rfl, rfl⟩
  · right
    simp only
    cases (ExtractType key).2
    all_goals first
      | exact ⟨_, _, _, _, rfl, rfl, h⟩
      | exact ⟨_, _, _, _, rfl, rfl, hR.setError _ _ _ _ h⟩
  · simp only
    by_cases hro : (ExtractFlag ro key).isRO = true
    · rw [if_pos hro, if_pos hro]
      exact Or.inl ⟨_, rfl, rfl⟩
    · rw [if_neg hro, if_neg hro]
      rcases cf (ExtractType key).1 with err | arr
      · exact Or.inr ⟨_, _, _, _, rfl, rfl, hR.setError _ _ _ _ h⟩
      · cases arr with
        | nil => exact Or.inl ⟨_, rfl, rfl⟩
        | cons s rest => exact Or.inr ⟨_, _, _, _, rfl, rfl, h⟩

theorem mapEntryBody_csim {ro : Flag} (Good : Value → Prop) (R : encoder → encoder → Prop)
    (hR : CacheSim Good R) (S : encoder → Flag → Value → String → Int → Res encoder)
    (hS : ∀ ro a b v ns idx, R a b → Good v → RelRes R (S a ro v ns idx) (S b ro v ns idx))
    (cur : Value) (ns : String) (entry : Value × Value) (hg : Good entry.2)
    (a b : encoder) (h : R a b) :
    RelRes R (mapEntryBody S ro cur ns entry a) (mapEntryBody S ro cur ns entry b) := by
  unfold mapEntryBody
  rcases getMapKey_csim Good R hR a b entry.1 ns h with
    ⟨f, h1, h2⟩ | ⟨s, valid, a1, b1, h1, h2, h3⟩
  · rw [h1, h2]
    exact rfl
  · rw [h1, h2]
    simp only
    cases valid
    · exact h3
    · simp only [Bool.true_eq_false, if_false]
      by_cases hk : cur.Kind = .Map
      · simp only [Value.MapIndex, hk, if_true]
        exact hS _ _ _ _ _ _ h3 hg
      · simp only [Value.MapIndex, hk, if_false]
        exact rfl

theorem visit_csim {ro : Flag} (Good : Value → Prop) (R : encoder → encoder → Prop)
    (hR : CacheSim Good R) (S T : encoder → Flag → Value → String → Int → Res encoder)
    (hS : ∀ ro a b v ns idx, R a b → Good v → RelRes R (S a ro v ns idx) (S b ro v ns idx))
    (hT : ∀ ro a b v ns idx, R a b → Good v → v.Kind = .Struct →
      RelRes R (T a ro v ns idx) (T b ro v ns idx))
    (a b : encoder) (current : Value) (ns : String) (idx : Int) (h : R a b)
    (hg : Good current) :
    RelRes R (visit S T a ro current ns idx) (visit S T b ro current ns idx) := by
  unfold visit
  rw [lookupCustom_congr a b _ (hR.reg a b h)]
  have hgv := hR.ext current hg
  have hkind := ExtractType_kind current
  rcases b.lookupCustom (ExtractType current).1 with f | (_ | cf)
  · exact rfl
  · simp only
    cases hk : (ExtractType current).2 <;> simp only [visitKind]
    all_goals first
      | exact h
      | exact hR.setVal _ _ _ _ _ h
      | skip
    · split
      all_goals
        apply forIndex_sim_mem R _ _ _ ?_ 0 a b h
        intro i x hx a b hab
        exact hS _ _ _ _ _ _ hab (hR.elems _ x hgv hx)
    · split
      all_goals
        apply forIndex_sim_mem R _ _ _ ?_ 0 a b h
        intro i x hx a b hab
        exact hS _ _ _ _ _ _ hab (hR.elems _ x hgv hx)
    · exact forEach_sim R _ _ _
        (fun x hx a b hab =>
          mapEntryBody_csim Good R hR S hS _ _ x (hR.entries _ x hgv hx) a b hab) a b h
    · split
      · split
        · exact rfl
        · exact hR.setVal _ _ _ _ _ h
      · split
        · exact hT _ _ _ _ _ _ h hgv (hkind.trans hk)
        · exact hT _ _ _ _ _ _ h hgv (hkind.trans hk)
  · simp only
    split
    · exact rfl
    · rcases cf (ExtractType current).1 with err | arr
      · exact hR.setError _ _ _ _ h
      · exact hR.setVal _ _ _ _ _ h

theorem traverseBody_csim {ro : Flag} (Good : Value → Prop) (R : encoder → encoder → Prop)
    (hR : CacheSim Good R) (S : encoder → Flag → Value → String → Int → Res encoder)
    (hS : ∀ ro a b v ns idx, R a b → Good v → RelRes R (S a ro v ns idx) (S b ro v ns idx))
    (a b : encoder) (v : Value) (ns : String) (idx : Int) (typ : GoType) (h : R a b)
    (hg : Good v) (hkind : v.Kind = .Struct) (htyp : v.Type = some typ) :
    RelRes R (traverseBody S a ro v ns idx typ) (traverseBody S b ro v ns idx typ) := by
  unfold traverseBody
  split
  · apply forEach_sim R _ _ _ _ a b h
    intro fv hfv a b hab
    unfold anonFieldBody
    rw [hR.tag a b hab]
    split
    · exact hab
    · split
      · exact hab
      · exact hS _ _ _ _ _ _ hab (hR.fields v fv hg hfv)
  · next hname =>
    have hd := hR.desc a b v typ h hg hkind htyp hname
    rcases h1 : descriptorOf a v typ with f1 | ⟨s1, a1⟩ <;>
      rcases h2 : descriptorOf b v typ with f2 | ⟨s2, b1⟩ <;> rw [h1, h2] at hd
    · exact hd
    · exact hd.elim
    · exact hd.elim
    · obtain ⟨hs, hab1⟩ := hd
      simp only at hs hab1 ⊢
      subst hs
      apply forEach_sim R _ _ _ _ a1 b1 hab1
      intro f _ a b hab
      unfold cachedFieldBody
      cases hf : v.Field f.idx with
      | none => exact rfl
      | some x =>
        obtain ⟨p, hp, hpx⟩ := Field_mem v x f.idx hf
        exact hS _ _ _ _ _ _ hab (hpx ▸ hR.fields v p hg hp)

/-- The traversal carries a cache simulation through: from related states, on a value `Good`
holds of, both runs panic alike or both return related states. -/
theorem traversal_csim (Good : Value → Prop) (R : encoder → encoder → Prop)
    (hR : CacheSim Good R) (fuel : Nat) :
    (∀ ro a b v ns idx, R a b → Good v → v.Kind = .Struct →
      RelRes R (encoder.traverseStruct fuel a ro v ns idx) (encoder.traverseStruct fuel b ro v ns idx))
    ∧ (∀ ro a b v ns idx, R a b → Good v →
      RelRes R (encoder.setFieldByType fuel a ro v ns idx) (encoder.setFieldByType fuel b ro v ns idx)) := by
  induction fuel with
  | zero =>
    constructor
    · intro ro a b v ns idx _ _ _
      simp [encoder.traverseStruct, RelRes]
    · intro ro a b v ns idx _ _
      simp [encoder.setFieldByType, RelRes]
  | succ fuel ih =>
    obtain ⟨ihT, ihS⟩ := ih
    constructor
    · intro ro a b v ns idx h hg hkind
      rw [traverseStruct_succ, traverseStruct_succ]
      cases htyp : v.Type with
      | none => exact rfl
      | some typ => exact traverseBody_csim Good R hR _ ihS a b v ns idx typ h hg hkind htyp
    · intro ro a b v ns idx h hg
      rw [setFieldByType_succ, setFieldByType_succ]
      exact visit_csim Good R hR _ _ ihS ihT a b v _ _ h hg

/-! ## Well-typed values and coherent caches -/

theorem descriptorFrom_congr (tagName : String) (fs gs : List (StructField × Value)) (i : Nat)
    (h : fs.map Prod.fst = gs.map Prod.fst) :
    descriptorFrom tagName fs i = descriptorFrom tagName gs i := by
  induction fs generalizing gs i with
  | nil =>
    cases gs with
    | nil => rfl
    | cons g gs => simp at h
  | cons f fs ih =>
    cases gs with
    | nil => simp at h
    | cons g gs =>
      obtain ⟨ff, fv⟩ := f
      obtain ⟨gf, gv⟩ := g
      simp only [List.map_cons, List.cons.injEq] at h
      obtain ⟨h1, h2⟩ := h
      subst h1
      simp only [descriptorFrom, ih gs (i + 1) h2]

theorem typeDescriptor_of_fields (Γ : TypeEnv) (tagName : String) (t : GoType)
    (fs : List (StructField × Value)) (h : fs.map Prod.fst = Γ t) :
    descriptorFrom tagName fs 0 = typeDescriptor Γ tagName t := by
  unfold typeDescriptor
  apply descriptorFrom_congr
  rw [h, List.map_map]
  simp [Function.comp_def]

theorem wellTypedList_mem (Γ : TypeEnv) (xs : List Value) (x : Value)
    (h : wellTypedList Γ xs = true) (hx : x ∈ xs) : x.wellTyped Γ = true := by
  induction xs with
  | nil => simp at hx
  | cons y ys ih =>
    simp only [wellTypedList, Bool.and_eq_true] at h
    rcases List.mem_cons.mp hx with h1 | h1
    · rw [h1]; exact h.1
    · exact ih h.2 h1

theorem wellTypedEntries_mem (Γ : TypeEnv) (es : List (Value × Value)) (p : Value × Value)
    (h : wellTypedEntries Γ es = true) (hp : p ∈ es) : p.2.wellTyped Γ = true := by
  induction es with
  | nil => simp at hp
  | cons y ys ih =>
    obtain ⟨k, v⟩ := y
    simp only [wellTypedEntries, Bool.and_eq_true] at h
    rcases List.mem_cons.mp hp with h1 | h1
    · rw [h1]; exact h.1
    · exact ih h.2 h1

theorem wellTypedFields_mem (Γ : TypeEnv) (fs : List (StructField × Value))
    (p : StructField × Value) (h : wellTypedFields Γ fs = true) (hp : p ∈ fs) :
    p.2.wellTyped Γ = true := by
  induction fs with
  | nil => simp at hp
  | cons y ys ih =>
    obtain ⟨k, v⟩ := y
    simp only [wellTypedFields, Bool.and_eq_true] at h
    rcases List.mem_cons.mp hp with h1 | h1
    · rw [h1]; exact h.1
    · exact ih h.2 h1

theorem wellTyped_ExtractType (Γ : TypeEnv) (v : Value) (h : v.wellTyped Γ = true) :
    (ExtractType v).1.wellTyped Γ = true := by
  revert h
  refine Value.unwrap_induction (fun v => v.wellTyped Γ = true →
    (ExtractType v).1.wellTyped Γ = true) ?_ ?_ ?_ v
  · intro v h1 h2 h
    cases v with
    | ptr t o =>
      cases o with
      | none => exact h
      | some w => exact absurd rfl (h1 t w)
    | iface t o =>
      cases o with
      | none => exact h
      | some w => exact absurd rfl (h2 t w)
    | _ => exact h
  · intro t w ih h
    rw [ExtractType_ptr_some]
    exact ih (by simpa [Value.wellTyped] using h)
  · intro t w ih h
    rw [ExtractType_iface_some]
    exact ih (by simpa [Value.wellTyped] using h)

theorem wellTyped_elems (Γ : TypeEnv) (v x : Value) (h : v.wellTyped Γ = true)
    (hx : x ∈ v.elems) : x.wellTyped Γ = true := by
  cases v <;> simp only [Value.elems, List.not_mem_nil] at hx
  · exact wellTypedList_mem Γ _ x (by simpa [Value.wellTyped] using h) hx
  · exact wellTypedList_mem Γ _ x (by simpa [Value.wellTyped] using h) hx

theorem wellTyped_entries (Γ : TypeEnv) (v : Value) (p : Value × Value)
    (h : v.wellTyped Γ = true) (hp : p ∈ v.entries) : p.2.wellTyped Γ = true := by
  cases v <;> simp only [Value.entries, List.not_mem_nil] at hp
  exact wellTypedEntries_mem Γ _ p (by simpa [Value.wellTyped] using h) hp

theorem wellTyped_fields (Γ : TypeEnv) (v : Value) (p : StructField × Value)
    (h : v.wellTyped Γ = true) (hp : p ∈ v.fields) : p.2.wellTyped Γ = true := by
  cases v <;> simp only [Value.fields, List.not_mem_nil] at hp
  simp only [Value.wellTyped, Bool.and_eq_true] at h
  exact wellTypedFields_mem Γ _ p h.2 hp

/-- A well-typed struct of a named type lists the fields its type declares. -/
theorem wellTyped_declares (Γ : TypeEnv) (v : Value) (typ : GoType)
    (h : v.wellTyped Γ = true) (hkind : v.Kind = .Struct) (htyp : v.Type = some typ)
    (hname : ¬ typ.Name.length = 0) : v.fields.map Prod.fst = Γ typ := by
  cases v <;> simp only [Value.Kind, reduceCtorEq] at hkind
  · simp only [Value.Type, Option.some.injEq] at htyp
    subst htyp
    simpa [Value.wellTyped, Value.fields] using h.symm
  · simp only [Value.Type, Option.some.injEq] at htyp
    subst htyp
    simp only [Value.wellTyped, Bool.and_eq_true, Bool.or_eq_true, decide_eq_true_eq] at h
    rcases h.1 with h1 | h1
    · exact absurd h1 hname
    · exact h1

theorem cacheCoherent_Set (Γ : TypeEnv) (e : Encoder) (typ : GoType) (s : cachedStruct)
    (h : cacheCoherent Γ e) (hs : s.fields = typeDescriptor Γ e.tagName typ) :
    cacheCoherent Γ { e with structCache := e.structCache.Set typ s } := by
  intro t s2 hget
  simp only [structCacheMap.Get, structCacheMap.Set, mapGet_mapSet] at hget
  split at hget
  · next heq =>
    injection hget with h2
    rw [← h2, ← heq]
    exact hs
  · exact h t s2 hget

/-- With a coherent cache, the descriptor lookup on a well-typed struct returns the descriptor
of its type, changes the struct cache only, and leaves the cache coherent. -/
theorem descriptorOf_coherent (Γ : TypeEnv) (a : encoder) (v : Value) (typ : GoType)
    (hc : cacheCoherent Γ a.e) (htyp : v.Type = some typ)
    (hf : v.fields.map Prod.fst = Γ typ) :
    ∃ s x, descriptorOf a v typ = .ok (s, { e := x, errs := a.errs, values := a.values })
      ∧ s.fields = typeDescriptor Γ a.e.tagName typ
      ∧ x.tagName = a.e.tagName ∧ x.customTypeFuncs = a.e.customTypeFuncs
      ∧ cacheCoherent Γ x := by
  unfold descriptorOf
  cases hget : a.e.structCache.Get typ with
  | some s => exact ⟨s, a.e, rfl, hc typ s hget, rfl, rfl, hc⟩
  | none =>
    have hs : parseStructLoop a.e.tagName v.fields 0 [] = typeDescriptor Γ a.e.tagName typ := by
      rw [parseStructLoop_eq, List.nil_append]
      exact typeDescriptor_of_fields Γ _ typ v.fields hf
    simp only [Encoder.parseStruct, htyp]
    exact ⟨_, _, rfl, hs, rfl, rfl, cacheCoherent_Set Γ a.e typ _ hc hs⟩

theorem CacheRel_csim (Γ : TypeEnv) (Q : encoder → encoder → Prop) (hQ : OutRel Q) :
    CacheSim (fun v => v.wellTyped Γ = true) (CacheRel Γ Q) where
  tag := fun _ _ h => h.2.1
  reg := fun _ _ h => h.2.2.1
  setVal := fun a b ns idx vals h =>
    ⟨hQ.setVal a b ns idx vals h.1, h.2.1, h.2.2.1, h.2.2.2.1, h.2.2.2.2⟩
  setError := fun a b ns err h =>
    ⟨hQ.setError a b ns err h.1, h.2.1, h.2.2.1, h.2.2.2.1, h.2.2.2.2⟩
  desc := by
    intro a b v typ h hg hkind htyp hname
    have hf := wellTyped_declares Γ v typ hg hkind htyp hname
    obtain ⟨s1, x1, h1, hs1, ht1, hr1, hc1⟩ :=
      descriptorOf_coherent Γ a v typ h.2.2.2.1 htyp hf
    obtain ⟨s2, x2, h2, hs2, ht2, hr2, hc2⟩ :=
      descriptorOf_coherent Γ b v typ h.2.2.2.2 htyp hf
    rw [h1, h2]
    refine ⟨?_, hQ.setEnc a b x1 x2 h.1, ?_, ?_, hc1, hc2⟩
    · cases s1; cases s2
      simp only at hs1 hs2 ⊢
      rw [hs1, hs2, h.2.1]
    · exact ht1.trans (h.2.1.trans ht2.symm)
    · exact hr1.trans (h.2.2.1.trans hr2.symm)
  ext := fun v h => wellTyped_ExtractType Γ v h
  elems := fun v x h hx => wellTyped_elems Γ v x h hx
  entries := fun v p h hp => wellTyped_entries Γ v p h hp
  fields := fun v p h hp => wellTyped_fields Γ v p h hp

theorem SameOut_outRel : OutRel SameOut where
  setVal := by
    intro a b ns idx vals h
    simp only [SameOut, encoder.setVal, h.1, h.2, and_self]
  setError := by
    intro a b ns err h
    simp only [SameOut, encoder.setError, h.1, h.2, and_self]
  setEnc := fun _ _ _ _ h => h

/-! ## Encoding twice: C13 -/

theorem Encode_of_struct (fuel : Nat) (enc : Encoder) (v : Value)
    (hk : (ExtractType v).2 = .Struct) :
    enc.Encode fuel v =
      match encoder.traverseStruct fuel (freshState enc) Flag.ValueOf (ExtractType v).1 "" (-1) with
      | .error f => .error f
      | .ok r => .ok (resultOf r) := by
  unfold Encoder.Encode topLevelMarker freshState resultOf
  simp only [hk, ne_eq, not_true_eq_false, if_false, ExtractFlag_ValueOf]
  generalize encoder.traverseStruct fuel _ _ _ _ _ = r
  rcases r with f | r
  · rfl
  · by_cases hz : errsLen r.errs = 0 <;> simp [hz]

theorem Encode_ok (fuel : Nat) (enc : Encoder) (v : Value) (r : EncodeResult)
    (h : enc.Encode fuel v = .ok r) :
    (ExtractType v).2 = .Struct
    ∧ ∃ fin, encoder.traverseStruct fuel (freshState enc) Flag.ValueOf (ExtractType v).1 "" (-1) = .ok fin
        ∧ r = resultOf fin := by
  by_cases hk : (ExtractType v).2 = .Struct
  · refine ⟨hk, ?_⟩
    rw [Encode_of_struct fuel enc v hk] at h
    rcases hr : encoder.traverseStruct fuel (freshState enc) Flag.ValueOf (ExtractType v).1 "" (-1)
      with f | fin
    · rw [hr] at h
      simp at h
    · rw [hr] at h
      simp only [Except.ok.injEq] at h
      exact ⟨fin, rfl, h.symm⟩
  · exfalso
    unfold Encoder.Encode at h
    simp [hk] at h

theorem cacheCoherent_empty (Γ : TypeEnv) (e : Encoder) (h : e.structCache = []) :
    cacheCoherent Γ e := by
  intro t s hget
  rw [h] at hget
  simp [structCacheMap.Get, mapGet] at hget

/-- The traversal of a well-typed struct keeps the tag name and the registry and leaves a
coherent cache coherent. -/
theorem traverseStruct_coherent {ro : Flag} (Γ : TypeEnv) (fuel : Nat) (a b : encoder) (v : Value)
    (ns : String) (idx : Int) (hc : cacheCoherent Γ a.e) (hwt : v.wellTyped Γ = true)
    (hkind : v.Kind = .Struct) (h : encoder.traverseStruct fuel a ro v ns idx = .ok b) :
    cacheCoherent Γ b.e ∧ b.e.tagName = a.e.tagName
      ∧ b.e.customTypeFuncs = a.e.customTypeFuncs := by
  have hsim := (traversal_csim _ _ (CacheRel_csim Γ SameOut SameOut_outRel) fuel).1 ro a a v ns idx
    ⟨⟨rfl, rfl⟩, rfl, rfl, hc, hc⟩ hwt hkind
  rw [h] at hsim
  have hfr := (traversal_frame fuel).1 _ a b v ns idx h
  exact ⟨hsim.2.2.2.1, hfr.2.1, hfr.1⟩

/-- C13: for an encoder with a coherent struct cache (a cold cache in particular) and a
well-typed input, if Encode returns, then Encode of the same input on the encoder the first call
leaves, whose cache now holds the descriptors the first call stored and whose tag name and
registry are those of the first call, returns the same output and the same error. -/
theorem C13_repeated_encode_cache_stable (Γ : TypeEnv) (fuel : Nat) (enc : Encoder) (v : Value)
    (r1 : EncodeResult) (hwt : v.wellTyped Γ = true) (hcache : cacheCoherent Γ enc)
    (h1 : enc.Encode fuel v = .ok r1) :
    ∃ r2, r1.e.Encode fuel v = .ok r2 ∧ r2.values = r1.values ∧ r2.err = r1.err
      ∧ r1.e.tagName = enc.tagName ∧ r1.e.customTypeFuncs = enc.customTypeFuncs := by
  obtain ⟨hk, fin, hfin, hr1⟩ := Encode_ok fuel enc v r1 h1
  have hwt2 := wellTyped_ExtractType Γ v hwt
  have hkind := (ExtractType_kind v).trans hk
  obtain ⟨hc1, ht1, hg1⟩ :=
    traverseStruct_coherent Γ fuel _ fin _ "" (-1) hcache hwt2 hkind hfin
  have hsim := (traversal_csim _ _ (CacheRel_csim Γ SameOut SameOut_outRel) fuel).1 Flag.ValueOf
    (freshState enc) (freshState r1.e) (ExtractType v).1 "" (-1)
    ⟨⟨rfl, rfl⟩, by rw [hr1]; exact ht1.symm, by rw [hr1]; exact hg1.symm, hcache,
      by rw [hr1]; exact hc1⟩ hwt2 hkind
  rw [hfin] at hsim
  rcases h2 : encoder.traverseStruct fuel (freshState r1.e) Flag.ValueOf (ExtractType v).1 "" (-1)
    with f | fin2
  · rw [h2] at hsim
    exact hsim.elim
  · rw [h2] at hsim
    refine ⟨resultOf fin2, ?_, ?_, ?_, ?_, ?_⟩
    · rw [Encode_of_struct fuel r1.e v hk, h2]
    · rw [hr1]
      exact hsim.1.1.symm
    · rw [hr1]
      simp only [resultOf, hsim.1.2]
    · rw [hr1]; exact ht1
    · rw [hr1]; exact hg1

theorem C13_repeated_encode_cache_stable_witness :
    ∃ r2, Encoder.Encode 4
        { tagName := "form",
          structCache := [(⟨"T", "main.T"⟩, ⟨[⟨0, "A"⟩, ⟨1, "In"⟩]⟩),
            (⟨"Inner", "main.Inner"⟩, ⟨[⟨0, "B"⟩]⟩)],
          customTypeFuncs := none } pairValue = .ok r2
      ∧ r2.values = [("A", ["1"]), ("In.B", ["x"])] ∧ r2.err = none := by
  obtain ⟨r2, h2, h3, h4, -⟩ := C13_repeated_encode_cache_stable pairEnv 4 NewEncoder pairValue
    { values := [("A", ["1"]), ("In.B", ["x"])], err := none,
      e := { tagName := "form",
             structCache := [(⟨"T", "main.T"⟩, ⟨[⟨0, "A"⟩, ⟨1, "In"⟩]⟩),
               (⟨"Inner", "main.Inner"⟩, ⟨[⟨0, "B"⟩]⟩)],
             customTypeFuncs := none } }
    (by decide) (cacheCoherent_empty _ _ rfl) rfl
  exact ⟨r2, h2, h3, h4⟩

/-! ## The two branches of traverseStruct: C18 -/

theorem RelRes_cases (R : encoder → encoder → Prop) (x y : Res encoder) (h : RelRes R x y) :
    (∃ f, x = .error f ∧ y = .error f) ∨ ∃ a b, x = .ok a ∧ y = .ok b ∧ R a b := by
  rcases x with f | a <;> rcases y with g | b
  · exact Or.inl ⟨f, rfl, by rw [show f = g from h]⟩
  · exact h.elim
  · exact h.elim
  · exact Or.inr ⟨a, b, rfl, rfl, h⟩

theorem RelRes_mono (R R2 : encoder → encoder → Prop) (hm : ∀ a b, R a b → R2 a b)
    (x y : Res encoder) (h : RelRes R x y) : RelRes R2 x y := by
  rcases x with f | a <;> rcases y with g | b
  · exact h
  · exact h.elim
  · exact h.elim
  · exact hm a b h

theorem descriptorOf_tag (a a1 : encoder) (v : Value) (typ : GoType) (s : cachedStruct)
    (h : descriptorOf a v typ = .ok (s, a1)) : a1.e.tagName = a.e.tagName :=
  (descriptorOf_frame a v typ s a1 "" h).2.1

/-- A cache simulation can carry the tag name of both runs along. -/
theorem CacheSim_tag (Good : Value → Prop) (R : encoder → encoder → Prop)
    (hR : CacheSim Good R) (tag0 : String) :
    CacheSim Good (fun a b => R a b ∧ a.e.tagName = tag0) where
  tag := fun a b h => hR.tag a b h.1
  reg := fun a b h => hR.reg a b h.1
  setVal := fun a b ns idx vals h => ⟨hR.setVal a b ns idx vals h.1, h.2⟩
  setError := fun a b ns err h => ⟨hR.setError a b ns err h.1, h.2⟩
  desc := by
    intro a b v typ h hg hkind htyp hname
    have hd := hR.desc a b v typ h.1 hg hkind htyp hname
    rcases h1 : descriptorOf a v typ with f1 | ⟨s1, a1⟩ <;>
      rcases h2 : descriptorOf b v typ with f2 | ⟨s2, b1⟩ <;> rw [h1, h2] at hd
    · exact hd
    · exact hd.elim
    · exact hd.elim
    · exact ⟨hd.1, hd.2, (descriptorOf_tag a a1 v typ s1 h1).trans h.2⟩
  ext := hR.ext
  elems := hR.elems
  entries := hR.entries
  fields := hR.fields

theorem Field_of_append (v : Value) (pre rest : List (StructField × Value))
    (p : StructField × Value) (h : v.fields = pre ++ p :: rest) :
    v.Field pre.length = some p.2 := by
  have hg : (pre ++ p :: rest).get? pre.length = some p := by
    rw [List.get?_eq_getElem?, List.getElem?_append_right (Nat.le_refl _)]
    simp
  rw [Value.Field, h, hg]
  rfl

theorem FieldFlag_of_append (v : Value) (f : Flag) (pre rest : List (StructField × Value))
    (p : StructField × Value) (h : v.fields = pre ++ p :: rest) :
    v.FieldFlag f pre.length = f.Field p.1 := by
  have hg : (pre ++ p :: rest).get? pre.length = some p := by
    rw [List.get?_eq_getElem?, List.getElem?_append_right (Nat.le_refl _)]
    simp
  rw [Value.FieldFlag, h, hg]

theorem excluded_false_iff (tagName : String) (fld : StructField) :
    excluded tagName fld = false ↔
      ¬ (fld.PkgPath ≠ blank ∧ fld.Anonymous = false) ∧ ¬ fld.Tag.Get tagName = ignore := by
  unfold excluded
  cases fld.Anonymous <;> by_cases h1 : fld.PkgPath = blank <;>
    by_cases h2 : fld.Tag.Get tagName = ignore <;> simp [h1, h2]

theorem anonKey_eq_keyName (tagName : String) (fld : StructField) :
    (if (fld.Tag.Get tagName).length = 0 then fld.Name else fld.Tag.Get tagName)
      = keyName tagName fld := by
  unfold keyName
  by_cases h : fld.Tag.Get tagName = ""
  · simp [h]
  · have h2 : ¬ (fld.Tag.Get tagName).length = 0 := fun hl => h ((length_eq_zero_iff _).mp hl)
    simp [h, h2]

/-- The loop of the anonymous branch over the declared fields and the loop of the named branch
over the descriptor of those fields visit the same fields under the same keys. -/
theorem anon_cached_fusion {ro : Flag} (R : encoder → encoder → Prop) (tag0 : String)
    (htag : ∀ a b, R a b → a.e.tagName = tag0)
    (S : encoder → Flag → Value → String → Int → Res encoder) (Good : Value → Prop)
    (hS : ∀ ro a b v ns idx, R a b → Good v → RelRes R (S a ro v ns idx) (S b ro v ns idx))
    (v : Value) (ns : String) (idx : Int) (rest : List (StructField × Value)) :
    ∀ (pre : List (StructField × Value)), v.fields = pre ++ rest →
      (∀ p ∈ rest, Good p.2) → ∀ a b, R a b →
      RelRes R (forEach (anonFieldBody S ro ns idx) rest a)
        (forEach (cachedFieldBody S ro v ns idx) (descriptorFrom tag0 rest pre.length) b) := by
  induction rest with
  | nil => intro pre _ _ a b h; exact h
  | cons p rest ih =>
    intro pre hv hg a b h
    obtain ⟨fld, x⟩ := p
    have hv2 : v.fields = (pre ++ [(fld, x)]) ++ rest := by simp [hv]
    have hlen : (pre ++ [(fld, x)]).length = pre.length + 1 := by simp
    have hg2 : ∀ q ∈ rest, Good q.2 := fun q hq => hg q (List.mem_cons_of_mem _ hq)
    have ih2 := ih (pre ++ [(fld, x)]) hv2 hg2
    rw [hlen] at ih2
    rw [forEach, descriptorFrom]
    cases hex : excluded tag0 fld with
    | true =>
      have hanon : anonFieldBody S ro ns idx (fld, x) a = .ok a := by
        unfold anonFieldBody
        rw [htag a b h]
        by_cases h1 : fld.PkgPath ≠ blank ∧ fld.Anonymous = false
        · rw [if_pos h1]
        · have h2 : fld.Tag.Get tag0 = ignore := by
            by_contra hne
            have := (excluded_false_iff tag0 fld).mpr ⟨h1, hne⟩
            rw [hex] at this
            exact absurd this (by decide)
          rw [if_neg h1, if_pos h2]
      simp only [hanon, if_true]
      exact ih2 a b h
    | false =>
      obtain ⟨h1, h2⟩ := (excluded_false_iff tag0 fld).mp hex
      have hanon : anonFieldBody S ro ns idx (fld, x) a
          = S a (ro.Field fld) x (fieldNs ns (keyName tag0 fld)) idx := by
        unfold anonFieldBody
        rw [htag a b h, if_neg h1, if_neg h2, anonKey_eq_keyName]
      have hcached : cachedFieldBody S ro v ns idx ⟨pre.length, keyName tag0 fld⟩ b
          = S b (ro.Field fld) x (fieldNs ns (keyName tag0 fld)) idx := by
        unfold cachedFieldBody
        simp only [Field_of_append v pre rest (fld, x) hv,
          FieldFlag_of_append v ro pre rest (fld, x) hv]
      simp only [Bool.false_eq_true, if_false, forEach, hanon, hcached]
      have hx := hS (ro.Field fld) a b x (fieldNs ns (keyName tag0 fld)) idx h
        (hg (fld, x) (List.mem_cons_self _ _))
      rcases hr1 : S a (ro.Field fld) x (fieldNs ns (keyName tag0 fld)) idx with f1 | a1 <;>
        rcases hr2 : S b (ro.Field fld) x (fieldNs ns (keyName tag0 fld)) idx with f2 | b1 <;>
        rw [hr1, hr2] at hx
      · exact hx
      · exact hx.elim
      · exact hx.elim
      · exact ih2 a1 b1 hx

/-- C18, the claim as stated fails: Encode of a T whose field A is tagged a under form and b
under json stores the descriptor of T with the key a. After SetTagName json, from that encoder,
the traversal of the named struct T reads the stored descriptor and writes the key a, and the
traversal of the anonymous struct with the same field, tags and value reads the tag again and
writes the key b. -/
theorem C18_stale_descriptor_branches_differ :
    (NewEncoder.Encode 2
        (.struct ⟨"T", "main.T"⟩
          [(⟨"A", "", false, [("form", "a"), ("json", "b")]⟩, .int ⟨"int", "int"⟩ 1)])).toOption.map
      (fun r =>
        ((encoder.traverseStruct 2 (freshState (r.e.SetTagName "json")) Flag.ValueOf
          (.struct ⟨"T", "main.T"⟩
            [(⟨"A", "", false, [("form", "a"), ("json", "b")]⟩, .int ⟨"int", "int"⟩ 1)])
          "" (-1)).toOption.map (fun x => (x.values, x.errs)),
         (encoder.traverseStruct 2 (freshState (r.e.SetTagName "json")) Flag.ValueOf
          (.struct ⟨"", "struct"⟩
            [(⟨"A", "", false, [("form", "a"), ("json", "b")]⟩, .int ⟨"int", "int"⟩ 1)])
          "" (-1)).toOption.map (fun x => (x.values, x.errs))))
      = some (some ([("a", ["1"])], none), some ([("b", ["1"])], none)) := by
  rfl

/-- C18 as amended: the two branches of traverseStruct agree when the struct cache is coherent
with the current tag name (every descriptor it holds is the one parseStruct computes for its
type under that tag name, as in a cold cache or one filled under the current tag name). Then
traversing an anonymous struct and traversing a well-typed struct of a named type with the same
fields, tags and values, from the same state, at every namespace and index marker, either panic
alike or return states with the same output and the same error map; with fuel for the fields
neither runs out of fuel. -/
theorem C18_anonymous_and_named_agree (Γ : TypeEnv) (fuel : Nat) (e : encoder) (ro : Flag)
    (ta tn : GoType) (fields : List (StructField × Value)) (ns : String) (idx : Int)
    (hanon : ta.Name.length = 0) (hnamed : ¬ tn.Name.length = 0)
    (hwt : (Value.struct tn fields).wellTyped Γ = true) (hc : cacheCoherent Γ e.e) :
    ((∃ f, encoder.traverseStruct fuel e ro (.struct ta fields) ns idx = .error f
        ∧ encoder.traverseStruct fuel e ro (.struct tn fields) ns idx = .error f)
      ∨ ∃ ra rn, encoder.traverseStruct fuel e ro (.struct ta fields) ns idx = .ok ra
        ∧ encoder.traverseStruct fuel e ro (.struct tn fields) ns idx = .ok rn
        ∧ ra.values = rn.values ∧ ra.errs = rn.errs)
    ∧ (costFields fields + 1 ≤ fuel →
        encoder.traverseStruct fuel e ro (.struct ta fields) ns idx ≠ .error .outOfFuel
        ∧ encoder.traverseStruct fuel e ro (.struct tn fields) ns idx ≠ .error .outOfFuel) := by
  refine ⟨?_, fun hfuel => ⟨(traversal_enough_fuel fuel).1 _ e (.struct ta fields) ns idx hfuel,
    (traversal_enough_fuel fuel).1 _ e (.struct tn fields) ns idx hfuel⟩⟩
  cases fuel with
  | zero => exact Or.inl ⟨.outOfFuel, rfl, rfl⟩
  | succ fuel =>
    have hf : (Value.struct tn fields).fields.map Prod.fst = Γ tn :=
      wellTyped_declares Γ _ tn hwt rfl rfl hnamed
    obtain ⟨s, x, hd, hs, hxt, hxr, hxc⟩ :=
      descriptorOf_coherent Γ e (.struct tn fields) tn hc rfl hf
    have hs2 : s.fields = descriptorFrom e.e.tagName fields 0 := by
      rw [hs]
      exact (typeDescriptor_of_fields Γ _ tn fields hf).symm
    have hsim := CacheSim_tag _ _ (CacheRel_csim Γ SameOut SameOut_outRel) e.e.tagName
    have hfus := @anon_cached_fusion ro _ e.e.tagName (fun a b h => h.2)
      (encoder.setFieldByType fuel) (fun v => v.wellTyped Γ = true)
      (fun ro a b v ns idx h hg => (traversal_csim _ _ hsim fuel).2 ro a b v ns idx h hg)
      (.struct tn fields) ns idx fields [] rfl
      (fun p hp => wellTyped_fields Γ _ p hwt hp) e
      { e := x, errs := e.errs, values := e.values }
      ⟨⟨⟨rfl, rfl⟩, hxt.symm, hxr.symm, hc, hxc⟩, rfl⟩
    have hanonEq : encoder.traverseStruct (fuel + 1) e ro (.struct ta fields) ns idx
        = forEach (anonFieldBody (encoder.setFieldByType fuel) ro ns idx) fields e := by
      rw [traverseStruct_succ]
      simp only [Value.Type, traverseBody, hanon, if_true, Value.fields]
    have hnamedEq : encoder.traverseStruct (fuel + 1) e ro (.struct tn fields) ns idx
        = forEach (cachedFieldBody (encoder.setFieldByType fuel) ro (.struct tn fields) ns idx)
            (descriptorFrom e.e.tagName fields 0)
            { e := x, errs := e.errs, values := e.values } := by
      rw [traverseStruct_succ]
      simp only [Value.Type, traverseBody, hnamed, if_false, hd, hs2]
    rw [hanonEq, hnamedEq]
    rcases RelRes_cases _ _ _ hfus with ⟨f, h1, h2⟩ | ⟨ra, rn, h1, h2, h3⟩
    · exact Or.inl ⟨f, h1, h2⟩
    · exact Or.inr ⟨ra, rn, h1, h2, h3.1.1.1, h3.1.1.2⟩

theorem C18_anonymous_and_named_agree_witness :
    ∃ ra rn,
      encoder.traverseStruct 2 (freshState NewEncoder) Flag.ValueOf
          (.struct ⟨"", "struct \x7b B string \x7d"⟩
            [(plainField "B", .str ⟨"string", "string"⟩ "x")]) "In" (-1) = .ok ra
      ∧ encoder.traverseStruct 2 (freshState NewEncoder) Flag.ValueOf
          (.struct ⟨"Inner", "main.Inner"⟩
            [(plainField "B", .str ⟨"string", "string"⟩ "x")]) "In" (-1) = .ok rn
      ∧ ra.values = rn.values ∧ ra.errs = rn.errs := by
  rcases (C18_anonymous_and_named_agree pairEnv 2 (freshState NewEncoder) Flag.ValueOf
    ⟨"", "struct \x7b B string \x7d"⟩ ⟨"Inner", "main.Inner"⟩
    [(plainField "B", .str ⟨"string", "string"⟩ "x")] "In" (-1) rfl (by decide) (by decide)
    (cacheCoherent_empty _ _ rfl)).1 with ⟨f, h1, -⟩ | h
  · exact absurd h1 (by simp [show encoder.traverseStruct 2 (freshState NewEncoder) Flag.ValueOf
      (.struct ⟨"", "struct \x7b B string \x7d"⟩
        [(plainField "B", .str ⟨"string", "string"⟩ "x")]) "In" (-1)
      = .ok { e := NewEncoder, errs := none, values := [("In.B", ["x"])] } from rfl])
  · exact h

/-! ## The struct cache and the tag name: C19 -/

/-- With coherent caches, the output and the error of Encode on a well-typed input do not
depend on what the struct cache holds. -/
theorem Encode_cache_independent (Γ : TypeEnv) (fuel : Nat) (enc1 enc2 : Encoder) (v : Value)
    (r1 : EncodeResult) (hwt : v.wellTyped Γ = true)
    (htag : enc1.tagName = enc2.tagName) (hreg : enc1.customTypeFuncs = enc2.customTypeFuncs)
    (hc1 : cacheCoherent Γ enc1) (hc2 : cacheCoherent Γ enc2)
    (h1 : enc1.Encode fuel v = .ok r1) :
    ∃ r2, enc2.Encode fuel v = .ok r2 ∧ r2.values = r1.values ∧ r2.err = r1.err := by
  obtain ⟨hk, fin, hfin, hr1⟩ := Encode_ok fuel enc1 v r1 h1
  have hsim := (traversal_csim _ _ (CacheRel_csim Γ SameOut SameOut_outRel) fuel).1 Flag.ValueOf
    (freshState enc1) (freshState enc2) (ExtractType v).1 "" (-1)
    ⟨⟨rfl, rfl⟩, htag, hreg, hc1, hc2⟩ (wellTyped_ExtractType Γ v hwt)
    ((ExtractType_kind v).trans hk)
  rw [hfin] at hsim
  rcases h2 : encoder.traverseStruct fuel (freshState enc2) Flag.ValueOf (ExtractType v).1 "" (-1)
    with f | fin2
  · rw [h2] at hsim
    exact hsim.elim
  · rw [h2] at hsim
    refine ⟨resultOf fin2, ?_, ?_, ?_⟩
    · rw [Encode_of_struct fuel enc2 v hk, h2]
    · rw [hr1]
      exact hsim.1.1.symm
    · rw [hr1]
      simp only [resultOf, hsim.1.2]

theorem Encode_coherent (Γ : TypeEnv) (fuel : Nat) (enc : Encoder) (v : Value)
    (r : EncodeResult) (hwt : v.wellTyped Γ = true) (hc : cacheCoherent Γ enc)
    (h : enc.Encode fuel v = .ok r) : cacheCoherent Γ r.e := by
  obtain ⟨hk, fin, hfin, hr⟩ := Encode_ok fuel enc v r h
  rw [hr]
  exact (traverseStruct_coherent Γ fuel _ fin _ "" (-1) hc (wellTyped_ExtractType Γ v hwt)
    ((ExtractType_kind v).trans hk) hfin).1

theorem Configured_coherent (Γ : TypeEnv) (e : Encoder) (h : Configured Γ e) :
    cacheCoherent Γ e := by
  induction h with
  | new => exact cacheCoherent_empty Γ _ rfl
  | setTagName e tagName _ hempty _ => exact cacheCoherent_empty Γ _ hempty
  | register e fn types _ ih => exact ih
  | encode e fuel v r _ hwt henc ih => exact Encode_coherent Γ fuel e v r hwt ih henc

/-- C19, the claim as stated fails: Encode of a T whose field A is tagged a under form and b
under json stores the descriptor with the key a; after SetTagName json the cache still holds
it, Encode writes the key a, while parseStruct under json computes the key b and a new encoder
given the tag name json writes b. -/
theorem C19_stale_descriptor_after_SetTagName :
    (NewEncoder.Encode 2
        (.struct ⟨"T", "main.T"⟩
          [(⟨"A", "", false, [("form", "a"), ("json", "b")]⟩, .int ⟨"int", "int"⟩ 1)])).toOption.map
      (fun r => ((r.e.SetTagName "json").structCache.Get ⟨"T", "main.T"⟩,
        ((r.e.SetTagName "json").Encode 2
          (.struct ⟨"T", "main.T"⟩
            [(⟨"A", "", false, [("form", "a"), ("json", "b")]⟩,
              .int ⟨"int", "int"⟩ 1)])).toOption.map (fun r2 => r2.values)))
      = some (some ⟨[⟨0, "a"⟩]⟩, some [("a", ["1"])])
    ∧ ((NewEncoder.SetTagName "json").parseStruct
        (.struct ⟨"T", "main.T"⟩
          [(⟨"A", "", false, [("form", "a"), ("json", "b")]⟩, .int ⟨"int", "int"⟩ 1)])).toOption.map
      (fun p => p.1) = some ⟨[⟨0, "b"⟩]⟩
    ∧ ((NewEncoder.SetTagName "json").Encode 2
        (.struct ⟨"T", "main.T"⟩
          [(⟨"A", "", false, [("form", "a"), ("json", "b")]⟩, .int ⟨"int", "int"⟩ 1)])).toOption.map
      (fun r => r.values) = some [("b", ["1"])] := by
  refine ⟨?_, ?_, ?_⟩ <;> decide

/-- C19 as amended: in every encoder state reached from NewEncoder by SetTagName,
RegisterCustomTypeFunc and Encode calls in which SetTagName is only called while the struct
cache is empty, every descriptor in the struct cache is the one parseStruct computes for a
struct of that type under the current tag name, and the output and the error of Encode are
those of an encoder with the same tag name and registry and an empty cache. -/
theorem C19_cache_coherent_when_tag_set_first (Γ : TypeEnv) (e : Encoder)
    (h : Configured Γ e) :
    (∀ typ fields s, fields.map Prod.fst = Γ typ → e.structCache.Get typ = some s →
      ∃ e1, e.parseStruct (.struct typ fields) = .ok (s, e1))
    ∧ ∀ fuel v r, v.wellTyped Γ = true → e.Encode fuel v = .ok r →
        ∃ r0, Encoder.Encode fuel { e with structCache := [] } v = .ok r0
          ∧ r0.values = r.values ∧ r0.err = r.err := by
  have hc := Configured_coherent Γ e h
  constructor
  · intro typ fields s hf hget
    have hs := hc typ s hget
    rw [← typeDescriptor_of_fields Γ e.tagName typ fields hf] at hs
    cases s
    simp only at hs
    refine ⟨{ e with structCache := e.structCache.Set typ ⟨descriptorFrom e.tagName fields 0⟩ },
      ?_⟩
    simp only [Encoder.parseStruct, Value.Type, Value.fields, parseStructLoop_eq,
      List.nil_append, hs]
  · intro fuel v r hwt henc
    exact Encode_cache_independent Γ fuel e _ v r hwt rfl rfl hc
      (cacheCoherent_empty Γ _ rfl) henc

theorem C19_cache_coherent_when_tag_set_first_witness :
    ∃ e1, Encoder.parseStruct
        { tagName := "form",
          structCache := [(⟨"T", "main.T"⟩, ⟨[⟨0, "A"⟩, ⟨1, "In"⟩]⟩),
            (⟨"Inner", "main.Inner"⟩, ⟨[⟨0, "B"⟩]⟩)],
          customTypeFuncs := none }
        (.struct ⟨"Inner", "main.Inner"⟩ [(plainField "B", .str ⟨"string", "string"⟩ "y")])
      = .ok (⟨[⟨0, "B"⟩]⟩, e1) :=
  (C19_cache_coherent_when_tag_set_first pairEnv _
    (Configured.encode NewEncoder 4 pairValue
      { values := [("A", ["1"]), ("In.B", ["x"])], err := none,
        e := { tagName := "form",
               structCache := [(⟨"T", "main.T"⟩, ⟨[⟨0, "A"⟩, ⟨1, "In"⟩]⟩),
                 (⟨"Inner", "main.Inner"⟩, ⟨[⟨0, "B"⟩]⟩)],
               customTypeFuncs := none } }
      Configured.new (by decide) rfl)).1 ⟨"Inner", "main.Inner"⟩
    [(plainField "B", .str ⟨"string", "string"⟩ "y")] ⟨[⟨0, "B"⟩]⟩ rfl rfl

/-! ## The enumeration order of a map: C17 -/

theorem mapGet_setVal (e : encoder) (ns q : String) (idx : Int) (vals : List String) :
    mapGet (e.setVal ns idx vals).values q
      = if ns = q then some ((mapGet e.values ns).getD [] ++ vals) else mapGet e.values q := by
  rw [setVal_eq]
  exact mapGet_putVals _ _ _ _

theorem AgreeOn_outRel (K : String → Prop) : OutRel (AgreeOn K) where
  setVal := by
    intro a b ns idx vals h q hq
    refine ⟨?_, (h q hq).2⟩
    rw [mapGet_setVal, mapGet_setVal]
    by_cases hn : ns = q
    · subst hn
      simp only [if_true, (h ns hq).1]
    · simp only [hn, if_false, (h q hq).1]
  setError := by
    intro a b ns err h q hq
    refine ⟨(h q hq).1, ?_⟩
    rw [errGet_setError, errGet_setError, (h q hq).2]
  setEnc := fun _ _ _ _ h => h

theorem RelResW_of_RelRes (R : encoder → encoder → Prop) (x y : Res encoder)
    (h : RelRes R x y) : RelResW R x y := by
  rcases x with f | a <;> rcases y with g | b
  · trivial
  · exact h.elim
  · exact h.elim
  · exact h

theorem RelResW_trans (R : encoder → encoder → Prop)
    (htr : ∀ a b c, R a b → R b c → R a c) (x y z : Res encoder)
    (h1 : RelResW R x y) (h2 : RelResW R y z) : RelResW R x z := by
  rcases x with f | a <;> rcases y with g | b <;> rcases z with k | c
  all_goals first
    | trivial
    | exact h1.elim
    | exact h2.elim
    | exact htr a b c h1 h2

/-- Two texts that each run up to a first closing bracket agree only if the runs agree. -/
theorem bracket_split (d1 d2 r1 r2 : List Char)
    (h1 : ']' ∉ d1) (h2 : ']' ∉ d2) (h : d1 ++ ']' :: r1 = d2 ++ ']' :: r2) : d1 = d2 := by
  induction d1 generalizing d2 with
  | nil =>
    cases d2 with
    | nil => rfl
    | cons c cs =>
      simp only [List.nil_append, List.cons_append, List.cons.injEq] at h
      exact absurd (h.1 ▸ List.mem_cons_self _ _) h2
  | cons c cs ih =>
    cases d2 with
    | nil =>
      simp only [List.nil_append, List.cons_append, List.cons.injEq] at h
      exact absurd (h.1 ▸ List.mem_cons_self _ _) h1
    | cons c2 cs2 =>
      simp only [List.cons_append, List.cons.injEq] at h
      rw [h.1, ih cs2 (fun hm => h1 (List.mem_cons_of_mem _ hm))
        (fun hm => h2 (List.mem_cons_of_mem _ hm)) h.2]

/-- The keys below two entries of one map are different keys when the texts of the two map keys
differ and hold no closing bracket. -/
theorem Ext_bracket_disjoint (N s1 s2 q : String) (h1 : ']' ∉ s1.data) (h2 : ']' ∉ s2.data)
    (hq1 : Ext (N ++ "[" ++ s1 ++ "]") q) (hq2 : Ext (N ++ "[" ++ s2 ++ "]") q) : s1 = s2 := by
  obtain ⟨r1, e1, -⟩ := hq1
  obtain ⟨r2, e2, -⟩ := hq2
  rw [e1] at e2
  simp only [String.data_append, List.append_assoc] at e2
  have e3 := List.append_cancel_left e2
  simp only [List.singleton_append, List.cons_append, List.cons.injEq, true_and,
    List.nil_append] at e3
  exact String.ext (bracket_split _ _ _ _ h1 h2 e3)

theorem setFieldByType_coherent {ro : Flag} (Γ : TypeEnv) (fuel : Nat) (a b : encoder) (v : Value)
    (ns : String) (idx : Int) (hc : cacheCoherent Γ a.e) (hwt : v.wellTyped Γ = true)
    (h : encoder.setFieldByType fuel a ro v ns idx = .ok b) : cacheCoherent Γ b.e := by
  have hsim := (traversal_csim _ _ (CacheRel_csim Γ SameOut SameOut_outRel) fuel).2 ro a a v ns idx
    ⟨⟨rfl, rfl⟩, rfl, rfl, hc, hc⟩ hwt
  rw [h] at hsim
  exact hsim.2.2.2.1

/-- A visit leaves a state in agreement with the state it started from on every key that no key
below its namespace is. -/
theorem CacheRel_of_visit {ro : Flag} (Γ : TypeEnv) (fuel : Nat) (a b : encoder) (v : Value)
    (ns : String) (idx : Int) (K : String → Prop) (hns : ns ≠ "")
    (hK : ∀ q, K q → ¬ Ext ns q) (hc : cacheCoherent Γ a.e) (hwt : v.wellTyped Γ = true)
    (h : encoder.setFieldByType fuel a ro v ns idx = .ok b) : CacheRel Γ (AgreeOn K) a b := by
  have hfr := (traversal_frame fuel).2 _ a b v ns idx h
  refine ⟨?_, hfr.2.1.symm, hfr.1.symm, hc, setFieldByType_coherent Γ fuel a b v ns idx hc hwt h⟩
  intro q hq
  have := hfr.2.2 hns q (hK q hq)
  exact ⟨this.1.symm, this.2.symm⟩

/-- Two visits at namespaces with no key in common commute: in either order both panic, or
both return states that read alike at every key. -/
theorem visits_commute {ro : Flag} (Γ : TypeEnv) (fuel : Nat) (e : encoder) (x1 x2 : Value)
    (n1 n2 : String) (i1 i2 : Int) (hn1 : n1 ≠ "") (hn2 : n2 ≠ "")
    (hdis : ∀ q, Ext n1 q → Ext n2 q → False)
    (hw1 : x1.wellTyped Γ = true) (hw2 : x2.wellTyped Γ = true) (hc : cacheCoherent Γ e.e) :
    RelResW (CacheRel Γ (AgreeOn (fun _ => True)))
      ((encoder.setFieldByType fuel e ro x1 n1 i1).bind
        (fun a => encoder.setFieldByType fuel a ro x2 n2 i2))
      ((encoder.setFieldByType fuel e ro x2 n2 i2).bind
        (fun b => encoder.setFieldByType fuel b ro x1 n1 i1)) := by
  have simA := fun a b h => (traversal_csim _ _
    (CacheRel_csim Γ (AgreeOn (Ext n1)) (AgreeOn_outRel _)) fuel).2 ro a b x1 n1 i1 h hw1
  have simB := fun a b h => (traversal_csim _ _
    (CacheRel_csim Γ (AgreeOn (Ext n2)) (AgreeOn_outRel _)) fuel).2 ro a b x2 n2 i2 h hw2
  have hK1 : ∀ q, Ext n1 q → ¬ Ext n2 q := fun q h1 h2 => hdis q h1 h2
  have hK2 : ∀ q, Ext n2 q → ¬ Ext n1 q := fun q h2 h1 => hdis q h1 h2
  rcases hA : encoder.setFieldByType fuel e ro x1 n1 i1 with f | a1 <;>
    rcases hB : encoder.setFieldByType fuel e ro x2 n2 i2 with g | b1 <;>
    simp only [Except.bind]
  · trivial
  · have hr := simA e b1 (CacheRel_of_visit Γ fuel e b1 x2 n2 i2 _ hn2 hK1 hc hw2 hB)
    rw [hA] at hr
    rcases hA2 : encoder.setFieldByType fuel b1 ro x1 n1 i1 with f2 | ba
    · trivial
    · rw [hA2] at hr; exact hr.elim
  · have hr := simB e a1 (CacheRel_of_visit Γ fuel e a1 x1 n1 i1 _ hn1 hK2 hc hw1 hA)
    rw [hB] at hr
    rcases hB2 : encoder.setFieldByType fuel a1 ro x2 n2 i2 with f2 | ab
    · trivial
    · rw [hB2] at hr; exact hr.elim
  · have hea := CacheRel_of_visit Γ fuel e a1 x1 n1 i1 _ hn1 hK2 hc hw1 hA
    have heb := CacheRel_of_visit Γ fuel e b1 x2 n2 i2 _ hn2 hK1 hc hw2 hB
    have hrB := simB e a1 hea
    have hrA := simA e b1 heb
    rw [hB] at hrB
    rw [hA] at hrA
    rcases hB2 : encoder.setFieldByType fuel a1 ro x2 n2 i2 with f2 | ab
    · rw [hB2] at hrB; exact hrB.elim
    · rcases hA2 : encoder.setFieldByType fuel b1 ro x1 n1 i1 with f3 | ba
      · rw [hA2] at hrA; exact hrA.elim
      · rw [hB2] at hrB
        rw [hA2] at hrA
        have hf1 := (traversal_frame fuel).2 _ e a1 x1 n1 i1 hA
        have hf2 := (traversal_frame fuel).2 _ e b1 x2 n2 i2 hB
        have hf3 := (traversal_frame fuel).2 _ a1 ab x2 n2 i2 hB2
        have hf4 := (traversal_frame fuel).2 _ b1 ba x1 n1 i1 hA2
        refine ⟨?_, ?_, ?_, hrB.2.2.2.2, hrA.2.2.2.2⟩
        · intro q _
          by_cases h1 : Ext n1 q
          · have h2 := hK1 q h1
            have e1 := hf3.2.2 hn2 q h2
            have e2 := hrA.1 q h1
            exact ⟨e1.1.trans e2.1, e1.2.trans e2.2⟩
          · by_cases h2 : Ext n2 q
            · have e1 := hrB.1 q h2
              have e2 := hf4.2.2 hn1 q h1
              exact ⟨e1.1.symm.trans e2.1.symm, e1.2.symm.trans e2.2.symm⟩
            · have e1 := hf3.2.2 hn2 q h2
              have e2 := hf1.2.2 hn1 q h1
              have e3 := hf4.2.2 hn1 q h1
              have e4 := hf2.2.2 hn2 q h2
              exact ⟨e1.1.trans (e2.1.trans (e4.1.symm.trans e3.1.symm)),
                e1.2.trans (e2.2.trans (e4.2.symm.trans e3.2.symm))⟩
        · exact hf3.2.1.trans (hf1.2.1.trans (hf2.2.1.symm.trans hf4.2.1.symm))
        · exact hf3.1.trans (hf1.1.trans (hf2.1.symm.trans hf4.1.symm))

theorem getMapKey_supported {ro : Flag} (e : encoder) (k : Value) (ns s : String)
    (hreg : e.lookupCustom (ExtractType k).1 = .ok none)
    (hs : leafText (ExtractType k).1 (ExtractType k).2 = some s) :
    e.getMapKey ro k ns = .ok (s, true, e) := by
  unfold encoder.getMapKey
  simp only [hreg]
  generalize (ExtractType k).2 = kind at hs
  cases kind <;> simp only [leafText, Option.some.injEq, reduceCtorEq] at hs <;> rw [hs]

theorem keySupported_congr (e e2 : encoder) (k : Value)
    (h : e2.e.customTypeFuncs = e.e.customTypeFuncs) (hk : keySupported e k) :
    keySupported e2 k :=
  ⟨(lookupCustom_congr e2 e _ h).trans hk.1, hk.2⟩

theorem mapEntryBody_supported {ro : Flag} (S : encoder → Flag → Value → String → Int → Res encoder)
    (cur : Value) (N : String) (p : Value × Value) (e : encoder) (hcur : cur.Kind = .Map)
    (hk : keySupported e p.1) :
    mapEntryBody S ro cur N p e
      = S e (ro.or (ExtractFlag ro cur).ro).ro p.2 (N ++ "[" ++ keyText p.1 ++ "]") (-2) := by
  obtain ⟨h1, h2⟩ := hk
  obtain ⟨s, hs⟩ := Option.isSome_iff_exists.mp h2
  have hkt : keyText p.1 = s := by simp [keyText, hs]
  unfold mapEntryBody
  rw [getMapKey_supported e p.1 N s h1 hs, hkt]
  simp [Value.MapIndex, hcur]

theorem CacheRel_refl (Γ : TypeEnv) (K : String → Prop) (e : encoder)
    (hc : cacheCoherent Γ e.e) : CacheRel Γ (AgreeOn K) e e :=
  ⟨fun _ _ => ⟨rfl, rfl⟩, rfl, rfl, hc, hc⟩

theorem CacheRel_trans (Γ : TypeEnv) (K : String → Prop) (a b c : encoder)
    (h1 : CacheRel Γ (AgreeOn K) a b) (h2 : CacheRel Γ (AgreeOn K) b c) :
    CacheRel Γ (AgreeOn K) a c :=
  ⟨fun q hq => ⟨(h1.1 q hq).1.trans (h2.1 q hq).1, (h1.1 q hq).2.trans (h2.1 q hq).2⟩,
    h1.2.1.trans h2.2.1, h1.2.2.1.trans h2.2.2.1, h1.2.2.2.1, h2.2.2.2.2⟩

theorem forEach_two {α : Type} (body : α → encoder → Res encoder) (p q : α) (l : List α)
    (e : encoder) :
    forEach body (p :: q :: l) e = ((body p e).bind (body q)).bind (forEach body l) := by
  rw [forEach]
  rcases body p e with f | a
  · rfl
  · simp only [forEach, Except.bind]
    rcases body q a with g | b <;> rfl

theorem forEach_after {α : Type} (R : encoder → encoder → Prop)
    (body : α → encoder → Res encoder) (l : List α)
    (hsim : ∀ a b, R a b → RelRes R (forEach body l a) (forEach body l b))
    (x y : Res encoder) (h : RelResW R x y) :
    RelResW R (x.bind (forEach body l)) (y.bind (forEach body l)) := by
  rcases x with f | a <;> rcases y with g | b
  · trivial
  · exact h.elim
  · exact h.elim
  · exact RelResW_of_RelRes R _ _ (hsim a b h)

theorem bracket_ne_empty (N s : String) : N ++ "[" ++ s ++ "]" ≠ "" := fun h =>
  append_bracket_length N s ((length_eq_zero_iff _).mpr h)

/-- Two entries with supported keys, one after the other, are two visits of the values. -/
theorem two_entries_eq {ro : Flag} (fuel : Nat) (cur : Value) (hcur : cur.Kind = .Map) (N : String)
    (p q : Value × Value) (e : encoder) (hp : keySupported e p.1) (hq : keySupported e q.1) :
    (mapEntryBody (encoder.setFieldByType fuel) ro cur N p e).bind
        (mapEntryBody (encoder.setFieldByType fuel) ro cur N q)
    = (encoder.setFieldByType fuel e (ro.or (ExtractFlag ro cur).ro).ro p.2
          (N ++ "[" ++ keyText p.1 ++ "]") (-2)).bind
        (fun a => encoder.setFieldByType fuel a (ro.or (ExtractFlag ro cur).ro).ro q.2
          (N ++ "[" ++ keyText q.1 ++ "]") (-2)) := by
  rw [mapEntryBody_supported _ cur N p e hcur hp]
  rcases hr : encoder.setFieldByType fuel e (ro.or (ExtractFlag ro cur).ro).ro p.2
    (N ++ "[" ++ keyText p.1 ++ "]") (-2) with f | a
  · rfl
  · simp only [Except.bind]
    have hfr := (traversal_frame fuel).2 _ e a p.2 _ (-2) hr
    exact mapEntryBody_supported _ cur N q a hcur (keySupported_congr e a q.1 hfr.1 hq)

/-- The loop over the entries of a map in two enumeration orders: with supported keys whose
texts differ and hold no closing bracket, both orders panic or both return states that read
alike at every key. -/
theorem entries_perm {ro : Flag} (Γ : TypeEnv) (fuel : Nat) (cur : Value) (hcur : cur.Kind = .Map)
    (N : String) (e0 : encoder) (l1 l2 : List (Value × Value)) (hp : l1.Perm l2) :
    (∀ p ∈ l1, keySupported e0 p.1) →
    l1.Pairwise (fun p q => keyText p.1 ≠ keyText q.1) →
    (∀ p ∈ l1, ']' ∉ (keyText p.1).data) →
    (∀ p ∈ l1, p.2.wellTyped Γ = true) →
    ∀ e, e.e.customTypeFuncs = e0.e.customTypeFuncs → cacheCoherent Γ e.e →
    RelResW (CacheRel Γ (AgreeOn (fun _ => True)))
      (forEach (mapEntryBody (encoder.setFieldByType fuel) ro cur N) l1 e)
      (forEach (mapEntryBody (encoder.setFieldByType fuel) ro cur N) l2 e) := by
  induction hp with
  | nil => intro _ _ _ _ e _ hc; exact CacheRel_refl Γ _ e hc
  | cons x _ ih =>
    intro hk hd hb hw e hreg hc
    have hkx := keySupported_congr e0 e x.1 hreg (hk x (List.mem_cons_self _ _))
    rw [forEach, forEach, mapEntryBody_supported _ cur N x e hcur hkx]
    rcases hr : encoder.setFieldByType fuel e (ro.or (ExtractFlag ro cur).ro).ro x.2
      (N ++ "[" ++ keyText x.1 ++ "]") (-2) with f | e1
    · trivial
    · have hfr := (traversal_frame fuel).2 _ e e1 x.2 _ (-2) hr
      exact ih (fun p hp => hk p (List.mem_cons_of_mem _ hp)) (List.Pairwise.of_cons hd)
        (fun p hp => hb p (List.mem_cons_of_mem _ hp))
        (fun p hp => hw p (List.mem_cons_of_mem _ hp)) e1 (hfr.1.trans hreg)
        (setFieldByType_coherent Γ fuel e e1 x.2 _ (-2) hc
          (hw x (List.mem_cons_self _ _)) hr)
  | swap x y l =>
    intro hk hd hb hw e hreg hc
    have hmy : y ∈ y :: x :: l := List.mem_cons_self _ _
    have hmx : x ∈ y :: x :: l := List.mem_cons_of_mem _ (List.mem_cons_self _ _)
    have hky := keySupported_congr e0 e y.1 hreg (hk y hmy)
    have hkx := keySupported_congr e0 e x.1 hreg (hk x hmx)
    have hne : keyText y.1 ≠ keyText x.1 := (List.pairwise_cons.mp hd).1 x (List.mem_cons_self _ _)
    rw [forEach_two, forEach_two, two_entries_eq fuel cur hcur N y x e hky hkx,
      two_entries_eq fuel cur hcur N x y e hkx hky]
    apply forEach_after
    · intro a b hab
      exact forEach_sim _ _ _ l
        (fun p hp a b hab => mapEntryBody_csim _ _
          (CacheRel_csim Γ (AgreeOn (fun _ => True)) (AgreeOn_outRel _)) _
          (fun ro a b v ns idx h hg => (traversal_csim _ _
            (CacheRel_csim Γ (AgreeOn (fun _ => True)) (AgreeOn_outRel _)) fuel).2 ro a b v ns idx
            h hg)
          cur N p (hw p (List.mem_cons_of_mem _ (List.mem_cons_of_mem _ hp))) a b hab) a b hab
    · exact visits_commute Γ fuel e y.2 x.2 _ _ (-2) (-2) (bracket_ne_empty _ _)
        (bracket_ne_empty _ _)
        (fun q h1 h2 => hne (Ext_bracket_disjoint N _ _ q (hb y hmy) (hb x hmx) h1 h2))
        (hw y hmy) (hw x hmx) hc
  | trans hp1 _ ih1 ih2 =>
    intro hk hd hb hw e hreg hc
    exact RelResW_trans _ (CacheRel_trans Γ _) _ _ _ (ih1 hk hd hb hw e hreg hc)
      (ih2 (fun p hp => hk p (hp1.mem_iff.mpr hp)) ((hp1.pairwise_iff (fun h => h.symm)).mp hd)
        (fun p hp => hb p (hp1.mem_iff.mpr hp)) (fun p hp => hw p (hp1.mem_iff.mpr hp))
        e hreg hc)

/-- C17, the claim as stated fails: the same map enumerated in two orders gives two results.
In a map with interface keys the int 1 and the string 1 are two keys with one text, and their
values are appended under M[1] in the order of enumeration; two unsupported keys of different
types record two different errors under M, and the one enumerated last stays. -/
theorem C17_enumeration_order_shows :
    (NewEncoder.Encode 4 (.struct ⟨"T", "main.T"⟩ [(plainField "M", .map ⟨"", "map[any]int"⟩
        [(.iface ⟨"", "any"⟩ (some (.int ⟨"int", "int"⟩ 1)), .int ⟨"int", "int"⟩ 10),
         (.iface ⟨"", "any"⟩ (some (.str ⟨"string", "string"⟩ "1")),
          .int ⟨"int", "int"⟩ 20)])])).toOption.map (fun r => r.values)
      = some [("M[1]", ["10", "20"])]
    ∧ (NewEncoder.Encode 4 (.struct ⟨"T", "main.T"⟩ [(plainField "M", .map ⟨"", "map[any]int"⟩
        [(.iface ⟨"", "any"⟩ (some (.str ⟨"string", "string"⟩ "1")), .int ⟨"int", "int"⟩ 20),
         (.iface ⟨"", "any"⟩ (some (.int ⟨"int", "int"⟩ 1)),
          .int ⟨"int", "int"⟩ 10)])])).toOption.map (fun r => r.values)
      = some [("M[1]", ["20", "10"])]
    ∧ (NewEncoder.Encode 4 (.struct ⟨"T", "main.T"⟩ [(plainField "M", .map ⟨"", "map[any]int"⟩
        [(.iface ⟨"", "any"⟩ (some (.struct ⟨"A", "main.A"⟩ [])), .int ⟨"int", "int"⟩ 1),
         (.iface ⟨"", "any"⟩ (some (.struct ⟨"B", "main.B"⟩ [])),
          .int ⟨"int", "int"⟩ 2)])])).toOption.map (fun r => r.err)
      = some (some [("M", "Unsupported Map Key '<main.B Value>' Namespace 'M'")])
    ∧ (NewEncoder.Encode 4 (.struct ⟨"T", "main.T"⟩ [(plainField "M", .map ⟨"", "map[any]int"⟩
        [(.iface ⟨"", "any"⟩ (some (.struct ⟨"B", "main.B"⟩ [])), .int ⟨"int", "int"⟩ 2),
         (.iface ⟨"", "any"⟩ (some (.struct ⟨"A", "main.A"⟩ [])),
          .int ⟨"int", "int"⟩ 1)])])).toOption.map (fun r => r.err)
      = some (some [("M", "Unsupported Map Key '<main.A Value>' Namespace 'M'")]) := by
  refine ⟨?_, ?_, ?_, ?_⟩ <;> decide

/-- C17 as amended: for a map visited by setFieldByType as a map, whose keys are all supported
(a scalar kind and no custom function, so that no key records an error) and have texts that
differ from one another and hold no closing bracket, whose values are well typed, from a state
with a coherent struct cache: the visits of the map in any two enumeration orders of its entries
both panic, or both return, and then every key of the output holds the same values in the same
order and every key of the error map holds the same error; with fuel for the map neither runs
out of fuel. -/
theorem C17_map_order_independent (Γ : TypeEnv) (fuel : Nat) (e : encoder) (ro : Flag)
    (t : GoType)
    (es es2 : List (Value × Value)) (ns : String) (idx : Int)
    (hperm : es.Perm es2) (hmap : e.lookupCustom (.map t es) = .ok none)
    (hkeys : ∀ p ∈ es, keySupported e p.1)
    (hdist : es.Pairwise (fun p q => keyText p.1 ≠ keyText q.1))
    (hbr : ∀ p ∈ es, ']' ∉ (keyText p.1).data)
    (hwt : ∀ p ∈ es, p.2.wellTyped Γ = true) (hc : cacheCoherent Γ e.e) :
    ((∃ f g, encoder.setFieldByType (fuel + 1) e ro (.map t es) ns idx = .error f
        ∧ encoder.setFieldByType (fuel + 1) e ro (.map t es2) ns idx = .error g)
      ∨ ∃ r r2, encoder.setFieldByType (fuel + 1) e ro (.map t es) ns idx = .ok r
        ∧ encoder.setFieldByType (fuel + 1) e ro (.map t es2) ns idx = .ok r2
        ∧ (∀ q, mapGet r.values q = mapGet r2.values q)
        ∧ (∀ q, errGet r.errs q = errGet r2.errs q))
    ∧ ((Value.map t es).cost ≤ fuel + 1 →
        encoder.setFieldByType (fuel + 1) e ro (.map t es) ns idx ≠ .error .outOfFuel)
    ∧ ((Value.map t es2).cost ≤ fuel + 1 →
        encoder.setFieldByType (fuel + 1) e ro (.map t es2) ns idx ≠ .error .outOfFuel) := by
  refine ⟨?_, fun hfuel => (traversal_enough_fuel (fuel + 1)).2 _ e _ ns idx hfuel,
    fun hfuel => (traversal_enough_fuel (fuel + 1)).2 _ e _ ns idx hfuel⟩
  have hmap2 : e.lookupCustom (.map t es2) = .ok none :=
    (lookupCustom_type e (.map t es2) (.map t es) rfl).trans hmap
  rw [setFieldByType_map fuel e t es ns idx hmap, setFieldByType_map fuel e t es2 ns idx hmap2]
  have h := @entries_perm ro Γ fuel (.map t []) rfl (withIndex ns idx) e es es2 hperm hkeys hdist
    hbr hwt e rfl hc
  rcases h1 : forEach (mapEntryBody (encoder.setFieldByType fuel) ro (.map t [])
      (withIndex ns idx)) es e with f | r <;>
    rcases h2 : forEach (mapEntryBody (encoder.setFieldByType fuel) ro (.map t [])
      (withIndex ns idx)) es2 e with g | r2 <;> rw [h1, h2] at h
  · exact Or.inl ⟨f, g, rfl, rfl⟩
  · exact h.elim
  · exact h.elim
  · exact Or.inr ⟨r, r2, rfl, rfl, fun q => (h.1 q trivial).1, fun q => (h.1 q trivial).2⟩

theorem C17_map_order_independent_witness :
    ∃ r r2,
      encoder.setFieldByType 2 (freshState NewEncoder) Flag.ValueOf (.map ⟨"", "map[string]int"⟩
        [(.str ⟨"string", "string"⟩ "a", .int ⟨"int", "int"⟩ 1),
         (.str ⟨"string", "string"⟩ "b", .int ⟨"int", "int"⟩ 2)]) "M" (-1) = .ok r
      ∧ encoder.setFieldByType 2 (freshState NewEncoder) Flag.ValueOf (.map ⟨"", "map[string]int"⟩
        [(.str ⟨"string", "string"⟩ "b", .int ⟨"int", "int"⟩ 2),
         (.str ⟨"string", "string"⟩ "a", .int ⟨"int", "int"⟩ 1)]) "M" (-1) = .ok r2
      ∧ (∀ q, mapGet r.values q = mapGet r2.values q)
      ∧ (∀ q, errGet r.errs q = errGet r2.errs q) := by
  rcases (C17_map_order_independent pairEnv 1 (freshState NewEncoder) Flag.ValueOf
    ⟨"", "map[string]int"⟩
    [(.str ⟨"string", "string"⟩ "a", .int ⟨"int", "int"⟩ 1),
     (.str ⟨"string", "string"⟩ "b", .int ⟨"int", "int"⟩ 2)]
    [(.str ⟨"string", "string"⟩ "b", .int ⟨"int", "int"⟩ 2),
     (.str ⟨"string", "string"⟩ "a", .int ⟨"int", "int"⟩ 1)] "M" (-1)
    (List.Perm.swap _ _ _) rfl
    (by
      intro p hp
      simp only [List.mem_cons, List.mem_singleton, List.not_mem_nil, or_false] at hp
      rcases hp with h | h <;> subst h <;> exact ⟨rfl, rfl⟩)
    (by decide)
    (by
      intro p hp
      simp only [List.mem_cons, List.mem_singleton, List.not_mem_nil, or_false] at hp
      rcases hp with h | h <;> subst h <;> decide)
    (by
      intro p hp
      simp only [List.mem_cons, List.mem_singleton, List.not_mem_nil, or_false] at hp
      rcases hp with h | h <;> subst h <;> rfl)
    (cacheCoherent_empty _ _ rfl)).1 with ⟨f, g, h1, -⟩ | h
  · exact absurd h1 (by
      simp [show encoder.setFieldByType 2 (freshState NewEncoder) Flag.ValueOf (.map ⟨"", "map[string]int"⟩
        [(.str ⟨"string", "string"⟩ "a", .int ⟨"int", "int"⟩ 1),
         (.str ⟨"string", "string"⟩ "b", .int ⟨"int", "int"⟩ 2)]) "M" (-1)
        = .ok { e := NewEncoder, errs := none, values := [("M[a]", ["1"]), ("M[b]", ["2"])] }
        from rfl])
  · exact h

/-! ## The error map of a run: C11 -/

theorem LogStep_refl (l : logged) : LogStep l l := ⟨[], by simp, rfl⟩

theorem replayErrors_append (a b : ErrorLog) (errs : Option EncodeErrors) :
    replayErrors (a ++ b) errs = replayErrors b (replayErrors a errs) := by
  simp [replayErrors, List.foldl_append]

theorem LogStep_trans (a b c : logged) (h1 : LogStep a b) (h2 : LogStep b c) : LogStep a c := by
  obtain ⟨x, hx1, hx2⟩ := h1
  obtain ⟨y, hy1, hy2⟩ := h2
  exact ⟨x ++ y, by rw [hy1, hx1, List.append_assoc], by rw [hy2, hx2, replayErrors_append]⟩

theorem LogStep_setError (l : logged) (ns : String) (err : GoError) :
    LogStep l (l.setError ns err) := ⟨[(ns, err)], rfl, rfl⟩

theorem LogStep_setVal (l : logged) (ns : String) (idx : Int) (vals : List String) :
    LogStep l (l.setVal ns idx vals) := ⟨[], by simp [logged.setVal], rfl⟩

theorem LogRes_mono (l0 l : logged) (x : Res logged) (y : Res encoder) (h0 : LogStep l0 l)
    (h : LogRes l x y) : LogRes l0 x y := by
  rcases x with f | l1 <;> rcases y with g | e1
  · exact h
  · exact h.elim
  · exact h.elim
  · exact ⟨h.1, LogStep_trans l0 l l1 h0 h.2⟩

theorem eachLogged_log {α : Type} (bodyL : α → logged → Res logged)
    (body : α → encoder → Res encoder) (xs : List α)
    (hbody : ∀ x ∈ xs, ∀ l, LogRes l (bodyL x l) (body x l.st)) (l : logged) :
    LogRes l (eachLogged bodyL xs l) (forEach body xs l.st) := by
  induction xs generalizing l with
  | nil => exact ⟨rfl, LogStep_refl l⟩
  | cons x xs ih =>
    have hx := hbody x (List.mem_cons_self _ _) l
    rw [eachLogged, forEach]
    rcases h1 : bodyL x l with f1 | l1 <;> rcases h2 : body x l.st with f2 | e1 <;>
      rw [h1, h2] at hx
    · exact hx
    · exact hx.elim
    · exact hx.elim
    · obtain ⟨hst, hstep⟩ := hx
      simp only
      rw [← hst]
      exact LogRes_mono l l1 _ _ hstep (ih (fun y hy => hbody y (List.mem_cons_of_mem _ hy)) l1)

theorem indexLogged_log (bodyL : Nat → Value → logged → Res logged)
    (body : Nat → Value → encoder → Res encoder) (xs : List Value)
    (hbody : ∀ i x l, LogRes l (bodyL i x l) (body i x l.st)) (k : Nat) (l : logged) :
    LogRes l (indexLogged bodyL xs k l) (forIndex body xs k l.st) := by
  induction xs generalizing l k with
  | nil => exact ⟨rfl, LogStep_refl l⟩
  | cons x xs ih =>
    have hx := hbody k x l
    rw [indexLogged, forIndex]
    rcases h1 : bodyL k x l with f1 | l1 <;> rcases h2 : body k x l.st with f2 | e1 <;>
      rw [h1, h2] at hx
    · exact hx
    · exact hx.elim
    · exact hx.elim
    · obtain ⟨hst, hstep⟩ := hx
      simp only
      rw [← hst]
      exact LogRes_mono l l1 _ _ hstep (ih (k + 1) l1)

theorem getMapKey_log {ro : Flag} (l : logged) (key : Value) (ns : String) :
    (∃ f, l.getMapKey ro key ns = .error f ∧ l.st.getMapKey ro key ns = .error f)
    ∨ ∃ s valid l1, l.getMapKey ro key ns = .ok (s, valid, l1)
        ∧ l.st.getMapKey ro key ns = .ok (s, valid, l1.st) ∧ LogStep l l1 := by
  unfold logged.getMapKey encoder.getMapKey
  simp only
  rcases l.st.lookupCustom (ExtractType key).1 with f | (_ | cf)
  · exact Or.inl ⟨f, rfl, rfl⟩
  · right
    simp only
    cases (ExtractType key).2
    all_goals first
      | exact ⟨_, _, _, rfl, rfl, LogStep_refl l⟩
      | exact ⟨_, _, _, rfl, rfl, LogStep_setError l _ _⟩
  · simp only
    by_cases hro : (ExtractFlag ro key).isRO = true
    · rw [if_pos hro, if_pos hro]
      exact Or.inl ⟨_, rfl, rfl⟩
    · rw [if_neg hro, if_neg hro]
      rcases cf (ExtractType key).1 with err | arr
      · exact Or.inr ⟨_, _, _, rfl, rfl, LogStep_setError l _ _⟩
      · cases arr with
        | nil => exact Or.inl ⟨_, rfl, rfl⟩
        | cons s rest => exact Or.inr ⟨_, _, _, rfl, rfl, LogStep_refl l⟩

theorem descriptorOf_errs (a a1 : encoder) (v : Value) (typ : GoType) (s : cachedStruct)
    (h : descriptorOf a v typ = .ok (s, a1)) : a1.errs = a.errs := by
  unfold descriptorOf at h
  cases hg : a.e.structCache.Get typ with
  | some s0 =>
    rw [hg] at h
    simp only [Except.ok.injEq, Prod.mk.injEq] at h
    rw [← h.2]
  | none =>
    rw [hg] at h
    simp only at h
    rcases hp : a.e.parseStruct v with f | ⟨s1, enc⟩
    · rw [hp] at h
      simp at h
    · rw [hp] at h
      simp only [Except.ok.injEq, Prod.mk.injEq] at h
      rw [← h.2]

theorem LogRes_ok (l0 l1 : logged) (h : LogStep l0 l1) : LogRes l0 (.ok l1) (.ok l1.st) :=
  ⟨rfl, h⟩

theorem LogRes_error (l0 : logged) (f : Fault) : LogRes l0 (.error f) (.error f) := rfl

/-- The logged traversal is the traversal: from a logged state both panic alike, or both return
and the logged run ends in the state the traversal returns, the log grown by the calls of
setError that made the error map what it is. -/
theorem traversal_log (fuel : Nat) :
    (∀ ro l v ns idx,
      LogRes l (logged.traverseStruct fuel l ro v ns idx) (encoder.traverseStruct fuel l.st ro v ns idx))
    ∧ (∀ ro l v ns idx,
      LogRes l (logged.setFieldByType fuel l ro v ns idx)
        (encoder.setFieldByType fuel l.st ro v ns idx)) := by
  induction fuel with
  | zero =>
    constructor <;> intro ro l v ns idx <;>
      simp [logged.traverseStruct, logged.setFieldByType, encoder.traverseStruct,
        encoder.setFieldByType, LogRes]
  | succ fuel ih =>
    obtain ⟨ihT, ihS⟩ := ih
    constructor
    · intro ro l v ns idx
      rw [traverseStruct_succ, logged.traverseStruct]
      cases v.Type with
      | none => exact rfl
      | some typ =>
        simp only [traverseBody]
        split
        · apply eachLogged_log
          intro fv _ l
          simp only [anonFieldBody]
          split
          · exact LogRes_ok l l (LogStep_refl l)
          · split
            · exact LogRes_ok l l (LogStep_refl l)
            · exact ihS _ _ _ _ _
        · rcases hd : descriptorOf l.st v typ with f | ⟨s, e1⟩
          · exact rfl
          · simp only
            have hstep : LogStep l { st := e1, log := l.log } :=
              ⟨[], by simp, descriptorOf_errs l.st e1 v typ s hd⟩
            apply LogRes_mono l { st := e1, log := l.log } _ _ hstep
            apply eachLogged_log
            intro f _ l
            simp only [cachedFieldBody]
            cases v.Field f.idx with
            | none => exact rfl
            | some x => exact ihS _ _ _ _ _
    · intro ro l current ns idx
      rw [setFieldByType_succ, logged.setFieldByType]
      simp only [visit]
      rcases l.st.lookupCustom (ExtractType current).1 with f | (_ | cf)
      · exact rfl
      · simp only
        cases (ExtractType current).2 <;> simp only [visitKind]
        all_goals first
          | exact LogRes_ok l l (LogStep_refl l)
          | exact LogRes_ok l _ (LogStep_setVal l _ _ _)
          | skip
        · split
          · exact indexLogged_log _ _ _ (fun i x l => ihS _ _ _ _ _) 0 l
          · exact indexLogged_log _ _ _ (fun i x l => ihS _ _ _ _ _) 0 l
        · split
          · exact indexLogged_log _ _ _ (fun i x l => ihS _ _ _ _ _) 0 l
          · exact indexLogged_log _ _ _ (fun i x l => ihS _ _ _ _ _) 0 l
        · apply eachLogged_log
          intro entry _ l
          simp only [mapEntryBody]
          rcases @getMapKey_log (ExtractFlag ro current).ro l entry.1
            (withIndex (ptrAdjust current ns idx).1 (ptrAdjust current ns idx).2) with
            ⟨f, h1, h2⟩ | ⟨s, valid, l1, h1, h2, h3⟩
          · rw [h1, h2]
            exact rfl
          · rw [h1, h2]
            simp only
            cases valid
            · exact LogRes_ok l l1 h3
            · simp only [Bool.true_eq_false, if_false]
              cases current.MapIndex entry with
              | none => exact rfl
              | some x => exact LogRes_mono l l1 _ _ h3 (ihS _ _ _ _ _)
        · split
          · split
            · exact rfl
            · exact LogRes_ok l _ (LogStep_setVal l _ _ _)
          · split
            · exact ihT _ _ _ _ _
            · exact ihT _ _ _ _ _
      · simp only
        split
        · exact rfl
        · rcases cf (ExtractType current).1 with err | arr
          · exact LogRes_ok l _ (LogStep_setError l _ _)
          · exact LogRes_ok l _ (LogStep_setVal l _ _ _)

theorem errGet_recordError (errs : Option EncodeErrors) (ns q : String) (err : GoError) :
    errGet (recordError errs ns err) q = if ns = q then some err else errGet errs q := by
  cases errs <;> simp [recordError, errGet, mapGet_mapSet, mapGet]

theorem errGet_replayErrors (log : ErrorLog) (errs : Option EncodeErrors) (q : String) :
    errGet (replayErrors log errs) q
      = match lastError log q with
        | some err => some err
        | none => errGet errs q := by
  induction log generalizing errs with
  | nil => rfl
  | cons c rest ih =>
    have hstep : replayErrors (c :: rest) errs = replayErrors rest (recordError errs c.1 c.2) :=
      rfl
    rw [hstep, ih, lastError]
    cases lastError rest q with
    | some err => rfl
    | none =>
      simp only [errGet_recordError]
      by_cases h : c.1 = q <;> simp [h]

theorem errsLen_recordError (errs : Option EncodeErrors) (ns : String) (err : GoError) :
    errsLen (recordError errs ns err) ≠ 0 := by
  have hne : ∀ (m : EncodeErrors), (mapSet m ns err).length ≠ 0 := by
    intro m
    cases m with
    | nil => simp [mapSet]
    | cons kv m =>
      obtain ⟨k, w⟩ := kv
      by_cases h : k = ns <;> simp [mapSet, h]
  cases errs <;> exact hne _

theorem errsLen_replayErrors (log : ErrorLog) (errs : Option EncodeErrors)
    (h : errsLen errs ≠ 0) : errsLen (replayErrors log errs) ≠ 0 := by
  induction log generalizing errs with
  | nil => exact h
  | cons c rest ih => exact ih _ (errsLen_recordError errs c.1 c.2)

theorem errsLen_replay_fresh (log : ErrorLog) :
    errsLen (replayErrors log none) = 0 ↔ log = [] := by
  cases log with
  | nil => simp [replayErrors, errsLen]
  | cons c rest =>
    simp only [reduceCtorEq, iff_false]
    exact errsLen_replayErrors rest _ (errsLen_recordError none c.1 c.2)

/-- C11, the code departs from the claim: a struct whose field E is a map with a struct key and
whose field M is a non-nil pointer to the map k -> 1. The top-level value is a struct; the visit
of E records an error under E, then the visit of M panics in MapIndex, called on the pointer
instead of the map, and Encode returns neither the output nor the error. With the field E alone
Encode returns the output and the error map; with the map itself in M it returns the output with
M[k] and the error map. -/
theorem C11_struct_input_returns_nothing :
    (ExtractType (.struct ⟨"T", "main.T"⟩
        [(plainField "E", .map ⟨"", "map[main.K]int"⟩
          [(.struct ⟨"K", "main.K"⟩ [], .int ⟨"int", "int"⟩ 1)]),
         (plainField "M", .ptr ⟨"", "*map[string]int"⟩
          (some (.map ⟨"", "map[string]int"⟩
            [(.str ⟨"string", "string"⟩ "k", .int ⟨"int", "int"⟩ 1)])))])).2 = .Struct
    ∧ NewEncoder.Encode 4
        (.struct ⟨"T", "main.T"⟩
          [(plainField "E", .map ⟨"", "map[main.K]int"⟩
            [(.struct ⟨"K", "main.K"⟩ [], .int ⟨"int", "int"⟩ 1)]),
           (plainField "M", .ptr ⟨"", "*map[string]int"⟩
            (some (.map ⟨"", "map[string]int"⟩
              [(.str ⟨"string", "string"⟩ "k", .int ⟨"int", "int"⟩ 1)])))])
      = .error (.panic "reflect: call of reflect.Value.MapIndex on non-map Value")
    ∧ (NewEncoder.Encode 4
        (.struct ⟨"T", "main.T"⟩
          [(plainField "E", .map ⟨"", "map[main.K]int"⟩
            [(.struct ⟨"K", "main.K"⟩ [], .int ⟨"int", "int"⟩ 1)])])).toOption.map
        (fun r => (r.values, r.err))
      = some ([], some [("E", "Unsupported Map Key '<main.K Value>' Namespace 'E'")])
    ∧ (NewEncoder.Encode 4
        (.struct ⟨"T", "main.T"⟩
          [(plainField "E", .map ⟨"", "map[main.K]int"⟩
            [(.struct ⟨"K", "main.K"⟩ [], .int ⟨"int", "int"⟩ 1)]),
           (plainField "M", .map ⟨"", "map[string]int"⟩
            [(.str ⟨"string", "string"⟩ "k", .int ⟨"int", "int"⟩ 1)])])).toOption.map
        (fun r => (r.values, r.err))
      = some ([("M[k]", ["1"])],
          some [("E", "Unsupported Map Key '<main.K Value>' Namespace 'E'")]) := by
  refine ⟨rfl, rfl, ?_, ?_⟩ <;> decide

/-- What Encode returns: for every input that resolves to a struct and whose traversal does not
panic, Encode returns the output multi-map the traversal built, in both outcomes; the returned
error is nil exactly when setError was never called, and otherwise it is the error map that
holds, for every namespace at which setError was called, the last error recorded there, and
nothing for any other namespace. When the traversal panics so does Encode, with the same panic.
With fuel for the input the model does not run out of fuel. -/
theorem Encode_output_and_errors (fuel : Nat) (enc : Encoder) (v : Value)
    (hk : (ExtractType v).2 = .Struct) :
    (match logged.traverseStruct fuel ⟨freshState enc, []⟩ Flag.ValueOf (ExtractType v).1 "" (-1) with
      | .error f => enc.Encode fuel v = .error f
      | .ok fin =>
        ∃ r, enc.Encode fuel v = .ok r ∧ r.values = fin.st.values
          ∧ (r.err = none ↔ fin.log = [])
          ∧ (∀ q, errGet r.err q = lastError fin.log q))
    ∧ (v.cost ≤ fuel → enc.Encode fuel v ≠ .error .outOfFuel) := by
  refine ⟨?_, fun h => Encode_enough_fuel enc v fuel h⟩
  have hlog := (traversal_log fuel).1 Flag.ValueOf ⟨freshState enc, []⟩ (ExtractType v).1 ""
    (-1)
  rw [Encode_of_struct fuel enc v hk]
  rcases h1 : logged.traverseStruct fuel ⟨freshState enc, []⟩ Flag.ValueOf (ExtractType v).1 "" (-1)
    with f | fin <;>
    rcases h2 : encoder.traverseStruct fuel (freshState enc) Flag.ValueOf (ExtractType v).1 "" (-1)
      with g | e1 <;> rw [h1, h2] at hlog
  · simp only
    rw [show f = g from hlog]
  · exact hlog.elim
  · exact hlog.elim
  · obtain ⟨hst, added, hadd, herrs⟩ := hlog
    simp only [List.nil_append] at hadd
    have herrs2 : e1.errs = replayErrors fin.log none := by
      rw [← hst, herrs, hadd]
      rfl
    simp only
    refine ⟨resultOf e1, rfl, by rw [← hst]; rfl, ?_, ?_⟩
    · simp only [resultOf]
      by_cases hz : errsLen e1.errs = 0
      · simp only [hz, if_true, true_iff]
        rw [herrs2] at hz
        exact (errsLen_replay_fresh fin.log).mp hz
      · simp only [hz, if_false]
        have hne : e1.errs ≠ none := by
          intro h0
          rw [h0] at hz
          exact hz rfl
        have hl : fin.log ≠ [] := by
          intro h0
          rw [herrs2, h0] at hz
          exact hz rfl
        exact ⟨fun h => absurd h hne, fun h => absurd h hl⟩
    · intro q
      simp only [resultOf]
      have hq := errGet_replayErrors fin.log none q
      rw [← herrs2] at hq
      by_cases hz : errsLen e1.errs = 0
      · simp only [hz, if_true]
        rw [herrs2] at hz
        rw [(errsLen_replay_fresh fin.log).mp hz]
        rfl
      · simp only [hz, if_false, hq]
        cases lastError fin.log q <;> rfl

theorem Encode_output_and_errors_example :
    ∃ r, NewEncoder.Encode 4 (.struct ⟨"T", "main.T"⟩
        [(plainField "A", .int ⟨"int", "int"⟩ 1),
         (plainField "M", .map ⟨"", "map[any]int"⟩
          [(.iface ⟨"", "any"⟩ (some (.struct ⟨"A", "main.A"⟩ [])), .int ⟨"int", "int"⟩ 1),
           (.iface ⟨"", "any"⟩ (some (.struct ⟨"B", "main.B"⟩ [])), .int ⟨"int", "int"⟩ 2)])])
        = .ok r
      ∧ r.values = [("A", ["1"])] ∧ r.err ≠ none
      ∧ errGet r.err "M" = some "Unsupported Map Key '<main.B Value>' Namespace 'M'"
      ∧ errGet r.err "A" = none := by
  have h := (Encode_output_and_errors 4 NewEncoder (.struct ⟨"T", "main.T"⟩
    [(plainField "A", .int ⟨"int", "int"⟩ 1),
     (plainField "M", .map ⟨"", "map[any]int"⟩
      [(.iface ⟨"", "any"⟩ (some (.struct ⟨"A", "main.A"⟩ [])), .int ⟨"int", "int"⟩ 1),
       (.iface ⟨"", "any"⟩ (some (.struct ⟨"B", "main.B"⟩ [])), .int ⟨"int", "int"⟩ 2)])])
    rfl).1
  obtain ⟨r, h1, h2, h3, h4⟩ := h
  refine ⟨r, h1, h2, ?_, ?_, ?_⟩
  · intro h0
    exact absurd (h3.mp h0) (by decide)
  · rw [h4]; rfl
  · rw [h4]; rfl

/-! ## A map entry with an unsupported key, the claim: C6 -/

theorem cost_map_le (t : GoType) (pre post : List (Value × Value)) (bad : Value × Value) :
    (Value.map t (pre ++ post)).cost ≤ (Value.map t (pre ++ bad :: post)).cost := by
  have h : ∀ (l : List (Value × Value)), costEntries (l ++ post)
      ≤ costEntries (l ++ bad :: post) := by
    intro l
    induction l with
    | nil =>
      obtain ⟨k, w⟩ := bad
      simp only [List.nil_append, costEntries]
      omega
    | cons p l ih =>
      obtain ⟨k, w⟩ := p
      simp only [List.cons_append, costEntries]
      exact max_le_max le_rfl ih
  have := h pre
  simp only [Value.cost]
  omega

/-- C6, the claim as stated fails: with a custom function registered for the type of the map
itself the map is not visited entry by entry. The function's strings are written under M, the
entry with the struct key records no error, and the entry with the string key a is not encoded
under M[a]. And the same map behind a pointer, without any custom function: the entry with the
string key a is not encoded under M[a] either, the visit panics in MapIndex, which is called on
the pointer. -/
theorem C6_map_type_function_takes_over :
    (encoder.setFieldByType 2
        { e := NewEncoder.RegisterCustomTypeFunc (fun _ => .ok ["m"]) [⟨"", "map[any]int"⟩],
          errs := none, values := [] } Flag.ValueOf
        (.map ⟨"", "map[any]int"⟩
          [(.iface ⟨"", "any"⟩ (some (.str ⟨"string", "string"⟩ "a")), .int ⟨"int", "int"⟩ 1),
           (.iface ⟨"", "any"⟩ (some (.struct ⟨"K", "main.K"⟩ [])), .int ⟨"int", "int"⟩ 2)])
        "M" (-1)).toOption.map (fun r => (r.values, r.errs))
      = some ([("M", ["m"])], none)
    ∧ encoder.setFieldByType 2 { e := NewEncoder, errs := none, values := [] } Flag.ValueOf
        (.ptr ⟨"", "*map[any]int"⟩ (some (.map ⟨"", "map[any]int"⟩
          [(.iface ⟨"", "any"⟩ (some (.str ⟨"string", "string"⟩ "a")), .int ⟨"int", "int"⟩ 1),
           (.iface ⟨"", "any"⟩ (some (.struct ⟨"K", "main.K"⟩ [])), .int ⟨"int", "int"⟩ 2)])))
        "M" (-1)
      = .error (.panic "reflect: call of reflect.Value.MapIndex on non-map Value") := by
  refine ⟨?_, rfl⟩
  decide

/-- C6 as amended: for every map visited by setFieldByType at namespace N as a map (the map
itself, not a pointer or an interface in front of it, and no custom function for the type of
the map itself) that holds an entry with an unsupported key kind
(struct, slice, array, map or another non-scalar kind after dereferencing, no custom function
for the key's type): the visit is the loop over the entries at N with the pending index applied;
in that loop the entry with the unsupported key does nothing but record the error naming its key
under N, and every entry (k, v) with a supported key is the visit of v at N[str(k)] with the
resolved marker; the visit panics exactly when the visit of the map without the entry panics,
with the same panic, and when the latter returns so does the former, with the same output and
encoder (the entry contributes no key and no value, every other entry is encoded exactly as
without it), an error under N, and the same error map at every other namespace. With fuel for
the map neither visit runs out of fuel. -/
theorem C6_unsupported_key_skipped (fuel : Nat) (e : encoder) (ro : Flag) (t : GoType)
    (pre post : List (Value × Value)) (bad : Value × Value) (ns : String) (idx : Int)
    (hkind : (ExtractType bad.1).2 ∈ [Kind.Struct, Kind.Slice, Kind.Array, Kind.Map, Kind.Other])
    (hkey : e.lookupCustom (ExtractType bad.1).1 = .ok none)
    (hmap : e.lookupCustom (.map t (pre ++ post)) = .ok none) :
    (∀ es, encoder.setFieldByType (fuel + 1) e ro (.map t es) ns idx
        = forEach (mapEntryBody (encoder.setFieldByType fuel) ro (.map t es) (withIndex ns idx))
            es e)
    ∧ (∀ (cur : Value) (e1 : encoder), e1.e.customTypeFuncs = e.e.customTypeFuncs →
        mapEntryBody (encoder.setFieldByType fuel) ro cur (withIndex ns idx) bad e1
          = .ok (e1.setError (withIndex ns idx)
              ("Unsupported Map Key '" ++ (ExtractType bad.1).1.asString ++ "' Namespace '"
                ++ withIndex ns idx ++ "'")))
    ∧ (∀ (cur : Value) (p : Value × Value) (e1 : encoder), cur.Kind = .Map →
        keySupported e1 p.1 →
        mapEntryBody (encoder.setFieldByType fuel) ro cur (withIndex ns idx) p e1
          = encoder.setFieldByType fuel e1 (ro.or (ExtractFlag ro cur).ro).ro p.2
              (withIndex ns idx ++ "[" ++ keyText p.1 ++ "]") (-2))
    ∧ (∀ f, encoder.setFieldByType (fuel + 1) e ro (.map t (pre ++ bad :: post)) ns idx
          = .error f
        ↔ encoder.setFieldByType (fuel + 1) e ro (.map t (pre ++ post)) ns idx = .error f)
    ∧ (∀ r0, encoder.setFieldByType (fuel + 1) e ro (.map t (pre ++ post)) ns idx = .ok r0 →
        ∃ r, encoder.setFieldByType (fuel + 1) e ro (.map t (pre ++ bad :: post)) ns idx = .ok r
          ∧ r.values = r0.values ∧ r.e = r0.e
          ∧ (∃ err, errGet r.errs (withIndex ns idx) = some err)
          ∧ ∀ q, q ≠ withIndex ns idx → errGet r.errs q = errGet r0.errs q)
    ∧ ((Value.map t (pre ++ bad :: post)).cost ≤ fuel + 1 →
        encoder.setFieldByType (fuel + 1) e ro (.map t (pre ++ bad :: post)) ns idx
          ≠ .error .outOfFuel
        ∧ encoder.setFieldByType (fuel + 1) e ro (.map t (pre ++ post)) ns idx
          ≠ .error .outOfFuel) := by
  have hrel := map_skip_rel (fuel + 1) e ro t pre post bad ns idx hkind hkey hmap
  refine ⟨?_, ?_, ?_, ?_, ?_, ?_⟩
  · intro es
    have hm : e.lookupCustom (.map t es) = .ok none :=
      (lookupCustom_type e (.map t es) (.map t (pre ++ post)) rfl).trans hmap
    rw [setFieldByType_map fuel e t es ns idx hm,
      mapEntryBody_kind _ (.map t es) (.map t []) rfl rfl]
  · intro cur e1 he1
    have hk1 : e1.lookupCustom (ExtractType bad.1).1 = .ok none := by
      rw [lookupCustom_congr e1 e _ he1]
      exact hkey
    rw [mapEntryBody, getMapKey_unsupported e1 bad.1 _ hkind hk1]
    simp only [if_true]
  · intro cur p e1 hcur hk
    exact mapEntryBody_supported _ cur _ p e1 hcur hk
  · intro f
    rcases RelRes_cases _ _ _ hrel with ⟨g, h1, h2⟩ | ⟨a, b, h1, h2, -⟩
    · rw [h1, h2]
    · rw [h1, h2]
      simp
  · intro r0 h0
    rcases RelRes_cases _ _ _ hrel with ⟨g, -, h2⟩ | ⟨a, b, h1, h2, h3⟩
    · rw [h0] at h2
      simp at h2
    · rw [h0] at h2
      simp only [Except.ok.injEq] at h2
      subst h2
      exact ⟨a, h1, h3.2.1, h3.1, h3.2.2.1, h3.2.2.2⟩
  · intro hfuel
    exact ⟨(traversal_enough_fuel (fuel + 1)).2 ro e _ ns idx hfuel,
      (traversal_enough_fuel (fuel + 1)).2 ro e _ ns idx
        (le_trans (cost_map_le t pre post bad) hfuel)⟩

theorem C6_unsupported_key_skipped_witness :
    ∃ r, encoder.setFieldByType 2 { e := NewEncoder, errs := none, values := [] } Flag.ValueOf
        (.map ⟨"", "map[interface {}]int"⟩
          [(.iface ⟨"", "interface {}"⟩ (some (.str ⟨"string", "string"⟩ "a")),
              .int ⟨"int", "int"⟩ 1),
           (.iface ⟨"", "interface {}"⟩ (some (.struct ⟨"K", "main.K"⟩ [])),
              .int ⟨"int", "int"⟩ 2)]) "M" (-1) = .ok r
      ∧ r.values = [("M[a]", ["1"])] ∧ r.e = NewEncoder
      ∧ ∃ err, errGet r.errs "M" = some err := by
  obtain ⟨r, h1, h2, h3, h4, -⟩ := (C6_unsupported_key_skipped 1 { e := NewEncoder, errs := none, values := [] } Flag.ValueOf
    ⟨"", "map[interface {}]int"⟩
    [(.iface ⟨"", "interface {}"⟩ (some (.str ⟨"string", "string"⟩ "a")), .int ⟨"int", "int"⟩ 1)]
    []
    (.iface ⟨"", "interface {}"⟩ (some (.struct ⟨"K", "main.K"⟩ [])), .int ⟨"int", "int"⟩ 2)
    "M" (-1) (by decide) rfl rfl).2.2.2.2.1
    { e := NewEncoder, errs := none, values := [("M[a]", ["1"])] } (by rfl)
  exact ⟨r, h1, h2, h3, h4⟩

/-! ## Nested slices among other fields: C3 -/

theorem lookupCustom_unregistered (enc : Encoder) (a : encoder) (v : Value) (t : GoType)
    (ha : a.e.customTypeFuncs = enc.customTypeFuncs) (ht : v.Type = some t)
    (hu : enc.unregistered t) : a.lookupCustom v = .ok none := by
  unfold encoder.lookupCustom
  rw [ha]
  cases hm : enc.customTypeFuncs with
  | none => rfl
  | some m =>
    simp only [ht]
    rw [hu m hm]

theorem forIndex_ints {ro : Flag} (fuel : Nat) (ns : String) (tint : GoType) (nums : List Int)
    (k : Nat) (e : encoder) (hreg : ∀ x, e.lookupCustom (.int tint x) = .ok none) :
    forIndex (fun i x e =>
        encoder.setFieldByType (fuel + 1) e ro x (ns ++ "[" ++ Itoa (i : Int) ++ "]") (-2))
        (nums.map (fun x => Value.int tint x)) k e
      = .ok { e with values := putAll (indexedEmits ns nums k) e.values } := by
  induction nums generalizing k e with
  | nil => simp [forIndex, indexedEmits, putAll_nil]
  | cons x xs ih =>
    rw [List.map_cons, forIndex,
      setFieldByType_scalar fuel e (.int tint x) (FormatInt x) _ (-2) rfl (hreg x)]
    simp only
    rw [ih (k + 1) (e.setVal (ns ++ "[" ++ Itoa (k : Int) ++ "]") (-2) [FormatInt x])
      (fun y => (lookupCustom_congr _ e _ rfl).trans (hreg y))]
    simp [setVal_eq, indexedEmits, putAll_cons]

/-- A slice of ints visited with the resolved marker, without a custom function for the slice
type or for the int type: element `j` is written under `ns[j]`. -/
theorem setFieldByType_ints {ro : Flag} (fuel : Nat) (e : encoder) (tnums tint : GoType)
    (nums : List Int) (ns : String)
    (hs : e.lookupCustom (.slice tnums (nums.map (fun x => Value.int tint x))) = .ok none)
    (hi : ∀ x, e.lookupCustom (.int tint x) = .ok none) :
    encoder.setFieldByType (fuel + 2) e ro (.slice tnums (nums.map (fun x => Value.int tint x)))
        ns (-2)
      = .ok { e with values := putAll (indexedEmits ns nums 0) e.values } := by
  rw [setFieldByType_succ]
  simp only [ptrAdjust, visit, ExtractType_slice, hs, visitKind, Value.elems, withIndex]
  simp only [gt_iff_lt, show ¬ ((-1 : Int) < -2) by decide, false_and, if_false,
    show ((-2 : Int) = -1) = False by decide]
  exact forIndex_ints fuel ns tint nums 0 e hi

theorem mapGet_putAll_congr (es : List (String × List String)) (m1 m2 : Values) (q : String)
    (h : mapGet m1 q = mapGet m2 q) : mapGet (putAll es m1) q = mapGet (putAll es m2) q := by
  rw [mapGet_putAll, mapGet_putAll, h]

theorem SameConfig_of_visit {ro : Flag} (Γ : TypeEnv) (enc : Encoder) (fuel : Nat)
    (a b : encoder) (x : Value) (ns : String) (idx : Int) (ha : SameConfig Γ enc a)
    (hwt : x.wellTyped Γ = true)
    (h : encoder.setFieldByType fuel a ro x ns idx = .ok b) : SameConfig Γ enc b := by
  have hfr := (traversal_frame fuel).2 _ a b x ns idx h
  exact ⟨hfr.2.1.trans ha.1, hfr.1.trans ha.2.1,
    setFieldByType_coherent Γ fuel a b x ns idx ha.2.2 hwt h⟩


/-- The visit of a field other than the one looked at: it returns, stays in the run of the
encoder and leaves the key `q` alone. -/
theorem anon_other_step {ro : Flag} (Γ : TypeEnv) (enc : Encoder) (fuel : Nat) (ns : String)
    (idx : Int) (Q : String → Prop) (q : String) (hQ : Q q) (p : StructField × Value)
    (a : encoder) (ha : SameConfig Γ enc a) (hwt : p.2.wellTyped Γ = true)
    (hfuel : p.2.cost ≤ fuel)
    (hquiet : excluded enc.tagName p.1 = false →
      Quiet Γ enc (ro.Field p.1) p.2 (fieldNs ns (keyName enc.tagName p.1)) idx Q) :
    ∃ b, anonFieldBody (encoder.setFieldByType fuel) ro ns idx p a = .ok b
      ∧ SameConfig Γ enc b ∧ mapGet b.values q = mapGet a.values q := by
  cases hex : excluded enc.tagName p.1 with
  | true =>
    refine ⟨a, ?_, ha, rfl⟩
    unfold anonFieldBody
    rw [ha.1]
    by_cases h1 : p.1.PkgPath ≠ blank ∧ p.1.Anonymous = false
    · rw [if_pos h1]
    · have h2 : p.1.Tag.Get enc.tagName = ignore := by
        by_contra hne
        have := (excluded_false_iff enc.tagName p.1).mpr ⟨h1, hne⟩
        rw [hex] at this
        exact absurd this (by decide)
      rw [if_neg h1, if_pos h2]
  | false =>
    obtain ⟨h1, h2⟩ := (excluded_false_iff enc.tagName p.1).mp hex
    have hbody : anonFieldBody (encoder.setFieldByType fuel) ro ns idx p a
        = encoder.setFieldByType fuel a (ro.Field p.1) p.2
            (fieldNs ns (keyName enc.tagName p.1)) idx := by
      unfold anonFieldBody
      rw [ha.1, if_neg h1, if_neg h2, anonKey_eq_keyName]
    obtain ⟨b, hb, hleave⟩ := hquiet hex a ha
    rw [← (setFieldByType_fuel_independent a p.2 _ idx fuel hfuel).1] at hb
    exact ⟨b, hbody.trans hb, SameConfig_of_visit Γ enc fuel a b p.2 _ idx ha hwt hb,
      hleave q hQ⟩

theorem anon_others_loop {ro : Flag} (Γ : TypeEnv) (enc : Encoder) (fuel : Nat) (ns : String)
    (idx : Int) (Q : String → Prop) (q : String) (hQ : Q q) (ps : List (StructField × Value))
    (hwt : ∀ p ∈ ps, p.2.wellTyped Γ = true) (hfuel : ∀ p ∈ ps, p.2.cost ≤ fuel)
    (hquiet : ∀ p ∈ ps, excluded enc.tagName p.1 = false →
      Quiet Γ enc (ro.Field p.1) p.2 (fieldNs ns (keyName enc.tagName p.1)) idx Q)
    (a : encoder) (ha : SameConfig Γ enc a) :
    ∃ b, forEach (anonFieldBody (encoder.setFieldByType fuel) ro ns idx) ps a = .ok b
      ∧ SameConfig Γ enc b ∧ mapGet b.values q = mapGet a.values q := by
  induction ps generalizing a with
  | nil => exact ⟨a, rfl, ha, rfl⟩
  | cons p ps ih =>
    obtain ⟨a1, h1, hc1, hq1⟩ := anon_other_step Γ enc fuel ns idx Q q hQ p a ha
      (hwt p (List.mem_cons_self _ _)) (hfuel p (List.mem_cons_self _ _))
      (hquiet p (List.mem_cons_self _ _))
    obtain ⟨b, h2, hc2, hq2⟩ := ih (fun x hx => hwt x (List.mem_cons_of_mem _ hx))
      (fun x hx => hfuel x (List.mem_cons_of_mem _ hx))
      (fun x hx => hquiet x (List.mem_cons_of_mem _ hx)) a1 hc1
    refine ⟨b, ?_, hc2, hq2.trans hq1⟩
    rw [forEach, h1]
    exact h2

/-- The traversal of a well-typed struct from a state with a coherent cache is the loop over its
declared fields, as the anonymous branch runs it: both panic alike, or both return the same
output and error map with coherent caches. -/
theorem traverseStruct_as_fields {ro : Flag} (Γ : TypeEnv) (fuel : Nat) (a : encoder)
    (typ : GoType) (fields : List (StructField × Value)) (ns : String) (idx : Int)
    (hwt : (Value.struct typ fields).wellTyped Γ = true) (hc : cacheCoherent Γ a.e) :
    RelRes (fun x y => CacheRel Γ SameOut x y ∧ x.e.tagName = a.e.tagName)
      (forEach (anonFieldBody (encoder.setFieldByType fuel) ro ns idx) fields a)
      (encoder.traverseStruct (fuel + 1) a ro (.struct typ fields) ns idx) := by
  by_cases hname : typ.Name.length = 0
  · have heq : encoder.traverseStruct (fuel + 1) a ro (.struct typ fields) ns idx
        = forEach (anonFieldBody (encoder.setFieldByType fuel) ro ns idx) fields a := by
      rw [traverseStruct_succ]
      simp only [Value.Type, traverseBody, hname, if_true, Value.fields]
    rcases hr : encoder.traverseStruct (fuel + 1) a ro (.struct typ fields) ns idx with f | b
    · rw [← heq, hr]
      exact rfl
    · rw [← heq, hr]
      obtain ⟨h1, h2, -⟩ := traverseStruct_coherent Γ (fuel + 1) a b _ ns idx hc hwt rfl hr
      exact ⟨⟨⟨rfl, rfl⟩, rfl, rfl, h1, h1⟩, h2⟩
  · have hf : (Value.struct typ fields).fields.map Prod.fst = Γ typ :=
      wellTyped_declares Γ _ typ hwt rfl rfl hname
    obtain ⟨s, x, hd, hs, hxt, hxr, hxc⟩ :=
      descriptorOf_coherent Γ a (.struct typ fields) typ hc rfl hf
    have hs2 : s.fields = descriptorFrom a.e.tagName fields 0 := by
      rw [hs]
      exact (typeDescriptor_of_fields Γ _ typ fields hf).symm
    have hsim := CacheSim_tag _ _ (CacheRel_csim Γ SameOut SameOut_outRel) a.e.tagName
    have hfus := @anon_cached_fusion ro _ a.e.tagName (fun a b h => h.2)
      (encoder.setFieldByType fuel) (fun v => v.wellTyped Γ = true)
      (fun ro a b v ns idx h hg => (traversal_csim _ _ hsim fuel).2 ro a b v ns idx h hg)
      (.struct typ fields) ns idx fields [] rfl
      (fun p hp => wellTyped_fields Γ _ p hwt hp) a
      { e := x, errs := a.errs, values := a.values }
      ⟨⟨⟨rfl, rfl⟩, hxt.symm, hxr.symm, hc, hxc⟩, rfl⟩
    have hnamedEq : encoder.traverseStruct (fuel + 1) a ro (.struct typ fields) ns idx
        = forEach (cachedFieldBody (encoder.setFieldByType fuel) ro (.struct typ fields) ns idx)
            (descriptorFrom a.e.tagName fields 0)
            { e := x, errs := a.errs, values := a.values } := by
      rw [traverseStruct_succ]
      simp only [Value.Type, traverseBody, hname, if_false, hd, hs2]
    rw [hnamedEq]
    exact hfus

/-- The loop over the fields of an element of Outer: the other fields leave the key `q` alone
and the field Nums writes its elements under the indexed keys below `N.Nums`. -/
theorem elem_fields_loop {ro : Flag} (Γ : TypeEnv) (enc : Encoder) (fuel : Nat) (N : String)
    (Q : String → Prop) (q : String) (hQ : Q q) (r : NumsElem) (γ : Values) (a : encoder)
    (ha : SameConfig Γ enc a) (hq : mapGet a.values q = mapGet γ q)
    (hwt : r.value.wellTyped Γ = true) (hN : N ≠ "")
    (hfuel : ∀ p ∈ r.pre ++ r.post, p.2.cost ≤ fuel + 2)
    (hincl : excluded enc.tagName r.fld = false) (hkey : keyName enc.tagName r.fld = "Nums")
    (htn : enc.unregistered r.tn) (hti : enc.unregistered r.tint)
    (hquiet : ∀ p ∈ r.pre ++ r.post, excluded enc.tagName p.1 = false →
      Quiet Γ enc (ro.Field p.1) p.2 (N ++ namespaceSeparator ++ keyName enc.tagName p.1) (-2)
        Q) :
    ∃ b, forEach (anonFieldBody (encoder.setFieldByType (fuel + 2)) ro N (-2))
        (r.pre ++ (r.fld, r.slice) :: r.post) a = .ok b
      ∧ SameConfig Γ enc b
      ∧ mapGet b.values q
          = mapGet (putAll (indexedEmits (N ++ namespaceSeparator ++ "Nums") r.nums 0) γ) q := by
  have hwtp : ∀ p ∈ r.pre ++ r.post, p.2.wellTyped Γ = true := by
    intro p hp
    apply wellTyped_fields Γ r.value p hwt
    simp only [NumsElem.value, Value.fields]
    rcases List.mem_append.mp hp with h | h
    · exact List.mem_append_left _ h
    · exact List.mem_append_right _ (List.mem_cons_of_mem _ h)
  have hni2 : ∀ p ∈ r.pre ++ r.post, excluded enc.tagName p.1 = false →
      Quiet Γ enc (ro.Field p.1) p.2 (fieldNs N (keyName enc.tagName p.1)) (-2) Q := by
    intro p hp hex
    rw [fieldNs_of_ne N _ hN]
    exact hquiet p hp hex
  obtain ⟨a1, h1, hc1, hq1⟩ := anon_others_loop Γ enc (fuel + 2) N (-2) Q q hQ r.pre
    (fun p hp => hwtp p (List.mem_append_left _ hp))
    (fun p hp => hfuel p (List.mem_append_left _ hp))
    (fun p hp => hni2 p (List.mem_append_left _ hp)) a ha
  obtain ⟨h3, h4⟩ := (excluded_false_iff enc.tagName r.fld).mp hincl
  have hbody : anonFieldBody (encoder.setFieldByType (fuel + 2)) ro N (-2) (r.fld, r.slice) a1
      = .ok { a1 with values :=
          (putAll (indexedEmits (N ++ namespaceSeparator ++ "Nums") r.nums 0) a1.values) } := by
    unfold anonFieldBody
    rw [hc1.1, if_neg h3, if_neg h4, anonKey_eq_keyName, hkey, fieldNs_of_ne N _ hN]
    exact setFieldByType_ints fuel a1 r.tn r.tint r.nums _
      (lookupCustom_unregistered enc a1 _ r.tn hc1.2.1 rfl htn)
      (fun x => lookupCustom_unregistered enc a1 _ r.tint hc1.2.1 rfl hti)
  obtain ⟨b, h2, hc2, hq2⟩ := anon_others_loop Γ enc (fuel + 2) N (-2) Q q hQ r.post
    (fun p hp => hwtp p (List.mem_append_right _ hp))
    (fun p hp => hfuel p (List.mem_append_right _ hp))
    (fun p hp => hni2 p (List.mem_append_right _ hp))
    { a1 with values :=
      (putAll (indexedEmits (N ++ namespaceSeparator ++ "Nums") r.nums 0) a1.values) }
    ⟨hc1.1, hc1.2.1, hc1.2.2⟩
  refine ⟨b, ?_, hc2, ?_⟩
  · rw [forEach_append, h1]
    simp only
    rw [forEach, hbody]
    exact h2
  · rw [hq2]
    exact mapGet_putAll_congr _ _ _ q (hq1.trans hq)



/-- The visit of element `k` of Outer: the struct is traversed at `F[k]` with the resolved
marker. -/
theorem elem_visit {ro : Flag} (Γ : TypeEnv) (enc : Encoder) (fuel : Nat) (F : String)
    (Q : String → Prop) (q : String) (hQ : Q q) (k : Nat) (r : NumsElem) (γ : Values)
    (a : encoder)
    (ha : SameConfig Γ enc a) (hq : mapGet a.values q = mapGet γ q)
    (hwt : r.value.wellTyped Γ = true)
    (hfuel : ∀ p ∈ r.pre ++ r.post, p.2.cost ≤ fuel + 2)
    (hincl : excluded enc.tagName r.fld = false) (hkey : keyName enc.tagName r.fld = "Nums")
    (htyp : enc.unregistered r.typ) (htime : r.typ ≠ timeType)
    (htn : enc.unregistered r.tn) (hti : enc.unregistered r.tint)
    (hquiet : ∀ p ∈ r.pre ++ r.post, excluded enc.tagName p.1 = false →
      Quiet Γ enc (ro.Field p.1) p.2 (F ++ "[" ++ Itoa (k : Int) ++ "]" ++ namespaceSeparator
        ++ keyName enc.tagName p.1) (-2) Q) :
    ∃ b, encoder.setFieldByType (fuel + 4) a ro r.value F (k : Int) = .ok b
      ∧ SameConfig Γ enc b
      ∧ mapGet b.values q
          = mapGet (putAll (indexedEmits
              (F ++ "[" ++ Itoa (k : Int) ++ "]" ++ namespaceSeparator ++ "Nums") r.nums 0) γ)
              q := by
  have hN : F ++ "[" ++ Itoa (k : Int) ++ "]" ≠ "" := bracket_ne_empty F _
  obtain ⟨b0, h0, hc0, hq0⟩ := @elem_fields_loop ro Γ enc fuel
    (F ++ "[" ++ Itoa (k : Int) ++ "]") Q q hQ r γ a ha hq hwt hN hfuel hincl hkey htn hti
    hquiet
  have hrel := @traverseStruct_as_fields ro Γ (fuel + 2) a r.typ
    (r.pre ++ (r.fld, r.slice) :: r.post) (F ++ "[" ++ Itoa (k : Int) ++ "]") (-2) hwt ha.2.2
  rw [h0] at hrel
  have hk : ¬ ((k : Int) = -1) := by omega
  have hk2 : (k : Int) > -1 := by omega
  have ht : ¬ (Value.struct r.typ (r.pre ++ (r.fld, r.slice) :: r.post)).Type
      = some timeType := by
    simp [Value.Type, htime]
  have hvis : encoder.setFieldByType (fuel + 4) a ro r.value F (k : Int)
      = encoder.traverseStruct (fuel + 3) a ro r.value
          (F ++ "[" ++ Itoa (k : Int) ++ "]") (-2) := by
    have hl : a.lookupCustom (.struct r.typ (r.pre ++ (r.fld, r.slice) :: r.post)) = .ok none :=
      lookupCustom_unregistered enc a _ r.typ ha.2.1 rfl htyp
    rw [setFieldByType_succ]
    simp only [NumsElem.value, visit, ExtractType_struct, hl, visitKind, ht, if_false]
    simp [ptrAdjust, Value.Kind, hk, withIndex, hk2, ExtractFlag]
  rw [hvis]
  rcases hr : encoder.traverseStruct (fuel + 3) a ro r.value
      (F ++ "[" ++ Itoa (k : Int) ++ "]") (-2) with f | b
  · rw [NumsElem.value] at hr
    rw [hr] at hrel
    exact hrel.elim
  · rw [NumsElem.value] at hr
    rw [hr] at hrel
    obtain ⟨⟨⟨hv, -⟩, htag, hreg, -, hcb⟩, -⟩ := hrel
    refine ⟨b, rfl, ⟨htag.symm.trans hc0.1, hreg.symm.trans hc0.2.1, hcb⟩, ?_⟩
    rw [← hv]
    exact hq0



/-- The loop over the elements of Outer from index `k` on. -/
theorem outer_elems_loop {ro : Flag} (Γ : TypeEnv) (enc : Encoder) (fuel : Nat) (F : String)
    (Q : String → Prop) (q : String) (hQ : Q q) (rs : List NumsElem) :
    ∀ (k : Nat) (γ : Values) (a : encoder), SameConfig Γ enc a →
    mapGet a.values q = mapGet γ q →
    (∀ r ∈ rs, ElemOk Γ enc r) →
    (∀ r ∈ rs, ∀ p ∈ r.pre ++ r.post, p.2.cost ≤ fuel + 2) →
    (∀ i r, k ≤ i → rs.get? (i - k) = some r →
      ∀ p ∈ r.pre ++ r.post, excluded enc.tagName p.1 = false →
        Quiet Γ enc (ro.Field p.1) p.2 (F ++ "[" ++ Itoa (i : Int) ++ "]" ++ namespaceSeparator
          ++ keyName enc.tagName p.1) (-2) Q) →
    ∃ b, forIndex (fun i x e => encoder.setFieldByType (fuel + 4) e ro x F (i : Int))
        (rs.map NumsElem.value) k a = .ok b
      ∧ SameConfig Γ enc b
      ∧ mapGet b.values q
          = mapGet (putAll (outerEmits F (rs.map (fun r => r.nums)) k) γ) q := by
  induction rs with
  | nil =>
    intro k γ a ha hq _ _ _
    exact ⟨a, rfl, ha, hq⟩
  | cons r rs ih =>
    intro k γ a ha hq hok hcost hni
    have hr := hok r (List.mem_cons_self _ _)
    obtain ⟨a1, h1, hc1, hq1⟩ := @elem_visit ro Γ enc fuel F Q q hQ k r γ a ha hq hr.wt
      (hcost r (List.mem_cons_self _ _)) hr.incl hr.key hr.typ hr.time hr.tn hr.tint
      (hni k r (Nat.le_refl k) (by simp))
    obtain ⟨b, h2, hc2, hq2⟩ := ih (k + 1)
      (putAll (indexedEmits (F ++ "[" ++ Itoa (k : Int) ++ "]" ++ namespaceSeparator ++ "Nums")
        r.nums 0) γ) a1 hc1 hq1 (fun x hx => hok x (List.mem_cons_of_mem _ hx))
      (fun x hx => hcost x (List.mem_cons_of_mem _ hx))
      (by
        intro i x hi hx
        apply hni i x (by omega)
        have : i - k = (i - (k + 1)) + 1 := by omega
        rw [this, List.get?_cons_succ]
        exact hx)
    refine ⟨b, ?_, hc2, ?_⟩
    · rw [List.map_cons, forIndex, h1]
      exact h2
    · rw [hq2, List.map_cons, outerEmits, putAll_append]

/-- The visit of the slice Outer with the unindexed marker: element `i` is visited at `F` with
the pending index `i`. -/
theorem outer_slice_visit {ro : Flag} (Γ : TypeEnv) (enc : Encoder) (fuel : Nat) (F : String)
    (Q : String → Prop) (q : String) (hQ : Q q) (ts : GoType) (rs : List NumsElem)
    (γ : Values) (a : encoder) (ha : SameConfig Γ enc a)
    (hq : mapGet a.values q = mapGet γ q) (hts : enc.unregistered ts)
    (hok : ∀ r ∈ rs, ElemOk Γ enc r)
    (hcost : ∀ r ∈ rs, ∀ p ∈ r.pre ++ r.post, p.2.cost ≤ fuel + 2)
    (hquiet : ∀ i r, rs.get? i = some r →
      ∀ p ∈ r.pre ++ r.post, excluded enc.tagName p.1 = false →
        Quiet Γ enc (ro.ro.Field p.1) p.2 (F ++ "[" ++ Itoa (i : Int) ++ "]"
          ++ namespaceSeparator ++ keyName enc.tagName p.1) (-2) Q) :
    ∃ b, encoder.setFieldByType (fuel + 5) a ro (.slice ts (rs.map NumsElem.value)) F (-1)
        = .ok b
      ∧ SameConfig Γ enc b
      ∧ mapGet b.values q
          = mapGet (putAll (outerEmits F (rs.map (fun r => r.nums)) 0) γ) q := by
  have hl : a.lookupCustom (.slice ts (rs.map NumsElem.value)) = .ok none :=
    lookupCustom_unregistered enc a _ ts ha.2.1 rfl hts
  have hvis : encoder.setFieldByType (fuel + 5) a ro (.slice ts (rs.map NumsElem.value)) F (-1)
      = forIndex (fun i x e => encoder.setFieldByType (fuel + 4) e ro.ro x F (i : Int))
          (rs.map NumsElem.value) 0 a := by
    rw [setFieldByType_succ]
    simp only [ptrAdjust, visit, ExtractType_slice, hl, visitKind, Value.elems]
    simp [ExtractFlag]
  rw [hvis]
  exact @outer_elems_loop ro.ro Γ enc fuel F Q q hQ rs 0 γ a ha hq hok hcost
    (fun i r _ h => hquiet i r (by simpa using h))

/-- The loop over the fields of the top-level struct: the other fields leave the key `q` alone
and the field Outer writes the elements of its elements. -/
theorem top_fields_loop {ro : Flag} (Γ : TypeEnv) (enc : Encoder) (fuel : Nat)
    (Q : String → Prop) (q : String) (hQ : Q q) (pre post : List (StructField × Value))
    (fo : StructField) (ts : GoType) (rs : List NumsElem) (γ : Values) (a : encoder)
    (ha : SameConfig Γ enc a) (hq : mapGet a.values q = mapGet γ q)
    (hwt : ∀ p ∈ pre ++ post, p.2.wellTyped Γ = true)
    (hfuel : ∀ p ∈ pre ++ post, p.2.cost ≤ fuel + 5)
    (hincl : excluded enc.tagName fo = false) (hkey : keyName enc.tagName fo = "Outer")
    (hts : enc.unregistered ts) (hok : ∀ r ∈ rs, ElemOk Γ enc r)
    (hcost : ∀ r ∈ rs, ∀ p ∈ r.pre ++ r.post, p.2.cost ≤ fuel + 2)
    (htop : ∀ p ∈ pre ++ post, excluded enc.tagName p.1 = false →
      Quiet Γ enc (ro.Field p.1) p.2 (keyName enc.tagName p.1) (-1) Q)
    (hin : ∀ i r, rs.get? i = some r →
      ∀ p ∈ r.pre ++ r.post, excluded enc.tagName p.1 = false →
        Quiet Γ enc ((ro.Field fo).ro.Field p.1) p.2 ("Outer" ++ "[" ++ Itoa (i : Int) ++ "]"
          ++ namespaceSeparator ++ keyName enc.tagName p.1) (-2) Q) :
    ∃ b, forEach (anonFieldBody (encoder.setFieldByType (fuel + 5)) ro "" (-1))
        (pre ++ (fo, .slice ts (rs.map NumsElem.value)) :: post) a = .ok b
      ∧ SameConfig Γ enc b
      ∧ mapGet b.values q
          = mapGet (putAll (outerEmits "Outer" (rs.map (fun r => r.nums)) 0) γ) q := by
  have hfn : ∀ key : String, fieldNs "" key = key := fun key => rfl
  have htop2 : ∀ p ∈ pre ++ post, excluded enc.tagName p.1 = false →
      Quiet Γ enc (ro.Field p.1) p.2 (fieldNs "" (keyName enc.tagName p.1)) (-1) Q := by
    intro p hp hex
    rw [hfn]
    exact htop p hp hex
  obtain ⟨a1, h1, hc1, hq1⟩ := anon_others_loop Γ enc (fuel + 5) "" (-1) Q q hQ pre
    (fun p hp => hwt p (List.mem_append_left _ hp))
    (fun p hp => hfuel p (List.mem_append_left _ hp))
    (fun p hp => htop2 p (List.mem_append_left _ hp)) a ha
  obtain ⟨h3, h4⟩ := (excluded_false_iff enc.tagName fo).mp hincl
  obtain ⟨a2, h2, hc2, hq2⟩ := @outer_slice_visit (ro.Field fo) Γ enc fuel "Outer" Q q hQ ts rs
    γ a1 hc1 (hq1.trans hq) hts hok hcost hin
  have hbody : anonFieldBody (encoder.setFieldByType (fuel + 5)) ro "" (-1)
      (fo, .slice ts (rs.map NumsElem.value)) a1 = .ok a2 := by
    unfold anonFieldBody
    rw [hc1.1, if_neg h3, if_neg h4, anonKey_eq_keyName, hkey, hfn]
    exact h2
  obtain ⟨b, h5, hc5, hq5⟩ := anon_others_loop Γ enc (fuel + 5) "" (-1) Q q hQ post
    (fun p hp => hwt p (List.mem_append_right _ hp))
    (fun p hp => hfuel p (List.mem_append_right _ hp))
    (fun p hp => htop2 p (List.mem_append_right _ hp)) a2 hc2
  refine ⟨b, ?_, hc5, hq5.trans hq2⟩
  rw [forEach_append, h1]
  simp only
  rw [forEach, hbody]
  exact h5

/-- Encode on a struct with the field Outer: it returns, and each key the nested-slice property
names reads as it does after the writes of the ints of Outer alone. -/
theorem Encode_nested (Γ : TypeEnv) (fuel : Nat) (enc : Encoder) (v : Value) (T ts : GoType)
    (pre post : List (StructField × Value)) (fo : StructField) (outer : List NumsElem)
    (hv : ExtractType v
      = (.struct T (pre ++ (fo, .slice ts (outer.map NumsElem.value)) :: post), .Struct))
    (hfuel : v.cost ≤ fuel + 7) (hwt : v.wellTyped Γ = true) (hc : cacheCoherent Γ enc)
    (hfo : excluded enc.tagName fo = false ∧ keyName enc.tagName fo = "Outer")
    (hts : enc.unregistered ts)
    (helem : ∀ r ∈ outer, excluded enc.tagName r.fld = false
      ∧ keyName enc.tagName r.fld = "Nums" ∧ r.typ ≠ timeType ∧ enc.unregistered r.typ
      ∧ enc.unregistered r.tn ∧ enc.unregistered r.tint)
    (htop : ∀ p ∈ pre ++ post, excluded enc.tagName p.1 = false →
      Quiet Γ enc (Flag.Field Flag.ValueOf p.1) p.2 (keyName enc.tagName p.1) (-1) nestedKey)
    (hin : ∀ (i : Nat) (r : NumsElem), outer[i]? = some r →
      ∀ p ∈ r.pre ++ r.post, excluded enc.tagName p.1 = false →
        Quiet Γ enc (Flag.Field (Flag.Field Flag.ValueOf fo).ro p.1) p.2
          ("Outer" ++ "[" ++ Itoa (i : Int) ++ "]" ++ namespaceSeparator
            ++ keyName enc.tagName p.1) (-2) nestedKey) :
    ∃ r, enc.Encode (fuel + 6) v = .ok r
      ∧ ∀ q, nestedKey q → mapGet r.values q
          = mapGet (putAll (outerEmits "Outer" (outer.map (fun r => r.nums)) 0) []) q := by
  have hk : (ExtractType v).2 = .Struct := by rw [hv]
  have hwt1 : (Value.struct T
      (pre ++ (fo, .slice ts (outer.map NumsElem.value)) :: post)).wellTyped Γ = true := by
    have := wellTyped_ExtractType Γ v hwt
    rwa [hv] at this
  have hcostv : costFields (pre ++ (fo, .slice ts (outer.map NumsElem.value)) :: post) + 2
      ≤ fuel + 7 := by
    have := ExtractType_cost v
    rw [hv] at this
    simp only [Value.cost] at this
    omega
  have hmem : ∀ p ∈ pre ++ post,
      p ∈ pre ++ (fo, Value.slice ts (outer.map NumsElem.value)) :: post := by
    intro p hp
    rcases List.mem_append.mp hp with h | h
    · exact List.mem_append_left _ h
    · exact List.mem_append_right _ (List.mem_cons_of_mem _ h)
  have hslice : (fo, Value.slice ts (outer.map NumsElem.value))
      ∈ pre ++ (fo, Value.slice ts (outer.map NumsElem.value)) :: post :=
    List.mem_append_right _ (List.mem_cons_self _ _)
  have hwts : (Value.slice ts (outer.map NumsElem.value)).wellTyped Γ = true :=
    wellTyped_fields Γ _ _ hwt1 hslice
  have hcs : costList (outer.map NumsElem.value) + 1 + 2 ≤ fuel + 7 := by
    have := cost_le_costFields _ _ hslice
    simp only [Value.cost] at this
    omega
  have hok : ∀ r ∈ outer, ElemOk Γ enc r := by
    intro r hr
    obtain ⟨h1, h2, h3, h4, h5, h6⟩ := helem r hr
    exact ⟨wellTyped_elems Γ _ _ hwts (List.mem_map_of_mem _ hr), h1, h2, h4, h3, h5, h6⟩
  have hcost : ∀ r ∈ outer, ∀ p ∈ r.pre ++ r.post, p.2.cost ≤ fuel + 2 := by
    intro r hr p hp
    have h1 := cost_le_costList _ _ (List.mem_map_of_mem NumsElem.value hr)
    have h2 : p ∈ r.pre ++ (r.fld, r.slice) :: r.post := by
      rcases List.mem_append.mp hp with h | h
      · exact List.mem_append_left _ h
      · exact List.mem_append_right _ (List.mem_cons_of_mem _ h)
    have h3 := cost_le_costFields _ _ h2
    simp only [NumsElem.value, Value.cost] at h1
    omega
  have hrun : ∀ q, nestedKey q →
      ∃ b, forEach (anonFieldBody (encoder.setFieldByType (fuel + 5)) Flag.ValueOf "" (-1))
          (pre ++ (fo, .slice ts (outer.map NumsElem.value)) :: post) (freshState enc) = .ok b
        ∧ SameConfig Γ enc b
        ∧ mapGet b.values q
          = mapGet (putAll (outerEmits "Outer" (outer.map (fun r => r.nums)) 0) []) q := by
    intro q hQ
    exact @top_fields_loop Flag.ValueOf Γ enc fuel nestedKey q hQ pre post fo ts outer []
      (freshState enc) ⟨rfl, rfl, hc⟩ rfl
      (fun p hp => wellTyped_fields Γ _ p hwt1 (hmem p hp))
      (fun p hp => by
        have := cost_le_costFields _ _ (hmem p hp)
        omega)
      hfo.1 hfo.2 hts hok hcost htop
      (fun i r h => hin i r (by simpa using h))
  obtain ⟨b0, hb0, -, -⟩ := hrun (outerKey 0 0) (Or.inl ⟨0, 0, rfl⟩)
  have hrel := @traverseStruct_as_fields Flag.ValueOf Γ (fuel + 5) (freshState enc) T
    (pre ++ (fo, .slice ts (outer.map NumsElem.value)) :: post) "" (-1) hwt1 hc
  rw [hb0] at hrel
  rw [Encode_of_struct (fuel + 6) enc v hk, hv]
  rcases hr : encoder.traverseStruct (fuel + 6) (freshState enc) Flag.ValueOf
      (.struct T (pre ++ (fo, .slice ts (outer.map NumsElem.value)) :: post)) "" (-1)
    with f | b
  · rw [hr] at hrel
    exact hrel.elim
  · rw [hr] at hrel
    obtain ⟨⟨⟨hvals, -⟩, -⟩, -⟩ := hrel
    refine ⟨resultOf b, rfl, ?_⟩
    intro q hQ
    obtain ⟨b1, hb1, -, hq1⟩ := hrun q hQ
    rw [hb0] at hb1
    injection hb1 with hb1
    subst hb1
    show mapGet b.values q = _
    rw [← hvals]
    exact hq1

/-- A visit that returns at a namespace which none of the keys in `Q` lies at or below leaves
those keys as they were. -/
theorem Quiet_of_returns {ro : Flag} (Γ : TypeEnv) (enc : Encoder) (x : Value) (ns : String)
    (idx : Int) (Q : String → Prop) (hns : ns ≠ "")
    (hret : ∀ a : encoder, SameConfig Γ enc a →
      ∃ b, encoder.setFieldByType x.cost a ro x ns idx = .ok b)
    (hQ : ∀ q, Q q → ¬ Ext ns q) : Quiet Γ enc ro x ns idx Q := by
  intro a ha
  obtain ⟨b, hb⟩ := hret a ha
  exact ⟨b, hb, fun q hq =>
    (((traversal_frame _).2 _ a b x ns idx hb).2.2 hns q (hQ q hq)).1⟩

/-- The visit of a string without a custom function returns. -/
theorem str_returns {ro : Flag} (Γ : TypeEnv) (enc : Encoder) (ty : GoType) (s ns : String)
    (idx : Int) (hty : enc.unregistered ty) (a : encoder) (ha : SameConfig Γ enc a) :
    ∃ b, encoder.setFieldByType (Value.str ty s).cost a ro (.str ty s) ns idx = .ok b :=
  ⟨_, setFieldByType_scalar 0 a (.str ty s) s ns idx rfl
    (lookupCustom_unregistered enc a _ ty ha.2.1 rfl hty)⟩

/-- The shape of the keys the nested-slice property names. -/
theorem nestedKey_data (q : String) (h : nestedKey q) :
    ∃ (i : Nat) (rest : List Char),
      q.data = 'O' :: 'u' :: 't' :: 'e' :: 'r' :: '[' :: ((Itoa (i : Int)).data ++ ']' :: rest)
        ∧ (rest.head? = some '[' ∨ ∃ rest2, rest = '.' :: 'N' :: rest2) := by
  rcases h with ⟨i, j, rfl⟩ | ⟨i, rfl⟩ | ⟨i, k, j, rfl⟩ | ⟨i, j, k, rfl⟩
  · exact ⟨i, _, outerKey_data i j, Or.inr ⟨_, rfl⟩⟩
  · exact ⟨i, ['.', 'N', 'u', 'm', 's'], by simp [String.data_append], Or.inr ⟨_, rfl⟩⟩
  · refine ⟨i, '[' :: ((Itoa (k : Int)).data ++ ']' :: '.' :: 'N' :: 'u' :: 'm' :: 's' :: '['
      :: ((Itoa (j : Int)).data ++ [']'])), by simp [String.data_append], Or.inl rfl⟩
  · refine ⟨i, '.' :: 'N' :: 'u' :: 'm' :: 's' :: '[' :: ((Itoa (j : Int)).data ++ ']' :: '['
      :: ((Itoa (k : Int)).data ++ [']'])), by simp [String.data_append], Or.inr ⟨_, rfl⟩⟩

theorem nestedKey_not_below_Name (q : String) (h : nestedKey q) : ¬ Ext "Name" q := by
  obtain ⟨i, rest, hd, -⟩ := nestedKey_data q h
  rintro ⟨r, e, -⟩
  rw [hd] at e
  simp at e

theorem nestedKey_not_below_Tag (i : Nat) (q : String) (h : nestedKey q) :
    ¬ Ext ("Outer" ++ "[" ++ Itoa (i : Int) ++ "]" ++ namespaceSeparator ++ "Tag") q := by
  obtain ⟨i2, rest, hd, hrest⟩ := nestedKey_data q h
  rintro ⟨r, e, -⟩
  rw [hd] at e
  simp only [String.data_append, namespaceSeparator, List.append_assoc, List.cons_append,
    List.nil_append, List.cons.injEq, true_and] at e
  obtain ⟨-, -, e3⟩ := digits_split _ _ _ _ ']' ']' (Itoa_nat_isDigit i2) (Itoa_nat_isDigit i)
    (by decide) (by decide) e
  rcases hrest with h1 | ⟨rest2, h1⟩
  · rw [e3] at h1
    simp at h1
  · rw [h1] at e3
    simp at e3

/-- C3, the claim as stated fails. The struct T has the field Outer, a slice with the one
element Inner, whose field Nums holds the int 7. (1) With a custom function registered for the
type of Nums, the slice is handed to the function: the key Outer[0].Nums is written and the key
Outer[0].Nums[0] is not. (2) With the field Outer tagged o the keys start with o. (3) After an
Encode under the tag name form and SetTagName to json, the stored descriptor still names the
field o. (4) With another field tagged Outer[0].Nums[0] before Outer, the key holds two
values. (5) With another field that holds a pointer to a map, Encode panics and produces
nothing. -/
theorem C3_nested_keys_depend_on_context :
    (Encoder.Encode 6 (NewEncoder.RegisterCustomTypeFunc (fun _ => .ok ["z"]) [⟨"", "[]int"⟩])
        (outerValue ⟨"T", "main.T"⟩ ⟨"", "[]main.Inner"⟩ ⟨"Inner", "main.Inner"⟩ ⟨"", "[]int"⟩
          ⟨"int", "int"⟩ [[7]])).toOption.map (fun r => r.values)
      = some [("Outer[0].Nums", ["z"])]
    ∧ (NewEncoder.Encode 6
        (.struct ⟨"T", "main.T"⟩
          [(⟨"Outer", "", false, [("form", "o")]⟩, .slice ⟨"", "[]main.Inner"⟩
            [numsStruct ⟨"Inner", "main.Inner"⟩ ⟨"", "[]int"⟩ ⟨"int", "int"⟩ [7]])])).toOption.map
        (fun r => r.values)
      = some [("o[0].Nums[0]", ["7"])]
    ∧ ((NewEncoder.Encode 6
        (.struct ⟨"T", "main.T"⟩
          [(⟨"Outer", "", false, [("form", "o")]⟩, .slice ⟨"", "[]main.Inner"⟩
            [numsStruct ⟨"Inner", "main.Inner"⟩ ⟨"", "[]int"⟩ ⟨"int", "int"⟩ [7]])])).toOption.bind
        (fun r => ((r.e.SetTagName "json").Encode 6
          (.struct ⟨"T", "main.T"⟩
            [(⟨"Outer", "", false, [("form", "o")]⟩, .slice ⟨"", "[]main.Inner"⟩
              [numsStruct ⟨"Inner", "main.Inner"⟩ ⟨"", "[]int"⟩ ⟨"int", "int"⟩ [7]])])).toOption)).map
        (fun r => r.values)
      = some [("o[0].Nums[0]", ["7"])]
    ∧ (NewEncoder.Encode 6
        (.struct ⟨"T", "main.T"⟩
          [(⟨"X", "", false, [("form", "Outer[0].Nums[0]")]⟩, .int ⟨"int", "int"⟩ 5),
           (plainField "Outer", .slice ⟨"", "[]main.Inner"⟩
            [numsStruct ⟨"Inner", "main.Inner"⟩ ⟨"", "[]int"⟩ ⟨"int", "int"⟩ [7]])])).toOption.map
        (fun r => r.values)
      = some [("Outer[0].Nums[0]", ["5", "7"])]
    ∧ NewEncoder.Encode 6
        (.struct ⟨"T", "main.T"⟩
          [(plainField "Outer", .slice ⟨"", "[]main.Inner"⟩
            [numsStruct ⟨"Inner", "main.Inner"⟩ ⟨"", "[]int"⟩ ⟨"int", "int"⟩ [7]]),
           (plainField "M", .ptr ⟨"", "*map[string]int"⟩
            (some (.map ⟨"", "map[string]int"⟩
              [(.str ⟨"string", "string"⟩ "k", .int ⟨"int", "int"⟩ 1)])))])
      = .error (.panic "reflect: call of reflect.Value.MapIndex on non-map Value") := by
  refine ⟨?_, ?_, ?_, ?_, ?_⟩ <;> rfl

/-- C3 as amended: for every top-level value that resolves to a well-typed struct with a field
whose key name is Outer and whose value is a slice of (named or anonymous) structs, each with a
field whose key name is Nums and whose value is a slice of ints, Encode, run with a struct cache
coherent with the tag name, with no custom type function registered for the type of the slice
Outer, of an element, of a slice Nums or of its ints, and with every other included field of
the top-level struct and of the elements visited without a panic and without a write to a key
the claim names, returns an output in which, for every element index i and inner index j, the
key Outer[i].Nums[j] holds exactly the one decimal text of Outer[i].Nums[j], and in which there
is no key Outer[i].Nums and no key with a doubled index. The elements are structs other than
time.Time, which has no field Nums. The fuel is 6 or more, and at least the cost of the input
less one: Encode enters traverseStruct without a visit of the struct. -/
theorem C3_nested_slice_keys (Γ : TypeEnv) (fuel : Nat) (enc : Encoder) (v : Value)
    (T ts : GoType) (pre post : List (StructField × Value)) (fo : StructField)
    (outer : List NumsElem)
    (hv : ExtractType v
      = (.struct T (pre ++ (fo, .slice ts (outer.map NumsElem.value)) :: post), .Struct))
    (hfuel : v.cost ≤ fuel + 7) (hwt : v.wellTyped Γ = true) (hc : cacheCoherent Γ enc)
    (hfo : excluded enc.tagName fo = false ∧ keyName enc.tagName fo = "Outer")
    (hts : enc.unregistered ts)
    (helem : ∀ r ∈ outer, excluded enc.tagName r.fld = false
      ∧ keyName enc.tagName r.fld = "Nums" ∧ r.typ ≠ timeType ∧ enc.unregistered r.typ
      ∧ enc.unregistered r.tn ∧ enc.unregistered r.tint)
    (htop : ∀ p ∈ pre ++ post, excluded enc.tagName p.1 = false →
      Quiet Γ enc (Flag.Field Flag.ValueOf p.1) p.2 (keyName enc.tagName p.1) (-1) nestedKey)
    (hin : ∀ (i : Nat) (r : NumsElem), outer[i]? = some r →
      ∀ p ∈ r.pre ++ r.post, excluded enc.tagName p.1 = false →
        Quiet Γ enc (Flag.Field (Flag.Field Flag.ValueOf fo).ro p.1) p.2
          ("Outer" ++ "[" ++ Itoa (i : Int) ++ "]" ++ namespaceSeparator
            ++ keyName enc.tagName p.1) (-2) nestedKey) :
    ∃ r, enc.Encode (fuel + 6) v = .ok r
      ∧ (∀ (i j : Nat) (el : NumsElem) (x : Int), outer[i]? = some el → el.nums[j]? = some x →
          mapGet r.values (outerKey i j) = some [FormatInt x])
      ∧ (∀ i : Nat, mapGet r.values ("Outer[" ++ Itoa (i : Int) ++ "].Nums") = none)
      ∧ (∀ i k j : Nat, mapGet r.values
          ("Outer[" ++ Itoa (i : Int) ++ "][" ++ Itoa (k : Int) ++ "].Nums[" ++ Itoa (j : Int)
            ++ "]") = none)
      ∧ (∀ i j k : Nat, mapGet r.values
          ("Outer[" ++ Itoa (i : Int) ++ "].Nums[" ++ Itoa (j : Int) ++ "][" ++ Itoa (k : Int)
            ++ "]") = none) := by
  obtain ⟨r, hr, hkeys⟩ := Encode_nested Γ fuel enc v T ts pre post fo outer hv hfuel hwt hc hfo
    hts helem htop hin
  have habsent : ∀ q, nestedKey q → (∀ i j : Nat, q ≠ outerKey i j) →
      mapGet r.values q = none := by
    intro q hQ hne
    rw [hkeys q hQ]
    by_contra hq
    obtain ⟨p, hp, rfl⟩ := mapGet_putAll_fresh _ _ hq
    obtain ⟨i, j, nums, x, -, -, rfl⟩ := (mem_outerEmits _ _ _ _).mp hp
    apply hne i j
    simp only [Nat.zero_add]
    exact outerKey_eq i j
  refine ⟨r, hr, ?_, ?_, ?_, ?_⟩
  · intro i j el x h1 h2
    have hp : (outerKey i j, [FormatInt x])
        ∈ outerEmits "Outer" (outer.map (fun r => r.nums)) 0 := by
      rw [mem_outerEmits]
      refine ⟨i, j, el.nums, x, by simp [h1], h2, ?_⟩
      simp only [Nat.zero_add]
      rw [outerKey_eq]
    rw [hkeys _ (Or.inl ⟨i, j, rfl⟩)]
    exact mapGet_putAll_nodup _ (outerEmits_keys_nodup "Outer" _ 0) _ hp
  · intro i
    exact habsent _ (Or.inr (Or.inl ⟨i, rfl⟩)) (fun i2 j2 => unindexed_ne_outerKey i i2 j2)
  · intro i k j
    exact habsent _ (Or.inr (Or.inr (Or.inl ⟨i, k, j, rfl⟩)))
      (fun i2 j2 => doubled_outer_ne_outerKey i k j i2 j2)
  · intro i j k
    exact habsent _ (Or.inr (Or.inr (Or.inr ⟨i, j, k, rfl⟩)))
      (fun i2 j2 => doubled_inner_ne_outerKey i j k i2 j2)

theorem C3_nested_slice_keys_witness :
    ∃ r, NewEncoder.Encode 6
        (.struct ⟨"T", "main.T"⟩
          [(plainField "Name", .str ⟨"string", "string"⟩ "n"),
           (plainField "Outer", .slice ⟨"", "[]main.Inner"⟩
            [.struct ⟨"Inner", "main.Inner"⟩
              [(plainField "Nums", .slice ⟨"", "[]int"⟩
                  [.int ⟨"int", "int"⟩ 7, .int ⟨"int", "int"⟩ 8]),
               (plainField "Tag", .str ⟨"string", "string"⟩ "a")]])]) = .ok r
      ∧ mapGet r.values "Outer[0].Nums[0]" = some ["7"]
      ∧ mapGet r.values "Outer[0].Nums[1]" = some ["8"]
      ∧ mapGet r.values "Outer[0].Nums" = none := by
  have hun : ∀ t, NewEncoder.unregistered t := fun t m h => by cases h
  obtain ⟨r, h1, h2, h3, -, -⟩ := C3_nested_slice_keys nestedEnv 0 NewEncoder
    (.struct ⟨"T", "main.T"⟩
      [(plainField "Name", .str ⟨"string", "string"⟩ "n"),
       (plainField "Outer", .slice ⟨"", "[]main.Inner"⟩
        [.struct ⟨"Inner", "main.Inner"⟩
          [(plainField "Nums", .slice ⟨"", "[]int"⟩
              [.int ⟨"int", "int"⟩ 7, .int ⟨"int", "int"⟩ 8]),
           (plainField "Tag", .str ⟨"string", "string"⟩ "a")]])])
    ⟨"T", "main.T"⟩ ⟨"", "[]main.Inner"⟩ [(plainField "Name", .str ⟨"string", "string"⟩ "n")] []
    (plainField "Outer")
    [⟨⟨"Inner", "main.Inner"⟩, [], plainField "Nums", ⟨"", "[]int"⟩, ⟨"int", "int"⟩, [7, 8],
      [(plainField "Tag", .str ⟨"string", "string"⟩ "a")]⟩]
    rfl (by decide) (by decide) (cacheCoherent_empty _ _ rfl) ⟨rfl, rfl⟩ (hun _)
    (by
      intro r hr
      simp only [List.mem_singleton] at hr
      subst hr
      exact ⟨rfl, rfl, by decide, hun _, hun _, hun _⟩)
    (by
      intro p hp _
      simp only [List.append_nil, List.mem_singleton] at hp
      subst hp
      exact Quiet_of_returns nestedEnv NewEncoder _ _ _ _ (by decide)
        (str_returns nestedEnv NewEncoder _ _ _ _ (hun _)) nestedKey_not_below_Name)
    (by
      intro i r hr p hp _
      cases i with
      | zero =>
        simp only [List.getElem?_cons_zero, Option.some.injEq] at hr
        subst hr
        simp only [List.nil_append, List.mem_singleton] at hp
        subst hp
        exact Quiet_of_returns nestedEnv NewEncoder _ _ _ _
          (append_ne_empty _ _ (append_ne_empty _ _ (bracket_ne_empty _ _)))
          (str_returns nestedEnv NewEncoder _ _ _ _ (hun _))
          (nestedKey_not_below_Tag 0)
      | succ i => simp at hr)
  exact ⟨r, h1, h2 0 0 _ 7 rfl rfl, h2 0 1 _ 8 rfl rfl, h3 0⟩

end Form
